import Mathlib

/-!
# Verification of the region2d banded-rectangle region algebra

This file gives a shallow embedding, in Lean 4, of the `Region1D` /
`Region2D` JavaScript library (src/region1d.js and the Region2D module),
and proves or refutes the specification claims about it.

JavaScript numbers are modelled by `JsNum`: either NaN, a finite rational,
or one of the two infinities.  Rationals stand in for IEEE doubles: all
arithmetic performed by the embedded code on *valid* region data is exact
in doubles as well wherever a proof below relies on its value, and the
comparison operators (`<`, `<=`, `===`, `Math.max`) are modelled exactly,
including their behaviour on NaN and the infinities.
-/

set_option maxHeartbeats 1000000
set_option linter.unnecessarySeqFocus false
set_option linter.unreachableTactic false
set_option linter.unusedTactic false

/-- Model of a JavaScript number: NaN, a finite value, or an infinity. -/
inductive JsNum where
  | nan : JsNum
  | num (q : ℚ) : JsNum
  | pinf : JsNum
  | ninf : JsNum
deriving DecidableEq, Repr

namespace JsNum

/-- JS `<` on numbers (false whenever either side is NaN). -/
def jlt : JsNum → JsNum → Bool
  | nan, _ => false
  | _, nan => false
  | ninf, ninf => false
  | ninf, _ => true
  | num _, ninf => false
  | num a, num b => a < b
  | num _, pinf => true
  | pinf, _ => false

/-- JS `<=` on numbers (false whenever either side is NaN). -/
def jle : JsNum → JsNum → Bool
  | nan, _ => false
  | _, nan => false
  | ninf, _ => true
  | num _, ninf => false
  | num a, num b => a ≤ b
  | num _, pinf => true
  | pinf, pinf => true
  | pinf, _ => false

/-- JS `===` on numbers (false whenever either side is NaN, even NaN===NaN). -/
def jeq : JsNum → JsNum → Bool
  | num a, num b => a = b
  | pinf, pinf => true
  | ninf, ninf => true
  | _, _ => false

/-- JS `Math.max` (NaN if either argument is NaN). -/
def jmax : JsNum → JsNum → JsNum
  | nan, _ => nan
  | _, nan => nan
  | x, y => if jlt x y then y else x

/-- Exact rational addition, stated via `mkRat` so that concrete values
reduce inside the kernel (Mathlib's `Rat.add` does not); proved equal to
`+` in `qadd_eq` below. -/
def qadd (a b : ℚ) : ℚ := mkRat (a.num * b.den + b.num * a.den) (a.den * b.den)

/-- Exact rational multiplication via `mkRat`; proved equal to `*`. -/
def qmul (a b : ℚ) : ℚ := mkRat (a.num * b.num) (a.den * b.den)

theorem rat_mul_den (a : ℚ) : (a : ℚ) * a.den = a.num := by
  have ha : (a.den : ℚ) ≠ 0 := by exact_mod_cast a.den_nz
  have h2 := congrArg (fun x : ℚ => x * a.den) (Rat.num_div_den a)
  simp only [div_mul_cancel₀ _ ha] at h2
  exact h2.symm

theorem qmul_eq (a b : ℚ) : qmul a b = a * b := by
  unfold qmul
  rw [Rat.mkRat_eq_div]
  push_cast
  rw [← div_mul_div_comm, Rat.num_div_den, Rat.num_div_den]

theorem qadd_eq (a b : ℚ) : qadd a b = a + b := by
  unfold qadd
  rw [Rat.mkRat_eq_div]
  have ha : (a.den : ℚ) ≠ 0 := by exact_mod_cast a.den_nz
  have hb : (b.den : ℚ) ≠ 0 := by exact_mod_cast b.den_nz
  push_cast
  rw [div_eq_iff (by exact mul_ne_zero ha hb)]
  have h : (a + b) * ((a.den : ℚ) * b.den)
      = (a * a.den) * b.den + (b * b.den) * a.den := by ring
  rw [h, rat_mul_den, rat_mul_den]

/-- JS addition. -/
def jadd : JsNum → JsNum → JsNum
  | nan, _ => nan
  | _, nan => nan
  | pinf, ninf => nan
  | ninf, pinf => nan
  | pinf, _ => pinf
  | _, pinf => pinf
  | ninf, _ => ninf
  | _, ninf => ninf
  | num a, num b => num (qadd a b)

/-- JS multiplication (infinities times zero give NaN; rationals are exact
where doubles would round, which no claim below depends on). -/
def jmul : JsNum → JsNum → JsNum
  | nan, _ => nan
  | _, nan => nan
  | pinf, pinf => pinf
  | pinf, ninf => ninf
  | ninf, pinf => ninf
  | ninf, ninf => pinf
  | pinf, num b => if b = 0 then nan else if 0 < b then pinf else ninf
  | num a, pinf => if a = 0 then nan else if 0 < a then pinf else ninf
  | ninf, num b => if b = 0 then nan else if 0 < b then ninf else pinf
  | num a, ninf => if a = 0 then nan else if 0 < a then ninf else pinf
  | num a, num b => num (qmul a b)

/-- Truncation toward zero, as JS `ToInt32` does before wrapping
(T-division of the numerator by the denominator). -/
def jsTrunc (q : ℚ) : ℤ :=
  Int.tdiv q.num q.den

/-- Wrap an integer into the signed 32-bit range. -/
def wrap32 (n : ℤ) : ℤ :=
  (n + 2147483648) % 4294967296 - 2147483648

/-- JS `x | 0` (ToInt32): NaN and the infinities become 0. -/
def toInt32 : JsNum → ℤ
  | num q => wrap32 (jsTrunc q)
  | _ => 0

/-- Unsigned 32-bit view of an int32-ranged integer, for JS bitwise ops. -/
def toU32 (n : ℤ) : ℕ := (n % 4294967296).toNat

/-- Back from the unsigned 32-bit view to the signed one. -/
def ofU32 (n : ℕ) : ℤ :=
  if n < 2147483648 then (n : ℤ) else (n : ℤ) - 4294967296

/-- JS `a | b` on int32 values. -/
def jsOr (a b : ℤ) : ℤ := ofU32 ((toU32 a).lor (toU32 b))

/-- JS `a & b` on int32 values. -/
def jsAnd (a b : ℤ) : ℤ := ofU32 ((toU32 a).land (toU32 b))

/-- JS `a ^ b` on int32 values. -/
def jsXor (a b : ℤ) : ℤ := ofU32 ((toU32 a).xor (toU32 b))

/-- JS `~a` on int32 values. -/
def jsNot (a : ℤ) : ℤ := ofU32 ((toU32 a).xor 4294967295)

/-- Is this value NaN? -/
def isNaN : JsNum → Bool
  | nan => true
  | _ => false

/-! Order facts about the JS comparisons, used throughout the sweep
proofs.  All hold for arbitrary values; NaN-freeness, where needed, is a
hypothesis or a consequence (`jlt`/`jle` can only return true on
non-NaN operands). -/

theorem jlt_ne_nan_left {a b : JsNum} (h : jlt a b = true) : a ≠ nan := by
  cases a <;> cases b <;> simp_all [jlt]

theorem jlt_ne_nan_right {a b : JsNum} (h : jlt a b = true) : b ≠ nan := by
  cases a <;> cases b <;> simp_all [jlt]

theorem jle_ne_nan_left {a b : JsNum} (h : jle a b = true) : a ≠ nan := by
  cases a <;> cases b <;> simp_all [jle]

theorem jle_ne_nan_right {a b : JsNum} (h : jle a b = true) : b ≠ nan := by
  cases a <;> cases b <;> simp_all [jle]

theorem jeq_iff {a b : JsNum} : jeq a b = true ↔ (a = b ∧ a ≠ nan) := by
  cases a <;> cases b <;> simp [jeq]

theorem jeq_refl {a : JsNum} (h : a ≠ nan) : jeq a a = true :=
  jeq_iff.mpr ⟨rfl, h⟩

theorem jlt_irrefl (a : JsNum) : jlt a a = false := by
  cases a <;> simp [jlt]

theorem jle_refl {a : JsNum} (h : a ≠ nan) : jle a a = true := by
  cases a <;> simp_all [jle]

theorem jlt_trans {a b c : JsNum} (h1 : jlt a b = true) (h2 : jlt b c = true) :
    jlt a c = true := by
  cases a <;> cases b <;> cases c <;> simp_all [jlt] <;> linarith

theorem jle_trans {a b c : JsNum} (h1 : jle a b = true) (h2 : jle b c = true) :
    jle a c = true := by
  cases a <;> cases b <;> cases c <;> simp_all [jle] <;> linarith

theorem jlt_of_jle_of_jlt {a b c : JsNum} (h1 : jle a b = true)
    (h2 : jlt b c = true) : jlt a c = true := by
  cases a <;> cases b <;> cases c <;> simp_all [jle, jlt] <;> linarith

theorem jlt_of_jlt_of_jle {a b c : JsNum} (h1 : jlt a b = true)
    (h2 : jle b c = true) : jlt a c = true := by
  cases a <;> cases b <;> cases c <;> simp_all [jle, jlt] <;> linarith

theorem jle_of_jlt {a b : JsNum} (h : jlt a b = true) : jle a b = true := by
  cases a <;> cases b <;> simp_all [jle, jlt] <;> linarith

theorem jle_of_jeq {a b : JsNum} (h : jeq a b = true) : jle a b = true := by
  cases a <;> cases b <;> simp_all [jle, jeq]

theorem jlt_of_jle_ne {a b : JsNum} (h : jle a b = true)
    (hne : jeq a b = false) : jlt a b = true := by
  cases a <;> cases b <;> simp_all [jle, jlt, jeq]
  case num.num a b => exact lt_of_le_of_ne h hne

/-- Trichotomy on non-NaN values: failing `<` both ways means `===`. -/
theorem jeq_of_not_jlt {a b : JsNum} (ha : a ≠ nan) (hb : b ≠ nan)
    (h1 : jlt a b = false) (h2 : jlt b a = false) : jeq a b = true := by
  cases a <;> cases b <;> simp_all [jlt, jeq] <;> linarith

theorem jle_of_not_jlt {a b : JsNum} (ha : a ≠ nan) (hb : b ≠ nan)
    (h : jlt a b = false) : jle b a = true := by
  cases a <;> cases b <;> simp_all [jlt, jle] <;> linarith

theorem not_jlt_of_jle {a b : JsNum} (h : jle a b = true) :
    jlt b a = false := by
  cases a <;> cases b <;> simp_all [jlt, jle] <;> linarith

theorem jeq_eq {a b : JsNum} (h : jeq a b = true) : a = b :=
  (jeq_iff.mp h).1

theorem jlt_ninf {a : JsNum} (ha : a ≠ nan) (hninf : a ≠ ninf) :
    jlt ninf a = true := by
  cases a <;> simp_all [jlt]

theorem jle_ninf (a : JsNum) (ha : a ≠ nan) : jle ninf a = true := by
  cases a <;> simp_all [jle]

theorem jmax_def {a b : JsNum} (ha : a ≠ nan) (hb : b ≠ nan) :
    jmax a b = if jlt a b then b else a := by
  cases a <;> cases b <;> simp_all [jmax]

theorem jmax_eq_left {a b : JsNum} (ha : a ≠ nan) (hb : b ≠ nan)
    (h : jle b a = true) : jmax a b = a := by
  rw [jmax_def ha hb, not_jlt_of_jle h]
  rfl

theorem jmax_eq_right {a b : JsNum} (ha : a ≠ nan) (h : jle a b = true) :
    jmax a b = b := by
  have hb := jle_ne_nan_right h
  rw [jmax_def ha hb]
  cases hlt : jlt a b with
  | true => rfl
  | false =>
    have heq := jeq_of_not_jlt ha hb hlt (not_jlt_of_jle h)
    rw [jeq_eq heq]
    rfl

theorem jle_jmax_left {a b : JsNum} (ha : a ≠ nan) (hb : b ≠ nan) :
    jle a (jmax a b) = true := by
  rw [jmax_def ha hb]
  cases hlt : jlt a b with
  | true => exact jle_of_jlt hlt
  | false => exact jle_refl ha

theorem jle_jmax_right {a b : JsNum} (ha : a ≠ nan) (hb : b ≠ nan) :
    jle b (jmax a b) = true := by
  rw [jmax_def ha hb]
  cases hlt : jlt a b with
  | true => exact jle_refl hb
  | false =>
    show jle b a = true
    exact jle_of_not_jlt ha hb hlt

theorem jmax_cases {a b : JsNum} (ha : a ≠ nan) (hb : b ≠ nan) :
    jmax a b = a ∨ jmax a b = b := by
  rw [jmax_def ha hb]
  cases jlt a b with
  | true => exact Or.inr rfl
  | false => exact Or.inl rfl

theorem jmax_ne_nan {a b : JsNum} (ha : a ≠ nan) (hb : b ≠ nan) :
    jmax a b ≠ nan := by
  rcases jmax_cases ha hb with h | h <;> rw [h] <;> assumption

end JsNum

open JsNum

/-- The errors the library can signal: `RegionError`/thrown strings are
split by the message they carry ("Data error"-style vs "Type error"-style),
and `runtimeTypeError` stands for a genuine JavaScript `TypeError` raised
by the engine itself (e.g. calling a method that does not exist, or
reading a property of `undefined`). -/
inductive JsErr where
  | dataError : JsErr
  | typeError : JsErr
  | runtimeTypeError : JsErr
deriving DecidableEq, Repr

instance instDecEqExcept {ε α : Type} [DecidableEq ε] [DecidableEq α] :
    DecidableEq (Except ε α)
  | .ok a, .ok b =>
    if h : a = b then .isTrue (by rw [h])
    else .isFalse (by intro hh; cases hh; exact h rfl)
  | .ok _, .error _ => .isFalse (by intro hh; cases hh)
  | .error _, .ok _ => .isFalse (by intro hh; cases hh)
  | .error e, .error f =>
    if h : e = f then .isTrue (by rw [h])
    else .isFalse (by intro hh; cases hh; exact h rfl)

namespace Region1D

/-- One coordinate produced by `makeCoordinateGenerator`: its value, its
kind (+1 span start, -1 span end), and which source array it came from. -/
structure Coord where
  x : JsNum
  kind : ℤ
  src : ℕ
deriving DecidableEq, Repr

/-- `i & 1 ? -1 : +1`: the parity flag says whether the index is odd. -/
def kindOf (odd : Bool) : ℤ := if odd then -1 else 1

/-- The merged coordinate stream of `makeCoordinateGenerator`: repeatedly
take the lower head (on `a[i1] < b[i2]` being false — including NaN —
source 2 is taken, exactly as in the JS). `p1`/`p2` track the parity of
the next index of each array.  The recursion is driven by a fuel counter
so that the definition stays structural (and hence kernel-evaluable);
`mergeCoords` below supplies the exact amount of fuel needed. -/
def mergeCoordsF : ℕ → List JsNum → List JsNum → Bool → Bool → List Coord
  | 0, _, _, _, _ => []
  | _ + 1, [], [], _, _ => []
  | fuel + 1, [], y :: b, p1, p2 =>
    ⟨y, kindOf p2, 2⟩ :: mergeCoordsF fuel [] b p1 (!p2)
  | fuel + 1, x :: a, [], p1, p2 =>
    ⟨x, kindOf p1, 1⟩ :: mergeCoordsF fuel a [] (!p1) p2
  | fuel + 1, x :: a, y :: b, p1, p2 =>
    if jlt x y then ⟨x, kindOf p1, 1⟩ :: mergeCoordsF fuel a (y :: b) (!p1) p2
    else ⟨y, kindOf p2, 2⟩ :: mergeCoordsF fuel (x :: a) b p1 (!p2)

def mergeCoords (a b : List JsNum) (p1 p2 : Bool) : List Coord :=
  mergeCoordsF (a.length + b.length) a b p1 p2

/-- Apply one coordinate's delta to the appropriate depth counter. -/
def applyCoord (c : Coord) (d : ℤ × ℤ) : ℤ × ℤ :=
  if c.src = 1 then (d.1 + c.kind, d.2) else (d.1, d.2 + c.kind)

/-- Consume the run of further coordinates whose `x` strictly equals
(`===`) the current one, applying their deltas. -/
def takeSame (x : JsNum) : List Coord → ℤ × ℤ → (ℤ × ℤ) × List Coord
  | [], d => (d, [])
  | c :: rest, d =>
    if jeq c.x x then takeSame x rest (applyCoord c d) else (d, c :: rest)

theorem takeSame_length_le (x : JsNum) (l : List Coord) (d : ℤ × ℤ) :
    (takeSame x l d).2.length ≤ l.length := by
  induction l generalizing d with
  | nil => simp [takeSame]
  | cons c rest ih =>
    simp only [takeSame]
    split
    · exact le_trans (ih _) (Nat.le_succ _)
    · exact le_refl _

/-- The body of the `do … while` loop of `combineData`: process the
coordinates group by group (each group sharing one `x`), updating the
depths and the combined state, emitting the group's `x` whenever the
state toggles.  Fuel-driven for the same reason as `mergeCoordsF`; one
unit of fuel per coordinate always suffices (each step consumes at least
the leading coordinate). -/
def sweepF (op : ℤ → ℤ → ℤ) : ℕ → List Coord → ℤ × ℤ → ℤ → List JsNum
  | 0, _, _, _ => []
  | _ + 1, [], _, _ => []
  | fuel + 1, c :: rest, d, state =>
    let d1 := applyCoord c d
    let r := takeSame c.x rest d1
    let newState := op r.1.1 r.1.2
    if newState ≠ state then c.x :: sweepF op fuel r.2 r.1 newState
    else sweepF op fuel r.2 r.1 newState

def sweep (op : ℤ → ℤ → ℤ) (l : List Coord) (d : ℤ × ℤ) (state : ℤ) :
    List JsNum :=
  sweepF op l.length l d state

/-- `combineData` (Region1D): the shared coordinate sweep. -/
def combineData (array1 array2 : List JsNum) (op : ℤ → ℤ → ℤ) : List JsNum :=
  if array1.isEmpty && array2.isEmpty then []
  else sweep op (mergeCoords array1 array2 false false) (0, 0) 0

/-- The four per-operator combining functions, with JS bitwise semantics. -/
def unionOp (depth1 depth2 : ℤ) : ℤ := jsOr depth1 depth2

def intersectOp (depth1 depth2 : ℤ) : ℤ := jsAnd depth1 depth2

def xorOp (depth1 depth2 : ℤ) : ℤ := jsXor depth1 depth2

def subtractOp (depth1 depth2 : ℤ) : ℤ := jsAnd depth1 (jsNot depth2)

def unionData (array1 array2 : List JsNum) : List JsNum :=
  combineData array1 array2 unionOp

def intersectData (array1 array2 : List JsNum) : List JsNum :=
  combineData array1 array2 intersectOp

def xorData (array1 array2 : List JsNum) : List JsNum :=
  combineData array1 array2 xorOp

def subtractData (array1 array2 : List JsNum) : List JsNum :=
  combineData array1 array2 subtractOp

/-- The linear-scan half of `isPointInData` (indices 0, 2, 4, …). -/
def isPointInLinear (x : JsNum) : List JsNum → Bool
  | a :: b :: rest =>
    if jle a x && jlt x b then true else isPointInLinear x rest
  | _ => false

/-- One step bound for the binary-search loop of `isPointInData`:
`midpt = (start+end)/2 | 0` with `start < end` keeps `start ≤ midpt < end`. -/
def bsearchPoint (array : List JsNum) (x : JsNum) :
    ℕ → ℕ → ℕ → ℕ
  | start, stop, index =>
    if h : start < stop then
      let midpt := (start + stop) / 2
      let value := array.getD midpt nan
      if jeq x value then midpt
      else if jlt x value then bsearchPoint array x start midpt index
      else bsearchPoint array x (midpt + 1) stop midpt
    else index
termination_by start stop _ => stop - start
decreasing_by
  · have h2 : (start + stop) / 2 < stop := by omega
    omega
  · have h2 : start ≤ (start + stop) / 2 := by omega
    omega

/-- `isPointInData` (Region1D): bounds check, then linear scan for at most
8 entries, else binary search with the even/odd index test. -/
def isPointInData (array : List JsNum) (x : JsNum) : Bool :=
  if array.isEmpty then false
  else if jlt x (array.getD 0 nan) || jlt (array.getD (array.length - 1) nan) x
  then false
  else if array.length ≤ 8 then isPointInLinear x array
  else
    let index := bsearchPoint array x 0 array.length 0
    !(index % 2 = 1)

/-- `notData` (Region1D): complement by toggling the leading -∞ and
trailing +∞ entries.  `src` starts at 1 when the array leads with -∞ and
the `while` loop copies indices `src … length-2`; the final entry is kept
and +∞ appended unless it already is +∞.  (On an invalid odd-length array
ending in -∞ the JS pushes `undefined`; that branch is unreachable from
valid data and is modelled by the same shape without the `undefined`.) -/
def notData (array : List JsNum) : List JsNum :=
  match array with
  | [] => [ninf, pinf]
  | a :: rest =>
    let l := a :: rest
    let pre : List JsNum := if !(jeq a ninf) then [ninf] else []
    let src : ℕ := if !(jeq a ninf) then 0 else 1
    let middle := l.dropLast.drop src
    match l.getLast? with
    | none => pre
    | some last =>
      if !(jeq last pinf) then pre ++ middle ++ [last, pinf]
      else pre ++ middle

/-- `transformData` (Region1D): validate delta and ratio, then map
`x * ratio + delta` over the coordinates. -/
def transformData (array : List JsNum) (ratio delta : JsNum) :
    Except JsErr (List JsNum) := do
  if !(jlt ninf delta && jlt delta pinf) then
    throw JsErr.dataError   -- "Invalid translation delta"
  if !(jlt ninf ratio && jlt ratio pinf) || jeq ratio (num 0) then
    throw JsErr.dataError   -- "Invalid scale ratio"
  pure (array.map fun x => jadd (jmul x ratio) delta)

/-- `arrayEquals` (Region1D): element-wise `!==` comparison. -/
def arrayEquals (array1 array2 : List JsNum) : Bool :=
  if array1.length ≠ array2.length then false
  else (List.zip array1 array2).all fun p => jeq p.1 p.2

/-- `makeRawSpans` (Region1D): copy the data out two entries at a time. -/
def makeRawSpans : List JsNum → List JsNum
  | a :: b :: rest => a :: b :: makeRawSpans rest
  | [a] => [a, nan]   -- `array[i+1]` past the end is `undefined`; cannot
                      -- occur on valid (even-length) data
  | [] => []

/-- One step of the hash fold: `hash *= 23; hash += x|0; hash &= ~0`. -/
def hashStep (hash : ℤ) (x : JsNum) : ℤ :=
  wrap32 (hash * 23 + toInt32 x)

/-- `makeHashCode` (Region1D). -/
def makeHashCode (array : List JsNum) : ℤ :=
  array.foldl hashStep 0

/-- `validateData` (Region1D): even length (the "array of numbers" shape
check always passes here since every `JsNum` is a JS number), and strict
ascending order under JS `<=`-failure. -/
def validateData (array : List JsNum) : Except JsErr Unit := do
  if array.length % 2 = 1 then throw JsErr.typeError
  match array with
  | [] => pure ()
  | a :: rest => validateLoop a rest
where
  validateLoop : JsNum → List JsNum → Except JsErr Unit
    | _, [] => pure ()
    | prev, cur :: rest =>
      if jle cur prev then throw JsErr.dataError
      else validateLoop cur rest

/-- A `Region1D` object: its span array and its cached hash.  (The cached
`min`/`max` fields are always derived from the array by the constructor,
so they are modelled as functions; the opaque-wrapper capability token is
an encapsulation hack the spec scopes out.) -/
structure R1 where
  arr : List JsNum
  hash : ℤ
deriving DecidableEq, Repr

/-- Internal construction (`new Region1D(array, privateKey)`): no
validation, hash computed. -/
def mkR1 (array : List JsNum) : R1 := ⟨array, makeHashCode array⟩

/-- Public construction (`new Region1D(array)`): validation, then hash. -/
def newR1 (array : List JsNum) : Except JsErr R1 := do
  validateData array
  pure (mkR1 array)

/-- `Region1D.empty`. -/
def R1.empty : R1 := mkR1 []

def R1.union (a b : R1) : R1 := mkR1 (unionData a.arr b.arr)

def R1.intersect (a b : R1) : R1 := mkR1 (intersectData a.arr b.arr)

def R1.subtract (a b : R1) : R1 := mkR1 (subtractData a.arr b.arr)

def R1.xor (a b : R1) : R1 := mkR1 (xorData a.arr b.arr)

def R1.not (a : R1) : R1 := mkR1 (notData a.arr)

/-- `transform` re-validates (no privateKey), since precision may be lost. -/
def R1.transform (a : R1) (scale offset : JsNum) : Except JsErr R1 := do
  let arr ← transformData a.arr scale offset
  newR1 arr

def R1.translate (a : R1) (offset : JsNum) : Except JsErr R1 := do
  let arr ← transformData a.arr (num 1) offset
  newR1 arr

def R1.scale (a : R1) (scale : JsNum) : Except JsErr R1 := do
  let arr ← transformData a.arr scale (num 0)
  newR1 arr

def R1.isEmpty (a : R1) : Bool := a.arr.isEmpty

def R1.getCount (a : R1) : ℕ := a.arr.length / 2

def R1.isPointIn (a : R1) (x : JsNum) : Bool := isPointInData a.arr x

/-- `equals` (Region1D): hash fast-reject, then element comparison.  (The
reference-identity shortcut of the JS is dropped; it only short-circuits
cases where the element comparison returns `true` anyway.) -/
def R1.equals (a b : R1) : Bool :=
  if a.hash ≠ b.hash then false else arrayEquals a.arr b.arr

def R1.getRawSpans (a : R1) : List JsNum := makeRawSpans a.arr

/-- Cached minimum: `array.length ? array[0] : pInf`. -/
def R1.min (a : R1) : JsNum := a.arr.getD 0 pinf

/-- Cached maximum: `array.length ? array[array.length-1] : nInf`. -/
def R1.max (a : R1) : JsNum :=
  if a.arr.isEmpty then ninf else a.arr.getD (a.arr.length - 1) nan

def R1.getHashCode (a : R1) : ℤ := a.hash

end Region1D

namespace Region2D

open Region1D

/-- One band: a `Region1D` row and its Y-range. -/
structure Row where
  region : R1
  minY : JsNum
  maxY : JsNum
deriving DecidableEq, Repr

/-- The private data record of a `Region2D`. -/
structure RData where
  array : List Row
  count : ℕ
  minX : JsNum
  minY : JsNum
  maxX : JsNum
  maxY : JsNum
  hash : ℤ
deriving DecidableEq, Repr

/-- One element produced by `makeRowPairGenerator`. -/
structure Pair where
  row1 : R1
  row2 : R1
  minY : JsNum
  maxY : JsNum
deriving DecidableEq, Repr

/-- The generator's mutable state: the two row cursors and `lastY`. -/
structure GenState where
  i1 : ℕ
  i2 : ℕ
  lastY : JsNum
deriving DecidableEq, Repr

/-- One invocation of the closure made by `makeRowPairGenerator`:
either `none` (both lists exhausted) or the next pair plus the new state.
A faithful transcription of the three-case decision tree. -/
def genStep (rows1 rows2 : List Row) (s : GenState) :
    Option (Pair × GenState) :=
  if _h1 : s.i1 ≥ rows1.length then
    if s.i2 ≥ rows2.length then none
    else
      let r2 := rows2.getD s.i2 ⟨R1.empty, nan, nan⟩
      some (⟨R1.empty, r2.region, jmax r2.minY s.lastY, r2.maxY⟩,
            ⟨s.i1, s.i2 + 1, r2.maxY⟩)
  else if _h2 : s.i2 ≥ rows2.length then
    let r1 := rows1.getD s.i1 ⟨R1.empty, nan, nan⟩
    some (⟨r1.region, R1.empty, jmax r1.minY s.lastY, r1.maxY⟩,
          ⟨s.i1 + 1, s.i2, r1.maxY⟩)
  else
    let row1 := rows1.getD s.i1 ⟨R1.empty, nan, nan⟩
    let row2 := rows2.getD s.i2 ⟨R1.empty, nan, nan⟩
    let nextY1 := jmax row1.minY s.lastY
    let nextY2 := jmax row2.minY s.lastY
    if jeq nextY1 nextY2 then
      -- matching top edges
      if jlt row2.maxY row1.maxY then
        some (⟨row1.region, row2.region, nextY1, row2.maxY⟩,
              ⟨s.i1, s.i2 + 1, row2.maxY⟩)
      else if jeq row2.maxY row1.maxY then
        some (⟨row1.region, row2.region, nextY1, row1.maxY⟩,
              ⟨s.i1 + 1, s.i2 + 1, row1.maxY⟩)
      else
        some (⟨row1.region, row2.region, nextY1, row1.maxY⟩,
              ⟨s.i1 + 1, s.i2, row1.maxY⟩)
    else if jlt nextY1 nextY2 then
      -- the A-side row is strictly above the B-side row
      if jle row1.maxY nextY2 then
        some (⟨row1.region, R1.empty, nextY1, row1.maxY⟩,
              ⟨s.i1 + 1, s.i2, row1.maxY⟩)
      else
        some (⟨row1.region, R1.empty, nextY1, nextY2⟩,
              ⟨s.i1, s.i2, nextY2⟩)
    else
      -- the B-side row is strictly above the A-side row
      if jle row2.maxY nextY1 then
        some (⟨R1.empty, row2.region, nextY2, row2.maxY⟩,
              ⟨s.i1, s.i2 + 1, row2.maxY⟩)
      else
        some (⟨R1.empty, row2.region, nextY2, nextY1⟩,
              ⟨s.i1, s.i2, nextY1⟩)

/-- Run the generator to exhaustion.  The JS loop diverges on (invalid)
NaN-laden band data; the fuel parameter makes the model total, and
`2*(|rows1|+|rows2|) + 1` fuel is proved sufficient for valid data. -/
def genPairs (rows1 rows2 : List Row) : ℕ → GenState → List Pair
  | 0, _ => []
  | fuel + 1, s =>
    match genStep rows1 rows2 s with
    | none => []
    | some (p, s2) => p :: genPairs rows1 rows2 fuel s2

/-- The accumulator state of the `combineData` (Region2D) output loop.
`rows` holds the emitted rows in reverse order (its head is `lastResult`). -/
structure Accum where
  rows : List Row
  count : ℕ
  minX : JsNum
  maxX : JsNum
  hash : ℤ
deriving DecidableEq, Repr

/-- Process one generated pair, mirroring the body of the output loop:
skip empty result rows; extend `lastResult` when equal and Y-adjacent;
otherwise push a new row and update count, X-extrema and hash. -/
def accumStep (rowTransform : R1 → R1 → R1) (acc : Accum) (pair : Pair) :
    Accum :=
  let resultRow := rowTransform pair.row1 pair.row2
  if resultRow.isEmpty then acc
  else
    match acc.rows with
    | last :: rest =>
      if resultRow.equals last.region && jeq last.maxY pair.minY then
        { acc with rows := { last with maxY := pair.maxY } :: rest }
      else
        { rows := ⟨resultRow, pair.minY, pair.maxY⟩ :: acc.rows,
          count := acc.count + resultRow.getCount,
          minX := if jlt resultRow.min acc.minX then resultRow.min else acc.minX,
          maxX := if jlt acc.maxX resultRow.max then resultRow.max else acc.maxX,
          hash := wrap32 (acc.hash * 23 + resultRow.getHashCode) }
    | [] =>
      { rows := [⟨resultRow, pair.minY, pair.maxY⟩],
        count := acc.count + resultRow.getCount,
        minX := if jlt resultRow.min acc.minX then resultRow.min else acc.minX,
        maxX := if jlt acc.maxX resultRow.max then resultRow.max else acc.maxX,
        hash := wrap32 (acc.hash * 23 + resultRow.getHashCode) }

/-- `combineData` (Region2D): run the row-pair generator to exhaustion and
fold up the output region data. -/
def combineData (array1 array2 : List Row) (rowTransform : R1 → R1 → R1) :
    RData :=
  let pairs := genPairs array1 array2 (2 * (array1.length + array2.length) + 1)
      ⟨0, 0, ninf⟩
  let acc := pairs.foldl (accumStep rowTransform)
      ⟨[], 0, pinf, ninf, 0⟩
  let result := acc.rows.reverse
  { array := result,
    count := acc.count,
    minX := acc.minX,
    minY := (result.head?.map Row.minY).getD pinf,
    maxX := acc.maxX,
    maxY := (result.getLast?.map Row.maxY).getD ninf,
    hash := acc.hash }

def unionData (array1 array2 : List Row) : RData :=
  combineData array1 array2 R1.union

def intersectData (array1 array2 : List Row) : RData :=
  combineData array1 array2 R1.intersect

def xorData (array1 array2 : List Row) : RData :=
  combineData array1 array2 R1.xor

def subtractData (array1 array2 : List Row) : RData :=
  combineData array1 array2 R1.subtract

/-- `doBoundsOverlap` (Region2D). -/
def doBoundsOverlap (data1 data2 : RData) : Bool :=
  !(jlt data2.maxX data1.minX || jlt data1.maxX data2.minX
    || jlt data2.maxY data1.minY || jlt data1.maxY data2.minY)

/-- `makeEmptyRegionData` (Region2D). -/
def makeEmptyRegionData : RData :=
  ⟨[], 0, pinf, pinf, ninf, ninf, 0⟩

/-- `makeRegionDataFromOneRect` (Region2D), for the 4-number-array form of
rectangle: validate that the rectangle has positive extent, then build a
single band.  The inner `new Region1D([minX, maxX])` re-validates; that
validation provably never fires after the rectangle check. -/
def makeRegionDataFromOneRect (minX minY maxX maxY : JsNum) :
    Except JsErr RData := do
  if jle maxX minX || jle maxY minY then
    throw JsErr.dataError   -- "Cannot construct … zero or negative size."
  let region1D ← newR1 [minX, maxX]
  pure { array := [⟨region1D, minY, maxY⟩],
         count := 1,
         minX := minX, minY := minY, maxX := maxX, maxY := maxY,
         hash := region1D.getHashCode }

/-- `Region2D.infinite`: `new Region2D([nInf, nInf, pInf, pInf])`. -/
def infiniteData : RData :=
  ⟨[⟨mkR1 [ninf, pinf], ninf, pinf⟩], 1, ninf, ninf, pinf, pinf,
   makeHashCode [ninf, pinf]⟩

theorem infiniteData_eq :
    makeRegionDataFromOneRect ninf ninf pinf pinf = .ok infiniteData := by
  decide

/-- `Region2D#union`. -/
def union2 (data otherData : RData) : RData :=
  unionData data.array otherData.array

/-- `Region2D#intersect` (with the bounds-overlap fast path to `empty`). -/
def intersect2 (data otherData : RData) : RData :=
  if !doBoundsOverlap data otherData then makeEmptyRegionData
  else intersectData data.array otherData.array

/-- `Region2D#subtract` (with the bounds-overlap fast path to `this`). -/
def subtract2 (data otherData : RData) : RData :=
  if !doBoundsOverlap data otherData then data
  else subtractData data.array otherData.array

/-- `Region2D#xor`. -/
def xor2 (data otherData : RData) : RData :=
  xorData data.array otherData.array

/-- `xorData` with a possibly-`undefined` second operand (an `Option`,
as in `doesIntersectData` below): the row-pair generator's very first
step evaluates `rows2.length`, so an `undefined` second array raises a
runtime `TypeError` before any pair is produced. -/
def xorDataU (array1 : List Row) (array2 : Option (List Row)) :
    Except JsErr RData :=
  match array2 with
  | none => .error JsErr.runtimeTypeError
  | some a2 => .ok (xorData array1 a2)

/-- `Region2D#not`: `new Region2D(xorData(data.array, infinite.array),
privateKey)`.  `infinite` is a `Region2D` *instance*, whose only own
property is the `_opaque` accessor (its band list lives behind
`getData(infinite).array`), so `infinite.array` evaluates to the JS
`undefined` and `xorData` receives `undefined` for its second
argument. -/
def not2 (data : RData) : Except JsErr RData :=
  xorDataU data.array none

def isEmpty2 (data : RData) : Bool := data.array.isEmpty

/-- `doesIntersectData` (Region2D): intersect and test for any band.  Its
second parameter is an `Option` because the (sole) caller passes only one
argument, making `data2` the JS value `undefined`; reading `.array` from
`undefined` raises a runtime `TypeError` before anything else happens. -/
def doesIntersectData (data1 : RData) (data2 : Option RData) :
    Except JsErr Bool :=
  match data2 with
  | none => .error JsErr.runtimeTypeError
  | some d2 => .ok (!(intersectData data1.array d2.array).array.isEmpty)

/-- `Region2D#doesIntersect`: after the type check on `other`, the code
invokes `doesIntersectData(getData(this))` — with only one argument. -/
def doesIntersect2 (data _otherData : RData) : Except JsErr Bool :=
  doesIntersectData data none

/-- The row objects stored in a region's band array are plain JS objects
`{region:, minY:, maxY:}`; they have no `equals` method, so the call
`array1[i].equals(array2[i])` inside `arrayEquals` (Region2D) evaluates
`undefined(...)` and raises a runtime `TypeError`. -/
def rowEquals (_row1 _row2 : Row) : Except JsErr Bool :=
  .error JsErr.runtimeTypeError

/-- `arrayEquals` (Region2D): length fast-reject, then per-row `equals`
calls (each of which, see `rowEquals`, throws). -/
def arrayEquals2 (array1 array2 : List Row) : Except JsErr Bool :=
  if array1.length ≠ array2.length then .ok false
  else loop array1 array2
where
  loop : List Row → List Row → Except JsErr Bool
    | [], _ => .ok true
    | r1 :: rest1, [] => do
      let e ← rowEquals r1 ⟨R1.empty, nan, nan⟩
      if !e then .ok false else loop rest1 []
    | r1 :: rest1, r2 :: rest2 => do
      let e ← rowEquals r1 r2
      if !e then .ok false else loop rest1 rest2

/-- `Region2D#equals`: hash and count fast-reject, then `arrayEquals`. -/
def equals2 (data otherData : RData) : Except JsErr Bool :=
  if data.hash ≠ otherData.hash || data.count ≠ otherData.count then .ok false
  else arrayEquals2 data.array otherData.array

/-- The linear-scan half of `isPointInData` (Region2D).  The loop steps
`i += 2`, so only the bands at even indices are ever examined. -/
def isPointInRows (x y : JsNum) : List Row → Bool
  | r :: rest =>
    if jle r.minY y && jlt y r.maxY then r.region.isPointIn x
    else
      match rest with
      | [] => false
      | _ :: rest2 => isPointInRows x y rest2
  | [] => false

/-- The binary-search half of `isPointInData` (Region2D). -/
def bsearchRows (array : List Row) (x y : JsNum) :
    ℕ → ℕ → Bool
  | start, stop =>
    if h : start < stop then
      let midpt := (start + stop) / 2
      let row := array.getD midpt ⟨R1.empty, nan, nan⟩
      if jle row.minY y && jlt y row.maxY then row.region.isPointIn x
      else if jlt y row.minY then bsearchRows array x y start midpt
      else bsearchRows array x y (midpt + 1) stop
    else false
termination_by start stop => stop - start
decreasing_by
  · have h2 : (start + stop) / 2 < stop := by omega
    omega
  · have h2 : start ≤ (start + stop) / 2 := by omega
    omega

/-- `isPointInData` (Region2D): bounds check, then linear scan over at
most 5 bands (stepping by two!), else binary search by Y-range. -/
def isPointInData (data : RData) (x y : JsNum) : Bool :=
  if data.array.isEmpty then false
  else if jlt y data.minY || jlt data.maxY y
       || jlt x data.minX || jlt data.maxX x then false
  else if data.array.length ≤ 5 then isPointInRows x y data.array
  else bsearchRows data.array x y 0 data.array.length

/-- `Region2D#isPointIn`. -/
def isPointIn2 (data : RData) (x y : JsNum) : Bool :=
  isPointInData data x y

def getCount2 (data : RData) : ℕ := data.count

/-! ### Boundary extraction: `generateEdges`, `makeEdgeTable`, `makeWindings` -/

inductive EdgeKind where
  | top | right | bottom | left
deriving DecidableEq, Repr

/-- One edge record (`key1`/`key2` are derived from the coordinates; the
linked-list fields and the `used` flag live in the walk state). -/
structure Edge where
  x1 : JsNum
  y1 : JsNum
  x2 : JsNum
  y2 : JsNum
  kind : EdgeKind
deriving DecidableEq, Repr

/-- A polygon vertex. -/
structure Pt where
  x : JsNum
  y : JsNum
deriving DecidableEq, Repr

/-- Start-point key of an edge (the JS uses the string `x1 + "," + y1`;
value equality of the coordinates coincides with string equality here). -/
def Edge.key1 (e : Edge) : Pt := ⟨e.x1, e.y1⟩

/-- End-point key of an edge. -/
def Edge.key2 (e : Edge) : Pt := ⟨e.x2, e.y2⟩

/-- Split a raw span list into its (start, end) pairs. -/
def spanPairs : List JsNum → List (JsNum × JsNum)
  | a :: b :: rest => (a, b) :: spanPairs rest
  | _ => []

/-- Top edges for a row of spans at height `y`. -/
def topEdges (spans : List JsNum) (y : JsNum) : List Edge :=
  (spanPairs spans).map fun p => ⟨p.1, y, p.2, y, EdgeKind.top⟩

/-- Bottom edges for a row of spans at height `y` (drawn right-to-left). -/
def bottomEdges (spans : List JsNum) (y : JsNum) : List Edge :=
  (spanPairs spans).map fun p => ⟨p.2, y, p.1, y, EdgeKind.bottom⟩

/-- The right (top-to-bottom) and left (bottom-to-top) verticals of a row. -/
def rlEdges (spans : List JsNum) (y1 y2 : JsNum) : List Edge :=
  (spanPairs spans).flatMap fun p =>
    [⟨p.2, y1, p.2, y2, EdgeKind.right⟩, ⟨p.1, y2, p.1, y1, EdgeKind.left⟩]

/-- The interior of the `generateEdges` row loop plus the trailing bottom
emission: `prev` is the previous row, and when the recursion runs out of
rows the final row's bottom edges are emitted. -/
def edgeLoop : Row → List Row → List Edge
  | prev, [] => bottomEdges prev.region.getRawSpans prev.maxY
  | prev, cur :: rest =>
    let y1 := cur.minY
    let y2 := cur.maxY
    let horiz :=
      if jlt prev.maxY y1 then
        -- the rows do not touch: both rows' edges appear verbatim
        bottomEdges prev.region.getRawSpans prev.maxY
          ++ topEdges cur.region.getRawSpans y1
      else
        -- touching rows: only the symmetric-difference parts are edges
        bottomEdges (prev.region.subtract cur.region).getRawSpans y1
          ++ topEdges (cur.region.subtract prev.region).getRawSpans y1
    horiz ++ rlEdges cur.region.getRawSpans y1 y2 ++ edgeLoop cur rest

/-- `generateEdges` (Region2D). -/
def generateEdges (array : List Row) : List Edge :=
  match array with
  | [] => []
  | [row] =>
    -- degenerate case, one row: each span yields all four edges
    (spanPairs row.region.getRawSpans).flatMap fun p =>
      [⟨p.1, row.minY, p.2, row.minY, EdgeKind.top⟩,
       ⟨p.2, row.minY, p.2, row.maxY, EdgeKind.right⟩,
       ⟨p.2, row.maxY, p.1, row.maxY, EdgeKind.bottom⟩,
       ⟨p.1, row.maxY, p.1, row.minY, EdgeKind.left⟩]
  | first :: rest =>
    -- main case: top edges and verticals of the first row, then the loop
    ((spanPairs first.region.getRawSpans).flatMap fun p =>
      [⟨p.1, first.minY, p.2, first.minY, EdgeKind.top⟩,
       ⟨p.2, first.minY, p.2, first.maxY, EdgeKind.right⟩,
       ⟨p.1, first.maxY, p.1, first.minY, EdgeKind.left⟩])
      ++ edgeLoop first rest

/-- `makeEdgeTable` (Region2D): the list of (indices of) edges whose start
point is `k`, in insertion order. -/
def tableLookup (edges : List Edge) (k : Pt) : List ℕ :=
  ((List.range edges.length).filter fun i =>
    (edges.getD i ⟨nan, nan, nan, nan, EdgeKind.top⟩).key1 = k)

/-- The clockwise-successor preference: top→right→bottom→left→top. -/
def succKind : EdgeKind → EdgeKind
  | EdgeKind.top => EdgeKind.right
  | EdgeKind.right => EdgeKind.bottom
  | EdgeKind.bottom => EdgeKind.left
  | EdgeKind.left => EdgeKind.top

/-- `findBestPossibleEdge`: the single-candidate shortcut (whose
`!possibleEdges.used` guard reads a property off the *array*, is always
`undefined`, and therefore never rejects), then the preferred-kind pass
over unused candidates, then any unused candidate, else the
`"Edge generation failure."` throw (`none`). -/
def findBestPossibleEdge (edges : List Edge) (cur : Edge)
    (possible : List ℕ) (used : List Bool) : Option ℕ :=
  if possible.length = 1 then possible.head?
  else
    match possible.find? fun i =>
        !(used.getD i true)
          && (edges.getD i ⟨nan, nan, nan, nan, EdgeKind.top⟩).kind
              = succKind cur.kind with
    | some i => some i
    | none => possible.find? fun i => !(used.getD i true)

/-- The inner walk of `makeWindings`: follow end points to start points
until the walk returns to the start edge's start point, consuming and
emitting each edge taken.  Returns the finished winding (in emission
order) and the updated `used` flags, or `none` where the JS would throw. -/
def walkLoop (edges : List Edge) :
    ℕ → Pt → ℕ → List Bool → List Pt → Option (List Pt × List Bool)
  | 0, _, _, _, _ => none
  | fuel + 1, startKey, cur, used, acc =>
    let c := edges.getD cur ⟨nan, nan, nan, nan, EdgeKind.top⟩
    if c.key2 = startKey then some (acc.reverse, used)
    else
      match findBestPossibleEdge edges c (tableLookup edges c.key2) used with
      | none => none
      | some nxt =>
        let n := edges.getD nxt ⟨nan, nan, nan, nan, EdgeKind.top⟩
        walkLoop edges fuel startKey nxt (used.set nxt true)
          (⟨n.x1, n.y1⟩ :: acc)

/-- Find the start edge for the next polygon: the first unconsumed edge,
then forward along the unconsumed list until a `top` edge (`none` models
the null-dereference crash were no `top` edge left). -/
def findStartEdge (edges : List Edge) (used : List Bool) : Option ℕ :=
  (List.range edges.length).find? fun i =>
    !(used.getD i true)
      && (edges.getD i ⟨nan, nan, nan, nan, EdgeKind.top⟩).kind = EdgeKind.top

/-- The outer loop of `makeWindings`: peel off one polygon per iteration
until no edges remain. -/
def windLoop (edges : List Edge) :
    ℕ → List Bool → List (List Pt) → Option (List (List Pt))
  | 0, _, _ => none
  | fuel + 1, used, acc =>
    if ((List.range edges.length).filter fun i => !(used.getD i true)).isEmpty
    then some acc.reverse
    else
      match findStartEdge edges used with
      | none => none
      | some s =>
        let e := edges.getD s ⟨nan, nan, nan, nan, EdgeKind.top⟩
        match walkLoop edges (edges.length + 1) e.key1 s (used.set s true)
            [⟨e.x1, e.y1⟩] with
        | none => none
        | some (winding, used2) => windLoop edges fuel used2 (winding :: acc)

/-- `makeWindings` (Region2D). -/
def makeWindings (edges : List Edge) : Option (List (List Pt)) :=
  windLoop edges (edges.length + 1) (List.replicate edges.length false) []

/-- `makePath` (Region2D): `none` models the crashes/throws of the walk,
which never fire on the inputs used below. -/
def makePath (array : List Row) : Option (List (List Pt)) :=
  if array.isEmpty then some []
  else makeWindings (generateEdges array)

/-- Twice the signed area of a polygon by the shoelace formula, provided
every vertex is finite.  With the screen convention used throughout the
library (y grows downward), the value is positive exactly for the
clockwise winding direction that `getPath` documents for rectangles. -/
def signedArea2x : List Pt → Option ℚ
  | [] => some 0
  | p :: rest => go p (p :: rest)
where
  term (a b c d : ℚ) : ℚ := qadd (qmul a d) (-(qmul c b))
  go (first : Pt) : List Pt → Option ℚ
    | [] => some 0
    | [q] =>
      match q, first with
      | ⟨num a, num b⟩, ⟨num c, num d⟩ => some (term a b c d)
      | _, _ => none
    | q :: r :: rest =>
      match q, r with
      | ⟨num a, num b⟩, ⟨num c, num d⟩ => do
        let s ← go first (r :: rest)
        pure (qadd (term a b c d) s)
      | _, _ => none

end Region2D

/-! ### Validity predicates -/

namespace Region1D

/-- Strictly ascending under JS `<` (this is what `validateData` enforces,
and it rules NaN out of every entry of a non-singleton list). -/
def Ascending (l : List JsNum) : Prop :=
  List.Chain' (fun a b => jlt a b = true) l

/-- Boolean decision procedure for `Ascending` (kernel-evaluable, unlike
Mathlib's `Chain'` instance). -/
def ascendingB : List JsNum → Bool
  | a :: b :: rest => jlt a b && ascendingB (b :: rest)
  | _ => true

theorem ascendingB_iff (l : List JsNum) : ascendingB l = true ↔ Ascending l := by
  unfold Ascending
  induction l with
  | nil => simp [ascendingB]
  | cons a rest ih =>
    cases rest with
    | nil => simp [ascendingB]
    | cons b rest2 =>
      rw [List.chain'_cons, ← ih]
      simp [ascendingB]

instance : DecidablePred Ascending := fun l =>
  decidable_of_iff (ascendingB l = true) (ascendingB_iff l)

/-- Valid `Region1D` data: even length, strictly ascending. -/
def Valid1D (l : List JsNum) : Prop :=
  l.length % 2 = 0 ∧ Ascending l

instance : DecidablePred Valid1D := fun _ => instDecidableAnd

/-- A well-formed `Region1D` object: valid data plus the cached hash. -/
def ValidR1 (a : R1) : Prop :=
  Valid1D a.arr ∧ a.hash = makeHashCode a.arr

instance : DecidablePred ValidR1 := fun _ => instDecidableAnd

end Region1D

/-! ### Helpers for stating results -/

/-- Did an `Except`-valued computation succeed? -/
def isOkE {ε α : Type} : Except ε α → Bool
  | .ok _ => true
  | .error _ => false

/-- Fixture builder: the region of a single rectangle with finite rational
coordinates (the payload of `new Region2D([a, b, c, d])`). -/
def rectData (a b c d : ℚ) : Region2D.RData :=
  (Region2D.makeRegionDataFromOneRect (num a) (num b) (num c) (num d)).toOption.getD
    Region2D.makeEmptyRegionData

/-- Fixture: the donut region of the `getPath` test suite, built by
unioning `[1,6,7,8]`, `[1,2,7,4]`, `[1,4,3,6]` and `[5,4,7,6]`. -/
def donutData : Region2D.RData :=
  Region2D.union2
    (Region2D.union2 (Region2D.union2 (rectData 1 6 7 8) (rectData 1 2 7 4))
      (rectData 1 4 3 6))
    (rectData 5 4 7 6)

/-! ## Claim C1 — `Region2D#doesIntersect` -/

/-- **C1.**  The claim says `A.doesIntersect(B)` returns the boolean
"is the intersection non-empty".  In fact the method body invokes
`doesIntersectData(getData(this))` with the second argument missing, so
`data2` is `undefined` and reading `data2.array` raises a `TypeError`:
for *every* pair of regions the call throws instead of returning. -/
theorem c1_doesIntersect_always_throws (data otherData : Region2D.RData) :
    Region2D.doesIntersect2 data otherData = .error JsErr.runtimeTypeError := rfl

/-- **C1**, at the concrete failing input: two copies of the unit square
certainly intersect, yet `doesIntersect` throws. -/
theorem c1_code_bug_at_failing_input :
    Region2D.doesIntersect2 (rectData 0 0 1 1) (rectData 0 0 1 1)
        = .error JsErr.runtimeTypeError
      ∧ (Region2D.intersectData (rectData 0 0 1 1).array
          (rectData 0 0 1 1).array).array.isEmpty = false := by
  decide

/-! ## Claim C2 — `Region2D#equals` -/

/-- **C2.**  The claim says `equals` terminates normally and decides
band-list equality, with the hash comparison a pure fast-reject.  In fact,
whenever the hash/count fast-reject does *not* fire and the band arrays
are non-empty, `arrayEquals` calls `array1[i].equals(array2[i])` on plain
row objects, which have no `equals` method — a `TypeError` is thrown.  In
particular `A.equals(A)` throws for every non-empty region. -/
theorem arrayEquals2_loop_cons (r1 r2 : Region2D.Row)
    (rest1 rest2 : List Region2D.Row) :
    Region2D.arrayEquals2.loop (r1 :: rest1) (r2 :: rest2)
      = .error JsErr.runtimeTypeError := rfl

theorem c2_equals_throws (data otherData : Region2D.RData)
    (h1 : data.hash = otherData.hash) (h2 : data.count = otherData.count)
    (h3 : data.array.length = otherData.array.length)
    (h4 : data.array ≠ []) :
    Region2D.equals2 data otherData = .error JsErr.runtimeTypeError := by
  unfold Region2D.equals2
  rw [if_neg (by simp [h1, h2])]
  unfold Region2D.arrayEquals2
  rw [if_neg (by simp [h3])]
  match hd : data.array, hod : otherData.array with
  | [], _ => exact absurd hd h4
  | r :: rest, [] =>
    rw [hd, hod] at h3; simp at h3
  | r :: rest, r2 :: rest2 =>
    exact arrayEquals2_loop_cons r r2 rest rest2

/-- **C2**, witness: the square `[1,2,3,4]` compared with itself throws
(the claim, and the repository's own test suite, say it returns `true`). -/
theorem c2_equals_throws_witness :
    Region2D.equals2 (rectData 1 2 3 4) (rectData 1 2 3 4)
      = .error JsErr.runtimeTypeError :=
  c2_equals_throws _ _ rfl rfl rfl (by decide)

/-! ## Claim C3 — `Region2D#isPointIn` -/

/-- **C3.**  The claim says the linear-scan band lookup considers every
band.  The loop steps `i += 2` and so skips every odd-indexed band: for
the two-band region `[0,0,1,1] ∪ [2,2,3,3]` the point `(2,2)` lies in
band 1 (its Y-range `[2,3)` contains 2 and its row set contains 2), yet
`isPointIn` answers `false`. -/
theorem c3_code_bug_at_failing_input :
    Region2D.isPointIn2 (Region2D.union2 (rectData 0 0 1 1) (rectData 2 2 3 3))
        (num 2) (num 2) = false
      ∧ (Region2D.union2 (rectData 0 0 1 1) (rectData 2 2 3 3)).array.any
          (fun row => jle row.minY (num 2) && jlt (num 2) row.maxY
            && row.region.isPointIn (num 2)) = true := by
  decide

/-! ## Claim C4 — rejection of degenerate rectangles -/

/-- **C4**, counterexample.  The claim says construction from a 4-number
array fails *unless* `x2 > x1` and `y2 > y1`, so a NaN coordinate must be
rejected.  The code tests `maxX <= minX || maxY <= minY`, and every
comparison against NaN is false — so `[0, 0, NaN, 5]` (for which
`x2 > x1` is false) is *accepted*. -/
theorem c4_counterexample :
    isOkE (Region2D.makeRegionDataFromOneRect (num 0) (num 0) nan (num 5)) = true
      ∧ jlt (num 0) nan = false := by
  decide

/-- **C4**, amended: construction from a 4-number array fails with a data
error exactly when `x2 <= x1` or `y2 <= y1` holds under JS comparison
semantics (so NaN coordinates are accepted, not rejected); on success the
region is the single band `[y1,y2)` carrying the single span `[x1,x2)`,
with count 1, the rectangle as its bounding box, and the span hash. -/
theorem c4_amended (x1 y1 x2 y2 : JsNum) :
    Region2D.makeRegionDataFromOneRect x1 y1 x2 y2
      = if jle x2 x1 || jle y2 y1 then .error JsErr.dataError
        else .ok ⟨[⟨Region1D.mkR1 [x1, x2], y1, y2⟩], 1, x1, y1, x2, y2,
                  Region1D.makeHashCode [x1, x2]⟩ := by
  unfold Region2D.makeRegionDataFromOneRect
  cases h : (jle x2 x1 || jle y2 y1) with
  | true => rfl
  | false =>
    have hv : Region1D.newR1 [x1, x2] = .ok (Region1D.mkR1 [x1, x2]) := by
      unfold Region1D.newR1 Region1D.validateData
      simp only [Bool.or_eq_false_iff] at h
      simp only [Region1D.validateData.validateLoop, h.1, Bool.false_eq_true,
        if_false, ite_false, List.length_cons, List.length_nil]
      rfl
    rw [hv]
    rfl

/-! ## Claim C6 — the 1-D fixture -/

/-- **C6**, counterexample.  With `a` as the claim describes it — the
single span `[3,10)` — the union with `b = [8,12),[13,16),[18,25)` is
`[3,12),[13,16),[18,25)`, not the claimed `[3,12),[13,25)`. -/
theorem c6_counterexample :
    (Region1D.mkR1 [num 3, num 10]).union
        (Region1D.mkR1 [num 8, num 12, num 13, num 16, num 18, num 25])
      ≠ Region1D.mkR1 [num 3, num 12, num 13, num 25] := by
  decide

/-- **C6**, amended: the fixture's `a` is `[3,10),[15,20)` (see
test/region1d.tests.js), and with that `a` all four claimed results hold:
union `[3,12),[13,25)`, intersect `[8,10),[15,16),[18,20)`, xor
`[3,8),[10,12),[13,15),[16,18),[20,25)`, subtract `[3,8),[16,18)`. -/
theorem c6_amended :
    (Region1D.mkR1 [num 3, num 10, num 15, num 20]).union
        (Region1D.mkR1 [num 8, num 12, num 13, num 16, num 18, num 25])
      = Region1D.mkR1 [num 3, num 12, num 13, num 25]
      ∧ (Region1D.mkR1 [num 3, num 10, num 15, num 20]).intersect
          (Region1D.mkR1 [num 8, num 12, num 13, num 16, num 18, num 25])
        = Region1D.mkR1 [num 8, num 10, num 15, num 16, num 18, num 20]
      ∧ (Region1D.mkR1 [num 3, num 10, num 15, num 20]).xor
          (Region1D.mkR1 [num 8, num 12, num 13, num 16, num 18, num 25])
        = Region1D.mkR1 [num 3, num 8, num 10, num 12, num 13, num 15,
            num 16, num 18, num 20, num 25]
      ∧ (Region1D.mkR1 [num 3, num 10, num 15, num 20]).subtract
          (Region1D.mkR1 [num 8, num 12, num 13, num 16, num 18, num 25])
        = Region1D.mkR1 [num 3, num 8, num 16, num 18] := by
  decide

/-! ## Claim C7 — `getPath` on a rectangle and on a donut -/

/-- **C7**, counterexample.  On the donut region the path is *not* a pair
of 4-point clockwise loops: the outer boundary keeps its collinear band
corners (8 points), and the hole `[(3,6),(5,6),(5,4),(3,4)]` is wound in
the *opposite* direction to the outer boundary (its shoelace value is
negative where the outer loop's — and the single rectangle's — is
positive, i.e. it is counter-clockwise in the convention in which the
outer loops are clockwise). -/
theorem c7_counterexample :
    Region2D.makePath donutData.array
        = some [[⟨num 1, num 2⟩, ⟨num 7, num 2⟩, ⟨num 7, num 4⟩,
                 ⟨num 7, num 6⟩, ⟨num 7, num 8⟩, ⟨num 1, num 8⟩,
                 ⟨num 1, num 6⟩, ⟨num 1, num 4⟩],
                [⟨num 3, num 6⟩, ⟨num 5, num 6⟩, ⟨num 5, num 4⟩,
                 ⟨num 3, num 4⟩]]
      ∧ Region2D.signedArea2x [⟨num 3, num 6⟩, ⟨num 5, num 6⟩,
          ⟨num 5, num 4⟩, ⟨num 3, num 4⟩] = some (-8) := by
  decide

/-- **C7**, amended: for a single rectangle `getPath` returns exactly one
4-point clockwise polygon; for the donut it returns exactly two polygons,
the outer boundary as an 8-point clockwise loop (the collinear corners at
band boundaries are not coalesced) and the hole boundary as a 4-point
loop wound counter-clockwise (opposite to the outer boundary). -/
theorem c7_amended :
    Region2D.makePath (rectData 1 2 3 4).array
        = some [[⟨num 1, num 2⟩, ⟨num 3, num 2⟩, ⟨num 3, num 4⟩,
                 ⟨num 1, num 4⟩]]
      ∧ Region2D.signedArea2x [⟨num 1, num 2⟩, ⟨num 3, num 2⟩,
          ⟨num 3, num 4⟩, ⟨num 1, num 4⟩] = some 8
      ∧ Region2D.makePath donutData.array
        = some [[⟨num 1, num 2⟩, ⟨num 7, num 2⟩, ⟨num 7, num 4⟩,
                 ⟨num 7, num 6⟩, ⟨num 7, num 8⟩, ⟨num 1, num 8⟩,
                 ⟨num 1, num 6⟩, ⟨num 1, num 4⟩],
                [⟨num 3, num 6⟩, ⟨num 5, num 6⟩, ⟨num 5, num 4⟩,
                 ⟨num 3, num 4⟩]]
      ∧ Region2D.signedArea2x [⟨num 1, num 2⟩, ⟨num 7, num 2⟩,
          ⟨num 7, num 4⟩, ⟨num 7, num 6⟩, ⟨num 7, num 8⟩, ⟨num 1, num 8⟩,
          ⟨num 1, num 6⟩, ⟨num 1, num 4⟩] = some 72
      ∧ Region2D.signedArea2x [⟨num 3, num 6⟩, ⟨num 5, num 6⟩,
          ⟨num 5, num 4⟩, ⟨num 3, num 4⟩] = some (-8) := by
  decide

/-! ## Claim C9 — `Region1D#scale` with non-positive factors -/

/-- **C9**, counterexample.  The claim demands that scaling *any* region —
including the empty one — by a negative factor fails.  Scaling the empty
region by -1 succeeds and returns the empty region: `transformData`
rejects only zero, NaN and infinite ratios, and re-validation of the
empty coordinate array cannot fail. -/
theorem c9_counterexample :
    Region1D.R1.empty.scale (num (-1)) = .ok Region1D.R1.empty := by
  decide

/-- Multiplying by a finite negative ratio (and adding the zero offset)
reverses the strict order of span data, weakly (`<=` holds in the
reversed direction, also across infinities). -/
theorem scale_neg_antitone (a b : JsNum) (r : ℚ) (hr : r < 0)
    (hab : jlt a b = true) :
    jle (jadd (jmul b (num r)) (num 0)) (jadd (jmul a (num r)) (num 0))
      = true := by
  have hrne : ¬(r = 0) := ne_of_lt hr
  have hrnp : ¬(0 < r) := not_lt_of_gt hr
  cases a with
  | nan => simp [jlt] at hab
  | pinf => cases b <;> simp [jlt] at hab
  | ninf =>
    cases b with
    | nan => simp [jlt] at hab
    | ninf => simp [jlt] at hab
    | pinf => simp [jmul, jadd, jle, hrne, hrnp]
    | num q => simp [jmul, jadd, jle, hrne, hrnp]
  | num qa =>
    cases b with
    | nan => simp [jlt] at hab
    | ninf => simp [jlt] at hab
    | pinf => simp [jmul, jadd, jle, hrne, hrnp]
    | num qb =>
      simp only [jlt, decide_eq_true_eq] at hab
      simp only [jmul, jadd, jle, qadd_eq, qmul_eq, add_zero,
        decide_eq_true_eq]
      exact mul_le_mul_of_nonpos_right (le_of_lt hab) (le_of_lt hr)

/-- `validateData` rejects (with the data error) any list whose first two
entries fail to ascend. -/
theorem validateData_error_of_desc (y0 y1 : JsNum) (rest : List JsNum)
    (hle : jle y1 y0 = true)
    (hlen : (y0 :: y1 :: rest).length % 2 = 0) :
    Region1D.validateData (y0 :: y1 :: rest) = .error JsErr.dataError := by
  unfold Region1D.validateData
  rw [if_neg (by omega)]
  simp only [Region1D.validateData.validateLoop, hle, if_true, ite_true]
  rfl

/-- **C9**, amended: for a scale factor that is zero or negative (under JS
comparison, so NaN factors are outside this statement), `scale` fails
with a data error — *except* that a finite strictly negative factor
applied to the empty region succeeds and returns the empty region.  (All
operations are pure: the receiver itself is never modified.) -/
theorem c9_amended (A : Region1D.R1) (hA : Region1D.Valid1D A.arr)
    (s : JsNum) (hs : jle s (num 0) = true) :
    (A.arr = [] ∧ s ≠ num 0 ∧ s ≠ ninf →
        A.scale s = .ok Region1D.R1.empty)
      ∧ (¬(A.arr = [] ∧ s ≠ num 0 ∧ s ≠ ninf) →
        A.scale s = .error JsErr.dataError) := by
  cases s with
  | nan => simp [jle] at hs
  | pinf => simp [jle] at hs
  | ninf =>
    constructor
    · intro h
      exact absurd rfl h.2.2
    · intro _
      rfl
  | num r =>
    have hr : r ≤ 0 := by simpa [jle] using hs
    by_cases hr0 : r = 0
    · subst hr0
      constructor
      · intro h
        exact absurd rfl h.2.1
      · intro _
        rfl
    · have hrlt : r < 0 := lt_of_le_of_ne hr hr0
      have htd : Region1D.transformData A.arr (num r) (num 0)
          = .ok (A.arr.map fun x => jadd (jmul x (num r)) (num 0)) := by
        unfold Region1D.transformData
        rw [if_neg (by decide), if_neg (by simp [jlt, jeq, hr0])]
        rfl
      match harr : A.arr with
      | [] =>
        constructor
        · intro _
          unfold Region1D.R1.scale
          rw [harr] at htd
          rw [harr, htd]
          rfl
        · intro h
          exact absurd ⟨rfl, by simp [JsNum.num.injEq]; exact hr0,
            by simp⟩ h
      | [x] =>
        exfalso
        have := hA.1
        rw [harr] at this
        simp at this
      | x0 :: x1 :: rest =>
        have hx01 : jlt x0 x1 = true := by
          have := hA.2
          rw [harr] at this
          exact (List.chain'_cons.mp this).1
        have hdesc : jle (jadd (jmul x1 (num r)) (num 0))
            (jadd (jmul x0 (num r)) (num 0)) = true :=
          scale_neg_antitone x0 x1 r hrlt hx01
        have hlen : ((x0 :: x1 :: rest).map
            fun x => jadd (jmul x (num r)) (num 0)).length % 2 = 0 := by
          rw [List.length_map]
          have := hA.1
          rw [harr] at this
          exact this
        constructor
        · intro h
          exact absurd h.1 (by simp [harr])
        · intro _
          unfold Region1D.R1.scale
          rw [harr] at htd
          rw [harr, htd]
          have hvd := validateData_error_of_desc _ _
            (rest.map fun x => jadd (jmul x (num r)) (num 0)) hdesc
            (by simpa using hlen)
          show Region1D.newR1 _ = _
          unfold Region1D.newR1
          simp only [List.map_cons] at hvd
          simp [hvd, Except.bind]

/-- **C9**, witness for the amended theorem: scaling `[3,5)` by -1 is
rejected with the data error. -/
theorem c9_amended_witness :
    (Region1D.mkR1 [num 3, num 5]).scale (num (-1))
      = .error JsErr.dataError := by
  have h := c9_amended (Region1D.mkR1 [num 3, num 5]) (by decide)
    (num (-1)) (by decide)
  exact h.2 (by decide)

/-! ## 1-D sweep theory: validity and pointwise semantics of `combineData` -/

namespace Region1D

/-- No entry of the list is NaN. -/
def NoNaN (l : List JsNum) : Prop := ∀ x ∈ l, x ≠ nan

theorem noNaN_of_ascending {l : List JsNum} (h : Ascending l)
    (hlen : l.length ≠ 1) : NoNaN l := by
  induction l with
  | nil => intro x hx; cases hx
  | cons a rest ih =>
    cases rest with
    | nil => simp at hlen
    | cons b rest2 =>
      have hab : jlt a b = true := (List.chain'_cons.mp h).1
      have htail : Ascending (b :: rest2) := (List.chain'_cons.mp h).2
      intro x hx
      cases hx with
      | head => exact jlt_ne_nan_left hab
      | tail _ hx2 =>
        cases rest2 with
        | nil =>
          cases hx2 with
          | head => exact jlt_ne_nan_right hab
          | tail _ h3 => cases h3
        | cons c rest3 => exact ih htail (by simp) x hx2

theorem valid_noNaN {l : List JsNum} (h : Valid1D l) : NoNaN l := by
  apply noNaN_of_ascending h.2
  intro hlen
  have h1 := h.1
  omega

/-- Fuel irrelevance for the merged coordinate stream. -/
theorem mergeCoordsF_irrel :
    ∀ (f1 : ℕ) (f2 : ℕ) (a b : List JsNum) (p1 p2 : Bool),
      a.length + b.length ≤ f1 → a.length + b.length ≤ f2 →
      mergeCoordsF f1 a b p1 p2 = mergeCoordsF f2 a b p1 p2 := by
  intro f1
  induction f1 with
  | zero =>
    intro f2 a b p1 p2 h1 h2
    have ha : a = [] := List.length_eq_zero.mp (by omega)
    have hb : b = [] := List.length_eq_zero.mp (by omega)
    subst ha; subst hb
    cases f2 <;> rfl
  | succ f ih =>
    intro f2 a b p1 p2 h1 h2
    cases f2 with
    | zero =>
      have ha : a = [] := List.length_eq_zero.mp (by omega)
      have hb : b = [] := List.length_eq_zero.mp (by omega)
      subst ha; subst hb
      rfl
    | succ f2' =>
      match a, b with
      | [], [] => rfl
      | [], y :: b' =>
        simp only [mergeCoordsF, List.cons.injEq, true_and]
        exact ih f2' [] b' p1 (!p2) (by simp at h1 ⊢; omega)
          (by simp at h2 ⊢; omega)
      | x :: a', [] =>
        simp only [mergeCoordsF, List.cons.injEq, true_and]
        exact ih f2' a' [] (!p1) p2 (by simp at h1 ⊢; omega)
          (by simp at h2 ⊢; omega)
      | x :: a', y :: b' =>
        simp only [mergeCoordsF]
        split
        · simp only [List.cons.injEq, true_and]
          exact ih f2' a' (y :: b') (!p1) p2 (by simp at h1 ⊢; omega)
            (by simp at h2 ⊢; omega)
        · simp only [List.cons.injEq, true_and]
          exact ih f2' (x :: a') b' p1 (!p2) (by simp at h1 ⊢; omega)
            (by simp at h2 ⊢; omega)

/-- Defining equations of `mergeCoords`, free of the fuel parameter. -/
theorem mergeCoords_nil_nil (p1 p2 : Bool) :
    mergeCoords [] [] p1 p2 = [] := rfl

theorem mergeCoords_nil_cons (y : JsNum) (b : List JsNum) (p1 p2 : Bool) :
    mergeCoords [] (y :: b) p1 p2
      = ⟨y, kindOf p2, 2⟩ :: mergeCoords [] b p1 (!p2) := by
  unfold mergeCoords
  have h1 : ([] : List JsNum).length + (y :: b).length = b.length + 1 := by simp
  rw [h1]
  simp only [mergeCoordsF, List.cons.injEq, true_and]
  exact mergeCoordsF_irrel _ _ _ _ _ _ (by simp) (by simp)

theorem mergeCoords_cons_nil (x : JsNum) (a : List JsNum) (p1 p2 : Bool) :
    mergeCoords (x :: a) [] p1 p2
      = ⟨x, kindOf p1, 1⟩ :: mergeCoords a [] p1.not p2 := by
  unfold mergeCoords
  have h1 : (x :: a).length + ([] : List JsNum).length = a.length + 1 := by simp
  rw [h1]
  simp only [mergeCoordsF, List.cons.injEq, true_and]
  exact mergeCoordsF_irrel _ _ _ _ _ _ (by simp) (by simp)

theorem mergeCoords_cons_cons (x y : JsNum) (a b : List JsNum) (p1 p2 : Bool) :
    mergeCoords (x :: a) (y :: b) p1 p2
      = if jlt x y
        then ⟨x, kindOf p1, 1⟩ :: mergeCoords a (y :: b) p1.not p2
        else ⟨y, kindOf p2, 2⟩ :: mergeCoords (x :: a) b p1 p2.not := by
  unfold mergeCoords
  have h1 : (x :: a).length + (y :: b).length
      = (a.length + (y :: b).length) + 1 := by simp; omega
  rw [h1]
  simp only [mergeCoordsF]
  split
  · simp only [List.cons.injEq, true_and]
  · simp only [List.cons.injEq, true_and]
    exact mergeCoordsF_irrel _ _ _ _ _ _
      (by simp only [List.length_cons]; omega) (by simp)

/-- Fuel irrelevance for the sweep loop. -/
theorem sweepF_irrel (op : ℤ → ℤ → ℤ) :
    ∀ (f1 : ℕ) (f2 : ℕ) (l : List Coord) (d : ℤ × ℤ) (st : ℤ),
      l.length ≤ f1 → l.length ≤ f2 →
      sweepF op f1 l d st = sweepF op f2 l d st := by
  intro f1
  induction f1 with
  | zero =>
    intro f2 l d st h1 h2
    have hl : l = [] := List.length_eq_zero.mp (by omega)
    subst hl
    cases f2 <;> rfl
  | succ f ih =>
    intro f2 l d st h1 h2
    cases f2 with
    | zero =>
      have hl : l = [] := List.length_eq_zero.mp (by omega)
      subst hl
      rfl
    | succ f2' =>
      match l with
      | [] => rfl
      | c :: rest =>
        simp only [sweepF]
        have hr := takeSame_length_le c.x rest (applyCoord c d)
        split
        · simp only [List.cons.injEq, true_and]
          exact ih f2' _ _ _ (by simp at h1; omega) (by simp at h2; omega)
        · exact ih f2' _ _ _ (by simp at h1; omega) (by simp at h2; omega)

theorem sweep_nil (op : ℤ → ℤ → ℤ) (d : ℤ × ℤ) (st : ℤ) :
    sweep op [] d st = [] := rfl

theorem sweep_cons (op : ℤ → ℤ → ℤ) (c : Coord) (rest : List Coord)
    (d : ℤ × ℤ) (st : ℤ) :
    sweep op (c :: rest) d st
      = if op (takeSame c.x rest (applyCoord c d)).1.1
            (takeSame c.x rest (applyCoord c d)).1.2 ≠ st
        then c.x :: sweep op (takeSame c.x rest (applyCoord c d)).2
          (takeSame c.x rest (applyCoord c d)).1
          (op (takeSame c.x rest (applyCoord c d)).1.1
            (takeSame c.x rest (applyCoord c d)).1.2)
        else sweep op (takeSame c.x rest (applyCoord c d)).2
          (takeSame c.x rest (applyCoord c d)).1
          (op (takeSame c.x rest (applyCoord c d)).1.1
            (takeSame c.x rest (applyCoord c d)).1.2) := by
  unfold sweep
  have hr := takeSame_length_le c.x rest (applyCoord c d)
  simp only [List.length_cons, sweepF]
  split
  · simp only [List.cons.injEq, true_and]
    exact sweepF_irrel op _ _ _ _ _ (by omega) (by omega)
  · exact sweepF_irrel op _ _ _ _ _ (by omega) (by omega)

end Region1D

namespace Region1D

/-- Fold a run of coordinates onto the depth pair. -/
def applyAll (l : List Coord) (d : ℤ × ℤ) : ℤ × ℤ :=
  l.foldl (fun d c => applyCoord c d) d

theorem applyAll_nil (d : ℤ × ℤ) : applyAll [] d = d := rfl

theorem applyAll_cons (c : Coord) (l : List Coord) (d : ℤ × ℤ) :
    applyAll (c :: l) d = applyAll l (applyCoord c d) := rfl

/-- What `takeSame` consumes: a prefix of coordinates strictly equal to
`x`, folded onto the depths; the remainder's head (if any) differs. -/
theorem takeSame_spec (x : JsNum) :
    ∀ (l : List Coord) (d : ℤ × ℤ),
      ∃ pre, l = pre ++ (takeSame x l d).2
        ∧ (∀ c ∈ pre, jeq c.x x = true)
        ∧ (takeSame x l d).1 = applyAll pre d
        ∧ (∀ c, (takeSame x l d).2.head? = some c → jeq c.x x = false) := by
  intro l
  induction l with
  | nil =>
    intro d
    exact ⟨[], by simp [takeSame], by simp, by simp [takeSame, applyAll],
      by simp [takeSame]⟩
  | cons c rest ih =>
    intro d
    by_cases hc : jeq c.x x = true
    · obtain ⟨pre, hsplit, hall, happ, hhead⟩ := ih (applyCoord c d)
      refine ⟨c :: pre, ?_, ?_, ?_, ?_⟩
      · simp only [takeSame, hc, if_true, ite_true]
        rw [List.cons_append, ← hsplit]
      · intro e he
        cases he with
        | head => exact hc
        | tail _ h2 => exact hall e h2
      · simp only [takeSame, hc, if_true, ite_true]
        rw [happ, applyAll_cons]
      · intro e he
        simp only [takeSame, hc, if_true, ite_true] at he
        exact hhead e he
    · have hc2 : jeq c.x x = false := Bool.eq_false_iff.mpr hc
      refine ⟨[], ?_, by simp, ?_, ?_⟩
      · simp [takeSame, hc2]
      · simp [takeSame, hc2, applyAll]
      · intro e he
        simp only [takeSame, hc2, Bool.false_eq_true, if_false, ite_false,
          List.head?_cons, Option.some.injEq] at he
        rw [← he]
        exact hc2

/-- Tag a span list as the coordinates of one source, with alternating
begin/end kinds. -/
def tagKinds : List JsNum → Bool → ℕ → List Coord
  | [], _, _ => []
  | x :: rest, p, s => ⟨x, kindOf p, s⟩ :: tagKinds rest (!p) s

/-- Per-source projection of a coordinate list. -/
def srcOf (s : ℕ) (m : List Coord) : List Coord :=
  m.filter (fun c => c.src == s)

theorem srcOf_append (s : ℕ) (m1 m2 : List Coord) :
    srcOf s (m1 ++ m2) = srcOf s m1 ++ srcOf s m2 := by
  simp [srcOf, List.filter_append]

/-- The source-1 coordinates of the merged stream are exactly the tagged
first array (and symmetrically for source 2). -/
theorem mergeCoords_srcOf_1 :
    ∀ (a b : List JsNum) (p1 p2 : Bool),
      srcOf 1 (mergeCoords a b p1 p2) = tagKinds a p1 1 := by
  intro a
  induction a with
  | nil =>
    intro b
    induction b with
    | nil => intro p1 p2; rfl
    | cons y b' ihb =>
      intro p1 p2
      rw [mergeCoords_nil_cons, show srcOf 1 _ = _ from rfl]
      simp only [srcOf, List.filter_cons]
      norm_num
      exact ihb p1 (!p2)
  | cons x a' iha =>
    intro b
    induction b with
    | nil =>
      intro p1 p2
      rw [mergeCoords_cons_nil]
      simp only [srcOf, List.filter_cons]
      norm_num
      show _ :: srcOf 1 (mergeCoords a' [] (!p1) p2) = _
      rw [iha [] (!p1) p2]
      rfl
    | cons y b' ihb =>
      intro p1 p2
      rw [mergeCoords_cons_cons]
      split
      · simp only [srcOf, List.filter_cons]
        norm_num
        show _ :: srcOf 1 (mergeCoords a' (y :: b') (!p1) p2) = _
        rw [iha (y :: b') (!p1) p2]
        rfl
      · simp only [srcOf, List.filter_cons]
        norm_num
        exact ihb p1 (!p2)

theorem mergeCoords_srcOf_2 :
    ∀ (a b : List JsNum) (p1 p2 : Bool),
      srcOf 2 (mergeCoords a b p1 p2) = tagKinds b p2 2 := by
  intro a
  induction a with
  | nil =>
    intro b
    induction b with
    | nil => intro p1 p2; rfl
    | cons y b' ihb =>
      intro p1 p2
      rw [mergeCoords_nil_cons]
      simp only [srcOf, List.filter_cons]
      norm_num
      show _ :: srcOf 2 (mergeCoords [] b' p1 (!p2)) = _
      rw [ihb p1 (!p2)]
      rfl
  | cons x a' iha =>
    intro b
    induction b with
    | nil =>
      intro p1 p2
      rw [mergeCoords_cons_nil]
      simp only [srcOf, List.filter_cons]
      norm_num
      exact iha [] (!p1) p2
    | cons y b' ihb =>
      intro p1 p2
      rw [mergeCoords_cons_cons]
      split
      · simp only [srcOf, List.filter_cons]
        norm_num
        exact iha (y :: b') (!p1) p2
      · simp only [srcOf, List.filter_cons]
        norm_num
        show _ :: srcOf 2 (mergeCoords (x :: a') b' p1 (!p2)) = _
        rw [ihb p1 (!p2)]
        rfl

/-- Every merged coordinate has source 1 or 2 and carries a value from
one of the two arrays. -/
theorem mergeCoords_mem :
    ∀ (a b : List JsNum) (p1 p2 : Bool) (c : Coord),
      c ∈ mergeCoords a b p1 p2 →
      (c.src = 1 ∨ c.src = 2) ∧ (c.x ∈ a ∨ c.x ∈ b) := by
  intro a
  induction a with
  | nil =>
    intro b
    induction b with
    | nil => intro p1 p2 c hc; cases hc
    | cons y b' ihb =>
      intro p1 p2 c hc
      rw [mergeCoords_nil_cons] at hc
      cases hc with
      | head => exact ⟨Or.inr rfl, Or.inr (by simp)⟩
      | tail _ h2 =>
        obtain ⟨hs, hx⟩ := ihb p1 (!p2) c h2
        refine ⟨hs, ?_⟩
        rcases hx with h | h
        · cases h
        · exact Or.inr (List.mem_cons_of_mem y h)
  | cons x a' iha =>
    intro b
    induction b with
    | nil =>
      intro p1 p2 c hc
      rw [mergeCoords_cons_nil] at hc
      cases hc with
      | head => exact ⟨Or.inl rfl, Or.inl (by simp)⟩
      | tail _ h2 =>
        obtain ⟨hs, hx⟩ := iha [] (!p1) p2 c h2
        refine ⟨hs, ?_⟩
        rcases hx with h | h
        · exact Or.inl (List.mem_cons_of_mem x h)
        · cases h
    | cons y b' ihb =>
      intro p1 p2 c hc
      rw [mergeCoords_cons_cons] at hc
      split at hc
      · cases hc with
        | head => exact ⟨Or.inl rfl, Or.inl (by simp)⟩
        | tail _ h2 =>
          obtain ⟨hs, hx⟩ := iha (y :: b') (!p1) p2 c h2
          refine ⟨hs, ?_⟩
          rcases hx with h | h
          · exact Or.inl (List.mem_cons_of_mem x h)
          · exact Or.inr h
      · cases hc with
        | head => exact ⟨Or.inr rfl, Or.inr (by simp)⟩
        | tail _ h2 =>
          obtain ⟨hs, hx⟩ := ihb p1 (!p2) c h2
          refine ⟨hs, ?_⟩
          rcases hx with h | h
          · exact Or.inl h
          · exact Or.inr (List.mem_cons_of_mem y h)

end Region1D

namespace Region1D

/-- Weak x-sortedness relation on coordinates. -/
def jleX (c d : Coord) : Prop := jle c.x d.x = true

theorem jle_head_of_chain' {c : Coord} {l : List Coord}
    (h : List.Chain' jleX (c :: l)) : ∀ d ∈ l, jle c.x d.x = true := by
  induction l generalizing c with
  | nil => intro d hd; cases hd
  | cons e rest ih =>
    intro d hd
    have h1 : jle c.x e.x = true := (List.chain'_cons.mp h).1
    cases hd with
    | head => exact h1
    | tail _ h2 =>
      exact jle_trans h1 (ih (List.chain'_cons.mp h).2 d h2)

/-- The head of a merged stream is the head of one of the inputs. -/
theorem mergeCoords_head (a b : List JsNum) (p1 p2 : Bool) (c : Coord)
    (rest : List Coord) (h : mergeCoords a b p1 p2 = c :: rest) :
    a.head? = some c.x ∨ b.head? = some c.x := by
  match a, b with
  | [], [] => rw [mergeCoords_nil_nil] at h; cases h
  | [], y :: b' =>
    rw [mergeCoords_nil_cons] at h
    cases h
    exact Or.inr rfl
  | x :: a', [] =>
    rw [mergeCoords_cons_nil] at h
    cases h
    exact Or.inl rfl
  | x :: a', y :: b' =>
    rw [mergeCoords_cons_cons] at h
    split at h
    · cases h; exact Or.inl rfl
    · cases h; exact Or.inr rfl

/-- Merging two ascending NaN-free span lists yields a weakly sorted
coordinate stream. -/
theorem mergeCoords_sorted :
    ∀ (n : ℕ) (a b : List JsNum) (p1 p2 : Bool),
      a.length + b.length ≤ n →
      Ascending a → Ascending b → NoNaN a → NoNaN b →
      List.Chain' jleX (mergeCoords a b p1 p2) := by
  intro n
  induction n with
  | zero =>
    intro a b p1 p2 hn _ _ _ _
    have ha : a = [] := List.length_eq_zero.mp (by omega)
    have hb : b = [] := List.length_eq_zero.mp (by omega)
    subst ha; subst hb
    rw [mergeCoords_nil_nil]
    exact List.chain'_nil
  | succ n ih =>
    intro a b p1 p2 hn ha hb hna hnb
    match a, b with
    | [], [] =>
      rw [mergeCoords_nil_nil]
      exact List.chain'_nil
    | [], y :: b' =>
      rw [mergeCoords_nil_cons]
      rw [List.chain'_cons']
      constructor
      · intro d hd
        obtain ⟨c2, rest2, hm⟩ :
            ∃ c2 rest2, mergeCoords [] b' p1 (!p2) = c2 :: rest2 := by
          cases hm2 : mergeCoords [] b' p1 (!p2) with
          | nil => rw [hm2] at hd; cases hd
          | cons c2 rest2 => exact ⟨c2, rest2, rfl⟩
        rw [hm] at hd
        cases hd
        rcases mergeCoords_head _ _ _ _ _ _ hm with h | h
        · simp at h
        · show jle y d.x = true
          cases b' with
          | nil => simp at h
          | cons z b2 =>
            simp at h
            rw [← h]
            exact jle_of_jlt (List.chain'_cons.mp hb).1
      · exact ih [] b' p1 (!p2) (by simp at hn ⊢; omega)
          List.chain'_nil (by exact List.Chain'.tail hb)
          (fun x hx => by cases hx)
          (fun x hx => hnb x (List.mem_cons_of_mem y hx))
    | x :: a', [] =>
      rw [mergeCoords_cons_nil]
      rw [List.chain'_cons']
      constructor
      · intro d hd
        obtain ⟨c2, rest2, hm⟩ :
            ∃ c2 rest2, mergeCoords a' [] (!p1) p2 = c2 :: rest2 := by
          cases hm2 : mergeCoords a' [] (!p1) p2 with
          | nil => rw [hm2] at hd; cases hd
          | cons c2 rest2 => exact ⟨c2, rest2, rfl⟩
        rw [hm] at hd
        cases hd
        rcases mergeCoords_head _ _ _ _ _ _ hm with h | h
        · show jle x d.x = true
          cases a' with
          | nil => simp at h
          | cons z a2 =>
            simp at h
            rw [← h]
            exact jle_of_jlt (List.chain'_cons.mp ha).1
        · simp at h
      · exact ih a' [] (!p1) p2 (by simp at hn ⊢; omega)
          (by exact List.Chain'.tail ha) List.chain'_nil
          (fun z hz => hna z (List.mem_cons_of_mem x hz))
          (fun z hz => by cases hz)
    | x :: a', y :: b' =>
      rw [mergeCoords_cons_cons]
      have hxnan : x ≠ nan := hna x (by simp)
      have hynan : y ≠ nan := hnb y (by simp)
      split
      case isTrue hxy =>
        rw [List.chain'_cons']
        constructor
        · intro d hd
          obtain ⟨c2, rest2, hm⟩ :
              ∃ c2 rest2, mergeCoords a' (y :: b') (!p1) p2
                = c2 :: rest2 := by
            cases hm2 : mergeCoords a' (y :: b') (!p1) p2 with
            | nil => rw [hm2] at hd; cases hd
            | cons c2 rest2 => exact ⟨c2, rest2, rfl⟩
          rw [hm] at hd
          cases hd
          rcases mergeCoords_head _ _ _ _ _ _ hm with h | h
          · show jle x d.x = true
            cases a' with
            | nil => simp at h
            | cons z a2 =>
              simp at h
              rw [← h]
              exact jle_of_jlt (List.chain'_cons.mp ha).1
          · show jle x d.x = true
            simp at h
            rw [← h]
            exact jle_of_jlt hxy
        · exact ih a' (y :: b') (!p1) p2 (by simp at hn ⊢; omega)
            (by exact List.Chain'.tail ha) hb
            (fun z hz => hna z (List.mem_cons_of_mem x hz)) hnb
      case isFalse hxy =>
        rw [List.chain'_cons']
        constructor
        · intro d hd
          obtain ⟨c2, rest2, hm⟩ :
              ∃ c2 rest2, mergeCoords (x :: a') b' p1 (!p2)
                = c2 :: rest2 := by
            cases hm2 : mergeCoords (x :: a') b' p1 (!p2) with
            | nil => rw [hm2] at hd; cases hd
            | cons c2 rest2 => exact ⟨c2, rest2, rfl⟩
          rw [hm] at hd
          cases hd
          rcases mergeCoords_head _ _ _ _ _ _ hm with h | h
          · show jle y d.x = true
            simp at h
            rw [← h]
            exact jle_of_not_jlt hxnan hynan (Bool.eq_false_iff.mpr hxy)
          · show jle y d.x = true
            cases b' with
            | nil => simp at h
            | cons z b2 =>
              simp at h
              rw [← h]
              exact jle_of_jlt (List.chain'_cons.mp hb).1
        · exact ih (x :: a') b' p1 (!p2)
            (by simp at hn ⊢; omega) ha
            (by exact List.Chain'.tail hb) hna
            (fun z hz => hnb z (List.mem_cons_of_mem y hz))

end Region1D

namespace Region1D

/-- `bti`: a boolean depth as the integer 0 or 1. -/
def bti (b : Bool) : ℤ := if b then 1 else 0

theorem bti_inj {u v : Bool} (h : bti u = bti v) : u = v := by
  cases u <;> cases v <;> simp_all [bti]

/-- Alternation of span-kind sequences: starting at depth `b` (false = 0,
true = 1), the kinds alternate begin/end and end at depth 0. -/
inductive AltB : Bool → List ℤ → Prop
  | nil : AltB false []
  | consS {ks : List ℤ} : AltB true ks → AltB false (1 :: ks)
  | consE {ks : List ℤ} : AltB false ks → AltB true (-1 :: ks)

/-- Flip a boolean by the parity of a count. -/
def flipB (b : Bool) (n : ℕ) : Bool := xor b (decide (n % 2 = 1))

theorem flipB_zero (b : Bool) : flipB b 0 = b := by simp [flipB]

theorem flipB_add (b : Bool) (m n : ℕ) :
    flipB b (m + n) = flipB (flipB b m) n := by
  simp only [flipB]
  cases b <;> rcases Nat.even_or_odd m with hm | hm <;>
    rcases Nat.even_or_odd n with hn | hn <;>
    simp [Nat.even_iff.mp, Nat.odd_iff.mp] <;>
    simp_all [Nat.even_iff, Nat.odd_iff] <;> omega

/-- Splitting an alternating sequence: the prefix sums to the depth
change determined by its parity, and the suffix alternates from there. -/
theorem altB_split :
    ∀ (ks1 : List ℤ) (b : Bool) (ks2 : List ℤ),
      AltB b (ks1 ++ ks2) →
      bti b + ks1.sum = bti (flipB b ks1.length)
        ∧ AltB (flipB b ks1.length) ks2 := by
  intro ks1
  induction ks1 with
  | nil =>
    intro b ks2 h
    simp only [List.nil_append] at h
    simp [flipB, bti]
    exact h
  | cons k ks ih =>
    intro b ks2 h
    rw [List.cons_append] at h
    have hflip : ∀ b2 : Bool, flipB b2 (ks.length + 1)
        = flipB (!b2) ks.length := by
      intro b2
      rw [show ks.length + 1 = 1 + ks.length by omega, flipB_add]
      cases b2 <;> rfl
    cases h with
    | consS h2 =>
      obtain ⟨hsum, halt⟩ := ih true ks2 h2
      refine ⟨?_, ?_⟩
      · rw [List.sum_cons, List.length_cons, hflip false]
        simp only [Bool.not_false]
        rw [← hsum]
        simp [bti]
      · rw [List.length_cons, hflip false]
        simp only [Bool.not_false]
        exact halt
    | consE h2 =>
      obtain ⟨hsum, halt⟩ := ih false ks2 h2
      refine ⟨?_, ?_⟩
      · rw [List.sum_cons, List.length_cons, hflip true]
        simp only [Bool.not_true]
        rw [← hsum]
        simp [bti]
      · rw [List.length_cons, hflip true]
        simp only [Bool.not_true]
        exact halt

/-- A fully alternating sequence closes: its parity equals its start. -/
theorem altB_length (b : Bool) (ks : List ℤ) (h : AltB b ks) :
    flipB b ks.length = false := by
  have h2 := altB_split ks b [] (by simpa using h)
  rcases h2 with ⟨_, halt⟩
  cases halt2 : flipB b ks.length with
  | false => rfl
  | true => rw [halt2] at halt; cases halt

/-- The kinds of a tagged list alternate, provided the length parity
matches the starting parity flag. -/
theorem altB_tagKinds :
    ∀ (a : List JsNum) (s : ℕ),
      (a.length % 2 = 0 → AltB false ((tagKinds a false s).map Coord.kind))
        ∧ (a.length % 2 = 1 →
            AltB true ((tagKinds a true s).map Coord.kind)) := by
  intro a
  induction a with
  | nil =>
    intro s
    exact ⟨fun _ => AltB.nil, fun h => by simp at h⟩
  | cons x rest ih =>
    intro s
    constructor
    · intro hp
      show AltB false (kindOf false :: _)
      exact AltB.consS ((ih s).2 (by simp at hp; omega))
    · intro hp
      show AltB true (kindOf true :: _)
      exact AltB.consE ((ih s).1 (by simp at hp; omega))

/-- The values of a tagged list are exactly the original list. -/
theorem tagKinds_map_x :
    ∀ (a : List JsNum) (p : Bool) (s : ℕ),
      (tagKinds a p s).map Coord.x = a := by
  intro a
  induction a with
  | nil => intro p s; rfl
  | cons x rest ih =>
    intro p s
    show x :: (tagKinds rest (!p) s).map Coord.x = x :: rest
    rw [ih (!p) s]

theorem tagKinds_length (a : List JsNum) (p : Bool) (s : ℕ) :
    (tagKinds a p s).length = a.length := by
  have := tagKinds_map_x a p s
  calc (tagKinds a p s).length = ((tagKinds a p s).map Coord.x).length :=
        (List.length_map _ _).symm
    _ = a.length := by rw [this]

end Region1D

namespace Region1D

theorem jeq_comm (a b : JsNum) : jeq a b = jeq b a := by
  cases a <;> cases b <;> simp [jeq] <;> exact eq_comm

/-- Count of entries at or below a rational threshold. -/
def cntLe (l : List JsNum) (t : ℚ) : ℕ := l.countP (fun x => jle x (num t))

/-- Pointwise semantics of span data: a rational point is inside exactly
when an odd number of endpoints lie at or below it. -/
def sem1 (l : List JsNum) (t : ℚ) : Bool := decide (cntLe l t % 2 = 1)

/-- Count of one source's coordinates at or below a threshold. -/
def cntSrcLe (s : ℕ) (m : List Coord) (t : ℚ) : ℕ :=
  (srcOf s m).countP (fun c => jle c.x (num t))

theorem parity_add (a b : ℕ) :
    decide ((a + b) % 2 = 1)
      = xor (decide (a % 2 = 1)) (decide (b % 2 = 1)) := by
  rcases Nat.mod_two_eq_zero_or_one a with ha | ha <;>
    rcases Nat.mod_two_eq_zero_or_one b with hb | hb <;>
    simp [Nat.add_mod, ha, hb]

theorem decide_ne_bool (u v : Bool) : decide (u ≠ v) = xor u v := by
  cases u <;> cases v <;> decide

theorem xor_slide (x y z : Bool) : xor (xor y z) (xor x y) = xor x z := by
  cases x <;> cases y <;> cases z <;> decide

/-- `applyAll` in terms of the per-source kind sums. -/
theorem applyAll_sum :
    ∀ (l : List Coord) (d : ℤ × ℤ),
      (∀ c ∈ l, c.src = 1 ∨ c.src = 2) →
      applyAll l d
        = (d.1 + ((srcOf 1 l).map Coord.kind).sum,
           d.2 + ((srcOf 2 l).map Coord.kind).sum) := by
  intro l
  induction l with
  | nil =>
    intro d _
    simp [applyAll, srcOf]
  | cons c rest ih =>
    intro d hsrc
    rw [applyAll_cons, ih _ (fun e he => hsrc e (List.mem_cons_of_mem c he))]
    rcases hsrc c (by simp) with h1 | h2
    · have hne : ¬(c.src == 2) = true := by simp [h1]
      simp only [srcOf, List.filter_cons, h1]
      norm_num
      simp only [applyCoord, h1, if_true, ite_true, List.map_cons,
        List.sum_cons]
      exact ⟨by ring, trivial⟩
    · have hne : ¬(c.src == 1) = true := by simp [h2]
      simp only [srcOf, List.filter_cons, h2]
      norm_num
      simp only [applyCoord, h2]
      norm_num
      ring

end Region1D

namespace Region1D

theorem xor_emit (u v w : Bool) (h : u ≠ v) :
    xor (xor w u) true = xor w v := by
  cases u <;> cases v <;> cases w <;> simp_all

/-- The master lemma about the 1-D sweep loop: on a weakly sorted,
NaN-free, per-source alternating coordinate stream it produces a strictly
ascending list drawn from the stream's values, whose parity of
"endpoints at or below t" is the toggle, between the initial and current
depths, of the combined operator — i.e. exactly the membership function
of the combined region. -/
theorem sweep_master (op : ℤ → ℤ → ℤ) (opB : Bool → Bool → Bool)
    (hop : ∀ u v : Bool, op (bti u) (bti v) = bti (opB u v)) :
    ∀ (n : ℕ) (m : List Coord), m.length ≤ n →
    ∀ (b1 b2 : Bool),
      List.Chain' jleX m →
      (∀ c ∈ m, c.x ≠ nan) →
      (∀ c ∈ m, c.src = 1 ∨ c.src = 2) →
      AltB b1 ((srcOf 1 m).map Coord.kind) →
      AltB b2 ((srcOf 2 m).map Coord.kind) →
      List.Chain' (fun a b => jlt a b = true)
          (sweep op m (bti b1, bti b2) (bti (opB b1 b2)))
      ∧ (∀ y ∈ sweep op m (bti b1, bti b2) (bti (opB b1 b2)),
          ∃ c ∈ m, c.x = y)
      ∧ (∀ t : ℚ,
          decide (cntLe (sweep op m (bti b1, bti b2) (bti (opB b1 b2))) t
              % 2 = 1)
            = xor (opB (flipB b1 (cntSrcLe 1 m t))
                       (flipB b2 (cntSrcLe 2 m t)))
                  (opB b1 b2))
      ∧ (decide ((sweep op m (bti b1, bti b2) (bti (opB b1 b2))).length
              % 2 = 1)
            = xor (opB (flipB b1 (srcOf 1 m).length)
                       (flipB b2 (srcOf 2 m).length))
                  (opB b1 b2)) := by
  intro n
  induction n with
  | zero =>
    intro m hlen b1 b2 _ _ _ _ _
    have hm : m = [] := List.length_eq_zero.mp (by omega)
    subst hm
    refine ⟨List.chain'_nil, by simp [sweep_nil], ?_, ?_⟩
    · intro t
      simp [sweep_nil, cntLe, cntSrcLe, srcOf, flipB]
    · simp [sweep_nil, srcOf, flipB]
  | succ n ih =>
    intro m hlen b1 b2 hchain hnan hsrc halt1 halt2
    match m with
    | [] =>
      refine ⟨List.chain'_nil, by simp [sweep_nil], ?_, ?_⟩
      · intro t
        simp [sweep_nil, cntLe, cntSrcLe, srcOf, flipB]
      · simp [sweep_nil, srcOf, flipB]
    | c :: rest =>
      have hcnan : c.x ≠ nan := hnan c (by simp)
      obtain ⟨pre, hsplit, hprejeq, happ, hhead⟩ :=
        takeSame_spec c.x rest (applyCoord c (bti b1, bti b2))
      set r := takeSame c.x rest (applyCoord c (bti b1, bti b2)) with hrdef
      set g : List Coord := c :: pre with hgdef
      have hm : c :: rest = g ++ r.2 := by
        rw [hgdef, List.cons_append, ← hsplit]
      have hg_jeq : ∀ e ∈ g, jeq e.x c.x = true := by
        intro e he
        rw [hgdef] at he
        cases he with
        | head => exact jeq_refl hcnan
        | tail _ h2 => exact hprejeq e h2
      have hg_x : ∀ e ∈ g, e.x = c.x := fun e he => jeq_eq (hg_jeq e he)
      have hsub_g : ∀ e ∈ g, e ∈ c :: rest := by
        intro e he
        rw [hm]
        exact List.mem_append_left _ he
      have hsub_r : ∀ e ∈ r.2, e ∈ c :: rest := by
        intro e he
        rw [hm]
        exact List.mem_append_right _ he
      have hsrc_g : ∀ e ∈ g, e.src = 1 ∨ e.src = 2 :=
        fun e he => hsrc e (hsub_g e he)
      -- the combined depths after the whole group
      have happ_g : r.1 = applyAll g (bti b1, bti b2) := by
        rw [happ, hgdef, applyAll_cons]
      -- alternation split around the group
      have hsplit_src1 : srcOf 1 (c :: rest) = srcOf 1 g ++ srcOf 1 r.2 := by
        rw [hm, srcOf_append]
      have hsplit_src2 : srcOf 2 (c :: rest) = srcOf 2 g ++ srcOf 2 r.2 := by
        rw [hm, srcOf_append]
      rw [hsplit_src1, List.map_append] at halt1
      rw [hsplit_src2, List.map_append] at halt2
      obtain ⟨hsum1, halt1'⟩ := altB_split _ _ _ halt1
      obtain ⟨hsum2, halt2'⟩ := altB_split _ _ _ halt2
      rw [List.length_map] at hsum1 halt1'
      rw [List.length_map] at hsum2 halt2'
      set B1 := flipB b1 (srcOf 1 g).length with hB1
      set B2 := flipB b2 (srcOf 2 g).length with hB2
      have hr1 : r.1 = (bti B1, bti B2) := by
        rw [happ_g, applyAll_sum g _ hsrc_g]
        simp only [Prod.mk.injEq]
        exact ⟨hsum1, hsum2⟩
      -- everything remaining is strictly above the group's x
      have hgt : ∀ e ∈ r.2, jlt c.x e.x = true := by
        intro e he
        obtain ⟨h2, tail2, hr2⟩ : ∃ h2 tail2, r.2 = h2 :: tail2 := by
          cases hx : r.2 with
          | nil => rw [hx] at he; cases he
          | cons a b => exact ⟨a, b, rfl⟩
        have hne : jeq h2.x c.x = false := hhead h2 (by rw [hr2]; rfl)
        have hmem2 : h2 ∈ rest := by rw [hsplit, hr2]; simp
        have hlt1 : jlt c.x h2.x = true := by
          apply jlt_of_jle_ne (jle_head_of_chain' hchain h2 hmem2)
          rw [jeq_comm]
          exact hne
        rw [hr2] at he
        cases he with
        | head => exact hlt1
        | tail _ h5 =>
          -- e deeper in r.2: h2 ≤ e via the chain on r.2
          have hcg : List.Chain' jleX (g ++ r.2) := by rw [← hm]; exact hchain
          have hchain_r2 : List.Chain' jleX r.2 :=
            (List.chain'_append.mp hcg).2.1
          rw [hr2] at hchain_r2
          exact jlt_of_jlt_of_jle hlt1 (jle_head_of_chain' hchain_r2 e h5)
      -- apply the induction hypothesis to the remainder
      have hlen_r : r.2.length ≤ n := by
        have h1 : rest = pre ++ r.2 := hsplit
        have h2 : r.2.length ≤ rest.length := by
          rw [h1, List.length_append]; omega
        simp only [List.length_cons] at hlen
        omega
      have hchain_r : List.Chain' jleX r.2 := by
        have hc2 : List.Chain' jleX (g ++ r.2) := by rw [← hm]; exact hchain
        exact (List.chain'_append.mp hc2).2.1
      obtain ⟨ih_chain, ih_mem, ih_cnt, ih_len⟩ :=
        ih r.2 hlen_r B1 B2 hchain_r
          (fun e he => hnan e (hsub_r e he))
          (fun e he => hsrc e (hsub_r e he))
          halt1' halt2'
      -- name the tail sweep and rewrite the goal sweep into an `if`
      set E : List JsNum :=
        sweep op r.2 (bti B1, bti B2) (bti (opB B1 B2)) with hE
      have hsweep : sweep op (c :: rest) (bti b1, bti b2) (bti (opB b1 b2))
          = if opB B1 B2 ≠ opB b1 b2 then c.x :: E else E := by
        rw [sweep_cons, ← hrdef, hr1]
        simp only [hop B1 B2]
        by_cases hem : opB B1 B2 = opB b1 b2
        · rw [if_neg (by rw [hem]; simp), if_neg (by rw [hem]; simp)]
        · rw [if_pos (fun hco => hem (bti_inj hco)), if_pos hem]
      refine ⟨?_, ?_, ?_, ?_⟩
      · -- strict ascent
        rw [hsweep]
        split
        · rw [List.chain'_cons']
          refine ⟨?_, ih_chain⟩
          intro y hy
          obtain ⟨c2, hc2, hcx⟩ := ih_mem y (List.mem_of_mem_head? hy)
          rw [← hcx]
          exact hgt c2 hc2
        · exact ih_chain
      · -- membership
        rw [hsweep]
        intro y hy
        split at hy
        · cases hy with
          | head => exact ⟨c, by simp, rfl⟩
          | tail _ h2 =>
            obtain ⟨c2, hc2, hcx⟩ := ih_mem y h2
            exact ⟨c2, hsub_r c2 hc2, hcx⟩
        · obtain ⟨c2, hc2, hcx⟩ := ih_mem y hy
          exact ⟨c2, hsub_r c2 hc2, hcx⟩
      · -- the pointwise counting identity
        intro t
        by_cases hxt : jle c.x (num t) = true
        · -- the whole group is at or below t
          have hcnt : ∀ s : ℕ, cntSrcLe s (c :: rest) t
              = (srcOf s g).length + cntSrcLe s r.2 t := by
            intro s
            unfold cntSrcLe
            rw [show srcOf s (c :: rest) = srcOf s g ++ srcOf s r.2 from
              by rw [hm, srcOf_append]]
            rw [List.countP_append]
            congr 1
            rw [List.countP_eq_length]
            intro e he
            have heg : e ∈ g := List.mem_of_mem_filter he
            simp only [hg_x e heg]
            exact hxt
          have hflip : ∀ s b, flipB b (cntSrcLe s (c :: rest) t)
              = flipB (flipB b (srcOf s g).length) (cntSrcLe s r.2 t) := by
            intro s b
            rw [hcnt s, flipB_add]
          rw [hflip 1 b1, hflip 2 b2, ← hB1, ← hB2]
          rw [hsweep]
          split
          next hem =>
            have hc : cntLe (c.x :: E) t = cntLe E t + 1 := by
              unfold cntLe
              rw [List.countP_cons_of_pos _ _ (by exact hxt)]
            have h1 : decide ((1 : ℕ) % 2 = 1) = true := by decide
            rw [hc, parity_add, h1, ih_cnt t]
            exact xor_emit _ _ _ hem
          next hem =>
            push_neg at hem
            rw [ih_cnt t, hem]
        · -- t lies strictly below the group: every count is zero
          have hxtf : jle c.x (num t) = false := Bool.eq_false_iff.mpr hxt
          have hzero_m : ∀ s : ℕ, cntSrcLe s (c :: rest) t = 0 := by
            intro s
            unfold cntSrcLe
            rw [List.countP_eq_zero]
            intro e he
            have hem : e ∈ c :: rest := List.mem_of_mem_filter he
            rw [hm] at hem
            rcases List.mem_append.mp hem with hg2 | hr2
            · rw [hg_x e hg2]
              simp [hxtf]
            · intro hco
              have h1 : jlt c.x (num t) = true :=
                jlt_of_jlt_of_jle (hgt e hr2) hco
              rw [jle_of_jlt h1] at hxtf
              cases hxtf
          have hzeroE : cntLe E t = 0 := by
            unfold cntLe
            rw [List.countP_eq_zero]
            intro y hy
            obtain ⟨c2, hc2, hcx⟩ := ih_mem y hy
            intro hco
            have h1 : jlt c.x (num t) = true := by
              apply jlt_of_jlt_of_jle (hgt c2 hc2)
              rw [hcx]
              exact hco
            rw [jle_of_jlt h1] at hxtf
            cases hxtf
          rw [hzero_m 1, hzero_m 2, flipB_zero, flipB_zero, Bool.xor_self]
          rw [hsweep]
          split
          · unfold cntLe
            rw [List.countP_cons_of_neg _ _ (by simp [hxtf])]
            show decide (cntLe E t % 2 = 1) = false
            rw [hzeroE]
            decide
          · show decide (cntLe E t % 2 = 1) = false
            rw [hzeroE]
            decide
      · -- the length parity identity
        have hlen_split : ∀ s : ℕ, (srcOf s (c :: rest)).length
            = (srcOf s g).length + (srcOf s r.2).length := by
          intro s
          rw [hm, srcOf_append, List.length_append]
        rw [hlen_split 1, hlen_split 2, flipB_add, flipB_add, ← hB1, ← hB2]
        rw [hsweep]
        split
        next hem =>
          have h1 : decide ((1 : ℕ) % 2 = 1) = true := by decide
          rw [List.length_cons, parity_add, h1, ih_len]
          exact xor_emit _ _ _ hem
        next hem =>
          push_neg at hem
          rw [ih_len, hem]

end Region1D

namespace Region1D

/-- Counting sub-threshold coordinates of a tagged list is counting
sub-threshold values of the underlying list. -/
theorem countP_tagKinds (t : ℚ) :
    ∀ (a : List JsNum) (q : Bool) (s : ℕ),
      (tagKinds a q s).countP (fun c => jle c.x (num t)) = cntLe a t := by
  intro a
  induction a with
  | nil => intro q s; rfl
  | cons x rest ih =>
    intro q s
    simp only [tagKinds, cntLe, List.countP_cons]
    rw [ih (!q) s]
    rfl

/-- `combineData` master corollary: combining two valid span lists with an
operator whose 0/1 behaviour is the boolean table `opB` (with
`opB false false = false`) yields a valid span list whose pointwise
semantics is `opB` of the inputs' semantics. -/
theorem combineData_valid_sem (op : ℤ → ℤ → ℤ) (opB : Bool → Bool → Bool)
    (hop : ∀ u v : Bool, op (bti u) (bti v) = bti (opB u v))
    (hid : opB false false = false)
    (a b : List JsNum) (ha : Valid1D a) (hb : Valid1D b) :
    Valid1D (combineData a b op)
      ∧ ∀ t : ℚ, sem1 (combineData a b op) t = opB (sem1 a t) (sem1 b t) := by
  unfold combineData
  by_cases hemp : (a.isEmpty && b.isEmpty) = true
  · rw [if_pos hemp]
    obtain ⟨hea, heb⟩ := Bool.and_eq_true_iff.mp hemp
    have ha0 : a = [] := List.isEmpty_iff.mp hea
    have hb0 : b = [] := List.isEmpty_iff.mp heb
    subst ha0; subst hb0
    refine ⟨⟨rfl, List.chain'_nil⟩, ?_⟩
    intro t
    show sem1 [] t = opB (sem1 [] t) (sem1 [] t)
    rw [show sem1 ([] : List JsNum) t = false from rfl, hid]
  · rw [if_neg hemp]
    have hnanA : NoNaN a := noNaN_of_ascending ha.2 (by
      have := ha.1; omega)
    have hnanB : NoNaN b := noNaN_of_ascending hb.2 (by
      have := hb.1; omega)
    set m := mergeCoords a b false false with hmdef
    have hchain : List.Chain' jleX m :=
      mergeCoords_sorted (a.length + b.length) a b false false le_rfl
        ha.2 hb.2 hnanA hnanB
    have hnan : ∀ c ∈ m, c.x ≠ nan := by
      intro c hc
      rcases (mergeCoords_mem a b false false c hc).2 with hx | hx
      · exact hnanA c.x hx
      · exact hnanB c.x hx
    have hsrc : ∀ c ∈ m, c.src = 1 ∨ c.src = 2 :=
      fun c hc => (mergeCoords_mem a b false false c hc).1
    have hs1 : srcOf 1 m = tagKinds a false 1 := mergeCoords_srcOf_1 a b false false
    have hs2 : srcOf 2 m = tagKinds b false 2 := mergeCoords_srcOf_2 a b false false
    have halt1 : AltB false ((srcOf 1 m).map Coord.kind) := by
      rw [hs1]
      exact (altB_tagKinds a 1).1 ha.1
    have halt2 : AltB false ((srcOf 2 m).map Coord.kind) := by
      rw [hs2]
      exact (altB_tagKinds b 2).1 hb.1
    obtain ⟨hasc, _, hcnt, hlen⟩ :=
      sweep_master op opB hop m.length m le_rfl false false
        hchain hnan hsrc halt1 halt2
    have hstart : ((bti false : ℤ), (bti false : ℤ)) = ((0 : ℤ), (0 : ℤ)) := rfl
    have hst : bti (opB false false) = (0 : ℤ) := by rw [hid]; rfl
    rw [hstart, hst] at hasc hcnt hlen
    have hlen1 : (srcOf 1 m).length = a.length := by
      rw [hs1, tagKinds_length]
    have hlen2 : (srcOf 2 m).length = b.length := by
      rw [hs2, tagKinds_length]
    have hflipA : flipB false (srcOf 1 m).length = false := by
      rw [hlen1]
      simp [flipB, Nat.mod_two_ne_one.mpr ha.1]
    have hflipB : flipB false (srcOf 2 m).length = false := by
      rw [hlen2]
      simp [flipB, Nat.mod_two_ne_one.mpr hb.1]
    refine ⟨⟨?_, hasc⟩, ?_⟩
    · -- even length
      rw [hflipA, hflipB, hid] at hlen
      simp only [Bool.xor_false, hid] at hlen
      have h2 := Nat.mod_two_eq_zero_or_one
        (sweep op m (0, 0) 0).length
      rcases h2 with h2 | h2
      · exact h2
      · rw [h2] at hlen; simp at hlen
    · -- pointwise semantics
      intro t
      have hcnt1 : cntSrcLe 1 m t = cntLe a t := by
        unfold cntSrcLe
        rw [hs1, countP_tagKinds]
      have hcnt2 : cntSrcLe 2 m t = cntLe b t := by
        unfold cntSrcLe
        rw [hs2, countP_tagKinds]
      have := hcnt t
      rw [hcnt1, hcnt2, hid] at this
      unfold sem1
      rw [this]
      simp only [Bool.xor_false, flipB, Bool.false_xor]

/-- The four operator tables on 0/1 depths. -/
theorem unionOp_table : ∀ u v : Bool, unionOp (bti u) (bti v) = bti (u || v) := by
  decide

theorem intersectOp_table :
    ∀ u v : Bool, intersectOp (bti u) (bti v) = bti (u && v) := by
  decide

theorem xorOp_table : ∀ u v : Bool, xorOp (bti u) (bti v) = bti (xor u v) := by
  decide

theorem subtractOp_table :
    ∀ u v : Bool, subtractOp (bti u) (bti v) = bti (u && !v) := by
  decide

/-- Union of valid span lists: valid, with pointwise-or semantics. -/
theorem unionData_valid_sem (a b : List JsNum) (ha : Valid1D a)
    (hb : Valid1D b) :
    Valid1D (unionData a b)
      ∧ ∀ t : ℚ, sem1 (unionData a b) t = (sem1 a t || sem1 b t) :=
  combineData_valid_sem unionOp (fun u v => u || v) unionOp_table rfl a b ha hb

/-- Intersection of valid span lists: valid, with pointwise-and
semantics. -/
theorem intersectData_valid_sem (a b : List JsNum) (ha : Valid1D a)
    (hb : Valid1D b) :
    Valid1D (intersectData a b)
      ∧ ∀ t : ℚ, sem1 (intersectData a b) t = (sem1 a t && sem1 b t) :=
  combineData_valid_sem intersectOp (fun u v => u && v) intersectOp_table rfl
    a b ha hb

/-- Symmetric difference of valid span lists: valid, with pointwise-xor
semantics. -/
theorem xorData_valid_sem (a b : List JsNum) (ha : Valid1D a)
    (hb : Valid1D b) :
    Valid1D (xorData a b)
      ∧ ∀ t : ℚ, sem1 (xorData a b) t = xor (sem1 a t) (sem1 b t) :=
  combineData_valid_sem xorOp xor xorOp_table rfl a b ha hb

/-- Difference of valid span lists: valid, with pointwise and-not
semantics. -/
theorem subtractData_valid_sem (a b : List JsNum) (ha : Valid1D a)
    (hb : Valid1D b) :
    Valid1D (subtractData a b)
      ∧ ∀ t : ℚ, sem1 (subtractData a b) t = (sem1 a t && !sem1 b t) :=
  combineData_valid_sem subtractOp (fun u v => u && !v) subtractOp_table rfl
    a b ha hb

end Region1D

namespace Region1D

/-- A rational witness lying in the half-open gap `[x, y)` of two
JS-comparable values. -/
def btwn : JsNum → JsNum → ℚ
  | num q, _ => q
  | ninf, num r => r - 1
  | _, _ => 0

theorem btwn_spec {x y : JsNum} (h : jlt x y = true) :
    jle x (num (btwn x y)) = true ∧ jlt (num (btwn x y)) y = true := by
  cases x <;> cases y <;> simp_all [jlt, jle, btwn] <;> linarith

/-- In an ascending list everything after the head is strictly above it. -/
theorem asc_head_lt {y : JsNum} {l : List JsNum} (h : Ascending (y :: l)) :
    ∀ z ∈ l, jlt y z = true := by
  induction l generalizing y with
  | nil => intro z hz; cases hz
  | cons e rest ih =>
    intro z hz
    have h1 : jlt y e = true := (List.chain'_cons.mp h).1
    cases hz with
    | head => exact h1
    | tail _ h2 => exact jlt_trans h1 (ih (List.chain'_cons.mp h).2 z h2)

/-- If `t` is strictly below an ascending list's head it is strictly below
every element. -/
theorem lt_all_of_asc {y : JsNum} {l : List JsNum} {t : ℚ}
    (h : Ascending (y :: l)) (ht : jlt (num t) y = true) :
    ∀ z ∈ y :: l, jlt (num t) z = true := by
  intro z hz
  cases hz with
  | head => exact ht
  | tail _ h2 => exact jlt_trans ht (asc_head_lt h z h2)

/-- No element at or below `t` when all elements are strictly above it. -/
theorem cntLe_zero {l : List JsNum} {t : ℚ}
    (h : ∀ z ∈ l, jlt (num t) z = true) : cntLe l t = 0 := by
  unfold cntLe
  rw [List.countP_eq_zero]
  intro z hz hco
  have h2 : jlt (num t) (num t) = true := jlt_of_jlt_of_jle (h z hz) hco
  rw [jlt_irrefl] at h2
  cases h2

theorem cntLe_cons_pos {x : JsNum} {l : List JsNum} {t : ℚ}
    (h : jle x (num t) = true) : cntLe (x :: l) t = cntLe l t + 1 := by
  unfold cntLe
  rw [List.countP_cons_of_pos _ _ (by exact h)]

/-- An ascending list whose head is at or below `t` but whose remainder is
above it contains the point. -/
theorem sem1_one {x : JsNum} {l : List JsNum} {t : ℚ}
    (hx : jle x (num t) = true)
    (hl : ∀ z ∈ l, jlt (num t) z = true) :
    sem1 (x :: l) t = true := by
  unfold sem1
  rw [cntLe_cons_pos hx, cntLe_zero hl]
  decide

/-- A list entirely above `t` does not contain the point. -/
theorem sem1_zero {l : List JsNum} {t : ℚ}
    (h : ∀ z ∈ l, jlt (num t) z = true) : sem1 l t = false := by
  unfold sem1
  rw [cntLe_zero h]
  rfl

/-- Two elements at or below `t`, the rest above: the point is outside. -/
theorem sem1_two {x x2 : JsNum} {l : List JsNum} {t : ℚ}
    (hx : jle x (num t) = true) (hx2 : jle x2 (num t) = true)
    (hl : ∀ z ∈ l, jlt (num t) z = true) :
    sem1 (x :: x2 :: l) t = false := by
  unfold sem1
  rw [cntLe_cons_pos hx, cntLe_cons_pos hx2, cntLe_zero hl]
  decide

/-- If one valid list's head is strictly below another's, the two cannot
have the same pointwise semantics. -/
theorem head_lt_absurd {x x2 y : JsNum} {a2 b1 : List JsNum}
    (hA : Ascending (x :: x2 :: a2)) (hB : Ascending (y :: b1))
    (hxy : jlt x y = true)
    (hsem : ∀ t : ℚ, sem1 (x :: x2 :: a2) t = sem1 (y :: b1) t) : False := by
  have hx2 : jlt x x2 = true := (List.chain'_cons.mp hA).1
  have hnx : x ≠ nan := jlt_ne_nan_left hxy
  have hnx2 : x2 ≠ nan := jlt_ne_nan_right hx2
  have hny : y ≠ nan := jlt_ne_nan_right hxy
  -- pick t in [x, min(x2, y))
  obtain ⟨t, hxt, htx2, hty⟩ :
      ∃ t : ℚ, jle x (num t) = true ∧ jlt (num t) x2 = true
        ∧ jlt (num t) y = true := by
    by_cases hc : jlt x2 y = true
    · obtain ⟨h1, h2⟩ := btwn_spec hx2
      exact ⟨btwn x x2, h1, h2, jlt_trans h2 hc⟩
    · have hyx2 : jle y x2 = true :=
        jle_of_not_jlt hnx2 hny (Bool.eq_false_iff.mpr hc)
      obtain ⟨h1, h2⟩ := btwn_spec hxy
      exact ⟨btwn x y, h1, jlt_of_jlt_of_jle h2 hyx2, h2⟩
  have hTrue : sem1 (x :: x2 :: a2) t = true :=
    sem1_one hxt (lt_all_of_asc (List.chain'_cons.mp hA).2 htx2)
  have hFalse : sem1 (y :: b1) t = false :=
    sem1_zero (lt_all_of_asc hB hty)
  rw [hsem t, hFalse] at hTrue
  cases hTrue

/-- If two valid lists share a head but the second elements differ
strictly, the two cannot have the same pointwise semantics. -/
theorem second_lt_absurd {x x2 y2 : JsNum} {a2 b2 : List JsNum}
    (hA : Ascending (x :: x2 :: a2)) (hB : Ascending (x :: y2 :: b2))
    (hlt : jlt x2 y2 = true)
    (hsem : ∀ t : ℚ, sem1 (x :: x2 :: a2) t = sem1 (x :: y2 :: b2) t) :
    False := by
  have hx2 : jlt x x2 = true := (List.chain'_cons.mp hA).1
  have hnx2 : x2 ≠ nan := jlt_ne_nan_left hlt
  have hny2 : y2 ≠ nan := jlt_ne_nan_right hlt
  -- pick t in [x2, min(head a2, y2))
  obtain ⟨t, hx2t, hta2, hty2⟩ :
      ∃ t : ℚ, jle x2 (num t) = true
        ∧ (∀ z ∈ a2, jlt (num t) z = true)
        ∧ jlt (num t) y2 = true := by
    match a2, hA with
    | [], hA =>
      obtain ⟨h1, h2⟩ := btwn_spec hlt
      exact ⟨btwn x2 y2, h1, fun z hz => absurd hz (List.not_mem_nil z), h2⟩
    | x3 :: a3, hA =>
      have hx23 : jlt x2 x3 = true :=
        (List.chain'_cons.mp (List.chain'_cons.mp hA).2).1
      have hchain3 : Ascending (x3 :: a3) :=
        (List.chain'_cons.mp (List.chain'_cons.mp hA).2).2
      by_cases hc : jlt x3 y2 = true
      · obtain ⟨h1, h2⟩ := btwn_spec hx23
        exact ⟨btwn x2 x3, h1, lt_all_of_asc hchain3 h2,
          jlt_trans h2 hc⟩
      · have hyx3 : jle y2 x3 = true :=
          jle_of_not_jlt (jlt_ne_nan_right hx23) hny2
            (Bool.eq_false_iff.mpr hc)
        obtain ⟨h1, h2⟩ := btwn_spec hlt
        exact ⟨btwn x2 y2, h1,
          lt_all_of_asc hchain3 (jlt_of_jlt_of_jle h2 hyx3), h2⟩
  have hxt : jle x (num t) = true := jle_trans (jle_of_jlt hx2) hx2t
  have hFalse : sem1 (x :: x2 :: a2) t = false := sem1_two hxt hx2t hta2
  have hTrue : sem1 (x :: y2 :: b2) t = true :=
    sem1_one hxt (lt_all_of_asc (List.chain'_cons.mp hB).2 hty2)
  rw [hsem t, hTrue] at hFalse
  cases hFalse

end Region1D

namespace Region1D

theorem parity_flip (n : ℕ) :
    decide ((n + 1) % 2 = 1) = !(decide (n % 2 = 1)) := by
  rcases Nat.mod_two_eq_zero_or_one n with h | h <;> simp [Nat.add_mod, h]

/-- Membership in a span list factors through its first two endpoints. -/
theorem sem1_cons_cons (x x2 : JsNum) (l : List JsNum) (t : ℚ) :
    sem1 (x :: x2 :: l) t
      = xor (xor (jle x (num t)) (jle x2 (num t))) (sem1 l t) := by
  unfold sem1 cntLe
  simp only [List.countP_cons]
  cases hx : jle x (num t) <;> cases hx2 : jle x2 (num t) <;>
    simp [hx, hx2, parity_flip, Bool.not_not]

theorem xor_cancel_left {k u v : Bool} (h : xor k u = xor k v) : u = v := by
  cases k <;> simp_all

/-- Canonicity of valid 1-D span data: two valid span lists containing
exactly the same rational points are equal. -/
theorem sem1_canon :
    ∀ (n : ℕ) (a b : List JsNum), a.length + b.length ≤ n →
      Valid1D a → Valid1D b → (∀ t : ℚ, sem1 a t = sem1 b t) → a = b := by
  intro n
  induction n with
  | zero =>
    intro a b hlen _ _ _
    have ha0 : a = [] := List.length_eq_zero.mp (by omega)
    have hb0 : b = [] := List.length_eq_zero.mp (by omega)
    rw [ha0, hb0]
  | succ n ih =>
    intro a b hlen ha hb hsem
    cases a with
    | nil =>
      cases b with
      | nil => rfl
      | cons y b1 =>
        exfalso
        obtain ⟨y2, b2, rfl⟩ : ∃ u v, b1 = u :: v := by
          cases b1 with
          | nil => have h := hb.1; simp at h
          | cons u v => exact ⟨u, v, rfl⟩
        have hyy2 : jlt y y2 = true := (List.chain'_cons.mp hb.2).1
        obtain ⟨h1, h2⟩ := btwn_spec hyy2
        have hT : sem1 (y :: y2 :: b2) (btwn y y2) = true :=
          sem1_one h1 (lt_all_of_asc (List.chain'_cons.mp hb.2).2 h2)
        have hF := hsem (btwn y y2)
        rw [hT] at hF
        rw [show sem1 [] (btwn y y2) = false from rfl] at hF
        cases hF
    | cons x a1 =>
      cases b with
      | nil =>
        exfalso
        obtain ⟨x2, a2, rfl⟩ : ∃ u v, a1 = u :: v := by
          cases a1 with
          | nil => have h := ha.1; simp at h
          | cons u v => exact ⟨u, v, rfl⟩
        have hxx2 : jlt x x2 = true := (List.chain'_cons.mp ha.2).1
        obtain ⟨h1, h2⟩ := btwn_spec hxx2
        have hT : sem1 (x :: x2 :: a2) (btwn x x2) = true :=
          sem1_one h1 (lt_all_of_asc (List.chain'_cons.mp ha.2).2 h2)
        have hF := hsem (btwn x x2)
        rw [hT] at hF
        rw [show sem1 [] (btwn x x2) = false from rfl] at hF
        cases hF
      | cons y b1 =>
        obtain ⟨x2, a2, rfl⟩ : ∃ u v, a1 = u :: v := by
          cases a1 with
          | nil => have h := ha.1; simp at h
          | cons u v => exact ⟨u, v, rfl⟩
        obtain ⟨y2, b2, rfl⟩ : ∃ u v, b1 = u :: v := by
          cases b1 with
          | nil => have h := hb.1; simp at h
          | cons u v => exact ⟨u, v, rfl⟩
        have hA : Ascending (x :: x2 :: a2) := ha.2
        have hB : Ascending (y :: y2 :: b2) := hb.2
        have hxx2 : jlt x x2 = true := (List.chain'_cons.mp hA).1
        have hyy2 : jlt y y2 = true := (List.chain'_cons.mp hB).1
        have hnx : x ≠ nan := jlt_ne_nan_left hxx2
        have hny : y ≠ nan := jlt_ne_nan_left hyy2
        -- the heads agree
        have hxy : x = y := by
          by_cases h1 : jlt x y = true
          · exact absurd hsem (fun hs => head_lt_absurd hA hB h1 hs)
          · by_cases h2 : jlt y x = true
            · exact absurd (fun t => (hsem t).symm)
                (fun hs => head_lt_absurd hB hA h2 hs)
            · exact jeq_eq (jeq_of_not_jlt hnx hny
                (Bool.eq_false_iff.mpr h1) (Bool.eq_false_iff.mpr h2))
        subst hxy
        -- the second endpoints agree
        have hx2y2 : x2 = y2 := by
          by_cases h1 : jlt x2 y2 = true
          · exact absurd hsem (fun hs => second_lt_absurd hA hB h1 hs)
          · by_cases h2 : jlt y2 x2 = true
            · exact absurd (fun t => (hsem t).symm)
                (fun hs => second_lt_absurd hB hA h2 hs)
            · exact jeq_eq (jeq_of_not_jlt (jlt_ne_nan_right hxx2)
                (jlt_ne_nan_right hyy2)
                (Bool.eq_false_iff.mpr h1) (Bool.eq_false_iff.mpr h2))
        subst hx2y2
        -- the tails agree by induction
        have hsem2 : ∀ t : ℚ, sem1 a2 t = sem1 b2 t := by
          intro t
          apply xor_cancel_left (k := xor (jle x (num t)) (jle x2 (num t)))
          rw [← sem1_cons_cons, ← sem1_cons_cons]
          exact hsem t
        have hva : Valid1D a2 := by
          refine ⟨?_, hA.tail.tail⟩
          have h := ha.1
          simp only [List.length_cons] at h
          omega
        have hvb : Valid1D b2 := by
          refine ⟨?_, hB.tail.tail⟩
          have h := hb.1
          simp only [List.length_cons] at h
          omega
        have hlen2 : a2.length + b2.length ≤ n := by
          simp only [List.length_cons] at hlen
          omega
        rw [ih a2 b2 hlen2 hva hvb hsem2]

end Region1D

namespace Region2D

open Region1D

theorem jmax_lt {a b c : JsNum} (ha : a ≠ nan) (hb : b ≠ nan)
    (h1 : jlt a c = true) (h2 : jlt b c = true) : jlt (jmax a b) c = true := by
  rcases jmax_cases ha hb with h | h <;> rw [h] <;> assumption

/-- A well-formed band: a valid, non-empty row set and a non-degenerate
Y-range. -/
def ValidRow (r : Row) : Prop :=
  ValidR1 r.region ∧ r.region.arr ≠ [] ∧ jlt r.minY r.maxY = true

/-- The between-band invariant: bands do not overlap, and two touching
bands never carry the same row set. -/
def RowChain (r1 r2 : Row) : Prop :=
  jle r1.maxY r2.minY = true
    ∧ (jeq r1.maxY r2.minY = true → r1.region.arr ≠ r2.region.arr)

/-- A well-formed band list. -/
def ValidRows (rows : List Row) : Prop :=
  (∀ r ∈ rows, ValidRow r) ∧ List.Chain' RowChain rows

/-- The spec's Region2D band invariants (the publicly observable part of
`ValidRows`): each band non-empty with `minY < maxY`, bands ordered and
non-overlapping, and Y-adjacent bands carrying different row sets. -/
def BandInvariants (rows : List Row) : Prop :=
  (∀ r ∈ rows, r.region.arr ≠ [] ∧ jlt r.minY r.maxY = true)
    ∧ List.Chain' RowChain rows

/-- Does the band contain the horizontal line at height `y`? -/
def rowContains (r : Row) (y : ℚ) : Bool :=
  jle r.minY (num y) && jlt (num y) r.maxY

/-- The row set active at height `y`, scanning from band index `i` on:
the region of the first band containing `y`, or the empty region. -/
def activeRow (rows : List Row) (i : ℕ) (y : ℚ) : R1 :=
  match (rows.drop i).find? (fun r => rowContains r y) with
  | some r => r.region
  | none => R1.empty

/-- Scanning from past the end finds nothing. -/
theorem activeRow_past (rows : List Row) (i : ℕ) (y : ℚ)
    (h : rows.length ≤ i) : activeRow rows i y = R1.empty := by
  unfold activeRow
  rw [List.drop_eq_nil_of_le h]
  rfl

/-- If the band at the cursor contains `y`, it is the active band. -/
theorem activeRow_here (rows : List Row) (i : ℕ) (y : ℚ)
    (h : i < rows.length) (hc : rowContains (rows.get ⟨i, h⟩) y = true) :
    activeRow rows i y = (rows.get ⟨i, h⟩).region := by
  unfold activeRow
  rw [List.drop_eq_getElem_cons h]
  rw [List.find?_cons_of_pos _ (by exact hc)]
  rfl

/-- A band wholly at or below `y` can be skipped. -/
theorem activeRow_skip (rows : List Row) (i : ℕ) (y : ℚ)
    (h : i < rows.length)
    (hy : jle (rows.get ⟨i, h⟩).maxY (num y) = true) :
    activeRow rows (i + 1) y = activeRow rows i y := by
  unfold activeRow
  rw [List.drop_eq_getElem_cons h]
  rw [List.find?_cons_of_neg _ ?_]
  simp only [rowContains, Bool.and_eq_true, not_and]
  intro _
  intro hco
  have h2 : jlt (num y) (num y) = true := jlt_of_jlt_of_jle hco hy
  rw [jlt_irrefl] at h2
  cases h2

/-- No band of a valid suffix contains a height strictly below the first
band's top. -/
theorem find_none_of_below (y : ℚ) :
    ∀ (l : List Row), (∀ r ∈ l, jlt r.minY r.maxY = true) →
      List.Chain' RowChain l →
      (∀ hd, l.head? = some hd → jlt (num y) hd.minY = true) →
      l.find? (fun r => rowContains r y) = none := by
  intro l
  induction l with
  | nil => intro _ _ _; rfl
  | cons hd tl ih =>
    intro hv hc hy
    have hyhd : jlt (num y) hd.minY = true := hy hd rfl
    rw [List.find?_cons_of_neg _ ?_]
    · apply ih (fun r hr => hv r (List.mem_cons_of_mem _ hr)) hc.tail
      intro hd2 hhd2
      cases tl with
      | nil => simp at hhd2
      | cons h2 t2 =>
        simp only [List.head?_cons, Option.some.injEq] at hhd2
        cases hhd2
        have hch : RowChain hd hd2 := (List.chain'_cons.mp hc).1
        have h1 : jlt (num y) hd.maxY = true :=
          jlt_trans hyhd (hv hd (by simp))
        exact jlt_of_jlt_of_jle h1 hch.1
    · simp only [rowContains, Bool.and_eq_true, not_and]
      intro hco _
      have h2 : jlt hd.minY hd.minY = true := jlt_of_jle_of_jlt hco hyhd
      rw [jlt_irrefl] at h2
      cases h2

/-- Nothing is active strictly below the cursor band's top. -/
theorem activeRow_below (rows : List Row) (i : ℕ) (y : ℚ)
    (hv : ∀ r ∈ rows, jlt r.minY r.maxY = true)
    (hc : List.Chain' RowChain rows)
    (h : i < rows.length)
    (hy : jlt (num y) (rows.get ⟨i, h⟩).minY = true) :
    activeRow rows i y = R1.empty := by
  unfold activeRow
  rw [find_none_of_below y (rows.drop i)
    (fun r hr => hv r (List.mem_of_mem_drop hr)) (hc.drop i) ?_]
  intro hd hhd
  rw [List.drop_eq_getElem_cons h] at hhd
  simp only [List.head?_cons, Option.some.injEq] at hhd
  subst hhd
  exact hy

end Region2D

namespace Region2D

open Region1D

/-- The generator-state invariant: cursors in range, `lastY` a number, and
`lastY` strictly below the top cursor rows' bottoms. -/
def GInv (rows1 rows2 : List Row) (s : GenState) : Prop :=
  s.i1 ≤ rows1.length ∧ s.i2 ≤ rows2.length ∧ s.lastY ≠ nan
    ∧ (∀ h : s.i1 < rows1.length,
        jlt s.lastY (rows1.get ⟨s.i1, h⟩).maxY = true)
    ∧ (∀ h : s.i2 < rows2.length,
        jlt s.lastY (rows2.get ⟨s.i2, h⟩).maxY = true)

/-- Ordering between successive generated pairs. -/
def pairLe (p q : Pair) : Prop := jle p.maxY q.minY = true

/-- The pair of row sets selected by the generated stream at height `y`. -/
def pairAt (P : List Pair) (y : ℚ) : R1 × R1 :=
  match P.find? (fun p => jle p.minY (num y) && jlt (num y) p.maxY) with
  | some p => (p.row1, p.row2)
  | none => (R1.empty, R1.empty)

theorem pairAt_nil (y : ℚ) : pairAt [] y = (R1.empty, R1.empty) := rfl

/-- A height strictly below the (lifted) top of the cursor band and at or
above `lastY` is inside the gap: no band contains it. -/
theorem activeEmptyGap (rows : List Row) (i : ℕ) (y : ℚ) (lastY : JsNum)
    (hv : ∀ r ∈ rows, jlt r.minY r.maxY = true)
    (hc : List.Chain' RowChain rows)
    (h : i < rows.length) (hnan : lastY ≠ nan)
    (hy1 : jle lastY (num y) = true)
    (hy2 : jlt (num y) (jmax (rows.get ⟨i, h⟩).minY lastY) = true) :
    activeRow rows i y = R1.empty := by
  have hm : (rows.get ⟨i, h⟩).minY ≠ nan := by
    have := hv _ (rows.get_mem i h)
    exact jlt_ne_nan_left this
  rcases jmax_cases hm hnan with hj | hj
  · rw [hj] at hy2
    exact activeRow_below rows i y hv hc h hy2
  · rw [hj] at hy2
    have h2 : jlt lastY lastY = true := jlt_of_jle_of_jlt hy1 hy2
    rw [jlt_irrefl] at h2
    cases h2

/-- A height in `[jmax(minY, lastY), m)` with `m ≤ maxY` lies inside the
cursor band. -/
theorem activeHereRange (rows : List Row) (i : ℕ) (y : ℚ) (lastY m : JsNum)
    (h : i < rows.length) (hnan : lastY ≠ nan)
    (hminY : (rows.get ⟨i, h⟩).minY ≠ nan)
    (hy1 : jle (jmax (rows.get ⟨i, h⟩).minY lastY) (num y) = true)
    (hy2 : jlt (num y) m = true)
    (hm : jle m (rows.get ⟨i, h⟩).maxY = true) :
    activeRow rows i y = (rows.get ⟨i, h⟩).region := by
  apply activeRow_here
  unfold rowContains
  rw [Bool.and_eq_true]
  constructor
  · exact jle_trans (jle_jmax_left hminY hnan) hy1
  · exact jlt_of_jlt_of_jle hy2 hm

end Region2D

namespace Region2D

open Region1D

theorem jlt_of_not_jle {a b : JsNum} (ha : a ≠ nan) (hb : b ≠ nan)
    (h : jle a b = false) : jlt b a = true := by
  cases a <;> cases b <;> simp_all [jlt, jle] <;> linarith

/-- `genStep` when the first band list is exhausted but not the second. -/
theorem genStep_eq_A {rows1 rows2 : List Row} {s : GenState}
    (h1 : rows1.length ≤ s.i1) (h2 : s.i2 < rows2.length) :
    genStep rows1 rows2 s
      = some (⟨R1.empty, (rows2.get ⟨s.i2, h2⟩).region,
          jmax (rows2.get ⟨s.i2, h2⟩).minY s.lastY,
          (rows2.get ⟨s.i2, h2⟩).maxY⟩,
        ⟨s.i1, s.i2 + 1, (rows2.get ⟨s.i2, h2⟩).maxY⟩) := by
  unfold genStep
  rw [dif_pos (by omega : s.i1 ≥ rows1.length),
    if_neg (by omega : ¬ s.i2 ≥ rows2.length)]
  rw [List.getD_eq_getElem rows2 _ h2]
  rfl

/-- `genStep` when the second band list is exhausted but not the first. -/
theorem genStep_eq_B {rows1 rows2 : List Row} {s : GenState}
    (h1 : s.i1 < rows1.length) (h2 : rows2.length ≤ s.i2) :
    genStep rows1 rows2 s
      = some (⟨(rows1.get ⟨s.i1, h1⟩).region, R1.empty,
          jmax (rows1.get ⟨s.i1, h1⟩).minY s.lastY,
          (rows1.get ⟨s.i1, h1⟩).maxY⟩,
        ⟨s.i1 + 1, s.i2, (rows1.get ⟨s.i1, h1⟩).maxY⟩) := by
  unfold genStep
  rw [dif_neg (by omega : ¬ s.i1 ≥ rows1.length),
    dif_pos (by omega : s.i2 ≥ rows2.length)]
  rw [List.getD_eq_getElem rows1 _ h1]
  rfl

/-- `genStep` when both band lists still have rows: the full decision
tree, with the cursor rows spelled out. -/
theorem genStep_eq_main {rows1 rows2 : List Row} {s : GenState}
    (h1 : s.i1 < rows1.length) (h2 : s.i2 < rows2.length) :
    genStep rows1 rows2 s
      = (if jeq (jmax (rows1.get ⟨s.i1, h1⟩).minY s.lastY)
              (jmax (rows2.get ⟨s.i2, h2⟩).minY s.lastY) then
          if jlt (rows2.get ⟨s.i2, h2⟩).maxY
              (rows1.get ⟨s.i1, h1⟩).maxY then
            some (⟨(rows1.get ⟨s.i1, h1⟩).region,
                (rows2.get ⟨s.i2, h2⟩).region,
                jmax (rows1.get ⟨s.i1, h1⟩).minY s.lastY,
                (rows2.get ⟨s.i2, h2⟩).maxY⟩,
              ⟨s.i1, s.i2 + 1, (rows2.get ⟨s.i2, h2⟩).maxY⟩)
          else if jeq (rows2.get ⟨s.i2, h2⟩).maxY
              (rows1.get ⟨s.i1, h1⟩).maxY then
            some (⟨(rows1.get ⟨s.i1, h1⟩).region,
                (rows2.get ⟨s.i2, h2⟩).region,
                jmax (rows1.get ⟨s.i1, h1⟩).minY s.lastY,
                (rows1.get ⟨s.i1, h1⟩).maxY⟩,
              ⟨s.i1 + 1, s.i2 + 1, (rows1.get ⟨s.i1, h1⟩).maxY⟩)
          else
            some (⟨(rows1.get ⟨s.i1, h1⟩).region,
                (rows2.get ⟨s.i2, h2⟩).region,
                jmax (rows1.get ⟨s.i1, h1⟩).minY s.lastY,
                (rows1.get ⟨s.i1, h1⟩).maxY⟩,
              ⟨s.i1 + 1, s.i2, (rows1.get ⟨s.i1, h1⟩).maxY⟩)
        else if jlt (jmax (rows1.get ⟨s.i1, h1⟩).minY s.lastY)
            (jmax (rows2.get ⟨s.i2, h2⟩).minY s.lastY) then
          if jle (rows1.get ⟨s.i1, h1⟩).maxY
              (jmax (rows2.get ⟨s.i2, h2⟩).minY s.lastY) then
            some (⟨(rows1.get ⟨s.i1, h1⟩).region, R1.empty,
                jmax (rows1.get ⟨s.i1, h1⟩).minY s.lastY,
                (rows1.get ⟨s.i1, h1⟩).maxY⟩,
              ⟨s.i1 + 1, s.i2, (rows1.get ⟨s.i1, h1⟩).maxY⟩)
          else
            some (⟨(rows1.get ⟨s.i1, h1⟩).region, R1.empty,
                jmax (rows1.get ⟨s.i1, h1⟩).minY s.lastY,
                jmax (rows2.get ⟨s.i2, h2⟩).minY s.lastY⟩,
              ⟨s.i1, s.i2, jmax (rows2.get ⟨s.i2, h2⟩).minY s.lastY⟩)
        else
          if jle (rows2.get ⟨s.i2, h2⟩).maxY
              (jmax (rows1.get ⟨s.i1, h1⟩).minY s.lastY) then
            some (⟨R1.empty, (rows2.get ⟨s.i2, h2⟩).region,
                jmax (rows2.get ⟨s.i2, h2⟩).minY s.lastY,
                (rows2.get ⟨s.i2, h2⟩).maxY⟩,
              ⟨s.i1, s.i2 + 1, (rows2.get ⟨s.i2, h2⟩).maxY⟩)
          else
            some (⟨R1.empty, (rows2.get ⟨s.i2, h2⟩).region,
                jmax (rows2.get ⟨s.i2, h2⟩).minY s.lastY,
                jmax (rows1.get ⟨s.i1, h1⟩).minY s.lastY⟩,
              ⟨s.i1, s.i2, jmax (rows1.get ⟨s.i1, h1⟩).minY s.lastY⟩)) := by
  unfold genStep
  rw [dif_neg (by omega : ¬ s.i1 ≥ rows1.length),
    dif_neg (by omega : ¬ s.i2 ≥ rows2.length)]
  rw [List.getD_eq_getElem rows1 _ h1, List.getD_eq_getElem rows2 _ h2]
  rfl

end Region2D

namespace Region2D

open Region1D

/-- Successive bands have strictly increasing bottoms. -/
theorem next_maxY_lt (rows : List Row) (hv : ValidRows rows) (i : ℕ)
    (h : i + 1 < rows.length) :
    jlt (rows.get ⟨i, by omega⟩).maxY (rows.get ⟨i + 1, h⟩).maxY = true := by
  have hch : RowChain (rows.get ⟨i, by omega⟩) (rows.get ⟨i + 1, h⟩) :=
    List.chain'_iff_get.mp hv.2 i (by omega)
  have hvr := hv.1 _ (rows.get_mem (i + 1) h)
  exact jlt_of_jle_of_jlt hch.1 hvr.2.2

/-- The one-step contract of the row-pair generator on valid inputs:
`none` only at exhaustion; otherwise the invariant is maintained and the
emitted pair is well-formed, placed above `lastY`, sourced from the
inputs, makes progress, and agrees with the active bands over its range
while leaving heights above the new `lastY` untouched. -/
theorem genStep_spec (rows1 rows2 : List Row)
    (hv1 : ValidRows rows1) (hv2 : ValidRows rows2)
    (s : GenState) (hinv : GInv rows1 rows2 s) :
    (genStep rows1 rows2 s = none →
      rows1.length ≤ s.i1 ∧ rows2.length ≤ s.i2)
    ∧ (∀ p s', genStep rows1 rows2 s = some (p, s') →
        GInv rows1 rows2 s'
        ∧ jle s.lastY p.minY = true
        ∧ jlt p.minY p.maxY = true
        ∧ p.maxY = s'.lastY
        ∧ (p.row1 = R1.empty ∨ ∃ r ∈ rows1, p.row1 = r.region)
        ∧ (p.row2 = R1.empty ∨ ∃ r ∈ rows2, p.row2 = r.region)
        ∧ (s.i1 + s.i2 < s'.i1 + s'.i2
            ∨ (s'.i1 = s.i1 ∧ s'.i2 = s.i2
                ∧ ∀ q s'', genStep rows1 rows2 s' = some (q, s'') →
                    s'.i1 + s'.i2 < s''.i1 + s''.i2))
        ∧ (∀ y : ℚ, jle s.lastY (num y) = true →
            jlt (num y) p.minY = true →
            activeRow rows1 s.i1 y = R1.empty
              ∧ activeRow rows2 s.i2 y = R1.empty)
        ∧ (∀ y : ℚ, jle p.minY (num y) = true →
            jlt (num y) p.maxY = true →
            activeRow rows1 s.i1 y = p.row1
              ∧ activeRow rows2 s.i2 y = p.row2)
        ∧ (∀ y : ℚ, jle s'.lastY (num y) = true →
            activeRow rows1 s'.i1 y = activeRow rows1 s.i1 y
              ∧ activeRow rows2 s'.i2 y = activeRow rows2 s.i2 y)) := by
  obtain ⟨hi1, hi2, hnan, hlt1, hlt2⟩ := hinv
  by_cases h1 : s.i1 < rows1.length
  case neg =>
    -- first list exhausted
    by_cases h2 : s.i2 < rows2.length
    case neg =>
      constructor
      · intro _; omega
      · intro p s' hstep
        unfold genStep at hstep
        rw [dif_pos (by omega : s.i1 ≥ rows1.length),
          if_pos (by omega : s.i2 ≥ rows2.length)] at hstep
        cases hstep
    case pos =>
      have heq := genStep_eq_A (by omega : rows1.length ≤ s.i1) h2
      set r2 := rows2.get ⟨s.i2, h2⟩ with hr2
      have hvr2 : ValidRow r2 := hv2.1 _ (rows2.get_mem s.i2 h2)
      have hminY2 : r2.minY ≠ nan := jlt_ne_nan_left hvr2.2.2
      have hmaxY2 : r2.maxY ≠ nan := jlt_ne_nan_right hvr2.2.2
      constructor
      · intro hnone
        rw [heq] at hnone
        cases hnone
      · intro p s' hstep
        rw [heq] at hstep
        have hp : (⟨R1.empty, r2.region, jmax r2.minY s.lastY, r2.maxY⟩
            : Pair) = p := congrArg Prod.fst (Option.some.inj hstep)
        have hs : (⟨s.i1, s.i2 + 1, r2.maxY⟩ : GenState) = s' :=
          congrArg Prod.snd (Option.some.inj hstep)
        subst hp
        subst hs
        refine ⟨⟨hi1, by show s.i2 + 1 ≤ rows2.length; omega, hmaxY2,
            ?_, ?_⟩, ?_, ?_, rfl, Or.inl rfl,
            Or.inr ⟨r2, rows2.get_mem s.i2 h2, rfl⟩,
            Or.inl (by show s.i1 + s.i2 < s.i1 + (s.i2 + 1); omega),
            ?_, ?_, ?_⟩
        · intro hh
          have hh2 : s.i1 < rows1.length := hh
          omega
        · intro hh
          exact next_maxY_lt rows2 hv2 s.i2 hh
        · exact jle_jmax_right hminY2 hnan
        · exact jmax_lt hminY2 hnan hvr2.2.2 (hlt2 h2)
        · intro y hy1 hy2
          exact ⟨activeRow_past rows1 s.i1 y (by omega),
            activeEmptyGap rows2 s.i2 y s.lastY
              (fun r hr => (hv2.1 r hr).2.2) hv2.2 h2 hnan hy1 hy2⟩
        · intro y hy1 hy2
          refine ⟨activeRow_past rows1 s.i1 y (by omega), ?_⟩
          exact activeHereRange rows2 s.i2 y s.lastY r2.maxY h2 hnan
            hminY2 hy1 hy2 (jle_refl hmaxY2)
        · intro y hy
          exact ⟨rfl, activeRow_skip rows2 s.i2 y h2 hy⟩
  case pos =>
    by_cases h2 : s.i2 < rows2.length
    case neg =>
      -- second list exhausted
      have heq := genStep_eq_B h1 (by omega : rows2.length ≤ s.i2)
      set r1 := rows1.get ⟨s.i1, h1⟩ with hr1
      have hvr1 : ValidRow r1 := hv1.1 _ (rows1.get_mem s.i1 h1)
      have hminY1 : r1.minY ≠ nan := jlt_ne_nan_left hvr1.2.2
      have hmaxY1 : r1.maxY ≠ nan := jlt_ne_nan_right hvr1.2.2
      constructor
      · intro hnone
        rw [heq] at hnone
        cases hnone
      · intro p s' hstep
        rw [heq] at hstep
        have hp : (⟨r1.region, R1.empty, jmax r1.minY s.lastY, r1.maxY⟩
            : Pair) = p := congrArg Prod.fst (Option.some.inj hstep)
        have hs : (⟨s.i1 + 1, s.i2, r1.maxY⟩ : GenState) = s' :=
          congrArg Prod.snd (Option.some.inj hstep)
        subst hp
        subst hs
        refine ⟨⟨by show s.i1 + 1 ≤ rows1.length; omega, hi2, hmaxY1,
            ?_, ?_⟩, ?_, ?_, rfl,
            Or.inr ⟨r1, rows1.get_mem s.i1 h1, rfl⟩, Or.inl rfl,
            Or.inl (by show s.i1 + s.i2 < s.i1 + 1 + s.i2; omega),
            ?_, ?_, ?_⟩
        · intro hh
          exact next_maxY_lt rows1 hv1 s.i1 hh
        · intro hh
          have hh2 : s.i2 < rows2.length := hh
          omega
        · exact jle_jmax_right hminY1 hnan
        · exact jmax_lt hminY1 hnan hvr1.2.2 (hlt1 h1)
        · intro y hy1 hy2
          exact ⟨activeEmptyGap rows1 s.i1 y s.lastY
              (fun r hr => (hv1.1 r hr).2.2) hv1.2 h1 hnan hy1 hy2,
            activeRow_past rows2 s.i2 y (by omega)⟩
        · intro y hy1 hy2
          refine ⟨?_, activeRow_past rows2 s.i2 y (by omega)⟩
          exact activeHereRange rows1 s.i1 y s.lastY r1.maxY h1 hnan
            hminY1 hy1 hy2 (jle_refl hmaxY1)
        · intro y hy
          exact ⟨activeRow_skip rows1 s.i1 y h1 hy, rfl⟩
    case pos =>
      -- both lists still have rows: the main decision tree
      have heq := genStep_eq_main h1 h2
      set r1 := rows1.get ⟨s.i1, h1⟩ with hr1
      set r2 := rows2.get ⟨s.i2, h2⟩ with hr2
      have hvr1 : ValidRow r1 := hv1.1 _ (rows1.get_mem s.i1 h1)
      have hvr2 : ValidRow r2 := hv2.1 _ (rows2.get_mem s.i2 h2)
      have hminY1 : r1.minY ≠ nan := jlt_ne_nan_left hvr1.2.2
      have hmaxY1 : r1.maxY ≠ nan := jlt_ne_nan_right hvr1.2.2
      have hminY2 : r2.minY ≠ nan := jlt_ne_nan_left hvr2.2.2
      have hmaxY2 : r2.maxY ≠ nan := jlt_ne_nan_right hvr2.2.2
      have hn1nan : jmax r1.minY s.lastY ≠ nan := jmax_ne_nan hminY1 hnan
      have hn2nan : jmax r2.minY s.lastY ≠ nan := jmax_ne_nan hminY2 hnan
      have hlast1 : jle s.lastY (jmax r1.minY s.lastY) = true :=
        jle_jmax_right hminY1 hnan
      have hlast2 : jle s.lastY (jmax r2.minY s.lastY) = true :=
        jle_jmax_right hminY2 hnan
      have hn1lt : jlt (jmax r1.minY s.lastY) r1.maxY = true :=
        jmax_lt hminY1 hnan hvr1.2.2 (hlt1 h1)
      have hn2lt : jlt (jmax r2.minY s.lastY) r2.maxY = true :=
        jmax_lt hminY2 hnan hvr2.2.2 (hlt2 h2)
      have hgap1 : ∀ y : ℚ, jle s.lastY (num y) = true →
          jlt (num y) (jmax r1.minY s.lastY) = true →
          activeRow rows1 s.i1 y = R1.empty := fun y hy1 hy2 =>
        activeEmptyGap rows1 s.i1 y s.lastY
          (fun r hr => (hv1.1 r hr).2.2) hv1.2 h1 hnan hy1 hy2
      have hgap2 : ∀ y : ℚ, jle s.lastY (num y) = true →
          jlt (num y) (jmax r2.minY s.lastY) = true →
          activeRow rows2 s.i2 y = R1.empty := fun y hy1 hy2 =>
        activeEmptyGap rows2 s.i2 y s.lastY
          (fun r hr => (hv2.1 r hr).2.2) hv2.2 h2 hnan hy1 hy2
      constructor
      · intro hnone
        rw [heq] at hnone
        split at hnone
        · split at hnone
          · cases hnone
          · split at hnone
            · cases hnone
            · cases hnone
        · split at hnone
          · split at hnone
            · cases hnone
            · cases hnone
          · split at hnone
            · cases hnone
            · cases hnone
      · intro p s' hstep
        rw [heq] at hstep
        split at hstep
        case isTrue hjeq =>
          have hnn : jmax r1.minY s.lastY = jmax r2.minY s.lastY :=
            jeq_eq hjeq
          split at hstep
          case isTrue hblt =>
            -- consume the bottom part of row2
            have hp : (⟨r1.region, r2.region, jmax r1.minY s.lastY,
                r2.maxY⟩ : Pair) = p :=
              congrArg Prod.fst (Option.some.inj hstep)
            have hs : (⟨s.i1, s.i2 + 1, r2.maxY⟩ : GenState) = s' :=
              congrArg Prod.snd (Option.some.inj hstep)
            subst hp
            subst hs
            refine ⟨⟨hi1, by show s.i2 + 1 ≤ rows2.length; omega, hmaxY2,
                ?_, ?_⟩, hlast1, ?_, rfl,
                Or.inr ⟨r1, rows1.get_mem s.i1 h1, rfl⟩,
                Or.inr ⟨r2, rows2.get_mem s.i2 h2, rfl⟩,
                Or.inl (by show s.i1 + s.i2 < s.i1 + (s.i2 + 1); omega),
                ?_, ?_, ?_⟩
            · intro hh
              exact hblt
            · intro hh
              exact next_maxY_lt rows2 hv2 s.i2 hh
            · rw [hnn]
              exact hn2lt
            · intro y hy1 hy2
              refine ⟨hgap1 y hy1 hy2, hgap2 y hy1 ?_⟩
              rw [← hnn]
              exact hy2
            · intro y hy1 hy2
              constructor
              · exact activeHereRange rows1 s.i1 y s.lastY r2.maxY h1 hnan
                  hminY1 hy1 hy2 (jle_of_jlt hblt)
              · refine activeHereRange rows2 s.i2 y s.lastY r2.maxY h2 hnan
                  hminY2 ?_ hy2 (jle_refl hmaxY2)
                rw [← hnn]
                exact hy1
            · intro y hy
              exact ⟨rfl, activeRow_skip rows2 s.i2 y h2 hy⟩
          case isFalse hblt =>
            split at hstep
            case isTrue hbeq =>
              -- consume both rows
              have hmm : r2.maxY = r1.maxY := jeq_eq hbeq
              have hp : (⟨r1.region, r2.region, jmax r1.minY s.lastY,
                  r1.maxY⟩ : Pair) = p :=
                congrArg Prod.fst (Option.some.inj hstep)
              have hs : (⟨s.i1 + 1, s.i2 + 1, r1.maxY⟩ : GenState) = s' :=
                congrArg Prod.snd (Option.some.inj hstep)
              subst hp
              subst hs
              refine ⟨⟨by show s.i1 + 1 ≤ rows1.length; omega,
                  by show s.i2 + 1 ≤ rows2.length; omega, hmaxY1,
                  ?_, ?_⟩, hlast1,
                  hn1lt, rfl,
                  Or.inr ⟨r1, rows1.get_mem s.i1 h1, rfl⟩,
                  Or.inr ⟨r2, rows2.get_mem s.i2 h2, rfl⟩,
                  Or.inl (by
                    show s.i1 + s.i2 < s.i1 + 1 + (s.i2 + 1); omega),
                  ?_, ?_, ?_⟩
              · intro hh
                exact next_maxY_lt rows1 hv1 s.i1 hh
              · intro hh
                rw [← hmm]
                exact next_maxY_lt rows2 hv2 s.i2 hh
              · intro y hy1 hy2
                refine ⟨hgap1 y hy1 hy2, hgap2 y hy1 ?_⟩
                rw [← hnn]
                exact hy2
              · intro y hy1 hy2
                constructor
                · exact activeHereRange rows1 s.i1 y s.lastY r1.maxY h1
                    hnan hminY1 hy1 hy2 (jle_refl hmaxY1)
                · refine activeHereRange rows2 s.i2 y s.lastY r1.maxY h2
                    hnan hminY2 ?_ hy2 ?_
                  · rw [← hnn]
                    exact hy1
                  · rw [← hmm]
                    exact jle_refl hmaxY2
              · intro y hy
                refine ⟨activeRow_skip rows1 s.i1 y h1 hy, ?_⟩
                refine activeRow_skip rows2 s.i2 y h2 ?_
                rw [hmm]
                exact hy
            case isFalse hbeq =>
              -- consume all of row1
              have hble : jle r1.maxY r2.maxY = true :=
                jle_of_not_jlt hmaxY2 hmaxY1 (Bool.eq_false_iff.mpr hblt)
              have halt : jlt r1.maxY r2.maxY = true := by
                apply jlt_of_jle_ne hble
                rw [jeq_comm]
                exact Bool.eq_false_iff.mpr hbeq
              have hp : (⟨r1.region, r2.region, jmax r1.minY s.lastY,
                  r1.maxY⟩ : Pair) = p :=
                congrArg Prod.fst (Option.some.inj hstep)
              have hs : (⟨s.i1 + 1, s.i2, r1.maxY⟩ : GenState) = s' :=
                congrArg Prod.snd (Option.some.inj hstep)
              subst hp
              subst hs
              refine ⟨⟨by show s.i1 + 1 ≤ rows1.length; omega, hi2,
                  hmaxY1, ?_, ?_⟩, hlast1, hn1lt, rfl,
                  Or.inr ⟨r1, rows1.get_mem s.i1 h1, rfl⟩,
                  Or.inr ⟨r2, rows2.get_mem s.i2 h2, rfl⟩,
                  Or.inl (by show s.i1 + s.i2 < s.i1 + 1 + s.i2; omega),
                  ?_, ?_, ?_⟩
              · intro hh
                exact next_maxY_lt rows1 hv1 s.i1 hh
              · intro hh
                exact halt
              · intro y hy1 hy2
                refine ⟨hgap1 y hy1 hy2, hgap2 y hy1 ?_⟩
                rw [← hnn]
                exact hy2
              · intro y hy1 hy2
                constructor
                · exact activeHereRange rows1 s.i1 y s.lastY r1.maxY h1
                    hnan hminY1 hy1 hy2 (jle_refl hmaxY1)
                · refine activeHereRange rows2 s.i2 y s.lastY r1.maxY h2
                    hnan hminY2 ?_ hy2 hble
                  rw [← hnn]
                  exact hy1
              · intro y hy
                exact ⟨activeRow_skip rows1 s.i1 y h1 hy, rfl⟩
        case isFalse hjeq =>
          split at hstep
          case isTrue hylt =>
            -- the A-side row starts first
            split at hstep
            case isTrue hble =>
              -- row1 ends before row2 begins: emit all of row1 alone
              have hp : (⟨r1.region, R1.empty, jmax r1.minY s.lastY,
                  r1.maxY⟩ : Pair) = p :=
                congrArg Prod.fst (Option.some.inj hstep)
              have hs : (⟨s.i1 + 1, s.i2, r1.maxY⟩ : GenState) = s' :=
                congrArg Prod.snd (Option.some.inj hstep)
              subst hp
              subst hs
              refine ⟨⟨by show s.i1 + 1 ≤ rows1.length; omega, hi2,
                  hmaxY1, ?_, ?_⟩, hlast1, hn1lt, rfl,
                  Or.inr ⟨r1, rows1.get_mem s.i1 h1, rfl⟩, Or.inl rfl,
                  Or.inl (by show s.i1 + s.i2 < s.i1 + 1 + s.i2; omega),
                  ?_, ?_, ?_⟩
              · intro hh
                exact next_maxY_lt rows1 hv1 s.i1 hh
              · intro hh
                exact jlt_of_jle_of_jlt hble hn2lt
              · intro y hy1 hy2
                refine ⟨hgap1 y hy1 hy2, hgap2 y hy1 (jlt_trans hy2 hylt)⟩
              · intro y hy1 hy2
                refine ⟨activeHereRange rows1 s.i1 y s.lastY r1.maxY h1
                    hnan hminY1 hy1 hy2 (jle_refl hmaxY1), ?_⟩
                exact hgap2 y (jle_trans hlast1 hy1)
                  (jlt_of_jlt_of_jle hy2 hble)
              · intro y hy
                exact ⟨activeRow_skip rows1 s.i1 y h1 hy, rfl⟩
            case isFalse hble =>
              -- row1 extends past row2's top: emit its upper part alone
              have hlt21 : jlt (jmax r2.minY s.lastY) r1.maxY = true :=
                jlt_of_not_jle hmaxY1 hn2nan (Bool.eq_false_iff.mpr hble)
              have hp : (⟨r1.region, R1.empty, jmax r1.minY s.lastY,
                  jmax r2.minY s.lastY⟩ : Pair) = p :=
                congrArg Prod.fst (Option.some.inj hstep)
              have hs : (⟨s.i1, s.i2, jmax r2.minY s.lastY⟩ : GenState)
                  = s' := congrArg Prod.snd (Option.some.inj hstep)
              subst hp
              subst hs
              refine ⟨⟨hi1, hi2, hn2nan, ?_, ?_⟩, hlast1, hylt, rfl,
                  Or.inr ⟨r1, rows1.get_mem s.i1 h1, rfl⟩, Or.inl rfl,
                  Or.inr ⟨rfl, rfl, ?_⟩, ?_, ?_, ?_⟩
              · intro hh
                exact hlt21
              · intro hh
                exact hn2lt
              · -- the very next step has equal tops and must advance
                intro q s'' hq
                have hj1 : jmax r1.minY (jmax r2.minY s.lastY)
                    = jmax r2.minY s.lastY := by
                  apply jmax_eq_right hminY1
                  exact jle_of_jlt
                    (jlt_of_jle_of_jlt (jle_jmax_left hminY1 hnan) hylt)
                have hj2 : jmax r2.minY (jmax r2.minY s.lastY)
                    = jmax r2.minY s.lastY := by
                  apply jmax_eq_right hminY2
                  exact jle_jmax_left hminY2 hnan
                rw [genStep_eq_main
                    (show (⟨s.i1, s.i2, jmax r2.minY s.lastY⟩
                      : GenState).i1 < rows1.length from h1)
                    (show (⟨s.i1, s.i2, jmax r2.minY s.lastY⟩
                      : GenState).i2 < rows2.length from h2)] at hq
                simp only [] at hq
                rw [← hr1, ← hr2] at hq
                rw [hj1, hj2] at hq
                rw [if_pos (jeq_refl hn2nan)] at hq
                split at hq
                · have hs2 : (⟨s.i1, s.i2 + 1, r2.maxY⟩ : GenState) = s'' :=
                    congrArg Prod.snd (Option.some.inj hq)
                  rw [← hs2]
                  show s.i1 + s.i2 < s.i1 + (s.i2 + 1)
                  omega
                · split at hq
                  · have hs2 : (⟨s.i1 + 1, s.i2 + 1, r1.maxY⟩
                        : GenState) = s'' :=
                      congrArg Prod.snd (Option.some.inj hq)
                    rw [← hs2]
                    show s.i1 + s.i2 < s.i1 + 1 + (s.i2 + 1)
                    omega
                  · have hs2 : (⟨s.i1 + 1, s.i2, r1.maxY⟩
                        : GenState) = s'' :=
                      congrArg Prod.snd (Option.some.inj hq)
                    rw [← hs2]
                    show s.i1 + s.i2 < s.i1 + 1 + s.i2
                    omega
              · intro y hy1 hy2
                exact ⟨hgap1 y hy1 hy2, hgap2 y hy1 (jlt_trans hy2 hylt)⟩
              · intro y hy1 hy2
                refine ⟨activeHereRange rows1 s.i1 y s.lastY
                    (jmax r2.minY s.lastY) h1 hnan hminY1 hy1 hy2
                    (jle_of_jlt hlt21), ?_⟩
                exact hgap2 y (jle_trans hlast1 hy1) hy2
              · intro y hy
                exact ⟨rfl, rfl⟩
          case isFalse hylt =>
            -- the B-side row starts first
            have hylt2 : jlt (jmax r2.minY s.lastY)
                (jmax r1.minY s.lastY) = true := by
              apply jlt_of_jle_ne
                (jle_of_not_jlt hn1nan hn2nan (Bool.eq_false_iff.mpr hylt))
              rw [jeq_comm]
              exact Bool.eq_false_iff.mpr hjeq
            split at hstep
            case isTrue hble =>
              -- row2 ends before row1 begins: emit all of row2 alone
              have hp : (⟨R1.empty, r2.region, jmax r2.minY s.lastY,
                  r2.maxY⟩ : Pair) = p :=
                congrArg Prod.fst (Option.some.inj hstep)
              have hs : (⟨s.i1, s.i2 + 1, r2.maxY⟩ : GenState) = s' :=
                congrArg Prod.snd (Option.some.inj hstep)
              subst hp
              subst hs
              refine ⟨⟨hi1, by show s.i2 + 1 ≤ rows2.length; omega,
                  hmaxY2, ?_, ?_⟩, hlast2, hn2lt, rfl,
                  Or.inl rfl, Or.inr ⟨r2, rows2.get_mem s.i2 h2, rfl⟩,
                  Or.inl (by show s.i1 + s.i2 < s.i1 + (s.i2 + 1); omega),
                  ?_, ?_, ?_⟩
              · intro hh
                exact jlt_of_jle_of_jlt hble hn1lt
              · intro hh
                exact next_maxY_lt rows2 hv2 s.i2 hh
              · intro y hy1 hy2
                exact ⟨hgap1 y hy1 (jlt_trans hy2 hylt2), hgap2 y hy1 hy2⟩
              · intro y hy1 hy2
                refine ⟨hgap1 y (jle_trans hlast2 hy1)
                    (jlt_of_jlt_of_jle hy2 hble), ?_⟩
                exact activeHereRange rows2 s.i2 y s.lastY r2.maxY h2 hnan
                  hminY2 hy1 hy2 (jle_refl hmaxY2)
              · intro y hy
                exact ⟨rfl, activeRow_skip rows2 s.i2 y h2 hy⟩
            case isFalse hble =>
              -- row2 extends past row1's top: emit its upper part alone
              have hlt12 : jlt (jmax r1.minY s.lastY) r2.maxY = true :=
                jlt_of_not_jle hmaxY2 hn1nan (Bool.eq_false_iff.mpr hble)
              have hp : (⟨R1.empty, r2.region, jmax r2.minY s.lastY,
                  jmax r1.minY s.lastY⟩ : Pair) = p :=
                congrArg Prod.fst (Option.some.inj hstep)
              have hs : (⟨s.i1, s.i2, jmax r1.minY s.lastY⟩ : GenState)
                  = s' := congrArg Prod.snd (Option.some.inj hstep)
              subst hp
              subst hs
              refine ⟨⟨hi1, hi2, hn1nan, ?_, ?_⟩, hlast2, hylt2, rfl,
                  Or.inl rfl, Or.inr ⟨r2, rows2.get_mem s.i2 h2, rfl⟩,
                  Or.inr ⟨rfl, rfl, ?_⟩, ?_, ?_, ?_⟩
              · intro hh
                exact hn1lt
              · intro hh
                exact hlt12
              · -- the very next step has equal tops and must advance
                intro q s'' hq
                have hj1 : jmax r1.minY (jmax r1.minY s.lastY)
                    = jmax r1.minY s.lastY := by
                  apply jmax_eq_right hminY1
                  exact jle_jmax_left hminY1 hnan
                have hj2 : jmax r2.minY (jmax r1.minY s.lastY)
                    = jmax r1.minY s.lastY := by
                  apply jmax_eq_right hminY2
                  exact jle_of_jlt
                    (jlt_of_jle_of_jlt (jle_jmax_left hminY2 hnan) hylt2)
                rw [genStep_eq_main
                    (show (⟨s.i1, s.i2, jmax r1.minY s.lastY⟩
                      : GenState).i1 < rows1.length from h1)
                    (show (⟨s.i1, s.i2, jmax r1.minY s.lastY⟩
                      : GenState).i2 < rows2.length from h2)] at hq
                simp only [] at hq
                rw [← hr1, ← hr2] at hq
                rw [hj1, hj2] at hq
                rw [if_pos (jeq_refl hn1nan)] at hq
                split at hq
                · have hs2 : (⟨s.i1, s.i2 + 1, r2.maxY⟩ : GenState) = s'' :=
                    congrArg Prod.snd (Option.some.inj hq)
                  rw [← hs2]
                  show s.i1 + s.i2 < s.i1 + (s.i2 + 1)
                  omega
                · split at hq
                  · have hs2 : (⟨s.i1 + 1, s.i2 + 1, r1.maxY⟩
                        : GenState) = s'' :=
                      congrArg Prod.snd (Option.some.inj hq)
                    rw [← hs2]
                    show s.i1 + s.i2 < s.i1 + 1 + (s.i2 + 1)
                    omega
                  · have hs2 : (⟨s.i1 + 1, s.i2, r1.maxY⟩
                        : GenState) = s'' :=
                      congrArg Prod.snd (Option.some.inj hq)
                    rw [← hs2]
                    show s.i1 + s.i2 < s.i1 + 1 + s.i2
                    omega
              · intro y hy1 hy2
                exact ⟨hgap1 y hy1 (jlt_trans hy2 hylt2), hgap2 y hy1 hy2⟩
              · intro y hy1 hy2
                refine ⟨hgap1 y (jle_trans hlast2 hy1) hy2, ?_⟩
                exact activeHereRange rows2 s.i2 y s.lastY
                  (jmax r1.minY s.lastY) h2 hnan hminY2 hy1 hy2
                  (jle_of_jlt hlt12)
              · intro y hy
                exact ⟨rfl, rfl⟩

end Region2D

namespace Region2D

open Region1D

/-- `genStep` at exhaustion returns `none`. -/
theorem genStep_none_of_exhausted (rows1 rows2 : List Row) (s : GenState)
    (h1 : rows1.length ≤ s.i1) (h2 : rows2.length ≤ s.i2) :
    genStep rows1 rows2 s = none := by
  unfold genStep
  rw [dif_pos (by omega : s.i1 ≥ rows1.length),
    if_pos (by omega : s.i2 ≥ rows2.length)]

theorem genPairs_succ (rows1 rows2 : List Row) (fuel : ℕ) (s : GenState) :
    genPairs rows1 rows2 (fuel + 1) s
      = match genStep rows1 rows2 s with
        | none => []
        | some (p, s2) => p :: genPairs rows1 rows2 fuel s2 := rfl

/-- Prepending one generated pair to an already-characterised tail. -/
theorem runAssemble (rows1 rows2 : List Row)
    (hv1 : ValidRows rows1) (hv2 : ValidRows rows2)
    (s : GenState) (hinv : GInv rows1 rows2 s)
    (p : Pair) (s' : GenState)
    (hstep : genStep rows1 rows2 s = some (p, s'))
    (P' : List Pair)
    (hA' : ∀ q ∈ P', jlt q.minY q.maxY = true
        ∧ jle s'.lastY q.minY = true
        ∧ (q.row1 = R1.empty ∨ ∃ r ∈ rows1, q.row1 = r.region)
        ∧ (q.row2 = R1.empty ∨ ∃ r ∈ rows2, q.row2 = r.region))
    (hchain' : List.Chain' pairLe P')
    (hsem' : ∀ y : ℚ, jle s'.lastY (num y) = true →
        pairAt P' y = (activeRow rows1 s'.i1 y, activeRow rows2 s'.i2 y)) :
    (∀ q ∈ p :: P', jlt q.minY q.maxY = true
        ∧ jle s.lastY q.minY = true
        ∧ (q.row1 = R1.empty ∨ ∃ r ∈ rows1, q.row1 = r.region)
        ∧ (q.row2 = R1.empty ∨ ∃ r ∈ rows2, q.row2 = r.region))
    ∧ List.Chain' pairLe (p :: P')
    ∧ (∀ y : ℚ, jle s.lastY (num y) = true →
        pairAt (p :: P') y
          = (activeRow rows1 s.i1 y, activeRow rows2 s.i2 y)) := by
  obtain ⟨hinv', hle, hlt, hmax, hsrc1, hsrc2, _, hS1, hS2, hS3⟩ :=
    (genStep_spec rows1 rows2 hv1 hv2 s hinv).2 p s' hstep
  have hpnan : p.minY ≠ nan := jlt_ne_nan_left hlt
  have hqnan : p.maxY ≠ nan := jlt_ne_nan_right hlt
  have hss' : jle s.lastY s'.lastY = true := by
    rw [← hmax]
    exact jle_trans hle (jle_of_jlt hlt)
  refine ⟨?_, ?_, ?_⟩
  · intro q hq
    cases hq with
    | head => exact ⟨hlt, hle, hsrc1, hsrc2⟩
    | tail _ hq2 =>
      obtain ⟨ha, hb, hc, hd⟩ := hA' q hq2
      exact ⟨ha, jle_trans hss' hb, hc, hd⟩
  · rw [List.chain'_cons']
    refine ⟨?_, hchain'⟩
    intro q hq
    have hq2 : q ∈ P' := List.mem_of_mem_head? hq
    unfold pairLe
    rw [hmax]
    exact jle_trans (by rw [← hmax]; exact jle_refl hqnan)
      ((hA' q hq2).2.1)
  · intro y hy
    by_cases hb1 : jle p.minY (num y) = true
    · by_cases hb2 : jlt (num y) p.maxY = true
      · -- inside the emitted pair
        unfold pairAt
        rw [List.find?_cons_of_pos _ (by
          rw [Bool.and_eq_true]; exact ⟨hb1, hb2⟩)]
        obtain ⟨e1, e2⟩ := hS2 y hb1 hb2
        rw [e1, e2]
      · -- at or above the pair: defer to the tail
        have hy2 : jle p.maxY (num y) = true :=
          jle_of_not_jlt (by intro h; cases h) hqnan
            (Bool.eq_false_iff.mpr hb2)
        have hy3 : jle s'.lastY (num y) = true := by
          rw [← hmax]
          exact hy2
        have hskip : pairAt (p :: P') y = pairAt P' y := by
          unfold pairAt
          rw [List.find?_cons_of_neg _ (by
            rw [Bool.and_eq_true, not_and]
            intro _ hco
            have h3 : jlt p.maxY p.maxY = true :=
              jlt_of_jle_of_jlt hy2 hco
            rw [jlt_irrefl] at h3
            cases h3)]
        rw [hskip, hsem' y hy3, (hS3 y hy3).1, (hS3 y hy3).2]
    · -- strictly below the pair: the gap
      have hy2 : jlt (num y) p.minY = true :=
        jlt_of_not_jle hpnan (by intro h; cases h)
          (Bool.eq_false_iff.mpr hb1)
      have hfind : (p :: P').find?
          (fun q => jle q.minY (num y) && jlt (num y) q.maxY) = none := by
        rw [List.find?_eq_none]
        intro q hq
        rw [Bool.and_eq_true, not_and]
        intro hco _
        cases hq with
        | head =>
          have h3 : jlt p.minY p.minY = true := jlt_of_jle_of_jlt hco hy2
          rw [jlt_irrefl] at h3
          cases h3
        | tail _ hq2 =>
          have hqm : jle p.maxY q.minY = true := by
            rw [hmax]
            exact (hA' q hq2).2.1
          have h4 : jlt (num y) q.minY = true :=
            jlt_of_jlt_of_jle (jlt_trans hy2 hlt) hqm
          have h3 : jlt (num y) (num y) = true :=
            jlt_of_jlt_of_jle h4 hco
          rw [jlt_irrefl] at h3
          cases h3
      unfold pairAt
      rw [hfind]
      obtain ⟨e1, e2⟩ := hS1 y hy hy2
      rw [e1, e2]

end Region2D

namespace Region2D

open Region1D

/-- Full characterisation of the generated pair stream on valid inputs:
each pair is well-formed, sourced from the inputs and above `lastY`; the
stream is ordered; and it selects at every height at or above `lastY`
exactly the active input bands. -/
theorem genRun (rows1 rows2 : List Row)
    (hv1 : ValidRows rows1) (hv2 : ValidRows rows2) :
    ∀ (rem fuel : ℕ) (s : GenState),
      GInv rows1 rows2 s →
      (rows1.length - s.i1) + (rows2.length - s.i2) ≤ rem →
      2 * rem + 1 ≤ fuel →
      (∀ q ∈ genPairs rows1 rows2 fuel s,
          jlt q.minY q.maxY = true ∧ jle s.lastY q.minY = true
          ∧ (q.row1 = R1.empty ∨ ∃ r ∈ rows1, q.row1 = r.region)
          ∧ (q.row2 = R1.empty ∨ ∃ r ∈ rows2, q.row2 = r.region))
      ∧ List.Chain' pairLe (genPairs rows1 rows2 fuel s)
      ∧ (∀ y : ℚ, jle s.lastY (num y) = true →
          pairAt (genPairs rows1 rows2 fuel s) y
            = (activeRow rows1 s.i1 y, activeRow rows2 s.i2 y)) := by
  intro rem
  induction rem with
  | zero =>
    intro fuel s hinv hrem hfuel
    -- exhausted from the start
    have hst : genStep rows1 rows2 s = none :=
      genStep_none_of_exhausted rows1 rows2 s (by omega) (by omega)
    obtain ⟨f, rfl⟩ : ∃ f, fuel = f + 1 := ⟨fuel - 1, by omega⟩
    have hP : genPairs rows1 rows2 (f + 1) s = [] := by
      rw [genPairs_succ, hst]
    rw [hP]
    refine ⟨fun q hq => absurd hq (List.not_mem_nil q),
      List.chain'_nil, ?_⟩
    intro y _
    rw [pairAt_nil,
      activeRow_past rows1 s.i1 y (by omega),
      activeRow_past rows2 s.i2 y (by omega)]
  | succ rem ih =>
    intro fuel s hinv hrem hfuel
    obtain ⟨f, rfl⟩ : ∃ f, fuel = f + 1 := ⟨fuel - 1, by omega⟩
    cases hst : genStep rows1 rows2 s with
    | none =>
      have hP : genPairs rows1 rows2 (f + 1) s = [] := by
        rw [genPairs_succ, hst]
      obtain ⟨he1, he2⟩ :=
        (genStep_spec rows1 rows2 hv1 hv2 s hinv).1 hst
      rw [hP]
      refine ⟨fun q hq => absurd hq (List.not_mem_nil q),
        List.chain'_nil, ?_⟩
      intro y _
      rw [pairAt_nil,
        activeRow_past rows1 s.i1 y (by omega),
        activeRow_past rows2 s.i2 y (by omega)]
    | some ps =>
      obtain ⟨p, s2⟩ := ps
      have hP : genPairs rows1 rows2 (f + 1) s
          = p :: genPairs rows1 rows2 f s2 := by
        rw [genPairs_succ, hst]
      obtain ⟨hinv2, _, _, _, _, _, hprog, _, _, _⟩ :=
        (genStep_spec rows1 rows2 hv1 hv2 s hinv).2 p s2 hst
      have hgi1 := hinv.1
      have hgi2 := hinv.2.1
      have hgi1' := hinv2.1
      have hgi2' := hinv2.2.1
      rcases hprog with hincr | ⟨he1, he2, hnext⟩
      · -- the cursors advanced: one step of the induction
        have hrem2 : (rows1.length - s2.i1) + (rows2.length - s2.i2)
            ≤ rem := by omega
        have hfuel2 : 2 * rem + 1 ≤ f := by omega
        obtain ⟨hA', hchain', hsem'⟩ := ih f s2 hinv2 hrem2 hfuel2
        rw [hP]
        exact runAssemble rows1 rows2 hv1 hv2 s hinv p s2 hst _
          hA' hchain' hsem'
      · -- the cursors stood still: the following step must advance
        obtain ⟨f2, rfl⟩ : ∃ f2, f = f2 + 1 := ⟨f - 1, by omega⟩
        cases hst2 : genStep rows1 rows2 s2 with
        | none =>
          -- the tail run is empty
          have hP2 : genPairs rows1 rows2 (f2 + 1) s2 = [] := by
            rw [genPairs_succ, hst2]
          obtain ⟨hx1, hx2⟩ :=
            (genStep_spec rows1 rows2 hv1 hv2 s2 hinv2).1 hst2
          rw [hP, hP2]
          apply runAssemble rows1 rows2 hv1 hv2 s hinv p s2 hst []
          · intro q hq
            exact absurd hq (List.not_mem_nil q)
          · exact List.chain'_nil
          · intro y _
            rw [pairAt_nil,
              activeRow_past rows1 s2.i1 y (by omega),
              activeRow_past rows2 s2.i2 y (by omega)]
        | some qs =>
          obtain ⟨q, s3⟩ := qs
          have hP2 : genPairs rows1 rows2 (f2 + 1) s2
              = q :: genPairs rows1 rows2 f2 s3 := by
            rw [genPairs_succ, hst2]
          have hadv : s2.i1 + s2.i2 < s3.i1 + s3.i2 := hnext q s3 hst2
          have hinv3 :=
            ((genStep_spec rows1 rows2 hv1 hv2 s2 hinv2).2 q s3 hst2).1
          have hgi1'' := hinv3.1
          have hgi2'' := hinv3.2.1
          have hrem3 : (rows1.length - s3.i1) + (rows2.length - s3.i2)
              ≤ rem := by omega
          have hfuel3 : 2 * rem + 1 ≤ f2 := by omega
          obtain ⟨hA'', hchain'', hsem''⟩ := ih f2 s3 hinv3 hrem3 hfuel3
          obtain ⟨hA', hchain', hsem'⟩ :=
            runAssemble rows1 rows2 hv1 hv2 s2 hinv2 q s3 hst2 _
              hA'' hchain'' hsem''
          rw [hP, hP2]
          exact runAssemble rows1 rows2 hv1 hv2 s hinv p s2 hst _
            hA' hchain' hsem'

end Region2D

namespace Region1D

/-- A valid span list has no NaN entries. -/
theorem noNaN_of_valid {l : List JsNum} (h : Valid1D l) : NoNaN l := by
  cases l with
  | nil => intro x hx; cases hx
  | cons a rest =>
    apply noNaN_of_ascending h.2
    have := h.1
    intro hlen
    rw [hlen] at this
    cases this

/-- `arrayEquals` decides equality on NaN-free span lists. -/
theorem arrayEquals_iff :
    ∀ {x y : List JsNum}, NoNaN x → (arrayEquals x y = true ↔ x = y) := by
  intro x
  induction x with
  | nil =>
    intro y _
    cases y with
    | nil => simp [arrayEquals]
    | cons b ys => simp [arrayEquals]
  | cons a xs ih =>
    intro y hnan
    cases y with
    | nil => simp [arrayEquals]
    | cons b ys =>
      have hna : a ≠ nan := hnan a (by simp)
      have hxs : NoNaN xs := fun z hz => hnan z (List.mem_cons_of_mem _ hz)
      constructor
      · intro h
        have hlen : (a :: xs).length = (b :: ys).length := by
          by_contra hne
          unfold arrayEquals at h
          rw [if_pos hne] at h
          cases h
        unfold arrayEquals at h
        rw [if_neg (not_not_intro hlen)] at h
        simp only [List.zip_cons_cons, List.all_cons, Bool.and_eq_true] at h
        obtain ⟨hab, hrest⟩ := h
        have hlen2 : xs.length = ys.length := by simpa using hlen
        cases jeq_eq hab
        have hxsys : arrayEquals xs ys = true := by
          unfold arrayEquals
          rw [if_neg (not_not_intro hlen2)]
          exact hrest
        rw [(ih hxs).mp hxsys]
      · intro h
        injection h with h1 h2
        subst h1
        subst h2
        unfold arrayEquals
        rw [if_neg (not_not_intro rfl)]
        simp only [List.zip_cons_cons, List.all_cons, Bool.and_eq_true]
        refine ⟨jeq_refl hna, ?_⟩
        have h3 := (ih hxs).mpr rfl
        unfold arrayEquals at h3
        rw [if_neg (not_not_intro rfl)] at h3
        exact h3

/-- On well-formed `Region1D` values, `equals` decides object equality. -/
theorem equals_iff {a b : R1} (ha : ValidR1 a) (hb : ValidR1 b) :
    R1.equals a b = true ↔ a = b := by
  unfold R1.equals
  constructor
  · intro h
    by_cases hh : a.hash ≠ b.hash
    · rw [if_pos hh] at h
      cases h
    · rw [if_neg hh] at h
      have harr : a.arr = b.arr :=
        (arrayEquals_iff (noNaN_of_valid ha.1)).mp h
      obtain ⟨arrA, hashA⟩ := a
      obtain ⟨arrB, hashB⟩ := b
      simp only at harr
      subst harr
      have h1 : hashA = hashB := by
        have e1 := ha.2
        have e2 := hb.2
        simp only at e1 e2
        rw [e1, e2]
      rw [h1]
  · intro h
    subst h
    rw [if_neg (by simp)]
    exact (arrayEquals_iff (noNaN_of_valid ha.1)).mpr rfl

/-- The empty `Region1D` is well-formed. -/
theorem validR1_empty : ValidR1 R1.empty :=
  ⟨⟨rfl, List.chain'_nil⟩, rfl⟩

end Region1D

namespace Region2D

open Region1D

/-- Two well-formed `Region1D` values with the same span array are the
same object (the cached hash is determined by the array). -/
theorem r1_eq_of_arr {a b : R1} (ha : ValidR1 a) (hb : ValidR1 b)
    (h : a.arr = b.arr) : a = b := by
  obtain ⟨arrA, hashA⟩ := a
  obtain ⟨arrB, hashB⟩ := b
  simp only at h
  subst h
  have e1 := ha.2
  have e2 := hb.2
  simp only at e1 e2
  rw [e1, e2]

/-- The X-extrema and hash steps of the output fold, per row. -/
def minXStep (m : JsNum) (r : Row) : JsNum :=
  if jlt r.region.min m then r.region.min else m

def maxXStep (m : JsNum) (r : Row) : JsNum :=
  if jlt m r.region.max then r.region.max else m

def hashStep2 (h : ℤ) (r : Row) : ℤ :=
  wrap32 (h * 23 + r.region.getHashCode)

/-- The region data canonically derived from a band list: what
`combineData`'s running caches amount to. -/
def cacheOf (rows : List Row) : RData :=
  { array := rows,
    count := (rows.map (fun r => r.region.getCount)).sum,
    minX := rows.foldl minXStep pinf,
    minY := (rows.head?.map Row.minY).getD pinf,
    maxX := rows.foldl maxXStep ninf,
    maxY := (rows.getLast?.map Row.maxY).getD ninf,
    hash := rows.foldl hashStep2 0 }

/-- The (normalised) transformed row selected by a pair stream at a
height: empty outside every pair and where the transform is empty. -/
def pairResultAt (T : R1 → R1 → R1) (P : List Pair) (y : ℚ) : R1 :=
  match P.find? (fun p => jle p.minY (num y) && jlt (num y) p.maxY) with
  | some p => if (T p.row1 p.row2).isEmpty then R1.empty
              else T p.row1 p.row2
  | none => R1.empty

/-- In an ordered pair stream every later pair starts at or after the
first pair's bottom. -/
theorem chainLe_all {q : Pair} {Q : List Pair}
    (hch : List.Chain' pairLe (q :: Q))
    (hv : ∀ p ∈ Q, jlt p.minY p.maxY = true) :
    ∀ p ∈ Q, jle q.maxY p.minY = true := by
  induction Q generalizing q with
  | nil => intro p hp; cases hp
  | cons e rest ih =>
    intro p hp
    have h1 : pairLe q e := (List.chain'_cons.mp hch).1
    cases hp with
    | head => exact h1
    | tail _ h2 =>
      have := ih (q := e) (List.chain'_cons.mp hch).2
        (fun p hp => hv p (List.mem_cons_of_mem _ hp)) p h2
      exact jle_trans h1 (jle_trans (jle_of_jlt (hv e (by simp))) this)

/-- A band chain's head ends at or above every later band's top. -/
theorem chain_head_le_all {b : Row} {L : List Row}
    (hch : List.Chain' RowChain (b :: L))
    (hv : ∀ r ∈ L, jlt r.minY r.maxY = true) :
    ∀ x ∈ L, jle b.maxY x.minY = true := by
  induction L generalizing b with
  | nil => intro x hx; cases hx
  | cons c rest ih =>
    intro x hx
    have h1 : jle b.maxY c.minY = true := (List.chain'_cons.mp hch).1.1
    cases hx with
    | head => exact h1
    | tail _ h2 =>
      have h3 := ih (b := c) (List.chain'_cons.mp hch).2
        (fun r hr => hv r (List.mem_cons_of_mem _ hr)) x h2
      exact jle_trans h1 (jle_trans (jle_of_jlt (hv c (by simp))) h3)

/-- Every band of a valid initial segment lies at or above the appended
final band. -/
theorem rows_all_le_last {L : List Row} {a : Row}
    (hv : ValidRows (L ++ [a])) :
    ∀ r ∈ L, jle r.maxY a.minY = true := by
  induction L with
  | nil => intro r hr; cases hr
  | cons b rest ih =>
    intro r hr
    have hch : List.Chain' RowChain (b :: (rest ++ [a])) := hv.2
    cases hr with
    | head =>
      exact chain_head_le_all hch
        (fun x hx => (hv.1 x (List.mem_cons_of_mem _ hx)).2.2) a (by simp)
    | tail _ h2 =>
      have hv2 : ValidRows (rest ++ [a]) :=
        ⟨fun x hx => hv.1 x (List.mem_cons_of_mem _ hx), hch.tail⟩
      exact ih hv2 r h2

/-- No band wholly at or below `y` is found. -/
theorem find_rows_none {L : List Row} {y : ℚ}
    (h : ∀ r ∈ L, jle r.maxY (num y) = true) :
    L.find? (fun r => rowContains r y) = none := by
  rw [List.find?_eq_none]
  intro r hr
  unfold rowContains
  rw [Bool.and_eq_true, not_and]
  intro _ hco
  have h3 : jlt (num y) (num y) = true :=
    jlt_of_jlt_of_jle hco (h r hr)
  rw [jlt_irrefl] at h3
  cases h3

/-- No pair wholly at or below `y` is found. -/
theorem find_pairs_none {P : List Pair} {y : ℚ}
    (h : ∀ p ∈ P, jle p.maxY (num y) = true) :
    P.find? (fun p => jle p.minY (num y) && jlt (num y) p.maxY)
      = none := by
  rw [List.find?_eq_none]
  intro p hp
  rw [Bool.and_eq_true, not_and]
  intro _ hco
  have h3 : jlt (num y) (num y) = true :=
    jlt_of_jlt_of_jle hco (h p hp)
  rw [jlt_irrefl] at h3
  cases h3

theorem pairResultAt_none {T : R1 → R1 → R1} {P : List Pair} {y : ℚ}
    (h : P.find? (fun p => jle p.minY (num y) && jlt (num y) p.maxY)
      = none) : pairResultAt T P y = R1.empty := by
  unfold pairResultAt
  rw [h]

/-- `activeRow` over a one-band extension on the right. -/
theorem activeRow_append (L : List Row) (a : Row) (y : ℚ) :
    activeRow (L ++ [a]) 0 y
      = match L.find? (fun r => rowContains r y) with
        | some r => r.region
        | none => if rowContains a y then a.region else R1.empty := by
  unfold activeRow
  rw [List.drop_zero, List.find?_append]
  cases hL : L.find? (fun r => rowContains r y) with
  | some r => rfl
  | none =>
    cases hpa : rowContains a y with
    | true => simp [List.find?, hpa]
    | false => simp [List.find?, hpa]

/-- `pairResultAt` over a one-pair extension on the right. -/
theorem pairResultAt_append (T : R1 → R1 → R1) (P : List Pair) (q : Pair)
    (y : ℚ) :
    pairResultAt T (P ++ [q]) y
      = match P.find? (fun p => jle p.minY (num y) && jlt (num y) p.maxY)
          with
        | some p => if (T p.row1 p.row2).isEmpty then R1.empty
                    else T p.row1 p.row2
        | none =>
          if jle q.minY (num y) && jlt (num y) q.maxY then
            if (T q.row1 q.row2).isEmpty then R1.empty else T q.row1 q.row2
          else R1.empty := by
  unfold pairResultAt
  rw [List.find?_append]
  cases hP : P.find?
      (fun p => jle p.minY (num y) && jlt (num y) p.maxY) with
  | some p => rfl
  | none =>
    cases hq : (jle q.minY (num y) && jlt (num y) q.maxY) with
    | true => simp [List.find?, hq]
    | false => simp [List.find?, hq]

end Region2D

namespace Region2D

open Region1D

theorem accumStep_empty {T : R1 → R1 → R1} {acc : Accum} {pair : Pair}
    (h : (T pair.row1 pair.row2).isEmpty = true) :
    accumStep T acc pair = acc := by
  unfold accumStep
  rw [if_pos h]

theorem accumStep_coalesce {T : R1 → R1 → R1} {acc : Accum} {pair : Pair}
    {last : Row} {rest : List Row}
    (hrows : acc.rows = last :: rest)
    (hne : (T pair.row1 pair.row2).isEmpty = false)
    (hg : ((T pair.row1 pair.row2).equals last.region
        && jeq last.maxY pair.minY) = true) :
    accumStep T acc pair
      = { acc with rows := { last with maxY := pair.maxY } :: rest } := by
  unfold accumStep
  rw [if_neg (by rw [hne]; exact Bool.false_ne_true), hrows]
  exact if_pos hg

theorem accumStep_push_cons {T : R1 → R1 → R1} {acc : Accum} {pair : Pair}
    {last : Row} {rest : List Row}
    (hrows : acc.rows = last :: rest)
    (hne : (T pair.row1 pair.row2).isEmpty = false)
    (hg : ((T pair.row1 pair.row2).equals last.region
        && jeq last.maxY pair.minY) = false) :
    accumStep T acc pair
      = { rows := ⟨T pair.row1 pair.row2, pair.minY, pair.maxY⟩ :: acc.rows,
          count := acc.count + (T pair.row1 pair.row2).getCount,
          minX := if jlt (T pair.row1 pair.row2).min acc.minX
              then (T pair.row1 pair.row2).min else acc.minX,
          maxX := if jlt acc.maxX (T pair.row1 pair.row2).max
              then (T pair.row1 pair.row2).max else acc.maxX,
          hash := wrap32 (acc.hash * 23
              + (T pair.row1 pair.row2).getHashCode) } := by
  unfold accumStep
  rw [if_neg (by rw [hne]; exact Bool.false_ne_true), hrows]
  exact if_neg (by rw [hg]; exact Bool.false_ne_true)

theorem accumStep_push_nil {T : R1 → R1 → R1} {acc : Accum} {pair : Pair}
    (hrows : acc.rows = [])
    (hne : (T pair.row1 pair.row2).isEmpty = false) :
    accumStep T acc pair
      = { rows := [⟨T pair.row1 pair.row2, pair.minY, pair.maxY⟩],
          count := acc.count + (T pair.row1 pair.row2).getCount,
          minX := if jlt (T pair.row1 pair.row2).min acc.minX
              then (T pair.row1 pair.row2).min else acc.minX,
          maxX := if jlt acc.maxX (T pair.row1 pair.row2).max
              then (T pair.row1 pair.row2).max else acc.maxX,
          hash := wrap32 (acc.hash * 23
              + (T pair.row1 pair.row2).getHashCode) } := by
  unfold accumStep
  rw [if_neg (by rw [hne]; exact Bool.false_ne_true), hrows]

/-- A band whose bottom was lowered contains exactly the same heights
below the old bottom, and the same bands are found around it. -/
theorem activeRow_append_notc (L : List Row) (a : Row) (y : ℚ)
    (h : rowContains a y = false) :
    activeRow (L ++ [a]) 0 y = activeRow L 0 y := by
  rw [activeRow_append]
  unfold activeRow
  rw [List.drop_zero]
  cases hL : L.find? (fun r => rowContains r y) with
  | some r => rfl
  | none => rw [if_neg (by rw [h]; exact Bool.false_ne_true)]

end Region2D

namespace Region2D

open Region1D

/-- What a generated pair guarantees: a proper Y-range and row sets
sourced from the inputs (or empty). -/
def PairOk (rows1 rows2 : List Row) (q : Pair) : Prop :=
  jlt q.minY q.maxY = true
  ∧ (q.row1 = R1.empty ∨ ∃ r ∈ rows1, q.row1 = r.region)
  ∧ (q.row2 = R1.empty ∨ ∃ r ∈ rows2, q.row2 = r.region)

/-- The accumulator invariant of the output loop, relative to the pairs
processed so far. -/
def AccInv (T : R1 → R1 → R1) (Pdone : List Pair) (acc : Accum) : Prop :=
  ValidRows acc.rows.reverse
  ∧ acc.count = ((acc.rows.reverse.map fun r => r.region.getCount).sum)
  ∧ acc.minX = acc.rows.reverse.foldl minXStep pinf
  ∧ acc.maxX = acc.rows.reverse.foldl maxXStep ninf
  ∧ acc.hash = acc.rows.reverse.foldl hashStep2 0
  ∧ (∀ y : ℚ, activeRow acc.rows.reverse 0 y = pairResultAt T Pdone y)

end Region2D



namespace Region2D

open Region1D

theorem activeRow_append_some {L : List Row} {a : Row} {y : ℚ} {r : Row}
    (h : L.find? (fun r => rowContains r y) = some r) :
    activeRow (L ++ [a]) 0 y = r.region := by
  rw [activeRow_append, h]

theorem activeRow_append_none {L : List Row} {a : Row} {y : ℚ}
    (h : L.find? (fun r => rowContains r y) = none) :
    activeRow (L ++ [a]) 0 y
      = if rowContains a y then a.region else R1.empty := by
  rw [activeRow_append, h]

theorem activeRow_singleton (a : Row) (y : ℚ) :
    activeRow [a] 0 y
      = if rowContains a y then a.region else R1.empty := by
  have h := activeRow_append_none (L := []) (a := a) (y := y) rfl
  simpa using h

theorem pairResultAt_some {T : R1 → R1 → R1} {P : List Pair} {y : ℚ}
    {p : Pair}
    (h : P.find? (fun p => jle p.minY (num y) && jlt (num y) p.maxY)
      = some p) :
    pairResultAt T P y
      = if (T p.row1 p.row2).isEmpty then R1.empty
        else T p.row1 p.row2 := by
  unfold pairResultAt
  rw [h]

theorem pairResultAt_append_some {T : R1 → R1 → R1} {P : List Pair}
    {q : Pair} {y : ℚ} {p : Pair}
    (h : P.find? (fun p => jle p.minY (num y) && jlt (num y) p.maxY)
      = some p) :
    pairResultAt T (P ++ [q]) y
      = if (T p.row1 p.row2).isEmpty then R1.empty
        else T p.row1 p.row2 := by
  rw [pairResultAt_append, h]

theorem pairResultAt_append_none {T : R1 → R1 → R1} {P : List Pair}
    {q : Pair} {y : ℚ}
    (h : P.find? (fun p => jle p.minY (num y) && jlt (num y) p.maxY)
      = none) :
    pairResultAt T (P ++ [q]) y
      = if jle q.minY (num y) && jlt (num y) q.maxY then
          if (T q.row1 q.row2).isEmpty then R1.empty else T q.row1 q.row2
        else R1.empty := by
  rw [pairResultAt_append, h]

end Region2D

namespace Region2D

open Region1D

/-- One output-loop step preserves the accumulator invariant, and the new
last row (if any) ends at or below the processed pair's bottom. -/
theorem accumStep_inv (T : R1 → R1 → R1)
    (HT : ∀ a b : R1, ValidR1 a → ValidR1 b → ValidR1 (T a b))
    (rows1 rows2 : List Row)
    (hv1 : ValidRows rows1) (hv2 : ValidRows rows2)
    (Pdone : List Pair) (acc : Accum) (q : Pair)
    (hq : PairOk rows1 rows2 q)
    (hPd : ∀ p ∈ Pdone, jle p.maxY q.minY = true)
    (hbnd : ∀ last, acc.rows.head? = some last →
      jle last.maxY q.minY = true)
    (hinv : AccInv T Pdone acc) :
    AccInv T (Pdone ++ [q]) (accumStep T acc q)
    ∧ (∀ last, (accumStep T acc q).rows.head? = some last →
        jle last.maxY q.maxY = true) := by
  obtain ⟨hqv, hsrc1, hsrc2⟩ := hq
  obtain ⟨hvR, hcount, hminX, hmaxX, hhash, hsem⟩ := hinv
  have hqminnan : q.minY ≠ nan := jlt_ne_nan_left hqv
  have hqmaxnan : q.maxY ≠ nan := jlt_ne_nan_right hqv
  have hvrow1 : ValidR1 q.row1 := by
    rcases hsrc1 with h | ⟨r, hr, e⟩
    · rw [h]; exact validR1_empty
    · rw [e]; exact (hv1.1 r hr).1
  have hvrow2 : ValidR1 q.row2 := by
    rcases hsrc2 with h | ⟨r, hr, e⟩
    · rw [h]; exact validR1_empty
    · rw [e]; exact (hv2.1 r hr).1
  have hresV : ValidR1 (T q.row1 q.row2) := HT _ _ hvrow1 hvrow2
  by_cases hres : (T q.row1 q.row2).isEmpty = true
  · -- empty result row: the accumulator is unchanged
    rw [accumStep_empty hres]
    refine ⟨⟨hvR, hcount, hminX, hmaxX, hhash, ?_⟩, ?_⟩
    · intro y
      cases hfP : Pdone.find?
          (fun p => jle p.minY (num y) && jlt (num y) p.maxY) with
      | some p =>
        rw [pairResultAt_append_some hfP, hsem y, pairResultAt_some hfP]
      | none =>
        rw [pairResultAt_append_none hfP, hsem y, pairResultAt_none hfP,
          hres]
        simp
    · intro last hl
      exact jle_trans (hbnd last hl) (jle_of_jlt hqv)
  · -- the result row is non-empty
    have hresne : (T q.row1 q.row2).arr ≠ [] := by
      intro h
      unfold R1.isEmpty at hres
      rw [h] at hres
      exact hres rfl
    have hresB : (T q.row1 q.row2).isEmpty = false :=
      Bool.eq_false_iff.mpr hres
    cases hrows : acc.rows with
    | nil =>
      -- first output band
      rw [accumStep_push_nil hrows hresB]
      rw [hrows] at hsem hcount hminX hmaxX hhash
      simp only [List.reverse_nil, List.map_nil, List.sum_nil,
        List.foldl_nil] at hcount hminX hmaxX hhash
      have hsem0 : ∀ y : ℚ, pairResultAt T Pdone y = R1.empty :=
        fun y => (hsem y).symm
      refine ⟨⟨?_, ?_, ?_, ?_, ?_, ?_⟩, ?_⟩
      · constructor
        · intro r hr
          simp only [List.reverse_cons, List.reverse_nil,
            List.nil_append, List.mem_singleton] at hr
          subst hr
          exact ⟨hresV, hresne, hqv⟩
        · simp only [List.reverse_cons, List.reverse_nil,
            List.nil_append]
          exact List.chain'_singleton _
      · show acc.count + (T q.row1 q.row2).getCount = _
        rw [hcount]
        simp
      · show (if jlt (T q.row1 q.row2).min acc.minX = true
            then (T q.row1 q.row2).min else acc.minX) = _
        rw [hminX]
        rfl
      · show (if jlt acc.maxX (T q.row1 q.row2).max = true
            then (T q.row1 q.row2).max else acc.maxX) = _
        rw [hmaxX]
        rfl
      · show wrap32 (acc.hash * 23 + (T q.row1 q.row2).getHashCode) = _
        rw [hhash]
        rfl
      · intro y
        simp only [List.reverse_cons, List.reverse_nil, List.nil_append]
        rw [activeRow_singleton]
        cases hfP : Pdone.find?
            (fun p => jle p.minY (num y) && jlt (num y) p.maxY) with
        | some p =>
          have hpy := List.find?_some hfP
          have hpmem := List.mem_of_find?_eq_some hfP
          rw [Bool.and_eq_true] at hpy
          have hylt : jlt (num y) q.minY = true :=
            jlt_of_jlt_of_jle hpy.2 (hPd p hpmem)
          have hle : jle q.minY (num y) = false := by
            cases h : jle q.minY (num y) with
            | false => rfl
            | true =>
              have h3 := jlt_of_jle_of_jlt h hylt
              rw [jlt_irrefl] at h3
              cases h3
          have hcf : rowContains
              (⟨T q.row1 q.row2, q.minY, q.maxY⟩ : Row) y = false := by
            show (jle q.minY (num y) && jlt (num y) q.maxY) = false
            rw [hle]
            rfl
          rw [if_neg (by rw [hcf]; exact Bool.false_ne_true)]
          rw [pairResultAt_append_some hfP]
          have h2 := hsem0 y
          rw [pairResultAt_some hfP] at h2
          exact h2.symm
        | none =>
          rw [pairResultAt_append_none hfP]
          cases hc : (jle q.minY (num y) && jlt (num y) q.maxY) with
          | true =>
            have hcT : rowContains
                (⟨T q.row1 q.row2, q.minY, q.maxY⟩ : Row) y = true := hc
            rw [if_pos hcT, if_pos rfl, if_neg hres]
          | false =>
            have hcF : rowContains
                (⟨T q.row1 q.row2, q.minY, q.maxY⟩ : Row) y
                  = false := hc
            rw [if_neg (by rw [hcF]; exact Bool.false_ne_true),
              if_neg Bool.false_ne_true]
      · intro last hl
        simp only [List.head?_cons, Option.some.injEq] at hl
        subst hl
        exact jle_refl hqmaxnan
    | cons last rest =>
      have hbl : jle last.maxY q.minY = true :=
        hbnd last (by rw [hrows]; rfl)
      rw [hrows] at hvR hcount hminX hmaxX hhash hsem
      rw [List.reverse_cons] at hvR hcount hminX hmaxX hhash hsem
      have hlastv : ValidRow last := hvR.1 last (by simp)
      have hlminnan : last.minY ≠ nan := jlt_ne_nan_left hlastv.2.2
      have hlmaxnan : last.maxY ≠ nan := jlt_ne_nan_right hlastv.2.2
      have hallle : ∀ r ∈ rest.reverse, jle r.maxY last.minY = true :=
        rows_all_le_last hvR
      have hallq : ∀ r ∈ rest.reverse ++ [last],
          jle r.maxY q.minY = true := by
        intro r hr
        rcases List.mem_append.mp hr with h | h
        · exact jle_trans (hallle r h)
            (jle_trans (jle_of_jlt hlastv.2.2) hbl)
        · simp only [List.mem_singleton] at h
          subst h
          exact hbl
      by_cases hg : ((T q.row1 q.row2).equals last.region
          && jeq last.maxY q.minY) = true
      · -- coalesce with the previous band
        rw [Bool.and_eq_true] at hg
        have hml : last.maxY = q.minY := jeq_eq hg.2
        have hrl : T q.row1 q.row2 = last.region :=
          (equals_iff hresV hlastv.1).mp hg.1
        rw [accumStep_coalesce hrows hresB
          (by rw [Bool.and_eq_true]; exact hg)]
        have hlv' : jlt last.minY q.maxY = true := by
          apply jlt_trans _ hqv
          rw [← hml]
          exact hlastv.2.2
        refine ⟨⟨?_, ?_, ?_, ?_, ?_, ?_⟩, ?_⟩
        · constructor
          · intro r hr
            rw [List.reverse_cons] at hr
            rcases List.mem_append.mp hr with h | h
            · exact hvR.1 r (List.mem_append_left _ h)
            · simp only [List.mem_singleton] at h
              subst h
              exact ⟨hlastv.1, hlastv.2.1, hlv'⟩
          · rw [List.reverse_cons]
            rw [List.chain'_append]
            obtain ⟨c1, _, c3⟩ := List.chain'_append.mp hvR.2
            refine ⟨c1, List.chain'_singleton _, ?_⟩
            intro x hx z hz
            simp only [List.head?_cons, Option.mem_def,
              Option.some.injEq] at hz
            subst hz
            exact c3 x hx last rfl
        · show acc.count = _
          rw [List.reverse_cons, List.map_append, List.sum_append]
          rw [List.map_append, List.sum_append] at hcount
          simpa using hcount
        · show acc.minX = _
          rw [List.reverse_cons, List.foldl_append]
          rw [List.foldl_append] at hminX
          simpa using hminX
        · show acc.maxX = _
          rw [List.reverse_cons, List.foldl_append]
          rw [List.foldl_append] at hmaxX
          simpa using hmaxX
        · show acc.hash = _
          rw [List.reverse_cons, List.foldl_append]
          rw [List.foldl_append] at hhash
          simpa using hhash
        · intro y
          rw [List.reverse_cons]
          cases hfP : Pdone.find?
              (fun p => jle p.minY (num y) && jlt (num y) p.maxY) with
          | some p =>
            have hpy := List.find?_some hfP
            have hpmem := List.mem_of_find?_eq_some hfP
            rw [Bool.and_eq_true] at hpy
            have hylt : jlt (num y) q.minY = true :=
              jlt_of_jlt_of_jle hpy.2 (hPd p hpmem)
            have hyltl : jlt (num y) last.maxY = true := by
              rw [hml]; exact hylt
            have hyq : jlt (num y) q.maxY = true := jlt_trans hylt hqv
            have hAA : activeRow (rest.reverse
                ++ [{ last with maxY := q.maxY }]) 0 y
                = activeRow (rest.reverse ++ [last]) 0 y := by
              rw [activeRow_append, activeRow_append]
              cases hfL : rest.reverse.find?
                  (fun r => rowContains r y) with
              | some r => rfl
              | none =>
                rw [show rowContains { last with maxY := q.maxY } y
                    = rowContains last y from by
                  show (jle last.minY (num y) && jlt (num y) q.maxY)
                    = (jle last.minY (num y) && jlt (num y) last.maxY)
                  rw [hyq, hyltl]]
            rw [hAA, hsem y, pairResultAt_some hfP,
              pairResultAt_append_some hfP]
          | none =>
            rw [pairResultAt_append_none hfP]
            by_cases hc1 : jle q.minY (num y) = true
            · by_cases hc2 : jlt (num y) q.maxY = true
              · have hfL : rest.reverse.find?
                    (fun r => rowContains r y) = none := by
                  apply find_rows_none
                  intro r hr
                  exact jle_trans (jle_trans (hallle r hr)
                    (jle_trans (jle_of_jlt hlastv.2.2) hbl)) hc1
                have hlmy : jle last.minY (num y) = true :=
                  jle_trans (jle_of_jlt hlastv.2.2)
                    (by rw [hml]; exact hc1)
                have hcl : rowContains { last with maxY := q.maxY } y
                    = true := by
                  show (jle last.minY (num y) && jlt (num y) q.maxY)
                    = true
                  rw [hlmy, hc2]
                  rfl
                rw [activeRow_append_none hfL, if_pos hcl]
                have hcq : (jle q.minY (num y) && jlt (num y) q.maxY)
                    = true := by
                  rw [hc1, hc2]
                  rfl
                rw [if_pos hcq, if_neg hres]
                exact hrl.symm
              · have hc2f : jlt (num y) q.maxY = false :=
                  Bool.eq_false_iff.mpr hc2
                have hyge : jle q.maxY (num y) = true :=
                  jle_of_not_jlt (by intro h; cases h) hqmaxnan hc2f
                have hall : ∀ r ∈ rest.reverse
                    ++ [{ last with maxY := q.maxY }],
                    jle r.maxY (num y) = true := by
                  intro r hr
                  rcases List.mem_append.mp hr with h | h
                  · exact jle_trans (hallq r (List.mem_append_left _ h))
                      (jle_trans (jle_of_jlt hqv) hyge)
                  · simp only [List.mem_singleton] at h
                    subst h
                    show jle q.maxY (num y) = true
                    exact hyge
                have hLHS : activeRow (rest.reverse
                    ++ [{ last with maxY := q.maxY }]) 0 y
                    = R1.empty := by
                  unfold activeRow
                  rw [List.drop_zero, find_rows_none hall]
                rw [hLHS]
                have hcqf : (jle q.minY (num y) && jlt (num y) q.maxY)
                    = false := by rw [hc2f]; simp
                rw [if_neg (by rw [hcqf]; exact Bool.false_ne_true)]
            · have hc1f : jle q.minY (num y) = false :=
                Bool.eq_false_iff.mpr hc1
              have hylt : jlt (num y) q.minY = true :=
                jlt_of_not_jle hqminnan (by intro h; cases h) hc1f
              have hyltl : jlt (num y) last.maxY = true := by
                rw [hml]; exact hylt
              have hyq : jlt (num y) q.maxY = true := jlt_trans hylt hqv
              have hAA : activeRow (rest.reverse
                  ++ [{ last with maxY := q.maxY }]) 0 y
                  = activeRow (rest.reverse ++ [last]) 0 y := by
                rw [activeRow_append, activeRow_append]
                cases hfL : rest.reverse.find?
                    (fun r => rowContains r y) with
                | some r => rfl
                | none =>
                  rw [show rowContains { last with maxY := q.maxY } y
                      = rowContains last y from by
                    show (jle last.minY (num y) && jlt (num y) q.maxY)
                      = (jle last.minY (num y) && jlt (num y) last.maxY)
                    rw [hyq, hyltl]]
              rw [hAA, hsem y, pairResultAt_none hfP]
              have hcqf : (jle q.minY (num y) && jlt (num y) q.maxY)
                  = false := by rw [hc1f]; simp
              rw [if_neg (by rw [hcqf]; exact Bool.false_ne_true)]
        · intro l2 hl
          simp only [List.head?_cons, Option.some.injEq] at hl
          subst hl
          show jle q.maxY q.maxY = true
          exact jle_refl hqmaxnan
      · -- push a new band after the previous one
        have hgf : ((T q.row1 q.row2).equals last.region
            && jeq last.maxY q.minY) = false := Bool.eq_false_iff.mpr hg
        rw [accumStep_push_cons hrows hresB hgf]
        refine ⟨⟨?_, ?_, ?_, ?_, ?_, ?_⟩, ?_⟩
        · constructor
          · intro r hr
            rw [List.reverse_cons, hrows, List.reverse_cons] at hr
            rcases List.mem_append.mp hr with h | h
            · exact hvR.1 r h
            · simp only [List.mem_singleton] at h
              subst h
              exact ⟨hresV, hresne, hqv⟩
          · rw [List.reverse_cons, hrows, List.reverse_cons]
            rw [List.chain'_append]
            refine ⟨hvR.2, List.chain'_singleton _, ?_⟩
            intro x hx z hz
            simp only [List.head?_cons, Option.mem_def,
              Option.some.injEq] at hz
            subst hz
            rw [List.getLast?_concat, Option.mem_def,
              Option.some.injEq] at hx
            subst hx
            refine ⟨hbl, ?_⟩
            intro hjeq harr
            apply hg
            rw [Bool.and_eq_true]
            refine ⟨?_, hjeq⟩
            apply (equals_iff hresV hlastv.1).mpr
            exact (r1_eq_of_arr hlastv.1 hresV harr).symm
        · show acc.count + (T q.row1 q.row2).getCount = _
          rw [List.reverse_cons, hrows, List.reverse_cons,
            List.map_append, List.sum_append, ← hcount]
          simp
        · show (if jlt (T q.row1 q.row2).min acc.minX = true
              then (T q.row1 q.row2).min else acc.minX) = _
          rw [List.reverse_cons, hrows, List.reverse_cons,
            List.foldl_append, ← hminX]
          rfl
        · show (if jlt acc.maxX (T q.row1 q.row2).max = true
              then (T q.row1 q.row2).max else acc.maxX) = _
          rw [List.reverse_cons, hrows, List.reverse_cons,
            List.foldl_append, ← hmaxX]
          rfl
        · show wrap32 (acc.hash * 23 + (T q.row1 q.row2).getHashCode)
              = _
          rw [List.reverse_cons, hrows, List.reverse_cons,
            List.foldl_append, ← hhash]
          rfl
        · intro y
          rw [List.reverse_cons, hrows, List.reverse_cons]
          cases hfP : Pdone.find?
              (fun p => jle p.minY (num y) && jlt (num y) p.maxY) with
          | some p =>
            have hpy := List.find?_some hfP
            have hpmem := List.mem_of_find?_eq_some hfP
            rw [Bool.and_eq_true] at hpy
            have hylt : jlt (num y) q.minY = true :=
              jlt_of_jlt_of_jle hpy.2 (hPd p hpmem)
            have hle : jle q.minY (num y) = false := by
              cases h : jle q.minY (num y) with
              | false => rfl
              | true =>
                have h3 := jlt_of_jle_of_jlt h hylt
                rw [jlt_irrefl] at h3
                cases h3
            have hcf : rowContains
                (⟨T q.row1 q.row2, q.minY, q.maxY⟩ : Row) y
                = false := by
              show (jle q.minY (num y) && jlt (num y) q.maxY) = false
              rw [hle]
              rfl
            rw [activeRow_append_notc _ _ _ hcf, hsem y,
              pairResultAt_some hfP, pairResultAt_append_some hfP]
          | none =>
            rw [pairResultAt_append_none hfP]
            cases hc : (jle q.minY (num y) && jlt (num y) q.maxY) with
            | true =>
              have hc12 := Bool.and_eq_true_iff.mp hc
              have hfR : (rest.reverse ++ [last]).find?
                  (fun r => rowContains r y) = none :=
                find_rows_none
                  (fun r hr => jle_trans (hallq r hr) hc12.1)
              have hcT : rowContains
                  (⟨T q.row1 q.row2, q.minY, q.maxY⟩ : Row) y
                    = true := hc
              rw [activeRow_append_none hfR, if_pos hcT, if_pos rfl,
                if_neg hres]
            | false =>
              have hcF : rowContains
                  (⟨T q.row1 q.row2, q.minY, q.maxY⟩ : Row) y
                    = false := hc
              rw [activeRow_append_notc _ _ _ hcF, hsem y,
                pairResultAt_none hfP, if_neg Bool.false_ne_true]
        · intro l2 hl
          simp only [List.head?_cons, Option.some.injEq] at hl
          subst hl
          exact jle_refl hqmaxnan

end Region2D

namespace Region2D

open Region1D

theorem jlt_to_ninf (a : JsNum) : jlt a ninf = false := by
  cases a <;> rfl

/-- Folding the whole pair stream preserves the accumulator invariant. -/
theorem accumFold (T : R1 → R1 → R1)
    (HT : ∀ a b : R1, ValidR1 a → ValidR1 b → ValidR1 (T a b))
    (rows1 rows2 : List Row)
    (hv1 : ValidRows rows1) (hv2 : ValidRows rows2) :
    ∀ (Q Pdone : List Pair) (acc : Accum),
      (∀ q ∈ Q, PairOk rows1 rows2 q) →
      List.Chain' pairLe Q →
      (∀ p ∈ Pdone, ∀ q ∈ Q, jle p.maxY q.minY = true) →
      (∀ last, acc.rows.head? = some last →
        ∀ q ∈ Q, jle last.maxY q.minY = true) →
      AccInv T Pdone acc →
      AccInv T (Pdone ++ Q) (Q.foldl (accumStep T) acc) := by
  intro Q
  induction Q with
  | nil =>
    intro Pdone acc _ _ _ _ hinv
    simpa using hinv
  | cons q Q' ih =>
    intro Pdone acc hQ hch hPd hbnd hinv
    rw [List.foldl_cons]
    have hq := hQ q (by simp)
    have hQ' : ∀ p ∈ Q', PairOk rows1 rows2 p :=
      fun p hp => hQ p (List.mem_cons_of_mem _ hp)
    have hQmax : ∀ p ∈ Q', jle q.maxY p.minY = true :=
      chainLe_all hch (fun p hp => (hQ' p hp).1)
    have hstep := accumStep_inv T HT rows1 rows2 hv1 hv2 Pdone acc q hq
      (fun p hp => hPd p hp q (by simp))
      (fun last hl => hbnd last hl q (by simp)) hinv
    have hPd' : ∀ p ∈ Pdone ++ [q], ∀ r ∈ Q',
        jle p.maxY r.minY = true := by
      intro p hp r hr
      rcases List.mem_append.mp hp with h | h
      · exact jle_trans (hPd p h q (by simp))
          (jle_trans (jle_of_jlt hq.1) (hQmax r hr))
      · simp only [List.mem_singleton] at h
        subst h
        exact hQmax r hr
    have hbnd' : ∀ last, (accumStep T acc q).rows.head? = some last →
        ∀ r ∈ Q', jle last.maxY r.minY = true := by
      intro last hl r hr
      exact jle_trans (hstep.2 last hl) (hQmax r hr)
    have key := ih (Pdone ++ [q]) (accumStep T acc q) hQ'
      hch.tail hPd' hbnd' hstep.1
    rw [show Pdone ++ q :: Q' = (Pdone ++ [q]) ++ Q' from by simp]
    exact key

/-- The 2-D `combineData` on valid band lists: the output band list is
valid, the cached fields are canonical, and the output's active band at
every height is the (normalised) transform of the inputs' active bands. -/
theorem combineData_master (rows1 rows2 : List Row) (T : R1 → R1 → R1)
    (hv1 : ValidRows rows1) (hv2 : ValidRows rows2)
    (HT : ∀ a b : R1, ValidR1 a → ValidR1 b → ValidR1 (T a b))
    (HTe : (T R1.empty R1.empty).isEmpty = true) :
    ValidRows (combineData rows1 rows2 T).array
    ∧ combineData rows1 rows2 T
        = cacheOf (combineData rows1 rows2 T).array
    ∧ ∀ y : ℚ, activeRow (combineData rows1 rows2 T).array 0 y
        = (if (T (activeRow rows1 0 y) (activeRow rows2 0 y)).isEmpty
           then R1.empty
           else T (activeRow rows1 0 y) (activeRow rows2 0 y)) := by
  have hg0 : GInv rows1 rows2 ⟨0, 0, ninf⟩ := by
    unfold GInv
    refine ⟨Nat.zero_le _, Nat.zero_le _, ?_, ?_, ?_⟩
    · show (ninf : JsNum) ≠ nan
      intro h
      cases h
    · intro h
      have hvr := hv1.1 _ (rows1.get_mem 0 h)
      apply jlt_ninf (jlt_ne_nan_right hvr.2.2)
      intro he
      have h2 := hvr.2.2
      rw [he, jlt_to_ninf] at h2
      cases h2
    · intro h
      have hvr := hv2.1 _ (rows2.get_mem 0 h)
      apply jlt_ninf (jlt_ne_nan_right hvr.2.2)
      intro he
      have h2 := hvr.2.2
      rw [he, jlt_to_ninf] at h2
      cases h2
  obtain ⟨hA, hchain, hsemP⟩ := genRun rows1 rows2 hv1 hv2
    (rows1.length + rows2.length)
    (2 * (rows1.length + rows2.length) + 1)
    ⟨0, 0, ninf⟩ hg0 (by omega) le_rfl
  set P := genPairs rows1 rows2
    (2 * (rows1.length + rows2.length) + 1) ⟨0, 0, ninf⟩ with hPdef
  set acc' := P.foldl (accumStep T) ⟨[], 0, pinf, ninf, 0⟩ with hacc
  have hcd : combineData rows1 rows2 T
      = { array := acc'.rows.reverse,
          count := acc'.count,
          minX := acc'.minX,
          minY := ((acc'.rows.reverse.head?.map Row.minY).getD pinf),
          maxX := acc'.maxX,
          maxY := ((acc'.rows.reverse.getLast?.map Row.maxY).getD ninf),
          hash := acc'.hash } := rfl
  have hfold := accumFold T HT rows1 rows2 hv1 hv2 P [] ⟨[], 0, pinf, ninf, 0⟩
    (fun q hq => ⟨(hA q hq).1, (hA q hq).2.2.1, (hA q hq).2.2.2⟩)
    hchain
    (fun p hp => absurd hp (List.not_mem_nil p))
    (fun last hl => absurd hl (by intro h; cases h))
    ⟨⟨fun r hr => absurd hr (List.not_mem_nil r), List.chain'_nil⟩,
      rfl, rfl, rfl, rfl, fun y => rfl⟩
  rw [List.nil_append] at hfold
  obtain ⟨hvout, hcnt, hmnX, hmxX, hhsh, hsemA⟩ := hfold
  refine ⟨?_, ?_, ?_⟩
  · rw [hcd]
    exact hvout
  · rw [hcd]
    show _ = cacheOf acc'.rows.reverse
    unfold cacheOf
    rw [RData.mk.injEq]
    exact ⟨rfl, hcnt, hmnX, rfl, hmxX, rfl, hhsh⟩
  · intro y
    rw [hcd]
    have h1 := hsemA y
    have h2 := hsemP y (by rfl)
    -- link pairResultAt with pairAt
    have h3 : pairResultAt T P y
        = (if (T (pairAt P y).1 (pairAt P y).2).isEmpty
           then R1.empty else T (pairAt P y).1 (pairAt P y).2) := by
      unfold pairResultAt pairAt
      cases hfP : P.find?
          (fun p => jle p.minY (num y) && jlt (num y) p.maxY) with
      | some p => rfl
      | none =>
        rw [HTe]
        rfl
    rw [h1, h3, h2]
  
end Region2D

namespace Region2D

open Region1D

/-- A well-formed `Region2D` data record: a valid band list with all the
cached fields derived from it. -/
def ValidData (d : RData) : Prop :=
  ValidRows d.array ∧ d = cacheOf d.array

theorem bandInv_of_validRows {rows : List Row} (h : ValidRows rows) :
    BandInvariants rows :=
  ⟨fun r hr => ⟨(h.1 r hr).2.1, (h.1 r hr).2.2⟩, h.2⟩

/-- The four row transforms preserve 1-D validity. -/
theorem r1_union_valid (a b : R1) (ha : ValidR1 a) (hb : ValidR1 b) :
    ValidR1 (R1.union a b) :=
  ⟨(unionData_valid_sem a.arr b.arr ha.1 hb.1).1, rfl⟩

theorem r1_intersect_valid (a b : R1) (ha : ValidR1 a) (hb : ValidR1 b) :
    ValidR1 (R1.intersect a b) :=
  ⟨(intersectData_valid_sem a.arr b.arr ha.1 hb.1).1, rfl⟩

theorem r1_subtract_valid (a b : R1) (ha : ValidR1 a) (hb : ValidR1 b) :
    ValidR1 (R1.subtract a b) :=
  ⟨(subtractData_valid_sem a.arr b.arr ha.1 hb.1).1, rfl⟩

theorem r1_xor_valid (a b : R1) (ha : ValidR1 a) (hb : ValidR1 b) :
    ValidR1 (R1.xor a b) :=
  ⟨(xorData_valid_sem a.arr b.arr ha.1 hb.1).1, rfl⟩

end Region2D

/-- C5: for every two valid Region2D values, the band list produced by
each of union, intersect, subtract and xor satisfies the region
invariants: every band's row set is non-empty, `maxY > minY` for every
band, each band's `minY` is at least the previous band's `maxY`, and two
Y-adjacent bands never carry equal row sets. -/
theorem c5_band_invariants (d1 d2 : Region2D.RData)
    (h1 : Region2D.ValidData d1) (h2 : Region2D.ValidData d2) :
    Region2D.BandInvariants (Region2D.union2 d1 d2).array
    ∧ Region2D.BandInvariants (Region2D.intersect2 d1 d2).array
    ∧ Region2D.BandInvariants (Region2D.subtract2 d1 d2).array
    ∧ Region2D.BandInvariants (Region2D.xor2 d1 d2).array := by
  refine ⟨?_, ?_, ?_, ?_⟩
  · exact Region2D.bandInv_of_validRows
      (Region2D.combineData_master d1.array d2.array _ h1.1 h2.1
        Region2D.r1_union_valid rfl).1
  · unfold Region2D.intersect2
    by_cases hb : (!Region2D.doBoundsOverlap d1 d2) = true
    · rw [if_pos hb]
      exact ⟨fun r hr => absurd hr (List.not_mem_nil r), List.chain'_nil⟩
    · rw [if_neg hb]
      exact Region2D.bandInv_of_validRows
        (Region2D.combineData_master d1.array d2.array _ h1.1 h2.1
          Region2D.r1_intersect_valid rfl).1
  · unfold Region2D.subtract2
    by_cases hb : (!Region2D.doBoundsOverlap d1 d2) = true
    · rw [if_pos hb]
      exact Region2D.bandInv_of_validRows h1.1
    · rw [if_neg hb]
      exact Region2D.bandInv_of_validRows
        (Region2D.combineData_master d1.array d2.array _ h1.1 h2.1
          Region2D.r1_subtract_valid rfl).1
  · exact Region2D.bandInv_of_validRows
      (Region2D.combineData_master d1.array d2.array _ h1.1 h2.1
        Region2D.r1_xor_valid rfl).1

/-- Witness for C5 at two concrete one-rectangle regions. -/
theorem c5_band_invariants_witness :
    Region2D.BandInvariants (Region2D.union2
      (Region2D.cacheOf [⟨Region1D.mkR1 [JsNum.num 0, JsNum.num 1],
        JsNum.num 0, JsNum.num 1⟩])
      (Region2D.cacheOf [⟨Region1D.mkR1 [JsNum.num 2, JsNum.num 3],
        JsNum.num 2, JsNum.num 3⟩])).array
    ∧ Region2D.BandInvariants (Region2D.intersect2
      (Region2D.cacheOf [⟨Region1D.mkR1 [JsNum.num 0, JsNum.num 1],
        JsNum.num 0, JsNum.num 1⟩])
      (Region2D.cacheOf [⟨Region1D.mkR1 [JsNum.num 2, JsNum.num 3],
        JsNum.num 2, JsNum.num 3⟩])).array
    ∧ Region2D.BandInvariants (Region2D.subtract2
      (Region2D.cacheOf [⟨Region1D.mkR1 [JsNum.num 0, JsNum.num 1],
        JsNum.num 0, JsNum.num 1⟩])
      (Region2D.cacheOf [⟨Region1D.mkR1 [JsNum.num 2, JsNum.num 3],
        JsNum.num 2, JsNum.num 3⟩])).array
    ∧ Region2D.BandInvariants (Region2D.xor2
      (Region2D.cacheOf [⟨Region1D.mkR1 [JsNum.num 0, JsNum.num 1],
        JsNum.num 0, JsNum.num 1⟩])
      (Region2D.cacheOf [⟨Region1D.mkR1 [JsNum.num 2, JsNum.num 3],
        JsNum.num 2, JsNum.num 3⟩])).array :=
  c5_band_invariants _ _
    ⟨⟨fun r hr => by
        have hr2 : r ∈ [(⟨Region1D.mkR1 [JsNum.num 0, JsNum.num 1],
            JsNum.num 0, JsNum.num 1⟩ : Region2D.Row)] := hr
        rw [List.mem_singleton] at hr2
        subst hr2
        exact ⟨by decide, by decide, by decide⟩,
      List.chain'_singleton _⟩, rfl⟩
    ⟨⟨fun r hr => by
        have hr2 : r ∈ [(⟨Region1D.mkR1 [JsNum.num 2, JsNum.num 3],
            JsNum.num 2, JsNum.num 3⟩ : Region2D.Row)] := hr
        rw [List.mem_singleton] at hr2
        subst hr2
        exact ⟨by decide, by decide, by decide⟩,
      List.chain'_singleton _⟩, rfl⟩

namespace Region2D

open Region1D

theorem row_ne_empty {r : Row} (h : ValidRow r) : r.region ≠ R1.empty := by
  intro he
  apply h.2.1
  rw [he]
  rfl

theorem active_cons_head {r : Row} {R' : List Row} {y : ℚ}
    (hc : rowContains r y = true) :
    activeRow (r :: R') 0 y = r.region := by
  unfold activeRow
  rw [List.drop_zero, List.find?_cons_of_pos _ (by exact hc)]

theorem active_cons_tail {r : Row} {R' : List Row} {y : ℚ}
    (hy : jle r.maxY (num y) = true) :
    activeRow (r :: R') 0 y = activeRow R' 0 y := by
  have h1 : activeRow (r :: R') (0 + 1) y = activeRow (r :: R') 0 y :=
    activeRow_skip (r :: R') 0 y (by simp) hy
  rw [← h1]
  rfl

theorem active_cons_below {r : Row} {R' : List Row} {y : ℚ}
    (hv : ValidRows (r :: R')) (hy : jlt (num y) r.minY = true) :
    activeRow (r :: R') 0 y = R1.empty :=
  activeRow_below (r :: R') 0 y (fun x hx => (hv.1 x hx).2.2) hv.2
    (by simp) hy

/-- If the first band starts strictly below the other list's coverage,
the active functions differ. -/
theorem minY_lt_case {r s : Row} {R' S' : List Row}
    (hvR : ValidRows (r :: R')) (hvS : ValidRows (s :: S'))
    (hEq : ∀ y : ℚ, activeRow (r :: R') 0 y = activeRow (s :: S') 0 y)
    (hlt : jlt r.minY s.minY = true) : False := by
  have hvr : ValidRow r := hvR.1 r (by simp)
  have hvs : ValidRow s := hvS.1 s (by simp)
  have hrmaxnan : r.maxY ≠ nan := jlt_ne_nan_right hvr.2.2
  have hsminnan : s.minY ≠ nan := jlt_ne_nan_right hlt
  obtain ⟨t, ht1, ht2, ht3⟩ :
      ∃ t : ℚ, jle r.minY (num t) = true ∧ jlt (num t) r.maxY = true
        ∧ jlt (num t) s.minY = true := by
    by_cases hw : jlt r.maxY s.minY = true
    · obtain ⟨h1, h2⟩ := btwn_spec hvr.2.2
      exact ⟨btwn r.minY r.maxY, h1, h2, jlt_trans h2 hw⟩
    · have hws : jle s.minY r.maxY = true :=
        jle_of_not_jlt hrmaxnan hsminnan (Bool.eq_false_iff.mpr hw)
      obtain ⟨h1, h2⟩ := btwn_spec hlt
      exact ⟨btwn r.minY s.minY, h1, jlt_of_jlt_of_jle h2 hws, h2⟩
  have hL : activeRow (r :: R') 0 t = r.region :=
    active_cons_head (by unfold rowContains; rw [ht1, ht2]; rfl)
  have hR : activeRow (s :: S') 0 t = R1.empty :=
    active_cons_below hvS ht3
  apply row_ne_empty hvr
  rw [← hL, hEq t, hR]

/-- If the two heads share their top and row set but the first ends
strictly below the second, the active functions differ. -/
theorem maxY_lt_case {r s : Row} {R' S' : List Row}
    (hvR : ValidRows (r :: R')) (hvS : ValidRows (s :: S'))
    (hminY : s.minY = r.minY)
    (hEq : ∀ y : ℚ, activeRow (r :: R') 0 y = activeRow (s :: S') 0 y)
    (hlt : jlt r.maxY s.maxY = true) : False := by
  have hvr : ValidRow r := hvR.1 r (by simp)
  have hvs : ValidRow s := hvS.1 s (by simp)
  have hrmaxnan : r.maxY ≠ nan := jlt_ne_nan_left hlt
  have hsmaxnan : s.maxY ≠ nan := jlt_ne_nan_right hlt
  -- a height just above r's bottom is covered by s
  have hsc : ∀ t : ℚ, jle r.maxY (num t) = true →
      jlt (num t) s.maxY = true →
      activeRow (s :: S') 0 t = s.region := by
    intro t h1 h2
    apply active_cons_head
    unfold rowContains
    rw [show jle s.minY (num t) = true from by
      rw [hminY]
      exact jle_trans (jle_of_jlt hvr.2.2) (jle_trans (jle_refl
        hrmaxnan) h1), h2]
    rfl
  cases hR' : R' with
  | nil =>
    obtain ⟨h1, h2⟩ := btwn_spec hlt
    set t := btwn r.maxY s.maxY with htdef
    have hL : activeRow (r :: R') 0 t = R1.empty := by
      rw [active_cons_tail h1, hR']
      rfl
    apply row_ne_empty hvs
    rw [← hsc t h1 h2, ← hEq t, hL]
  | cons r2 R'' =>
    have hvr2 : ValidRow r2 := hvR.1 r2 (by rw [hR']; simp)
    have hch : RowChain r r2 := by
      have := hvR.2
      rw [hR'] at this
      exact (List.chain'_cons.mp this).1
    by_cases hj : jeq r.maxY r2.minY = true
    · -- adjacent bands: they must differ, but both equal s's row set
      have hdiff : r.region.arr ≠ r2.region.arr := hch.2 hj
      have hml : r.maxY = r2.minY := jeq_eq hj
      obtain ⟨t, ht1, ht2, ht3⟩ :
          ∃ t : ℚ, jle r2.minY (num t) = true
            ∧ jlt (num t) r2.maxY = true
            ∧ jlt (num t) s.maxY = true := by
        by_cases hw : jlt r2.maxY s.maxY = true
        · obtain ⟨h1, h2⟩ := btwn_spec hvr2.2.2
          exact ⟨btwn r2.minY r2.maxY, h1, h2, jlt_trans h2 hw⟩
        · have hws : jle s.maxY r2.maxY = true :=
            jle_of_not_jlt (jlt_ne_nan_right hvr2.2.2) hsmaxnan
              (Bool.eq_false_iff.mpr hw)
          have hlt2 : jlt r2.minY s.maxY = true := by
            rw [← hml]
            exact hlt
          obtain ⟨h1, h2⟩ := btwn_spec hlt2
          exact ⟨btwn r2.minY s.maxY, h1,
            jlt_of_jlt_of_jle h2 hws, h2⟩
      have hL : activeRow (r :: R') 0 t = r2.region := by
        rw [active_cons_tail (by rw [hml]; exact ht1), hR']
        exact active_cons_head (by
          unfold rowContains
          rw [ht1, ht2]
          rfl)
      have hS : activeRow (s :: S') 0 t = s.region :=
        hsc t (by rw [hml]; exact ht1) ht3
      -- r and s agree at a height inside both heads
      obtain ⟨hu1, hu2⟩ := btwn_spec hvr.2.2
      have hLu : activeRow (r :: R') 0 (btwn r.minY r.maxY)
          = r.region :=
        active_cons_head (by
          unfold rowContains
          rw [hu1, hu2]
          rfl)
      have hSu : activeRow (s :: S') 0 (btwn r.minY r.maxY)
          = s.region :=
        active_cons_head (by
          unfold rowContains
          rw [show jle s.minY (num (btwn r.minY r.maxY)) = true from by
            rw [hminY]; exact hu1,
            jlt_trans hu2 hlt]
          rfl)
      apply hdiff
      have e1 : r.region = s.region := by
        rw [← hLu, hEq _, hSu]
      have e2 : r2.region = s.region := by
        rw [← hL, hEq t, hS]
      rw [e1, e2]
    · -- a gap after r: s covers it but nothing on the left does
      have hgap : jlt r.maxY r2.minY = true :=
        jlt_of_jle_ne hch.1 (Bool.eq_false_iff.mpr hj)
      obtain ⟨t, ht1, ht2, ht3⟩ :
          ∃ t : ℚ, jle r.maxY (num t) = true
            ∧ jlt (num t) r2.minY = true
            ∧ jlt (num t) s.maxY = true := by
        by_cases hw : jlt r2.minY s.maxY = true
        · obtain ⟨h1, h2⟩ := btwn_spec hgap
          exact ⟨btwn r.maxY r2.minY, h1, h2, jlt_trans h2 hw⟩
        · have hws : jle s.maxY r2.minY = true :=
            jle_of_not_jlt (jlt_ne_nan_right hgap) hsmaxnan
              (Bool.eq_false_iff.mpr hw)
          obtain ⟨h1, h2⟩ := btwn_spec hlt
          exact ⟨btwn r.maxY s.maxY, h1,
            jlt_of_jlt_of_jle h2 hws, h2⟩
      have hvtail : ValidRows (r2 :: R'') := by
        constructor
        · intro x hx
          apply hvR.1
          rw [hR']
          exact List.mem_cons_of_mem _ hx
        · have h9 := hvR.2
          rw [hR'] at h9
          exact h9.tail
      have hL : activeRow (r :: R') 0 t = R1.empty := by
        rw [active_cons_tail ht1, hR']
        exact active_cons_below hvtail ht2
      apply row_ne_empty hvs
      rw [← hsc t ht1 ht3, ← hEq t, hL]

end Region2D

namespace Region2D

open Region1D

/-- Canonicity of valid band lists: two valid band lists with the same
active row set at every rational height are equal. -/
theorem rows_canon :
    ∀ (R S : List Row), ValidRows R → ValidRows S →
      (∀ y : ℚ, activeRow R 0 y = activeRow S 0 y) → R = S := by
  intro R
  induction R with
  | nil =>
    intro S _ hvS hEq
    cases S with
    | nil => rfl
    | cons s S' =>
      exfalso
      have hvs : ValidRow s := hvS.1 s (by simp)
      obtain ⟨h1, h2⟩ := btwn_spec hvs.2.2
      have hS : activeRow (s :: S') 0 (btwn s.minY s.maxY)
          = s.region :=
        active_cons_head (by
          unfold rowContains
          rw [h1, h2]
          rfl)
      apply row_ne_empty hvs
      rw [← hS, ← hEq _]
      rfl
  | cons r R' ih =>
    intro S hvR hvS hEq
    cases S with
    | nil =>
      exfalso
      have hvr : ValidRow r := hvR.1 r (by simp)
      obtain ⟨h1, h2⟩ := btwn_spec hvr.2.2
      have hL : activeRow (r :: R') 0 (btwn r.minY r.maxY)
          = r.region :=
        active_cons_head (by
          unfold rowContains
          rw [h1, h2]
          rfl)
      apply row_ne_empty hvr
      rw [← hL, hEq _]
      rfl
    | cons s S' =>
      have hvr : ValidRow r := hvR.1 r (by simp)
      have hvs : ValidRow s := hvS.1 s (by simp)
      -- equal tops
      have hminY : r.minY = s.minY := by
        by_cases h1 : jlt r.minY s.minY = true
        · exact absurd hEq (fun h => minY_lt_case hvR hvS h h1)
        · by_cases h2 : jlt s.minY r.minY = true
          · exact absurd (fun y => (hEq y).symm)
              (fun h => minY_lt_case hvS hvR h h2)
          · exact jeq_eq (jeq_of_not_jlt (jlt_ne_nan_left hvr.2.2)
              (jlt_ne_nan_left hvs.2.2)
              (Bool.eq_false_iff.mpr h1) (Bool.eq_false_iff.mpr h2))
      -- equal bottoms
      have hmaxY : r.maxY = s.maxY := by
        by_cases h1 : jlt r.maxY s.maxY = true
        · exact absurd hEq
            (fun h => maxY_lt_case hvR hvS hminY.symm h h1)
        · by_cases h2 : jlt s.maxY r.maxY = true
          · exact absurd (fun y => (hEq y).symm)
              (fun h => maxY_lt_case hvS hvR hminY h h2)
          · exact jeq_eq (jeq_of_not_jlt (jlt_ne_nan_right hvr.2.2)
              (jlt_ne_nan_right hvs.2.2)
              (Bool.eq_false_iff.mpr h1) (Bool.eq_false_iff.mpr h2))
      -- equal row sets
      have hreg : r.region = s.region := by
        obtain ⟨h1, h2⟩ := btwn_spec hvr.2.2
        have hL : activeRow (r :: R') 0 (btwn r.minY r.maxY)
            = r.region :=
          active_cons_head (by
            unfold rowContains
            rw [h1, h2]
            rfl)
        have hS : activeRow (s :: S') 0 (btwn r.minY r.maxY)
            = s.region :=
          active_cons_head (by
            unfold rowContains
            rw [show jle s.minY (num (btwn r.minY r.maxY)) = true from
              by rw [← hminY]; exact h1,
              show jlt (num (btwn r.minY r.maxY)) s.maxY = true from
              by rw [← hmaxY]; exact h2]
            rfl)
        rw [← hL, hEq _, hS]
      -- the whole heads coincide
      have hhead : r = s := by
        obtain ⟨rr, r1, r2⟩ := r
        obtain ⟨ss, s1, s2⟩ := s
        simp only at hminY hmaxY hreg
        rw [hminY, hmaxY, hreg]
      subst hhead
      -- tails agree at every height
      have hvR' : ValidRows R' :=
        ⟨fun x hx => hvR.1 x (List.mem_cons_of_mem _ hx), hvR.2.tail⟩
      have hvS' : ValidRows S' :=
        ⟨fun x hx => hvS.1 x (List.mem_cons_of_mem _ hx), hvS.2.tail⟩
      have hEq' : ∀ y : ℚ, activeRow R' 0 y = activeRow S' 0 y := by
        intro y
        by_cases hy : jle r.maxY (num y) = true
        · have e1 : activeRow (r :: R') 0 y = activeRow R' 0 y :=
            active_cons_tail hy
          have e2 : activeRow (r :: S') 0 y = activeRow S' 0 y :=
            active_cons_tail hy
          rw [← e1, ← e2]
          exact hEq y
        · -- below the shared bottom, both tails are empty
          have hyb : jlt (num y) r.maxY = true :=
            jlt_of_not_jle (jlt_ne_nan_right hvr.2.2)
              (by intro h; cases h) (Bool.eq_false_iff.mpr hy)
          have eL : activeRow R' 0 y = R1.empty := by
            cases hR' : R' with
            | nil => rfl
            | cons r2 R'' =>
              have hch : RowChain r r2 := by
                have h9 := hvR.2
                rw [hR'] at h9
                exact (List.chain'_cons.mp h9).1
              apply active_cons_below (by rw [← hR']; exact hvR')
              exact jlt_of_jlt_of_jle hyb hch.1
          have eS : activeRow S' 0 y = R1.empty := by
            cases hS' : S' with
            | nil => rfl
            | cons s2 S'' =>
              have hch : RowChain r s2 := by
                have h9 := hvS.2
                rw [hS'] at h9
                exact (List.chain'_cons.mp h9).1
              apply active_cons_below (by rw [← hS']; exact hvS')
              exact jlt_of_jlt_of_jle hyb hch.1
          rw [eL, eS]
      rw [ih S' hvR' hvS' hEq']

end Region2D

namespace Region1D

theorem asc_head_le {y : JsNum} {l : List JsNum} (h : Ascending (y :: l))
    (hn : y ≠ nan) : ∀ z ∈ y :: l, jle y z = true := by
  intro z hz
  cases hz with
  | head => exact jle_refl hn
  | tail _ h2 => exact jle_of_jlt (asc_head_lt h z h2)

theorem asc_le_last :
    ∀ (l : List JsNum), Ascending l → NoNaN l →
      ∀ z ∈ l, ∀ lst, l.getLast? = some lst → jle z lst = true := by
  intro l
  induction l with
  | nil => intro _ _ z hz; cases hz
  | cons a rest ih =>
    intro hasc hnan z hz lst hlst
    cases rest with
    | nil =>
      cases hz with
      | head =>
        have h3 : lst = a := by
          have h4 : ([a] : List JsNum).getLast? = some a := rfl
          rw [h4] at hlst
          exact (Option.some.inj hlst).symm
        rw [h3]
        exact jle_refl (hnan a (by simp))
      | tail _ h2 => cases h2
    | cons b rest2 =>
      have hlst2 : (b :: rest2).getLast? = some lst := by
        rw [← hlst]
        rfl
      have htail : Ascending (b :: rest2) := (List.chain'_cons.mp hasc).2
      have hntail : NoNaN (b :: rest2) :=
        fun x hx => hnan x (List.mem_cons_of_mem _ hx)
      cases hz with
      | head =>
        have hb : jle b lst = true :=
          ih htail hntail b (by simp) lst hlst2
        exact jle_trans (jle_of_jlt (List.chain'_cons.mp hasc).1) hb
      | tail _ h2 => exact ih htail hntail z h2 lst hlst2

/-- A point inside valid span data lies between the first and the last
endpoint. -/
theorem sem1_bounds {a : JsNum} {l : List JsNum} {x : ℚ}
    (hv : Valid1D (a :: l)) (h : sem1 (a :: l) x = true) :
    jle a (num x) = true
    ∧ ∀ lst, (a :: l).getLast? = some lst → jlt (num x) lst = true := by
  have hnan : NoNaN (a :: l) := noNaN_of_valid hv
  have hcnt : 0 < cntLe (a :: l) x := by
    by_contra hc
    unfold sem1 at h
    have h0 : cntLe (a :: l) x = 0 := by omega
    rw [h0] at h
    cases h
  have hcnt2 : cntLe (a :: l) x < (a :: l).length := by
    by_contra hc
    have hle : cntLe (a :: l) x ≤ (a :: l).length :=
      List.countP_le_length _
    have he : cntLe (a :: l) x = (a :: l).length := by omega
    unfold sem1 at h
    rw [he] at h
    have hpar : (a :: l).length % 2 = 0 := hv.1
    have hodd : (a :: l).length % 2 = 1 := of_decide_eq_true h
    omega
  constructor
  · -- some endpoint is at or below x, and the head is least
    obtain ⟨z, hz, hpz⟩ := List.countP_pos_iff.mp hcnt
    exact jle_trans (asc_head_le hv.2 (hnan a (by simp)) z hz) hpz
  · -- some endpoint is strictly above x, and the last is greatest
    intro lst hlst
    have hex : ∃ z ∈ a :: l, ¬ (jle z (num x) = true) := by
      by_contra hall
      push_neg at hall
      have hcc : cntLe (a :: l) x = (a :: l).length :=
        List.countP_eq_length.mpr (fun z hz => hall z hz)
      omega
    obtain ⟨z, hz, hpz⟩ := hex
    have hzx : jlt (num x) z = true :=
      Region2D.jlt_of_not_jle (hnan z hz) (by intro h2; cases h2)
        (Bool.eq_false_iff.mpr hpz)
    exact jlt_of_jlt_of_jle hzx
      (asc_le_last _ hv.2 hnan z hz lst hlst)

/-- A non-empty valid span list contains at least one rational point. -/
theorem r1_nonempty_point {c : R1} (hc : ValidR1 c) (hne : c.arr ≠ []) :
    ∃ x : ℚ, sem1 c.arr x = true := by
  match harr : c.arr, hne with
  | [], hne => exact absurd rfl hne
  | [a], _ =>
    exfalso
    have h1 := hc.1.1
    rw [harr] at h1
    cases h1
  | a :: b :: rest, _ =>
    have hv := hc.1
    rw [harr] at hv
    have hab : jlt a b = true := (List.chain'_cons.mp hv.2).1
    obtain ⟨h1, h2⟩ := btwn_spec hab
    refine ⟨btwn a b, sem1_one h1 ?_⟩
    exact lt_all_of_asc (List.chain'_cons.mp hv.2).2 h2

/-- A valid `Region1D` with no rational points is the empty region. -/
theorem r1_empty_of_sem_false {c : R1} (hc : ValidR1 c)
    (h : ∀ x : ℚ, sem1 c.arr x = false) : c = R1.empty := by
  apply Region2D.r1_eq_of_arr hc validR1_empty
  exact sem1_canon (c.arr.length + 0) c.arr [] le_rfl hc.1
    ⟨rfl, List.chain'_nil⟩ (fun t => by rw [h t]; rfl)

end Region1D

namespace Region2D

open Region1D

theorem valid1d_inf : Valid1D [ninf, pinf] :=
  ⟨rfl, List.chain'_cons.mpr ⟨rfl, List.chain'_singleton _⟩⟩

/-- The whole-line span `[-inf, +inf)` contains every rational. -/
theorem sem1_inf (x : ℚ) : sem1 [ninf, pinf] x = true := rfl

theorem validRows_infinite : ValidRows infiniteData.array := by
  constructor
  · intro r hr
    have hr2 : r ∈ [(⟨mkR1 [ninf, pinf], ninf, pinf⟩ : Row)] := hr
    rw [List.mem_singleton] at hr2
    subst hr2
    exact ⟨⟨valid1d_inf, rfl⟩, fun h => List.noConfusion h, rfl⟩
  · exact List.chain'_singleton _

/-- The infinite region's sole band is active at every height. -/
theorem activeRow_infinite (y : ℚ) :
    activeRow infiniteData.array 0 y = mkR1 [ninf, pinf] := rfl

/-- The active row set of a valid band list is a valid `Region1D`. -/
theorem activeRow_valid {rows : List Row} (hv : ValidRows rows) (y : ℚ) :
    ValidR1 (activeRow rows 0 y) := by
  have h0 : activeRow rows 0 y
      = match rows.find? (fun r => rowContains r y) with
        | some r => r.region
        | none => R1.empty := by
    unfold activeRow
    rw [List.drop_zero]
  cases hf : rows.find? (fun r => rowContains r y) with
  | some r =>
    rw [h0, hf]
    exact (hv.1 r (List.mem_of_find?_eq_some hf)).1
  | none =>
    rw [h0, hf]
    exact validR1_empty

/-- Normalising an empty transform result to the canonical empty region
does not change the pointwise semantics. -/
theorem sem1_normalize (c : R1) (x : ℚ) :
    sem1 (if c.isEmpty then R1.empty else c).arr x = sem1 c.arr x := by
  by_cases h : c.isEmpty = true
  · rw [if_pos h]
    have harr : c.arr = [] := List.isEmpty_iff.mp h
    rw [harr]
    rfl
  · rw [if_neg h]

/-- Pointwise semantics of the 2-D union combine: disjunction of the
active row sets. -/
theorem sem_union_rows (rows1 rows2 : List Row) (hv1 : ValidRows rows1)
    (hv2 : ValidRows rows2) (x y : ℚ) :
    sem1 (activeRow (combineData rows1 rows2 R1.union).array 0 y).arr x
      = (sem1 (activeRow rows1 0 y).arr x
         || sem1 (activeRow rows2 0 y).arr x) := by
  have h := (combineData_master rows1 rows2 R1.union hv1 hv2
    r1_union_valid rfl).2.2 y
  rw [h, sem1_normalize]
  exact (unionData_valid_sem _ _ (activeRow_valid hv1 y).1
    (activeRow_valid hv2 y).1).2 x

/-- Pointwise semantics of the 2-D intersection combine: conjunction of
the active row sets. -/
theorem sem_intersect_rows (rows1 rows2 : List Row) (hv1 : ValidRows rows1)
    (hv2 : ValidRows rows2) (x y : ℚ) :
    sem1 (activeRow (combineData rows1 rows2 R1.intersect).array 0 y).arr x
      = (sem1 (activeRow rows1 0 y).arr x
         && sem1 (activeRow rows2 0 y).arr x) := by
  have h := (combineData_master rows1 rows2 R1.intersect hv1 hv2
    r1_intersect_valid rfl).2.2 y
  rw [h, sem1_normalize]
  exact (intersectData_valid_sem _ _ (activeRow_valid hv1 y).1
    (activeRow_valid hv2 y).1).2 x

/-- Pointwise semantics of the 2-D xor combine: symmetric difference of
the active row sets. -/
theorem sem_xor_rows (rows1 rows2 : List Row) (hv1 : ValidRows rows1)
    (hv2 : ValidRows rows2) (x y : ℚ) :
    sem1 (activeRow (combineData rows1 rows2 R1.xor).array 0 y).arr x
      = xor (sem1 (activeRow rows1 0 y).arr x)
            (sem1 (activeRow rows2 0 y).arr x) := by
  have h := (combineData_master rows1 rows2 R1.xor hv1 hv2
    r1_xor_valid rfl).2.2 y
  rw [h, sem1_normalize]
  exact (xorData_valid_sem _ _ (activeRow_valid hv1 y).1
    (activeRow_valid hv2 y).1).2 x

end Region2D

namespace Region2D

open Region1D

/-- The first band of a valid band list starts at or below every band. -/
theorem rows_minY_le {b : Row} {L : List Row} (hv : ValidRows (b :: L)) :
    ∀ r ∈ b :: L, jle b.minY r.minY = true := by
  intro r hr
  cases hr with
  | head => exact jle_refl (jlt_ne_nan_left (hv.1 b (by simp)).2.2)
  | tail _ h2 =>
    have h3 := chain_head_le_all hv.2
      (fun u hu => (hv.1 u (List.mem_cons_of_mem _ hu)).2.2) r h2
    exact jle_trans (jle_of_jlt (hv.1 b (by simp)).2.2) h3

/-- The last band of a valid band list ends at or above every band. -/
theorem rows_maxY_le :
    ∀ (L : List Row) (b : Row), ValidRows (b :: L) →
      ∀ r ∈ b :: L, ∀ lst, (b :: L).getLast? = some lst →
        jle r.maxY lst.maxY = true := by
  intro L
  induction L with
  | nil =>
    intro b hv r hr lst hlst
    cases hr with
    | head =>
      have h3 : lst = b := by
        have h4 : ([b] : List Row).getLast? = some b := rfl
        rw [h4] at hlst
        exact (Option.some.inj hlst).symm
      rw [h3]
      exact jle_refl (jlt_ne_nan_right (hv.1 b (by simp)).2.2)
    | tail _ h2 => cases h2
  | cons c rest ih =>
    intro b hv r hr lst hlst
    have hlst2 : (c :: rest).getLast? = some lst := by
      rw [← hlst]
      exact (List.getLast?_cons_cons (l := rest)).symm
    have hvt : ValidRows (c :: rest) :=
      ⟨fun u hu => hv.1 u (List.mem_cons_of_mem _ hu), hv.2.tail⟩
    cases hr with
    | head =>
      have hbc : jle b.maxY c.minY = true := (List.chain'_cons.mp hv.2).1.1
      have hcl := ih c hvt c (by simp) lst hlst2
      exact jle_trans hbc
        (jle_trans (jle_of_jlt (hvt.1 c (by simp)).2.2) hcl)
    | tail _ h2 => exact ih c hvt r h2 lst hlst2

/-- `getD` at the final index is `getLast`. -/
theorem getD_last :
    ∀ (l : List JsNum) (a : JsNum),
      (a :: l).getD ((a :: l).length - 1) nan
        = (a :: l).getLast (List.cons_ne_nil a l) := by
  intro l
  induction l with
  | nil => intro a; rfl
  | cons b l' ih =>
    intro a
    have h1 : (a :: b :: l').getD ((a :: b :: l').length - 1) nan
        = (b :: l').getD ((b :: l').length - 1) nan := by
      show (a :: b :: l').getD ((b :: l').length + 1 - 1) nan = _
      rw [Nat.add_sub_cancel]
      exact List.getD_cons_succ
    rw [h1, ih b]
    rfl

/-- The cached maximum of a non-empty span list is its last element. -/
theorem max_of_last {c : R1} {a : JsNum} {l : List JsNum}
    (harr : c.arr = a :: l) :
    R1.max c = (a :: l).getLast (List.cons_ne_nil a l) := by
  unfold R1.max
  rw [harr, if_neg (by simp)]
  exact getD_last l a

/-- A well-formed band's cached row-set extremes are not NaN. -/
theorem validRow_min_max {r : Row} (h : ValidRow r) :
    r.region.min ≠ nan ∧ r.region.max ≠ nan := by
  cases harr : r.region.arr with
  | nil => exact absurd harr h.2.1
  | cons a l =>
    have hnan : NoNaN (a :: l) := harr ▸ noNaN_of_valid h.1.1
    constructor
    · unfold R1.min
      rw [harr]
      exact hnan a (by simp)
    · rw [max_of_last harr]
      exact hnan _ (List.getLast_mem _)

/-- The running X minimum bounds the seed and every band's left edge. -/
theorem minX_fold_le :
    ∀ (rows : List Row) (m : JsNum), m ≠ nan →
      (∀ r ∈ rows, r.region.min ≠ nan) →
      (rows.foldl minXStep m ≠ nan
       ∧ jle (rows.foldl minXStep m) m = true
       ∧ ∀ r ∈ rows, jle (rows.foldl minXStep m) r.region.min = true) := by
  intro rows
  induction rows with
  | nil =>
    intro m hm _
    exact ⟨hm, jle_refl hm, fun r hr => absurd hr (List.not_mem_nil r)⟩
  | cons a rest ih =>
    intro m hm hnan
    have ha : a.region.min ≠ nan := hnan a (by simp)
    have hstep : minXStep m a ≠ nan ∧ jle (minXStep m a) m = true
        ∧ jle (minXStep m a) a.region.min = true := by
      unfold minXStep
      by_cases hc : jlt a.region.min m = true
      · rw [if_pos hc]
        exact ⟨ha, jle_of_jlt hc, jle_refl ha⟩
      · rw [if_neg hc]
        exact ⟨hm, jle_refl hm,
          jle_of_not_jlt ha hm (Bool.eq_false_iff.mpr hc)⟩
    obtain ⟨h1, h2, h3⟩ := ih (minXStep m a) hstep.1
      (fun r hr => hnan r (List.mem_cons_of_mem _ hr))
    refine ⟨h1, jle_trans h2 hstep.2.1, ?_⟩
    intro r hr
    cases hr with
    | head => exact jle_trans h2 hstep.2.2
    | tail _ hr2 => exact h3 r hr2

/-- The running X maximum bounds the seed and every band's right edge. -/
theorem maxX_fold_ge :
    ∀ (rows : List Row) (m : JsNum), m ≠ nan →
      (∀ r ∈ rows, r.region.max ≠ nan) →
      (rows.foldl maxXStep m ≠ nan
       ∧ jle m (rows.foldl maxXStep m) = true
       ∧ ∀ r ∈ rows, jle r.region.max (rows.foldl maxXStep m) = true) := by
  intro rows
  induction rows with
  | nil =>
    intro m hm _
    exact ⟨hm, jle_refl hm, fun r hr => absurd hr (List.not_mem_nil r)⟩
  | cons a rest ih =>
    intro m hm hnan
    have ha : a.region.max ≠ nan := hnan a (by simp)
    have hstep : maxXStep m a ≠ nan ∧ jle m (maxXStep m a) = true
        ∧ jle a.region.max (maxXStep m a) = true := by
      unfold maxXStep
      by_cases hc : jlt m a.region.max = true
      · rw [if_pos hc]
        exact ⟨ha, jle_of_jlt hc, jle_refl ha⟩
      · rw [if_neg hc]
        exact ⟨hm, jle_refl hm,
          jle_of_not_jlt hm ha (Bool.eq_false_iff.mpr hc)⟩
    obtain ⟨h1, h2, h3⟩ := ih (maxXStep m a) hstep.1
      (fun r hr => hnan r (List.mem_cons_of_mem _ hr))
    refine ⟨h1, jle_trans hstep.2.1 h2, ?_⟩
    intro r hr
    cases hr with
    | head => exact jle_trans hstep.2.2 h2
    | tail _ hr2 => exact h3 r hr2

end Region2D

namespace Region2D

open Region1D

/-- Any point of a canonical region lies within its cached bounding box
(inclusive on the lower edges, exclusive on the upper ones). -/
theorem sem_in_bounds {d : RData} (hd : ValidData d) {x y : ℚ}
    (h : sem1 (activeRow d.array 0 y).arr x = true) :
    jle d.minX (num x) = true ∧ jlt (num x) d.maxX = true
    ∧ jle d.minY (num y) = true ∧ jlt (num y) d.maxY = true := by
  have h0 : activeRow d.array 0 y
      = match d.array.find? (fun r => rowContains r y) with
        | some r => r.region
        | none => R1.empty := by
    unfold activeRow
    rw [List.drop_zero]
  cases hf : d.array.find? (fun r => rowContains r y) with
  | none =>
    rw [h0, hf] at h
    exact Bool.noConfusion (show false = true from h)
  | some r =>
    have h' : sem1 r.region.arr x = true := by rw [h0, hf] at h; exact h
    have hmem : r ∈ d.array := List.mem_of_find?_eq_some hf
    have hcont : rowContains r y = true := by
      have h9 := List.find?_some hf
      exact h9
    obtain ⟨hcy1, hcy2⟩ := Bool.and_eq_true_iff.mp hcont
    have hvr : ValidRow r := hd.1.1 r hmem
    obtain ⟨a, l, harr⟩ : ∃ a l, r.region.arr = a :: l := by
      cases harr2 : r.region.arr with
      | nil => exact absurd harr2 hvr.2.1
      | cons a l => exact ⟨a, l, rfl⟩
    have hv1 : Valid1D (a :: l) := harr ▸ hvr.1.1
    rw [harr] at h'
    obtain ⟨hhead, hlastf⟩ := sem1_bounds hv1 h'
    obtain ⟨b, L, hrows⟩ : ∃ b L, d.array = b :: L := by
      cases hrows2 : d.array with
      | nil => rw [hrows2] at hmem; cases hmem
      | cons b L => exact ⟨b, L, rfl⟩
    have hvrows : ValidRows (b :: L) := hrows ▸ hd.1
    have hmem' : r ∈ b :: L := hrows ▸ hmem
    have hcache := hd.2
    have hminY : d.minY = b.minY := by
      have h1 := congrArg RData.minY hcache
      rw [hrows] at h1
      exact h1
    have hlstrows : (b :: L).getLast? =
        some ((b :: L).getLast (List.cons_ne_nil b L)) :=
      List.getLast?_eq_getLast _ _
    have hmaxY : d.maxY = ((b :: L).getLast (List.cons_ne_nil b L)).maxY := by
      have h1 := congrArg RData.maxY hcache
      rw [hrows] at h1
      have h2 : d.maxY = (((b :: L).getLast?).map Row.maxY).getD ninf := h1
      rw [hlstrows] at h2
      exact h2
    have hminX : d.minX = (b :: L).foldl minXStep pinf := by
      have h1 := congrArg RData.minX hcache
      rw [hrows] at h1
      exact h1
    have hmaxX : d.maxX = (b :: L).foldl maxXStep ninf := by
      have h1 := congrArg RData.maxX hcache
      rw [hrows] at h1
      exact h1
    have hmins : ∀ u ∈ b :: L, u.region.min ≠ nan :=
      fun u hu => (validRow_min_max (hvrows.1 u hu)).1
    have hmaxs : ∀ u ∈ b :: L, u.region.max ≠ nan :=
      fun u hu => (validRow_min_max (hvrows.1 u hu)).2
    obtain ⟨-, -, hminall⟩ :=
      minX_fold_le (b :: L) pinf (by intro h2; cases h2) hmins
    obtain ⟨-, -, hmaxall⟩ :=
      maxX_fold_ge (b :: L) ninf (by intro h2; cases h2) hmaxs
    have hrmin : r.region.min = a := by
      unfold R1.min
      rw [harr]
      rfl
    have hrmax : r.region.max = (a :: l).getLast (List.cons_ne_nil a l) :=
      max_of_last harr
    refine ⟨?_, ?_, ?_, ?_⟩
    · rw [hminX]
      have h5 : jle ((b :: L).foldl minXStep pinf) a = true := by
        have h6 := hminall r hmem'
        rw [hrmin] at h6
        exact h6
      exact jle_trans h5 hhead
    · rw [hmaxX]
      have h6 := hlastf ((a :: l).getLast (List.cons_ne_nil a l))
        (List.getLast?_eq_getLast _ _)
      have h7 : jle ((a :: l).getLast (List.cons_ne_nil a l))
          ((b :: L).foldl maxXStep ninf) = true := by
        have h8 := hmaxall r hmem'
        rw [hrmax] at h8
        exact h8
      exact jlt_of_jlt_of_jle h6 h7
    · rw [hminY]
      exact jle_trans (rows_minY_le hvrows r hmem') hcy1
    · rw [hmaxY]
      exact jlt_of_jlt_of_jle hcy2 (rows_maxY_le L b hvrows r hmem' _ hlstrows)

end Region2D

namespace Region2D

open Region1D

/-- When the cached bounding boxes do not overlap, no point lies in both
regions. -/
theorem no_common_point {d1 d2 : RData}
    (h1 : ValidData d1) (h2 : ValidData d2)
    (hno : doBoundsOverlap d1 d2 = false) (x y : ℚ) :
    ¬(sem1 (activeRow d1.array 0 y).arr x = true
      ∧ sem1 (activeRow d2.array 0 y).arr x = true) := by
  rintro ⟨hs1, hs2⟩
  obtain ⟨ha1, ha2, ha3, ha4⟩ := sem_in_bounds h1 hs1
  obtain ⟨hb1, hb2, hb3, hb4⟩ := sem_in_bounds h2 hs2
  unfold doBoundsOverlap at hno
  have hsome : (jlt d2.maxX d1.minX || jlt d1.maxX d2.minX
      || jlt d2.maxY d1.minY || jlt d1.maxY d2.minY) = true := by
    cases hcc : (jlt d2.maxX d1.minX || jlt d1.maxX d2.minX
        || jlt d2.maxY d1.minY || jlt d1.maxY d2.minY) with
    | true => rfl
    | false =>
      rw [hcc] at hno
      exact Bool.noConfusion hno
  rcases Bool.or_eq_true_iff.mp hsome with h5 | h5
  · rcases Bool.or_eq_true_iff.mp h5 with h6 | h6
    · rcases Bool.or_eq_true_iff.mp h6 with h7 | h7
      · have h8 : jlt (num x) (num x) = true :=
          jlt_of_jlt_of_jle (jlt_trans hb2 h7) ha1
        rw [jlt_irrefl] at h8
        exact Bool.noConfusion h8
      · have h8 : jlt (num x) (num x) = true :=
          jlt_of_jlt_of_jle (jlt_trans ha2 h7) hb1
        rw [jlt_irrefl] at h8
        exact Bool.noConfusion h8
    · have h8 : jlt (num y) (num y) = true :=
        jlt_of_jlt_of_jle (jlt_trans hb4 h6) ha3
      rw [jlt_irrefl] at h8
      exact Bool.noConfusion h8
  · have h8 : jlt (num y) (num y) = true :=
      jlt_of_jlt_of_jle (jlt_trans ha4 h5) hb3
    rw [jlt_irrefl] at h8
    exact Bool.noConfusion h8

end Region2D

/-- **C8.**  The claim asserts the De Morgan identity
`A.union(B).not() == A.not().intersect(B.not())` for all regions, finite
or infinite.  In the cited code the identity never materializes:
`Region2D#not` reads `infinite.array`, a property the `infinite`
Region2D instance does not have, so `xorData` receives the JS
`undefined` and the first row-pair request dereferences `rows2.length`
and throws.  Every `not()` call — on either side of the claimed
identity — fails with a runtime `TypeError`. -/
theorem c8_not_always_throws (data : Region2D.RData) :
    Region2D.not2 data = .error JsErr.runtimeTypeError := rfl

/-- **C8** at a concrete failing input: with A the unit square and B the
square `[2,3) × [2,3)`, `A.union(B).not()` throws, and so do the two
`not()` calls of the identity's right-hand side. -/
theorem c8_code_bug_at_failing_input :
    Region2D.not2 (Region2D.union2 (rectData 0 0 1 1) (rectData 2 2 3 3))
        = .error JsErr.runtimeTypeError
      ∧ Region2D.not2 (rectData 0 0 1 1) = .error JsErr.runtimeTypeError
      ∧ Region2D.not2 (rectData 2 2 3 3) = .error JsErr.runtimeTypeError :=
  ⟨rfl, rfl, rfl⟩

namespace Region2D

open Region1D

/-! ### 1-D endpoint theory: spans' start/end points versus one-sided
membership.  `sL`/`sR` are the membership parities just left of / at a
coordinate; a valid span list starts (ends) a span at `v` exactly when
membership switches on (off) there. -/

def cntLtJ (l : List JsNum) (v : JsNum) : ℕ := l.countP (fun z => jlt z v)

def cntLeJ (l : List JsNum) (v : JsNum) : ℕ := l.countP (fun z => jle z v)

/-- Membership immediately left of `v`. -/
def sL (l : List JsNum) (v : JsNum) : Bool := decide (cntLtJ l v % 2 = 1)

/-- Membership at (and immediately right of) `v`. -/
def sR (l : List JsNum) (v : JsNum) : Bool := decide (cntLeJ l v % 2 = 1)

/-- How many spans start at `v`. -/
def startCount (l : List JsNum) (v : JsNum) : ℕ :=
  (spanPairs l).countP (fun p => p.1 = v)

/-- How many spans end at `v`. -/
def endCount (l : List JsNum) (v : JsNum) : ℕ :=
  (spanPairs l).countP (fun p => p.2 = v)

theorem spanPairs_mem :
    ∀ (l : List JsNum) (p : JsNum × JsNum), p ∈ spanPairs l →
      p.1 ∈ l ∧ p.2 ∈ l
  | [], p, hp => absurd hp (List.not_mem_nil p)
  | [a], p, hp => absurd hp (List.not_mem_nil p)
  | a :: b :: rest, p, hp => by
    cases hp with
    | head => exact ⟨by simp, by simp⟩
    | tail _ h2 =>
      obtain ⟨h3, h4⟩ := spanPairs_mem rest p h2
      exact ⟨List.mem_cons_of_mem _ (List.mem_cons_of_mem _ h3),
        List.mem_cons_of_mem _ (List.mem_cons_of_mem _ h4)⟩

/-- Spans of a valid list step down to the tail. -/
theorem valid1d_tail2 {s e : JsNum} {rest : List JsNum}
    (hv : Valid1D (s :: e :: rest)) : Valid1D rest := by
  constructor
  · have h1 := hv.1
    simp only [List.length_cons] at h1 ⊢
    omega
  · exact ((List.chain'_cons.mp hv.2).2).tail

theorem asc_gt_of_tail2 {s e : JsNum} {rest : List JsNum}
    (hv : Valid1D (s :: e :: rest)) : ∀ z ∈ rest, jlt e z = true := by
  intro z hz
  exact asc_head_lt (List.chain'_cons.mp hv.2).2 z hz

theorem not_jle_of_jlt {a b : JsNum} (h : jlt a b = true) : jle b a = false := by
  cases hc : jle b a with
  | false => rfl
  | true =>
    have h2 := jlt_of_jle_of_jlt hc h
    rw [jlt_irrefl] at h2
    exact Bool.noConfusion h2

theorem ne_of_jlt_right {v z : JsNum} (h : jlt v z = true) : z ≠ v := by
  intro he
  rw [he, jlt_irrefl] at h
  exact Bool.noConfusion h

/-- Non-NaN trichotomy. -/
theorem jtri (a b : JsNum) (ha : a ≠ nan) (hb : b ≠ nan) :
    jlt a b = true ∨ a = b ∨ jlt b a = true := by
  cases h1 : jlt a b with
  | true => exact Or.inl rfl
  | false =>
    cases h2 : jlt b a with
    | true => exact Or.inr (Or.inr rfl)
    | false => exact Or.inr (Or.inl (jeq_eq (jeq_of_not_jlt ha hb h1 h2)))

theorem cnts_zero {l : List JsNum} {v : JsNum}
    (h : ∀ z ∈ l, jlt v z = true) : cntLtJ l v = 0 ∧ cntLeJ l v = 0 := by
  constructor
  · refine List.countP_eq_zero.mpr (fun z hz hc => ?_)
    have h2 := jlt_trans hc (h z hz)
    rw [jlt_irrefl] at h2
    exact Bool.noConfusion h2
  · refine List.countP_eq_zero.mpr (fun z hz hc => ?_)
    have h2 := jlt_of_jle_of_jlt hc (h z hz)
    rw [jlt_irrefl] at h2
    exact Bool.noConfusion h2

theorem counts_zero_pairs {l : List JsNum} {v : JsNum}
    (h : ∀ z ∈ l, z ≠ v) : startCount l v = 0 ∧ endCount l v = 0 := by
  constructor
  · refine List.countP_eq_zero.mpr (fun p hp hc => ?_)
    exact h p.1 (spanPairs_mem l p hp).1 (of_decide_eq_true hc)
  · refine List.countP_eq_zero.mpr (fun p hp hc => ?_)
    exact h p.2 (spanPairs_mem l p hp).2 (of_decide_eq_true hc)

theorem cntLtJ_cons (a : JsNum) (l : List JsNum) (v : JsNum) :
    cntLtJ (a :: l) v = cntLtJ l v + (if jlt a v = true then 1 else 0) := by
  simp [cntLtJ, List.countP_cons]

theorem cntLeJ_cons (a : JsNum) (l : List JsNum) (v : JsNum) :
    cntLeJ (a :: l) v = cntLeJ l v + (if jle a v = true then 1 else 0) := by
  simp [cntLeJ, List.countP_cons]

theorem startCount_cons2 (s e : JsNum) (rest : List JsNum) (v : JsNum) :
    startCount (s :: e :: rest) v
      = startCount rest v + (if s = v then 1 else 0) := by
  unfold startCount
  show List.countP _ ((s, e) :: spanPairs rest) = _
  rw [List.countP_cons]
  simp

theorem endCount_cons2 (s e : JsNum) (rest : List JsNum) (v : JsNum) :
    endCount (s :: e :: rest) v
      = endCount rest v + (if e = v then 1 else 0) := by
  unfold endCount
  show List.countP _ ((s, e) :: spanPairs rest) = _
  rw [List.countP_cons]
  simp

end Region2D

namespace Region2D

open Region1D

/-- The key 1-D boundary fact: a valid span list starts a span at `v`
exactly when membership switches on at `v`, and ends one exactly when it
switches off; in particular each happens at most once. -/
theorem startEnd_count :
    ∀ (l : List JsNum) (v : JsNum), Valid1D l → v ≠ nan →
      startCount l v = (if sL l v = false ∧ sR l v = true then 1 else 0)
      ∧ endCount l v = (if sL l v = true ∧ sR l v = false then 1 else 0)
  | [], v, _, _ => ⟨rfl, rfl⟩
  | [a], v, hv, _ => by
    exfalso
    have h1 := hv.1
    simp at h1
  | s :: e :: rest, v, hv, hnv => by
    have hse : jlt s e = true := (List.chain'_cons.mp hv.2).1
    have hnanl : NoNaN (s :: e :: rest) := noNaN_of_valid hv
    have hs : s ≠ nan := hnanl s (by simp)
    have he : e ≠ nan := hnanl e (by simp)
    have hvrest : Valid1D rest := valid1d_tail2 hv
    have hrest_gt : ∀ z ∈ rest, jlt e z = true := asc_gt_of_tail2 hv
    rcases jtri v s hnv hs with hvs | hvs | hvs
    · -- v strictly below the first endpoint: no membership, no endpoint
      have hvall : ∀ z ∈ (s :: e :: rest), jlt v z = true := by
        intro z hz
        cases hz with
        | head => exact hvs
        | tail _ h2 =>
          cases h2 with
          | head => exact jlt_trans hvs hse
          | tail _ h3 => exact jlt_trans (jlt_trans hvs hse) (hrest_gt z h3)
      obtain ⟨hLt, hLe⟩ := cnts_zero hvall
      obtain ⟨hst, hen⟩ :=
        counts_zero_pairs (fun z hz => ne_of_jlt_right (hvall z hz))
      have hsL : sL (s :: e :: rest) v = false := by
        unfold sL
        rw [hLt]
        rfl
      have hsR : sR (s :: e :: rest) v = false := by
        unfold sR
        rw [hLe]
        rfl
      rw [hst, hen, hsL, hsR]
      exact ⟨rfl, rfl⟩
    · -- v = s: a span starts here
      subst hvs
      have hve : jlt v e = true := hse
      have hvrest2 : ∀ z ∈ rest, jlt v z = true :=
        fun z hz => jlt_trans hve (hrest_gt z hz)
      obtain ⟨hLtr, hLer⟩ := cnts_zero (l := e :: rest) (by
        intro z hz
        cases hz with
        | head => exact hve
        | tail _ h2 => exact hvrest2 z h2)
      have hLt : cntLtJ (v :: e :: rest) v = 0 := by
        rw [cntLtJ_cons, hLtr, if_neg (by rw [jlt_irrefl]; exact Bool.false_ne_true)]
      have hLe : cntLeJ (v :: e :: rest) v = 1 := by
        rw [cntLeJ_cons, hLer, if_pos (jle_refl hs)]
      have hsL : sL (v :: e :: rest) v = false := by
        unfold sL
        rw [hLt]
        rfl
      have hsR : sR (v :: e :: rest) v = true := by
        unfold sR
        rw [hLe]
        rfl
      obtain ⟨hstr, henr⟩ := counts_zero_pairs (l := rest)
        (fun z hz => ne_of_jlt_right (hvrest2 z hz))
      have hst : startCount (v :: e :: rest) v = 1 := by
        rw [startCount_cons2, hstr, if_pos rfl]
      have hen : endCount (v :: e :: rest) v = 0 := by
        rw [endCount_cons2, henr, if_neg (ne_of_jlt_right hve)]
      rw [hst, hen, hsL, hsR]
      exact ⟨rfl, rfl⟩
    · rcases jtri v e hnv he with hve | hve | hve
      · -- s < v < e: v is interior to the first span
        have hvrest2 : ∀ z ∈ rest, jlt v z = true :=
          fun z hz => jlt_trans hve (hrest_gt z hz)
        obtain ⟨hLtr, hLer⟩ := cnts_zero (l := rest) hvrest2
        have hLt : cntLtJ (s :: e :: rest) v = 1 := by
          rw [cntLtJ_cons, cntLtJ_cons, hLtr,
            if_neg (by rw [not_jlt_of_jle (jle_of_jlt hve)]; exact Bool.false_ne_true),
            if_pos hvs]
        have hLe : cntLeJ (s :: e :: rest) v = 1 := by
          rw [cntLeJ_cons, cntLeJ_cons, hLer,
            if_neg (by rw [not_jle_of_jlt hve]; exact Bool.false_ne_true),
            if_pos (jle_of_jlt hvs)]
        have hsL : sL (s :: e :: rest) v = true := by
          unfold sL
          rw [hLt]
          rfl
        have hsR : sR (s :: e :: rest) v = true := by
          unfold sR
          rw [hLe]
          rfl
        have hsv : s ≠ v := by
          intro h2
          rw [h2, jlt_irrefl] at hvs
          exact Bool.noConfusion hvs
        obtain ⟨hstr, henr⟩ := counts_zero_pairs (l := rest)
          (fun z hz => ne_of_jlt_right (hvrest2 z hz))
        have hst : startCount (s :: e :: rest) v = 0 := by
          rw [startCount_cons2, hstr, if_neg hsv]
        have hen : endCount (s :: e :: rest) v = 0 := by
          rw [endCount_cons2, henr, if_neg (ne_of_jlt_right hve)]
        rw [hst, hen, hsL, hsR]
        exact ⟨rfl, rfl⟩
      · -- v = e: a span ends here
        subst hve
        have hvrest2 : ∀ z ∈ rest, jlt v z = true := hrest_gt
        obtain ⟨hLtr, hLer⟩ := cnts_zero (l := rest) hvrest2
        have hLt : cntLtJ (s :: v :: rest) v = 1 := by
          rw [cntLtJ_cons, cntLtJ_cons, hLtr,
            if_neg (by rw [jlt_irrefl]; exact Bool.false_ne_true),
            if_pos hvs]
        have hLe : cntLeJ (s :: v :: rest) v = 2 := by
          rw [cntLeJ_cons, cntLeJ_cons, hLer,
            if_pos (jle_refl he), if_pos (jle_of_jlt hvs)]
        have hsL : sL (s :: v :: rest) v = true := by
          unfold sL
          rw [hLt]
          rfl
        have hsR : sR (s :: v :: rest) v = false := by
          unfold sR
          rw [hLe]
          rfl
        have hsv : s ≠ v := by
          intro h2
          rw [h2, jlt_irrefl] at hvs
          exact Bool.noConfusion hvs
        obtain ⟨hstr, henr⟩ := counts_zero_pairs (l := rest)
          (fun z hz => ne_of_jlt_right (hvrest2 z hz))
        have hst : startCount (s :: v :: rest) v = 0 := by
          rw [startCount_cons2, hstr, if_neg hsv]
        have hen : endCount (s :: v :: rest) v = 1 := by
          rw [endCount_cons2, henr, if_pos rfl]
        rw [hst, hen, hsL, hsR]
        exact ⟨rfl, rfl⟩
      · -- e < v: the first span lies entirely below v; recurse
        obtain ⟨ih1, ih2⟩ := startEnd_count rest v hvrest hnv
        have hLt : cntLtJ (s :: e :: rest) v = cntLtJ rest v + 2 := by
          rw [cntLtJ_cons, cntLtJ_cons, if_pos hve, if_pos (jlt_trans hse hve)]
        have hLe : cntLeJ (s :: e :: rest) v = cntLeJ rest v + 2 := by
          rw [cntLeJ_cons, cntLeJ_cons, if_pos (jle_of_jlt hve),
            if_pos (jle_of_jlt (jlt_trans hse hve))]
        have hsL : sL (s :: e :: rest) v = sL rest v := by
          unfold sL
          rw [hLt]
          have h2 : (cntLtJ rest v + 2) % 2 = cntLtJ rest v % 2 := by omega
          rw [h2]
        have hsR : sR (s :: e :: rest) v = sR rest v := by
          unfold sR
          rw [hLe]
          have h2 : (cntLeJ rest v + 2) % 2 = cntLeJ rest v % 2 := by omega
          rw [h2]
        have hsv : s ≠ v := by
          intro h2
          rw [h2, jlt_irrefl] at hvs
          exact Bool.noConfusion hvs
        have hev : e ≠ v := by
          intro h2
          rw [h2, jlt_irrefl] at hve
          exact Bool.noConfusion hve
        have hst : startCount (s :: e :: rest) v = startCount rest v := by
          rw [startCount_cons2, if_neg hsv]
          omega
        have hen : endCount (s :: e :: rest) v = endCount rest v := by
          rw [endCount_cons2, if_neg hev]
          omega
        rw [hst, hen, hsL, hsR]
        exact ⟨ih1, ih2⟩

end Region2D

namespace Region2D

open Region1D

/-- Upper bound for the finite values of a list. -/
def qub (l : List JsNum) (b : ℚ) : ℚ :=
  l.foldr (fun z acc => match z with | num q => max q acc | _ => acc) b

theorem qub_base (l : List JsNum) (b : ℚ) : b ≤ qub l b := by
  induction l with
  | nil => exact le_refl b
  | cons a t ih =>
    show b ≤ match a with | num q => max q (qub t b) | _ => qub t b
    cases a with
    | num q => exact le_trans ih (le_max_right q (qub t b))
    | nan => exact ih
    | pinf => exact ih
    | ninf => exact ih

theorem qub_mem (l : List JsNum) (b : ℚ) :
    ∀ q : ℚ, num q ∈ l → q ≤ qub l b := by
  induction l with
  | nil => intro q hq; cases hq
  | cons a t ih =>
    intro q hq
    cases hq with
    | head => exact le_max_left q (qub t b)
    | tail _ h2 =>
      have h3 := ih q h2
      show q ≤ match a with | num q => max q (qub t b) | _ => qub t b
      cases a with
      | num q2 => exact le_trans h3 (le_max_right q2 (qub t b))
      | nan => exact h3
      | pinf => exact h3
      | ninf => exact h3

/-- Upper bound for the finite values below `r`, kept below `r`. -/
def qubB (r : ℚ) (l : List JsNum) (b : ℚ) : ℚ :=
  l.foldr
    (fun z acc => match z with
      | num q => if q < r then max q acc else acc
      | _ => acc) b

theorem qubB_base (r : ℚ) (l : List JsNum) (b : ℚ) : b ≤ qubB r l b := by
  induction l with
  | nil => exact le_refl b
  | cons a t ih =>
    show b ≤ match a with
      | num q => if q < r then max q (qubB r t b) else qubB r t b
      | _ => qubB r t b
    cases a with
    | num q =>
      show b ≤ if q < r then max q (qubB r t b) else qubB r t b
      by_cases hc : q < r
      · rw [if_pos hc]
        exact le_trans ih (le_max_right q (qubB r t b))
      · rw [if_neg hc]
        exact ih
    | nan => exact ih
    | pinf => exact ih
    | ninf => exact ih

theorem qubB_mem (r : ℚ) (l : List JsNum) (b : ℚ) :
    ∀ q : ℚ, num q ∈ l → q < r → q ≤ qubB r l b := by
  induction l with
  | nil => intro q hq; cases hq
  | cons a t ih =>
    intro q hq hqr
    cases hq with
    | head =>
      show q ≤ if q < r then max q (qubB r t b) else qubB r t b
      rw [if_pos hqr]
      exact le_max_left q (qubB r t b)
    | tail _ h2 =>
      have h3 := ih q h2 hqr
      show q ≤ match a with
        | num q => if q < r then max q (qubB r t b) else qubB r t b
        | _ => qubB r t b
      cases a with
      | num q2 =>
        show q ≤ if q2 < r then max q2 (qubB r t b) else qubB r t b
        by_cases hc : q2 < r
        · rw [if_pos hc]
          exact le_trans h3 (le_max_right q2 (qubB r t b))
        · rw [if_neg hc]
          exact h3
      | nan => exact h3
      | pinf => exact h3
      | ninf => exact h3

theorem qubB_lt (r : ℚ) (l : List JsNum) (b : ℚ) (hb : b < r) :
    qubB r l b < r := by
  induction l with
  | nil => exact hb
  | cons a t ih =>
    show (match a with
      | num q => if q < r then max q (qubB r t b) else qubB r t b
      | _ => qubB r t b) < r
    cases a with
    | num q =>
      show (if q < r then max q (qubB r t b) else qubB r t b) < r
      by_cases hc : q < r
      · rw [if_pos hc]
        exact max_lt hc ih
      · rw [if_neg hc]
        exact ih
    | nan => exact ih
    | pinf => exact ih
    | ninf => exact ih

/-- Lower bound for the finite values of a list. -/
def qlb (l : List JsNum) (b : ℚ) : ℚ :=
  l.foldr (fun z acc => match z with | num q => min q acc | _ => acc) b

theorem qlb_mem (l : List JsNum) (b : ℚ) :
    ∀ q : ℚ, num q ∈ l → qlb l b ≤ q := by
  induction l with
  | nil => intro q hq; cases hq
  | cons a t ih =>
    intro q hq
    cases hq with
    | head => exact min_le_left q (qlb t b)
    | tail _ h2 =>
      have h3 := ih q h2
      show (match a with | num q => min q (qlb t b) | _ => qlb t b) ≤ q
      cases a with
      | num q2 => exact le_trans (min_le_right q2 (qlb t b)) h3
      | nan => exact h3
      | pinf => exact h3
      | ninf => exact h3

end Region2D

namespace Region2D

open Region1D

/-- A rational strictly below `v` at or above every list value that is
strictly below `v`. -/
theorem left_probe (L : List JsNum) (hL : NoNaN L) (v : JsNum)
    (hnv : v ≠ nan) (hni : v ≠ ninf) :
    ∃ u : ℚ, jlt (num u) v = true
      ∧ ∀ z ∈ L, jlt z v = true → jle z (num u) = true := by
  cases v with
  | nan => exact absurd rfl hnv
  | ninf => exact absurd rfl hni
  | num r =>
    refine ⟨qubB r L (r - 1), ?_, ?_⟩
    · show decide (qubB r L (r - 1) < r) = true
      exact decide_eq_true (qubB_lt r L (r - 1) (by linarith))
    · intro z hz hzv
      cases z with
      | nan => exact absurd rfl (hL nan hz)
      | ninf => rfl
      | pinf => exact Bool.noConfusion hzv
      | num q =>
        have hq : q < r := of_decide_eq_true hzv
        show decide (q ≤ qubB r L (r - 1)) = true
        exact decide_eq_true (qubB_mem r L (r - 1) q hz hq)
  | pinf =>
    refine ⟨qub L 0, rfl, ?_⟩
    intro z hz hzv
    cases z with
    | nan => exact absurd rfl (hL nan hz)
    | ninf => rfl
    | pinf => exact Bool.noConfusion hzv
    | num q =>
      show decide (q ≤ qub L 0) = true
      exact decide_eq_true (qub_mem L 0 q hz)

/-- A rational strictly below every finite list value. -/
theorem low_probe (L : List JsNum) (hL : NoNaN L) :
    ∃ u : ℚ, ∀ z ∈ L, z ≠ ninf → jle z (num u) = false := by
  refine ⟨qlb L 0 - 1, ?_⟩
  intro z hz hzn
  cases z with
  | nan => exact absurd rfl (hL nan hz)
  | ninf => exact absurd rfl hzn
  | pinf => rfl
  | num q =>
    show decide (q ≤ qlb L 0 - 1) = false
    refine decide_eq_false ?_
    have h2 := qlb_mem L 0 q hz
    intro h3
    linarith

/-- The membership parity just left of `v` is the membership at any
sufficiently large rational below `v`. -/
theorem sL_probe {c : List JsNum} {v : JsNum} {u : ℚ} (hc : NoNaN c)
    (hub : ∀ z ∈ c, jlt z v = true → jle z (num u) = true)
    (hlt : jlt (num u) v = true) :
    sem1 c u = sL c v := by
  have hcnt : cntLe c u = cntLtJ c v := by
    refine List.countP_congr (fun z hz => ?_)
    cases hzv : jlt z v with
    | true => rw [hub z hz hzv]
    | false =>
      cases hzu : jle z (num u) with
      | false => rfl
      | true =>
        exfalso
        have h2 := jlt_of_jle_of_jlt hzu hlt
        rw [hzv] at h2
        exact Bool.noConfusion h2
  unfold sem1 sL
  rw [hcnt]

/-- The membership parity at `-Infinity` is the membership at any
sufficiently small rational. -/
theorem sR_low_probe {c : List JsNum} {u : ℚ} (hc : NoNaN c)
    (hub : ∀ z ∈ c, z ≠ ninf → jle z (num u) = false) :
    sem1 c u = sR c ninf := by
  have hcnt : cntLe c u = cntLeJ c ninf := by
    refine List.countP_congr (fun z hz => ?_)
    cases z with
    | nan => exact absurd rfl (hc nan hz)
    | ninf => rfl
    | pinf => rw [hub pinf hz (fun h => JsNum.noConfusion h)]; rfl
    | num q => rw [hub (num q) hz (fun h => JsNum.noConfusion h)]; rfl
  unfold sem1 sR
  rw [hcnt]

theorem sL_ninf (c : List JsNum) : sL c ninf = false := by
  have hcnt : cntLtJ c ninf = 0 :=
    List.countP_eq_zero.mpr (fun z _ hz => by
      rw [jlt_to_ninf] at hz
      exact Bool.noConfusion hz)
  unfold sL
  rw [hcnt]
  rfl

theorem sR_pinf {c : List JsNum} (hv : Valid1D c) : sR c pinf = false := by
  have hnan := noNaN_of_valid hv
  have hcnt : cntLeJ c pinf = c.length :=
    List.countP_eq_length.mpr (fun z hz => by
      cases z with
      | nan => exact absurd rfl (hnan nan hz)
      | ninf => rfl
      | pinf => rfl
      | num q => rfl)
  unfold sR
  rw [hcnt]
  refine decide_eq_false ?_
  have h2 := hv.1
  omega

theorem sR_num (c : List JsNum) (q : ℚ) : sR c (num q) = sem1 c q := rfl

end Region2D

namespace Region2D

open Region1D

/-- One-sided membership parities compose over `subtractData` exactly as
the pointwise semantics does. -/
theorem bridge_subtract (a b : List JsNum) (ha : Valid1D a)
    (hb : Valid1D b) (v : JsNum) (hnv : v ≠ nan) :
    sL (Region1D.subtractData a b) v = (sL a v && !(sL b v))
    ∧ sR (Region1D.subtractData a b) v = (sR a v && !(sR b v)) := by
  obtain ⟨hvS, hsem⟩ := subtractData_valid_sem a b ha hb
  have hna := noNaN_of_valid ha
  have hnb := noNaN_of_valid hb
  have hns := noNaN_of_valid hvS
  constructor
  · cases hv : v with
    | nan => exact absurd hv hnv
    | ninf =>
      rw [sL_ninf, sL_ninf, sL_ninf]
      rfl
    | num r =>
      obtain ⟨u, hlt, hub⟩ := left_probe (a ++ b ++ Region1D.subtractData a b)
        (by
          intro z hz
          rcases List.mem_append.mp hz with hz2 | hz2
          · rcases List.mem_append.mp hz2 with hz3 | hz3
            · exact hna z hz3
            · exact hnb z hz3
          · exact hns z hz2)
        (num r) (fun h => JsNum.noConfusion h) (fun h => JsNum.noConfusion h)
      have hpA := sL_probe hna
        (fun z hz => hub z (by simp [hz])) hlt
      have hpB := sL_probe hnb
        (fun z hz => hub z (by simp [hz])) hlt
      have hpS := sL_probe hns
        (fun z hz => hub z (by simp [hz])) hlt
      rw [← hpA, ← hpB, ← hpS]
      exact hsem u
    | pinf =>
      obtain ⟨u, hlt, hub⟩ := left_probe (a ++ b ++ Region1D.subtractData a b)
        (by
          intro z hz
          rcases List.mem_append.mp hz with hz2 | hz2
          · rcases List.mem_append.mp hz2 with hz3 | hz3
            · exact hna z hz3
            · exact hnb z hz3
          · exact hns z hz2)
        pinf (fun h => JsNum.noConfusion h) (fun h => JsNum.noConfusion h)
      have hpA := sL_probe hna
        (fun z hz => hub z (by simp [hz])) hlt
      have hpB := sL_probe hnb
        (fun z hz => hub z (by simp [hz])) hlt
      have hpS := sL_probe hns
        (fun z hz => hub z (by simp [hz])) hlt
      rw [← hpA, ← hpB, ← hpS]
      exact hsem u
  · cases hv : v with
    | nan => exact absurd hv hnv
    | num q =>
      show sem1 (Region1D.subtractData a b) q = _
      exact hsem q
    | pinf =>
      rw [sR_pinf hvS, sR_pinf ha, sR_pinf hb]
      rfl
    | ninf =>
      obtain ⟨u, hub⟩ := low_probe (a ++ b ++ Region1D.subtractData a b)
        (by
          intro z hz
          rcases List.mem_append.mp hz with hz2 | hz2
          · rcases List.mem_append.mp hz2 with hz3 | hz3
            · exact hna z hz3
            · exact hnb z hz3
          · exact hns z hz2)
      have hpA := sR_low_probe hna (fun z hz => hub z (by simp [hz]))
      have hpB := sR_low_probe hnb (fun z hz => hub z (by simp [hz]))
      have hpS := sR_low_probe hns (fun z hz => hub z (by simp [hz]))
      rw [← hpA, ← hpB, ← hpS]
      exact hsem u

end Region2D

namespace Region2D

open Region1D

/-- The per-point balance identity at a touching band junction: where the
upper row set is `a` and the lower is `b`, span boundaries of the two
difference regions plus the vertical endpoints of both rows contribute as
many outgoing as incoming edge endpoints at every x-coordinate. -/
theorem junction_balance (a b : List JsNum) (ha : Valid1D a)
    (hb : Valid1D b) (v : JsNum) :
    endCount (Region1D.subtractData a b) v
      + startCount (Region1D.subtractData b a) v
      + endCount b v + startCount a v
      = startCount (Region1D.subtractData a b) v
        + endCount (Region1D.subtractData b a) v
        + startCount b v + endCount a v := by
  have hvab := (subtractData_valid_sem a b ha hb).1
  have hvba := (subtractData_valid_sem b a hb ha).1
  by_cases hnv : v = nan
  · subst hnv
    obtain ⟨sa, ea⟩ := counts_zero_pairs (noNaN_of_valid ha)
    obtain ⟨sb, eb⟩ := counts_zero_pairs (noNaN_of_valid hb)
    obtain ⟨sab, eab⟩ := counts_zero_pairs (noNaN_of_valid hvab)
    obtain ⟨sba, eba⟩ := counts_zero_pairs (noNaN_of_valid hvba)
    rw [sa, ea, sb, eb, sab, eab, sba, eba]
  · obtain ⟨ha1, ha2⟩ := startEnd_count a v ha hnv
    obtain ⟨hb1, hb2⟩ := startEnd_count b v hb hnv
    obtain ⟨hab1, hab2⟩ :=
      startEnd_count (Region1D.subtractData a b) v hvab hnv
    obtain ⟨hba1, hba2⟩ :=
      startEnd_count (Region1D.subtractData b a) v hvba hnv
    obtain ⟨hLab, hRab⟩ := bridge_subtract a b ha hb v hnv
    obtain ⟨hLba, hRba⟩ := bridge_subtract b a hb ha v hnv
    rw [ha1, ha2, hb1, hb2, hab1, hab2, hba1, hba2,
      hLab, hRab, hLba, hRba]
    generalize sL a v = aL
    generalize sR a v = aR
    generalize sL b v = bL
    generalize sR b v = bR
    cases aL <;> cases aR <;> cases bL <;> cases bR <;> rfl

end Region2D

namespace Region2D

open Region1D

def keyCount1 (E : List Edge) (p : Pt) : ℕ := E.countP (fun e => e.key1 = p)

def keyCount2 (E : List Edge) (p : Pt) : ℕ := E.countP (fun e => e.key2 = p)

theorem keyCount1_append (E1 E2 : List Edge) (p : Pt) :
    keyCount1 (E1 ++ E2) p = keyCount1 E1 p + keyCount1 E2 p :=
  List.countP_append _ _ _

theorem keyCount2_append (E1 E2 : List Edge) (p : Pt) :
    keyCount2 (E1 ++ E2) p = keyCount2 E1 p + keyCount2 E2 p :=
  List.countP_append _ _ _

theorem countP_key_fst (L : List (JsNum × JsNum)) (y : JsNum) (p : Pt) :
    L.countP (fun q => (⟨q.1, y⟩ : Pt) = p)
      = if y = p.y then L.countP (fun q => q.1 = p.x) else 0 := by
  obtain ⟨px, py⟩ := p
  by_cases hy : y = py
  · subst hy
    rw [if_pos rfl]
    refine List.countP_congr (fun q hq => ?_)
    constructor
    · intro h2
      have h3 := of_decide_eq_true h2
      injection h3 with h4 h5
      exact decide_eq_true h4
    · intro h2
      have h3 := of_decide_eq_true h2
      exact decide_eq_true (congrArg (fun t => (⟨t, y⟩ : Pt)) h3)
  · rw [if_neg hy]
    refine List.countP_eq_zero.mpr (fun q hq hdec => ?_)
    have h2 := of_decide_eq_true hdec
    injection h2 with h3 h4
    exact hy h4

theorem countP_key_snd (L : List (JsNum × JsNum)) (y : JsNum) (p : Pt) :
    L.countP (fun q => (⟨q.2, y⟩ : Pt) = p)
      = if y = p.y then L.countP (fun q => q.2 = p.x) else 0 := by
  obtain ⟨px, py⟩ := p
  by_cases hy : y = py
  · subst hy
    rw [if_pos rfl]
    refine List.countP_congr (fun q hq => ?_)
    constructor
    · intro h2
      have h3 := of_decide_eq_true h2
      injection h3 with h4 h5
      exact decide_eq_true h4
    · intro h2
      have h3 := of_decide_eq_true h2
      exact decide_eq_true (congrArg (fun t => (⟨t, y⟩ : Pt)) h3)
  · rw [if_neg hy]
    refine List.countP_eq_zero.mpr (fun q hq hdec => ?_)
    have h2 := of_decide_eq_true hdec
    injection h2 with h3 h4
    exact hy h4

theorem keyCount1_top (spans : List JsNum) (y : JsNum) (p : Pt) :
    keyCount1 (topEdges spans y) p
      = if y = p.y then startCount spans p.x else 0 := by
  unfold keyCount1 topEdges
  rw [List.countP_map,
    List.countP_congr
      (fun q hq =>
        (Iff.rfl : ((fun e : Edge => decide (e.key1 = p)) ∘
          (fun q : JsNum × JsNum =>
            (⟨q.1, y, q.2, y, EdgeKind.top⟩ : Edge))) q = true
          ↔ decide ((⟨q.1, y⟩ : Pt) = p) = true))]
  exact countP_key_fst (spanPairs spans) y p

theorem keyCount2_top (spans : List JsNum) (y : JsNum) (p : Pt) :
    keyCount2 (topEdges spans y) p
      = if y = p.y then endCount spans p.x else 0 := by
  unfold keyCount2 topEdges
  rw [List.countP_map,
    List.countP_congr
      (fun q hq =>
        (Iff.rfl : ((fun e : Edge => decide (e.key2 = p)) ∘
          (fun q : JsNum × JsNum =>
            (⟨q.1, y, q.2, y, EdgeKind.top⟩ : Edge))) q = true
          ↔ decide ((⟨q.2, y⟩ : Pt) = p) = true))]
  exact countP_key_snd (spanPairs spans) y p

theorem keyCount1_bottom (spans : List JsNum) (y : JsNum) (p : Pt) :
    keyCount1 (bottomEdges spans y) p
      = if y = p.y then endCount spans p.x else 0 := by
  unfold keyCount1 bottomEdges
  rw [List.countP_map,
    List.countP_congr
      (fun q hq =>
        (Iff.rfl : ((fun e : Edge => decide (e.key1 = p)) ∘
          (fun q : JsNum × JsNum =>
            (⟨q.2, y, q.1, y, EdgeKind.bottom⟩ : Edge))) q = true
          ↔ decide ((⟨q.2, y⟩ : Pt) = p) = true))]
  exact countP_key_snd (spanPairs spans) y p

theorem keyCount2_bottom (spans : List JsNum) (y : JsNum) (p : Pt) :
    keyCount2 (bottomEdges spans y) p
      = if y = p.y then startCount spans p.x else 0 := by
  unfold keyCount2 bottomEdges
  rw [List.countP_map,
    List.countP_congr
      (fun q hq =>
        (Iff.rfl : ((fun e : Edge => decide (e.key2 = p)) ∘
          (fun q : JsNum × JsNum =>
            (⟨q.2, y, q.1, y, EdgeKind.bottom⟩ : Edge))) q = true
          ↔ decide ((⟨q.1, y⟩ : Pt) = p) = true))]
  exact countP_key_fst (spanPairs spans) y p

theorem countP_flatMap_pair {α : Type} (f : Edge → Bool) (g h : α → Edge) :
    ∀ l : List α,
      ((l.flatMap fun p => [g p, h p]).countP f)
        = (l.map g).countP f + (l.map h).countP f := by
  intro l
  induction l with
  | nil => rfl
  | cons a t ih =>
    show ([g a, h a] ++ t.flatMap fun p => [g p, h p]).countP f = _
    rw [List.countP_append, ih, List.map_cons, List.map_cons,
      List.countP_cons, List.countP_cons, List.countP_cons, List.countP_cons,
      List.countP_nil]
    omega

theorem keyCount1_rl (spans : List JsNum) (y1 y2 : JsNum) (p : Pt) :
    keyCount1 (rlEdges spans y1 y2) p
      = (if y1 = p.y then endCount spans p.x else 0)
        + (if y2 = p.y then startCount spans p.x else 0) := by
  unfold keyCount1 rlEdges
  rw [countP_flatMap_pair]
  congr 1
  · rw [List.countP_map,
      List.countP_congr
        (fun q hq =>
          (Iff.rfl : ((fun e : Edge => decide (e.key1 = p)) ∘
            (fun q : JsNum × JsNum =>
              (⟨q.2, y1, q.2, y2, EdgeKind.right⟩ : Edge))) q = true
            ↔ decide ((⟨q.2, y1⟩ : Pt) = p) = true))]
    exact countP_key_snd (spanPairs spans) y1 p
  · rw [List.countP_map,
      List.countP_congr
        (fun q hq =>
          (Iff.rfl : ((fun e : Edge => decide (e.key1 = p)) ∘
            (fun q : JsNum × JsNum =>
              (⟨q.1, y2, q.1, y1, EdgeKind.left⟩ : Edge))) q = true
            ↔ decide ((⟨q.1, y2⟩ : Pt) = p) = true))]
    exact countP_key_fst (spanPairs spans) y2 p

theorem keyCount2_rl (spans : List JsNum) (y1 y2 : JsNum) (p : Pt) :
    keyCount2 (rlEdges spans y1 y2) p
      = (if y2 = p.y then endCount spans p.x else 0)
        + (if y1 = p.y then startCount spans p.x else 0) := by
  unfold keyCount2 rlEdges
  rw [countP_flatMap_pair]
  congr 1
  · rw [List.countP_map,
      List.countP_congr
        (fun q hq =>
          (Iff.rfl : ((fun e : Edge => decide (e.key2 = p)) ∘
            (fun q : JsNum × JsNum =>
              (⟨q.2, y1, q.2, y2, EdgeKind.right⟩ : Edge))) q = true
            ↔ decide ((⟨q.2, y2⟩ : Pt) = p) = true))]
    exact countP_key_snd (spanPairs spans) y2 p
  · rw [List.countP_map,
      List.countP_congr
        (fun q hq =>
          (Iff.rfl : ((fun e : Edge => decide (e.key2 = p)) ∘
            (fun q : JsNum × JsNum =>
              (⟨q.1, y2, q.1, y1, EdgeKind.left⟩ : Edge))) q = true
            ↔ decide ((⟨q.1, y1⟩ : Pt) = p) = true))]
    exact countP_key_fst (spanPairs spans) y1 p

end Region2D

namespace Region2D

open Region1D

theorem keyCount1_rights (spans : List JsNum) (y1 y2 : JsNum) (p : Pt) :
    ((spanPairs spans).map (fun q : JsNum × JsNum =>
      (⟨q.2, y1, q.2, y2, EdgeKind.right⟩ : Edge))).countP
        (fun e => e.key1 = p)
      = if y1 = p.y then endCount spans p.x else 0 := by
  rw [List.countP_map,
    List.countP_congr
      (fun q hq =>
        (Iff.rfl : ((fun e : Edge => decide (e.key1 = p)) ∘
          (fun q : JsNum × JsNum =>
            (⟨q.2, y1, q.2, y2, EdgeKind.right⟩ : Edge))) q = true
          ↔ decide ((⟨q.2, y1⟩ : Pt) = p) = true))]
  exact countP_key_snd (spanPairs spans) y1 p

theorem keyCount2_rights (spans : List JsNum) (y1 y2 : JsNum) (p : Pt) :
    ((spanPairs spans).map (fun q : JsNum × JsNum =>
      (⟨q.2, y1, q.2, y2, EdgeKind.right⟩ : Edge))).countP
        (fun e => e.key2 = p)
      = if y2 = p.y then endCount spans p.x else 0 := by
  rw [List.countP_map,
    List.countP_congr
      (fun q hq =>
        (Iff.rfl : ((fun e : Edge => decide (e.key2 = p)) ∘
          (fun q : JsNum × JsNum =>
            (⟨q.2, y1, q.2, y2, EdgeKind.right⟩ : Edge))) q = true
          ↔ decide ((⟨q.2, y2⟩ : Pt) = p) = true))]
  exact countP_key_snd (spanPairs spans) y2 p

theorem keyCount1_lefts (spans : List JsNum) (y1 y2 : JsNum) (p : Pt) :
    ((spanPairs spans).map (fun q : JsNum × JsNum =>
      (⟨q.1, y2, q.1, y1, EdgeKind.left⟩ : Edge))).countP
        (fun e => e.key1 = p)
      = if y2 = p.y then startCount spans p.x else 0 := by
  rw [List.countP_map,
    List.countP_congr
      (fun q hq =>
        (Iff.rfl : ((fun e : Edge => decide (e.key1 = p)) ∘
          (fun q : JsNum × JsNum =>
            (⟨q.1, y2, q.1, y1, EdgeKind.left⟩ : Edge))) q = true
          ↔ decide ((⟨q.1, y2⟩ : Pt) = p) = true))]
  exact countP_key_fst (spanPairs spans) y2 p

theorem keyCount2_lefts (spans : List JsNum) (y1 y2 : JsNum) (p : Pt) :
    ((spanPairs spans).map (fun q : JsNum × JsNum =>
      (⟨q.1, y2, q.1, y1, EdgeKind.left⟩ : Edge))).countP
        (fun e => e.key2 = p)
      = if y1 = p.y then startCount spans p.x else 0 := by
  rw [List.countP_map,
    List.countP_congr
      (fun q hq =>
        (Iff.rfl : ((fun e : Edge => decide (e.key2 = p)) ∘
          (fun q : JsNum × JsNum =>
            (⟨q.1, y2, q.1, y1, EdgeKind.left⟩ : Edge))) q = true
          ↔ decide ((⟨q.1, y1⟩ : Pt) = p) = true))]
  exact countP_key_fst (spanPairs spans) y1 p

theorem countP_flatMap_four {α : Type} (f : Edge → Bool)
    (g1 g2 g3 g4 : α → Edge) :
    ∀ l : List α,
      ((l.flatMap fun p => [g1 p, g2 p, g3 p, g4 p]).countP f)
        = (l.map g1).countP f + (l.map g2).countP f
          + (l.map g3).countP f + (l.map g4).countP f := by
  intro l
  induction l with
  | nil => rfl
  | cons a t ih =>
    show ([g1 a, g2 a, g3 a, g4 a]
        ++ t.flatMap fun p => [g1 p, g2 p, g3 p, g4 p]).countP f = _
    rw [List.countP_append, ih, List.map_cons, List.map_cons, List.map_cons,
      List.map_cons, List.countP_cons, List.countP_cons, List.countP_cons,
      List.countP_cons, List.countP_cons, List.countP_cons, List.countP_cons,
      List.countP_cons, List.countP_nil]
    omega

theorem countP_flatMap_three {α : Type} (f : Edge → Bool)
    (g1 g2 g3 : α → Edge) :
    ∀ l : List α,
      ((l.flatMap fun p => [g1 p, g2 p, g3 p]).countP f)
        = (l.map g1).countP f + (l.map g2).countP f + (l.map g3).countP f := by
  intro l
  induction l with
  | nil => rfl
  | cons a t ih =>
    show ([g1 a, g2 a, g3 a]
        ++ t.flatMap fun p => [g1 p, g2 p, g3 p]).countP f = _
    rw [List.countP_append, ih, List.map_cons, List.map_cons, List.map_cons,
      List.countP_cons, List.countP_cons, List.countP_cons, List.countP_cons,
      List.countP_cons, List.countP_cons, List.countP_nil]
    omega

theorem makeRawSpans_eq :
    ∀ (l : List JsNum), l.length % 2 = 0 → makeRawSpans l = l
  | [], _ => rfl
  | [a], h => by simp at h
  | a :: b :: rest, h => by
    show a :: b :: makeRawSpans rest = _
    rw [makeRawSpans_eq rest (by
      simp only [List.length_cons] at h
      omega)]

/-- For a well-formed row, `getRawSpans` is the span array itself. -/
theorem getRawSpans_eq {c : R1} (hc : Valid1D c.arr) :
    c.getRawSpans = c.arr :=
  makeRawSpans_eq c.arr hc.1

end Region2D

namespace Region2D

open Region1D

theorem edgeLoop_nil (prev : Row) :
    edgeLoop prev [] = bottomEdges prev.region.getRawSpans prev.maxY := rfl

theorem edgeLoop_cons_gap (prev cur : Row) (rest : List Row)
    (h : jlt prev.maxY cur.minY = true) :
    edgeLoop prev (cur :: rest)
      = (bottomEdges prev.region.getRawSpans prev.maxY
          ++ topEdges cur.region.getRawSpans cur.minY)
        ++ rlEdges cur.region.getRawSpans cur.minY cur.maxY
        ++ edgeLoop cur rest := by
  show (if jlt prev.maxY cur.minY
      then bottomEdges prev.region.getRawSpans prev.maxY
        ++ topEdges cur.region.getRawSpans cur.minY
      else bottomEdges (prev.region.subtract cur.region).getRawSpans cur.minY
        ++ topEdges (cur.region.subtract prev.region).getRawSpans cur.minY)
      ++ rlEdges cur.region.getRawSpans cur.minY cur.maxY
      ++ edgeLoop cur rest = _
  rw [if_pos h]

theorem edgeLoop_cons_touch (prev cur : Row) (rest : List Row)
    (h : ¬(jlt prev.maxY cur.minY = true)) :
    edgeLoop prev (cur :: rest)
      = (bottomEdges (prev.region.subtract cur.region).getRawSpans cur.minY
          ++ topEdges (cur.region.subtract prev.region).getRawSpans cur.minY)
        ++ rlEdges cur.region.getRawSpans cur.minY cur.maxY
        ++ edgeLoop cur rest := by
  show (if jlt prev.maxY cur.minY
      then bottomEdges prev.region.getRawSpans prev.maxY
        ++ topEdges cur.region.getRawSpans cur.minY
      else bottomEdges (prev.region.subtract cur.region).getRawSpans cur.minY
        ++ topEdges (cur.region.subtract prev.region).getRawSpans cur.minY)
      ++ rlEdges cur.region.getRawSpans cur.minY cur.maxY
      ++ edgeLoop cur rest = _
  rw [if_neg h]

/-- The inductive balance of the row loop: its edges' endpoint counts at
any point, corrected at the interface height by the previous row's
vertical endpoints, are balanced. -/
theorem edgeLoop_balance :
    ∀ (rest : List Row) (prev : Row), ValidRows (prev :: rest) → ∀ p : Pt,
      keyCount1 (edgeLoop prev rest) p
        + (if prev.maxY = p.y then startCount prev.region.arr p.x else 0)
      = keyCount2 (edgeLoop prev rest) p
        + (if prev.maxY = p.y then endCount prev.region.arr p.x else 0) := by
  intro rest
  induction rest with
  | nil =>
    intro prev hv p
    have hva : Valid1D prev.region.arr := (hv.1 prev (by simp)).1.1
    rw [edgeLoop_nil, getRawSpans_eq hva, keyCount1_bottom, keyCount2_bottom]
    omega
  | cons cur rest' ih =>
    intro prev hv p
    have hva : Valid1D prev.region.arr := (hv.1 prev (by simp)).1.1
    have hvc : Valid1D cur.region.arr := (hv.1 cur (by simp [List.mem_cons])).1.1
    have hvrows' : ValidRows (cur :: rest') :=
      ⟨fun r hr => hv.1 r (List.mem_cons_of_mem _ hr), hv.2.tail⟩
    have hih := ih cur hvrows' p
    by_cases hgap : jlt prev.maxY cur.minY = true
    · rw [edgeLoop_cons_gap prev cur rest' hgap,
        keyCount1_append, keyCount1_append, keyCount1_append,
        keyCount2_append, keyCount2_append, keyCount2_append,
        getRawSpans_eq hva, getRawSpans_eq hvc,
        keyCount1_bottom, keyCount2_bottom, keyCount1_top, keyCount2_top,
        keyCount1_rl, keyCount2_rl]
      omega
    · have hle : jle prev.maxY cur.minY = true := (List.chain'_cons.mp hv.2).1.1
      have hnn1 : prev.maxY ≠ nan := jle_ne_nan_left hle
      have hnn2 : cur.minY ≠ nan := jle_ne_nan_right hle
      have heq : prev.maxY = cur.minY :=
        jeq_eq (jeq_of_not_jlt hnn1 hnn2 (Bool.eq_false_iff.mpr hgap)
          (not_jlt_of_jle hle))
      have hsub1 : Valid1D (prev.region.subtract cur.region).arr :=
        (subtractData_valid_sem prev.region.arr cur.region.arr hva hvc).1
      have hsub2 : Valid1D (cur.region.subtract prev.region).arr :=
        (subtractData_valid_sem cur.region.arr prev.region.arr hvc hva).1
      have hJ : endCount (prev.region.subtract cur.region).arr p.x
          + startCount (cur.region.subtract prev.region).arr p.x
          + endCount cur.region.arr p.x + startCount prev.region.arr p.x
          = startCount (prev.region.subtract cur.region).arr p.x
            + endCount (cur.region.subtract prev.region).arr p.x
            + startCount cur.region.arr p.x + endCount prev.region.arr p.x :=
        junction_balance prev.region.arr cur.region.arr hva hvc p.x
      rw [edgeLoop_cons_touch prev cur rest' hgap,
        keyCount1_append, keyCount1_append, keyCount1_append,
        keyCount2_append, keyCount2_append, keyCount2_append,
        getRawSpans_eq hsub1, getRawSpans_eq hsub2, getRawSpans_eq hvc,
        keyCount1_bottom, keyCount2_bottom, keyCount1_top, keyCount2_top,
        keyCount1_rl, keyCount2_rl, heq]
      by_cases hy : cur.minY = p.y
      · simp only [if_pos hy]
        omega
      · simp only [if_neg hy]
        omega

end Region2D

namespace Region2D

open Region1D

/-- Every valid band list generates a balanced edge multiset: at every
point of the plane, as many edges start as end. -/
theorem edges_balanced (rows : List Row) (hv : ValidRows rows) (p : Pt) :
    keyCount1 (generateEdges rows) p = keyCount2 (generateEdges rows) p := by
  rcases rows with _ | ⟨row, _ | ⟨cur, rest⟩⟩
  · rfl
  · -- one degenerate row
    have hva : Valid1D row.region.arr := (hv.1 row (by simp)).1.1
    have e1 : keyCount1 (generateEdges [row]) p
        = (List.map (fun q : JsNum × JsNum =>
            (⟨q.1, row.minY, q.2, row.minY, EdgeKind.top⟩ : Edge))
            (spanPairs row.region.getRawSpans)).countP
              (fun e => decide (e.key1 = p))
          + (List.map (fun q : JsNum × JsNum =>
              (⟨q.2, row.minY, q.2, row.maxY, EdgeKind.right⟩ : Edge))
              (spanPairs row.region.getRawSpans)).countP
                (fun e => decide (e.key1 = p))
          + (List.map (fun q : JsNum × JsNum =>
              (⟨q.2, row.maxY, q.1, row.maxY, EdgeKind.bottom⟩ : Edge))
              (spanPairs row.region.getRawSpans)).countP
                (fun e => decide (e.key1 = p))
          + (List.map (fun q : JsNum × JsNum =>
              (⟨q.1, row.maxY, q.1, row.minY, EdgeKind.left⟩ : Edge))
              (spanPairs row.region.getRawSpans)).countP
                (fun e => decide (e.key1 = p)) :=
      countP_flatMap_four _ _ _ _ _ _
    have e2 : keyCount2 (generateEdges [row]) p
        = (List.map (fun q : JsNum × JsNum =>
            (⟨q.1, row.minY, q.2, row.minY, EdgeKind.top⟩ : Edge))
            (spanPairs row.region.getRawSpans)).countP
              (fun e => decide (e.key2 = p))
          + (List.map (fun q : JsNum × JsNum =>
              (⟨q.2, row.minY, q.2, row.maxY, EdgeKind.right⟩ : Edge))
              (spanPairs row.region.getRawSpans)).countP
                (fun e => decide (e.key2 = p))
          + (List.map (fun q : JsNum × JsNum =>
              (⟨q.2, row.maxY, q.1, row.maxY, EdgeKind.bottom⟩ : Edge))
              (spanPairs row.region.getRawSpans)).countP
                (fun e => decide (e.key2 = p))
          + (List.map (fun q : JsNum × JsNum =>
              (⟨q.1, row.maxY, q.1, row.minY, EdgeKind.left⟩ : Edge))
              (spanPairs row.region.getRawSpans)).countP
                (fun e => decide (e.key2 = p)) :=
      countP_flatMap_four _ _ _ _ _ _
    have ht1 : (List.map (fun q : JsNum × JsNum =>
        (⟨q.1, row.minY, q.2, row.minY, EdgeKind.top⟩ : Edge))
        (spanPairs row.region.getRawSpans)).countP
          (fun e => decide (e.key1 = p))
        = if row.minY = p.y then startCount row.region.getRawSpans p.x
          else 0 :=
      keyCount1_top row.region.getRawSpans row.minY p
    have ht2 : (List.map (fun q : JsNum × JsNum =>
        (⟨q.1, row.minY, q.2, row.minY, EdgeKind.top⟩ : Edge))
        (spanPairs row.region.getRawSpans)).countP
          (fun e => decide (e.key2 = p))
        = if row.minY = p.y then endCount row.region.getRawSpans p.x
          else 0 :=
      keyCount2_top row.region.getRawSpans row.minY p
    have hr1 : (List.map (fun q : JsNum × JsNum =>
        (⟨q.2, row.minY, q.2, row.maxY, EdgeKind.right⟩ : Edge))
        (spanPairs row.region.getRawSpans)).countP
          (fun e => decide (e.key1 = p))
        = if row.minY = p.y then endCount row.region.getRawSpans p.x
          else 0 :=
      keyCount1_rights row.region.getRawSpans row.minY row.maxY p
    have hr2 : (List.map (fun q : JsNum × JsNum =>
        (⟨q.2, row.minY, q.2, row.maxY, EdgeKind.right⟩ : Edge))
        (spanPairs row.region.getRawSpans)).countP
          (fun e => decide (e.key2 = p))
        = if row.maxY = p.y then endCount row.region.getRawSpans p.x
          else 0 :=
      keyCount2_rights row.region.getRawSpans row.minY row.maxY p
    have hbm1 : (List.map (fun q : JsNum × JsNum =>
        (⟨q.2, row.maxY, q.1, row.maxY, EdgeKind.bottom⟩ : Edge))
        (spanPairs row.region.getRawSpans)).countP
          (fun e => decide (e.key1 = p))
        = if row.maxY = p.y then endCount row.region.getRawSpans p.x
          else 0 :=
      keyCount1_bottom row.region.getRawSpans row.maxY p
    have hbm2 : (List.map (fun q : JsNum × JsNum =>
        (⟨q.2, row.maxY, q.1, row.maxY, EdgeKind.bottom⟩ : Edge))
        (spanPairs row.region.getRawSpans)).countP
          (fun e => decide (e.key2 = p))
        = if row.maxY = p.y then startCount row.region.getRawSpans p.x
          else 0 :=
      keyCount2_bottom row.region.getRawSpans row.maxY p
    have hl1 : (List.map (fun q : JsNum × JsNum =>
        (⟨q.1, row.maxY, q.1, row.minY, EdgeKind.left⟩ : Edge))
        (spanPairs row.region.getRawSpans)).countP
          (fun e => decide (e.key1 = p))
        = if row.maxY = p.y then startCount row.region.getRawSpans p.x
          else 0 :=
      keyCount1_lefts row.region.getRawSpans row.minY row.maxY p
    have hl2 : (List.map (fun q : JsNum × JsNum =>
        (⟨q.1, row.maxY, q.1, row.minY, EdgeKind.left⟩ : Edge))
        (spanPairs row.region.getRawSpans)).countP
          (fun e => decide (e.key2 = p))
        = if row.minY = p.y then startCount row.region.getRawSpans p.x
          else 0 :=
      keyCount2_lefts row.region.getRawSpans row.minY row.maxY p
    rw [e1, e2, ht1, ht2, hr1, hr2, hbm1, hbm2, hl1, hl2]
    omega
  · -- main case: at least two rows
    have hva : Valid1D row.region.arr := (hv.1 row (by simp)).1.1
    have hbal := edgeLoop_balance (cur :: rest) row hv p
    have e0 : generateEdges (row :: cur :: rest)
        = ((spanPairs row.region.getRawSpans).flatMap fun q =>
            [(⟨q.1, row.minY, q.2, row.minY, EdgeKind.top⟩ : Edge),
             ⟨q.2, row.minY, q.2, row.maxY, EdgeKind.right⟩,
             ⟨q.1, row.maxY, q.1, row.minY, EdgeKind.left⟩])
          ++ edgeLoop row (cur :: rest) := rfl
    have e1 : keyCount1 ((spanPairs row.region.getRawSpans).flatMap fun q =>
        [(⟨q.1, row.minY, q.2, row.minY, EdgeKind.top⟩ : Edge),
         ⟨q.2, row.minY, q.2, row.maxY, EdgeKind.right⟩,
         ⟨q.1, row.maxY, q.1, row.minY, EdgeKind.left⟩]) p
        = (List.map (fun q : JsNum × JsNum =>
            (⟨q.1, row.minY, q.2, row.minY, EdgeKind.top⟩ : Edge))
            (spanPairs row.region.getRawSpans)).countP
              (fun e => decide (e.key1 = p))
          + (List.map (fun q : JsNum × JsNum =>
              (⟨q.2, row.minY, q.2, row.maxY, EdgeKind.right⟩ : Edge))
              (spanPairs row.region.getRawSpans)).countP
                (fun e => decide (e.key1 = p))
          + (List.map (fun q : JsNum × JsNum =>
              (⟨q.1, row.maxY, q.1, row.minY, EdgeKind.left⟩ : Edge))
              (spanPairs row.region.getRawSpans)).countP
                (fun e => decide (e.key1 = p)) :=
      countP_flatMap_three _ _ _ _ _
    have e2 : keyCount2 ((spanPairs row.region.getRawSpans).flatMap fun q =>
        [(⟨q.1, row.minY, q.2, row.minY, EdgeKind.top⟩ : Edge),
         ⟨q.2, row.minY, q.2, row.maxY, EdgeKind.right⟩,
         ⟨q.1, row.maxY, q.1, row.minY, EdgeKind.left⟩]) p
        = (List.map (fun q : JsNum × JsNum =>
            (⟨q.1, row.minY, q.2, row.minY, EdgeKind.top⟩ : Edge))
            (spanPairs row.region.getRawSpans)).countP
              (fun e => decide (e.key2 = p))
          + (List.map (fun q : JsNum × JsNum =>
              (⟨q.2, row.minY, q.2, row.maxY, EdgeKind.right⟩ : Edge))
              (spanPairs row.region.getRawSpans)).countP
                (fun e => decide (e.key2 = p))
          + (List.map (fun q : JsNum × JsNum =>
              (⟨q.1, row.maxY, q.1, row.minY, EdgeKind.left⟩ : Edge))
              (spanPairs row.region.getRawSpans)).countP
                (fun e => decide (e.key2 = p)) :=
      countP_flatMap_three _ _ _ _ _
    have ht1 : (List.map (fun q : JsNum × JsNum =>
        (⟨q.1, row.minY, q.2, row.minY, EdgeKind.top⟩ : Edge))
        (spanPairs row.region.getRawSpans)).countP
          (fun e => decide (e.key1 = p))
        = if row.minY = p.y then startCount row.region.getRawSpans p.x
          else 0 :=
      keyCount1_top row.region.getRawSpans row.minY p
    have ht2 : (List.map (fun q : JsNum × JsNum =>
        (⟨q.1, row.minY, q.2, row.minY, EdgeKind.top⟩ : Edge))
        (spanPairs row.region.getRawSpans)).countP
          (fun e => decide (e.key2 = p))
        = if row.minY = p.y then endCount row.region.getRawSpans p.x
          else 0 :=
      keyCount2_top row.region.getRawSpans row.minY p
    have hr1 : (List.map (fun q : JsNum × JsNum =>
        (⟨q.2, row.minY, q.2, row.maxY, EdgeKind.right⟩ : Edge))
        (spanPairs row.region.getRawSpans)).countP
          (fun e => decide (e.key1 = p))
        = if row.minY = p.y then endCount row.region.getRawSpans p.x
          else 0 :=
      keyCount1_rights row.region.getRawSpans row.minY row.maxY p
    have hr2 : (List.map (fun q : JsNum × JsNum =>
        (⟨q.2, row.minY, q.2, row.maxY, EdgeKind.right⟩ : Edge))
        (spanPairs row.region.getRawSpans)).countP
          (fun e => decide (e.key2 = p))
        = if row.maxY = p.y then endCount row.region.getRawSpans p.x
          else 0 :=
      keyCount2_rights row.region.getRawSpans row.minY row.maxY p
    have hl1 : (List.map (fun q : JsNum × JsNum =>
        (⟨q.1, row.maxY, q.1, row.minY, EdgeKind.left⟩ : Edge))
        (spanPairs row.region.getRawSpans)).countP
          (fun e => decide (e.key1 = p))
        = if row.maxY = p.y then startCount row.region.getRawSpans p.x
          else 0 :=
      keyCount1_lefts row.region.getRawSpans row.minY row.maxY p
    have hl2 : (List.map (fun q : JsNum × JsNum =>
        (⟨q.1, row.maxY, q.1, row.minY, EdgeKind.left⟩ : Edge))
        (spanPairs row.region.getRawSpans)).countP
          (fun e => decide (e.key2 = p))
        = if row.minY = p.y then startCount row.region.getRawSpans p.x
          else 0 :=
      keyCount2_lefts row.region.getRawSpans row.minY row.maxY p
    rw [e0, keyCount1_append, keyCount2_append, e1, e2,
      ht1, ht2, hr1, hr2, hl1, hl2, getRawSpans_eq hva]
    omega

end Region2D

namespace Region2D

open Region1D

/-- The default edge the JS `undefined` accesses would produce. -/
def dE : Edge := ⟨nan, nan, nan, nan, EdgeKind.top⟩

/-- Outgoing unconsumed edges at a point. -/
def unusedOut (edges : List Edge) (used : List Bool) (p : Pt) : ℕ :=
  (List.range edges.length).countP
    (fun i => !(used.getD i true) && (edges.getD i dE).key1 = p)

/-- Incoming unconsumed edges at a point. -/
def unusedIn (edges : List Edge) (used : List Bool) (p : Pt) : ℕ :=
  (List.range edges.length).countP
    (fun i => !(used.getD i true) && (edges.getD i dE).key2 = p)

/-- Number of unconsumed edges. -/
def unusedCount (edges : List Edge) (used : List Bool) : ℕ :=
  (List.range edges.length).countP (fun i => !(used.getD i true))

theorem getD_replicate (n i : ℕ) (b d : Bool) :
    (List.replicate n b).getD i d = if i < n then b else d := by
  induction n generalizing i with
  | zero =>
    rw [if_neg (by omega)]
    rfl
  | succ n ih =>
    cases i with
    | zero =>
      rw [if_pos (by omega)]
      rfl
    | succ i =>
      show (List.replicate n b).getD i d = _
      rw [ih i]
      by_cases hc : i < n
      · rw [if_pos hc, if_pos (by omega)]
      · rw [if_neg hc, if_neg (by omega)]

theorem getD_set (l : List Bool) (i j : ℕ) (b d : Bool) :
    (l.set i b).getD j d
      = if j = i ∧ i < l.length then b else l.getD j d := by
  induction l generalizing i j with
  | nil =>
    rw [if_neg (by
      intro h
      exact absurd h.2 (Nat.not_lt_zero i))]
    rfl
  | cons a t ih =>
    cases i with
    | zero =>
      cases j with
      | zero =>
        rw [if_pos ⟨rfl, by simp⟩]
        rfl
      | succ j =>
        rw [if_neg (by
          intro h
          exact Nat.succ_ne_zero j h.1)]
        rfl
    | succ i =>
      cases j with
      | zero =>
        rw [if_neg (by
          intro h
          exact Nat.succ_ne_zero i h.1.symm)]
        rfl
      | succ j =>
        show (t.set i b).getD j d = _
        rw [ih i j]
        by_cases hc : j = i ∧ i < t.length
        · rw [if_pos hc, if_pos (by
            exact ⟨by rw [hc.1], by simp; omega⟩)]
        · rw [if_neg hc, if_neg (by
            intro h
            exact hc ⟨Nat.succ_injective h.1, by
              have := h.2
              simp at this
              omega⟩)]
          rfl

theorem countP_set_split {L : List ℕ} (hN : L.Nodup) {i : ℕ} (hi : i ∈ L)
    (f g : ℕ → Bool) (hfg : ∀ j ∈ L, j ≠ i → f j = g j)
    (hfi : f i = false) (hgi : g i = true) :
    L.countP g = L.countP f + 1 := by
  induction L with
  | nil => cases hi
  | cons a t ih =>
    rw [List.countP_cons, List.countP_cons]
    cases hi with
    | head =>
      have hnot : i ∉ t := (List.nodup_cons.mp hN).1
      have heq : t.countP f = t.countP g := by
        refine List.countP_congr (fun j hj => ?_)
        have hne : j ≠ i := fun h => hnot (h ▸ hj)
        rw [hfg j (List.mem_cons_of_mem _ hj) hne]
      rw [hfi, hgi, heq]
      simp
    | tail _ hmem =>
      have hne : a ≠ i := by
        intro h
        exact (List.nodup_cons.mp hN).1 (h ▸ hmem)
      have hih := ih (List.nodup_cons.mp hN).2 hmem
        (fun j hj hji => hfg j (List.mem_cons_of_mem _ hj) hji)
      rw [hih, hfg a (by simp) hne]
      omega

end Region2D

namespace Region2D

open Region1D

theorem countP_range_getD (E : List Edge) (f : Edge → Bool) :
    (List.range E.length).countP (fun i => f (E.getD i dE)) = E.countP f := by
  induction E with
  | nil => rfl
  | cons a t ih =>
    show (List.range (t.length + 1)).countP _ = _
    rw [List.range_succ_eq_map, List.countP_cons, List.countP_map]
    have h2 : List.countP
        ((fun i => f ((a :: t).getD i dE)) ∘ Nat.succ) (List.range t.length)
        = t.countP f := ih
    rw [h2, List.countP_cons]
    rfl

/-- With no edge consumed, the unconsumed counts are the raw counts. -/
theorem unusedOut_init (E : List Edge) (p : Pt) :
    unusedOut E (List.replicate E.length false) p = keyCount1 E p := by
  unfold unusedOut
  rw [List.countP_congr (fun i hi => ?_)]
  · exact countP_range_getD E (fun e => decide (e.key1 = p))
  · have hlt : i < E.length := List.mem_range.mp hi
    constructor
    · intro h2
      exact (Bool.and_eq_true_iff.mp h2).2
    · intro h2
      refine Bool.and_eq_true_iff.mpr ⟨?_, h2⟩
      rw [getD_replicate, if_pos hlt]
      rfl

theorem unusedIn_init (E : List Edge) (p : Pt) :
    unusedIn E (List.replicate E.length false) p = keyCount2 E p := by
  unfold unusedIn
  rw [List.countP_congr (fun i hi => ?_)]
  · exact countP_range_getD E (fun e => decide (e.key2 = p))
  · have hlt : i < E.length := List.mem_range.mp hi
    constructor
    · intro h2
      exact (Bool.and_eq_true_iff.mp h2).2
    · intro h2
      refine Bool.and_eq_true_iff.mpr ⟨?_, h2⟩
      rw [getD_replicate, if_pos hlt]
      rfl

/-- Consuming an unconsumed edge removes exactly its own contribution
from the outgoing count at each point. -/
theorem unusedOut_set (edges : List Edge) (used : List Bool) (i : ℕ)
    (hlen : used.length = edges.length) (hi : i < edges.length)
    (hunused : used.getD i true = false) (p : Pt) :
    unusedOut edges used p
      = unusedOut edges (used.set i true) p
        + (if (edges.getD i dE).key1 = p then 1 else 0) := by
  by_cases hk : (edges.getD i dE).key1 = p
  · rw [if_pos hk]
    refine countP_set_split (List.nodup_range _) (List.mem_range.mpr hi)
      _ _ (fun j hj hji => ?_) ?_ ?_
    · have h2 : (used.set i true).getD j true = used.getD j true := by
        rw [getD_set, if_neg (fun h => hji h.1)]
      rw [h2]
    · have h2 : (used.set i true).getD i true = true := by
        rw [getD_set, if_pos ⟨rfl, by omega⟩]
      rw [h2]
      rfl
    · rw [hunused]
      show (!false && decide ((edges.getD i dE).key1 = p)) = true
      rw [decide_eq_true hk]
      rfl
  · rw [if_neg hk]
    rw [Nat.add_zero]
    refine List.countP_congr (fun j hj => ?_)
    by_cases hji : j = i
    · subst hji
      rw [hunused]
      have h2 : (used.set j true).getD j true = true := by
        rw [getD_set, if_pos ⟨rfl, by omega⟩]
      rw [h2]
      constructor
      · intro h3
        exact absurd (Bool.and_eq_true_iff.mp h3).2 (by simpa using hk)
      · intro h3
        cases (Bool.and_eq_true_iff.mp h3).1
    · have h2 : (used.set i true).getD j true = used.getD j true := by
        rw [getD_set, if_neg (fun h => hji h.1)]
      rw [h2]

theorem unusedIn_set (edges : List Edge) (used : List Bool) (i : ℕ)
    (hlen : used.length = edges.length) (hi : i < edges.length)
    (hunused : used.getD i true = false) (p : Pt) :
    unusedIn edges used p
      = unusedIn edges (used.set i true) p
        + (if (edges.getD i dE).key2 = p then 1 else 0) := by
  by_cases hk : (edges.getD i dE).key2 = p
  · rw [if_pos hk]
    refine countP_set_split (List.nodup_range _) (List.mem_range.mpr hi)
      _ _ (fun j hj hji => ?_) ?_ ?_
    · have h2 : (used.set i true).getD j true = used.getD j true := by
        rw [getD_set, if_neg (fun h => hji h.1)]
      rw [h2]
    · have h2 : (used.set i true).getD i true = true := by
        rw [getD_set, if_pos ⟨rfl, by omega⟩]
      rw [h2]
      rfl
    · rw [hunused]
      show (!false && decide ((edges.getD i dE).key2 = p)) = true
      rw [decide_eq_true hk]
      rfl
  · rw [if_neg hk]
    rw [Nat.add_zero]
    refine List.countP_congr (fun j hj => ?_)
    by_cases hji : j = i
    · subst hji
      rw [hunused]
      have h2 : (used.set j true).getD j true = true := by
        rw [getD_set, if_pos ⟨rfl, by omega⟩]
      rw [h2]
      constructor
      · intro h3
        exact absurd (Bool.and_eq_true_iff.mp h3).2 (by simpa using hk)
      · intro h3
        cases (Bool.and_eq_true_iff.mp h3).1
    · have h2 : (used.set i true).getD j true = used.getD j true := by
        rw [getD_set, if_neg (fun h => hji h.1)]
      rw [h2]

theorem unusedCount_set (edges : List Edge) (used : List Bool) (i : ℕ)
    (hlen : used.length = edges.length) (hi : i < edges.length)
    (hunused : used.getD i true = false) :
    unusedCount edges used = unusedCount edges (used.set i true) + 1 := by
  refine countP_set_split (List.nodup_range _) (List.mem_range.mpr hi)
    _ _ (fun j hj hji => ?_) ?_ ?_
  · have h2 : (used.set i true).getD j true = used.getD j true := by
      rw [getD_set, if_neg (fun h => hji h.1)]
    rw [h2]
  · have h2 : (used.set i true).getD i true = true := by
      rw [getD_set, if_pos ⟨rfl, by omega⟩]
    rw [h2]
    rfl
  · rw [hunused]
    rfl

end Region2D

namespace Region2D

open Region1D

/-- A positive outgoing count produces a concrete unconsumed edge. -/
theorem exists_unused_out {edges : List Edge} {used : List Bool} {p : Pt}
    (h : 0 < unusedOut edges used p) :
    ∃ j, j < edges.length ∧ used.getD j true = false
      ∧ (edges.getD j dE).key1 = p := by
  obtain ⟨j, hj, hpj⟩ := List.countP_pos_iff.mp h
  obtain ⟨h1, h2⟩ := Bool.and_eq_true_iff.mp hpj
  refine ⟨j, List.mem_range.mp hj, ?_, of_decide_eq_true h2⟩
  cases hju : used.getD j true with
  | false => rfl
  | true =>
    rw [hju] at h1
    cases h1

/-- The lookup table lists every edge starting at the key. -/
theorem mem_tableLookup {edges : List Edge} {j : ℕ} {p : Pt}
    (hj : j < edges.length) (hk : (edges.getD j dE).key1 = p) :
    j ∈ tableLookup edges p := by
  unfold tableLookup
  rw [List.mem_filter]
  exact ⟨List.mem_range.mpr hj, decide_eq_true hk⟩

theorem tableLookup_mem {edges : List Edge} {j : ℕ} {p : Pt}
    (h : j ∈ tableLookup edges p) :
    j < edges.length ∧ (edges.getD j dE).key1 = p := by
  unfold tableLookup at h
  rw [List.mem_filter] at h
  exact ⟨List.mem_range.mp h.1, of_decide_eq_true h.2⟩

/-- `findBestPossibleEdge` is safe whenever some unconsumed edge starts at
the point looked up: it returns one of the candidates, and that candidate
is unconsumed — including through the single-candidate shortcut, whose
corrupted `used` test never fires precisely because a singleton candidate
list with an unconsumed member consists of that unconsumed edge. -/
theorem findBest_safe (edges : List Edge) (cur : Edge) (used : List Bool)
    (p : Pt)
    (hex : ∃ j ∈ tableLookup edges p, used.getD j true = false) :
    ∃ nxt, findBestPossibleEdge edges cur (tableLookup edges p) used
        = some nxt
      ∧ used.getD nxt true = false
      ∧ nxt ∈ tableLookup edges p := by
  obtain ⟨j, hjmem, hjunused⟩ := hex
  unfold findBestPossibleEdge
  by_cases hlen : (tableLookup edges p).length = 1
  · rw [if_pos hlen]
    obtain ⟨j0, hj0⟩ := List.length_eq_one.mp hlen
    rw [hj0]
    refine ⟨j0, rfl, ?_, ?_⟩
    · rw [hj0] at hjmem
      rw [List.mem_singleton] at hjmem
      rw [← hjmem]
      exact hjunused
    · simp
  · rw [if_neg hlen]
    split
    next i hf1 =>
      have hmem := List.mem_of_find?_eq_some hf1
      have hprop := List.find?_some hf1
      obtain ⟨h1, h2⟩ := Bool.and_eq_true_iff.mp hprop
      refine ⟨i, rfl, ?_, hmem⟩
      cases hju : used.getD i true with
      | false => rfl
      | true =>
        rw [hju] at h1
        cases h1
    next hf1 =>
      cases hf2 : (tableLookup edges p).find? fun i =>
          !(used.getD i true) with
      | some i =>
        have hmem := List.mem_of_find?_eq_some hf2
        have hprop := List.find?_some hf2
        refine ⟨i, rfl, ?_, hmem⟩
        cases hju : used.getD i true with
        | false => rfl
        | true =>
          rw [hju] at hprop
          cases hprop
      | none =>
        exfalso
        have h3 := List.find?_eq_none.mp hf2 j hjmem
        rw [hjunused] at h3
        exact h3 rfl

end Region2D

namespace Region2D

open Region1D

theorem walkLoop_exit (edges : List Edge) (fuel : ℕ) (startKey : Pt)
    (cur : ℕ) (used : List Bool) (acc : List Pt)
    (h : (edges.getD cur dE).key2 = startKey) :
    walkLoop edges (fuel + 1) startKey cur used acc
      = some (acc.reverse, used) := by
  show (if (edges.getD cur ⟨nan, nan, nan, nan, EdgeKind.top⟩).key2 = startKey
      then some (acc.reverse, used)
      else match findBestPossibleEdge edges
          (edges.getD cur ⟨nan, nan, nan, nan, EdgeKind.top⟩)
          (tableLookup edges
            (edges.getD cur ⟨nan, nan, nan, nan, EdgeKind.top⟩).key2) used with
        | none => none
        | some nxt =>
          walkLoop edges fuel startKey nxt (used.set nxt true)
            (⟨(edges.getD nxt ⟨nan, nan, nan, nan, EdgeKind.top⟩).x1,
              (edges.getD nxt ⟨nan, nan, nan, nan, EdgeKind.top⟩).y1⟩ :: acc))
      = some (acc.reverse, used)
  have h2 : (edges.getD cur
      ⟨nan, nan, nan, nan, EdgeKind.top⟩).key2 = startKey := h
  rw [if_pos h2]

theorem walkLoop_step (edges : List Edge) (fuel : ℕ) (startKey : Pt)
    (cur : ℕ) (used : List Bool) (acc : List Pt)
    (hne : ¬((edges.getD cur dE).key2 = startKey)) (nxt : ℕ)
    (hf : findBestPossibleEdge edges (edges.getD cur dE)
        (tableLookup edges (edges.getD cur dE).key2) used = some nxt) :
    walkLoop edges (fuel + 1) startKey cur used acc
      = walkLoop edges fuel startKey nxt (used.set nxt true)
          (⟨(edges.getD nxt dE).x1, (edges.getD nxt dE).y1⟩ :: acc) := by
  show (if (edges.getD cur ⟨nan, nan, nan, nan, EdgeKind.top⟩).key2 = startKey
      then some (acc.reverse, used)
      else match findBestPossibleEdge edges
          (edges.getD cur ⟨nan, nan, nan, nan, EdgeKind.top⟩)
          (tableLookup edges
            (edges.getD cur ⟨nan, nan, nan, nan, EdgeKind.top⟩).key2) used with
        | none => none
        | some nxt =>
          walkLoop edges fuel startKey nxt (used.set nxt true)
            (⟨(edges.getD nxt ⟨nan, nan, nan, nan, EdgeKind.top⟩).x1,
              (edges.getD nxt ⟨nan, nan, nan, nan, EdgeKind.top⟩).y1⟩ :: acc))
      = _
  have h2 : ¬((edges.getD cur
      ⟨nan, nan, nan, nan, EdgeKind.top⟩).key2 = startKey) := hne
  have hf2 : findBestPossibleEdge edges
      (edges.getD cur ⟨nan, nan, nan, nan, EdgeKind.top⟩)
      (tableLookup edges
        (edges.getD cur ⟨nan, nan, nan, nan, EdgeKind.top⟩).key2) used
      = some nxt := hf
  rw [if_neg h2, hf2]
  rfl

/-- The walk invariant carries the loop to normal completion: it always
finds an unconsumed continuation edge and ends balanced at the start. -/
theorem walkLoop_ok :
    ∀ (fuel : ℕ) (startKey : Pt) (cur : ℕ) (used : List Bool)
      (acc : List Pt) (edges : List Edge),
      used.length = edges.length →
      unusedCount edges used < fuel →
      (∀ p : Pt, unusedOut edges used p + (if startKey = p then 1 else 0)
        = unusedIn edges used p
          + (if (edges.getD cur dE).key2 = p then 1 else 0)) →
      ∃ pts used', walkLoop edges fuel startKey cur used acc
          = some (pts, used')
        ∧ used'.length = edges.length
        ∧ (∀ p : Pt, unusedOut edges used' p = unusedIn edges used' p)
        ∧ unusedCount edges used' ≤ unusedCount edges used := by
  intro fuel
  induction fuel with
  | zero =>
    intro _ _ _ _ _ _ hfuel _
    omega
  | succ fuel ih =>
    intro startKey cur used acc edges hlen hfuel hinv
    by_cases hexit : (edges.getD cur dE).key2 = startKey
    · refine ⟨acc.reverse, used,
        walkLoop_exit edges fuel startKey cur used acc hexit, hlen, ?_,
        le_refl _⟩
      intro p
      have h2 := hinv p
      rw [hexit] at h2
      omega
    · have hout : 0 < unusedOut edges used ((edges.getD cur dE).key2) := by
        have h2 := hinv ((edges.getD cur dE).key2)
        rw [if_pos rfl, if_neg (fun h => hexit h.symm)] at h2
        omega
      obtain ⟨j, hjlt, hjun, hjk⟩ := exists_unused_out hout
      have hjtab := mem_tableLookup hjlt hjk
      obtain ⟨nxt, hfind, hnun, hntab⟩ := findBest_safe edges
        (edges.getD cur dE) used ((edges.getD cur dE).key2) ⟨j, hjtab, hjun⟩
      obtain ⟨hnlt, hnk1⟩ := tableLookup_mem hntab
      have hstep := walkLoop_step edges fuel startKey cur used acc hexit
        nxt hfind
      have hinv' : ∀ p : Pt,
          unusedOut edges (used.set nxt true) p
            + (if startKey = p then 1 else 0)
          = unusedIn edges (used.set nxt true) p
            + (if (edges.getD nxt dE).key2 = p then 1 else 0) := by
        intro p
        have h2 := hinv p
        rw [unusedOut_set edges used nxt hlen hnlt hnun p,
          unusedIn_set edges used nxt hlen hnlt hnun p, hnk1] at h2
        omega
      have hcnt := unusedCount_set edges used nxt hlen hnlt hnun
      obtain ⟨pts, used', hrun, hlen', hbal, hcle⟩ := ih startKey nxt
        (used.set nxt true)
        (⟨(edges.getD nxt dE).x1, (edges.getD nxt dE).y1⟩ :: acc) edges
        (by rw [List.length_set]; exact hlen) (by omega) hinv'
      refine ⟨pts, used', ?_, hlen', hbal, by omega⟩
      rw [hstep]
      exact hrun

end Region2D

namespace Region2D

open Region1D

/-- An order-embedding of the JS number line into the rationals. -/
def squash : JsNum → ℚ
  | nan => 0
  | ninf => -2
  | pinf => 2
  | num q => q / (1 + |q|)

theorem squash_num_bounds (q : ℚ) :
    -1 < q / (1 + |q|) ∧ q / (1 + |q|) < 1 := by
  have hpos : (0 : ℚ) < 1 + |q| := by positivity
  constructor
  · rw [lt_div_iff hpos]
    have h2 := neg_abs_le q
    linarith
  · rw [div_lt_one hpos]
    have h2 := le_abs_self q
    linarith

theorem squash_lt {a b : JsNum} (h : jlt a b = true) :
    squash a < squash b := by
  cases a with
  | nan => cases b <;> exact Bool.noConfusion (show false = true from h)
  | pinf => cases b <;> exact Bool.noConfusion (show false = true from h)
  | ninf =>
    cases b with
    | nan => exact Bool.noConfusion (show false = true from h)
    | ninf => exact Bool.noConfusion (show false = true from h)
    | pinf =>
      show (-2 : ℚ) < 2
      norm_num
    | num q =>
      show (-2 : ℚ) < q / (1 + |q|)
      have h2 := (squash_num_bounds q).1
      linarith
  | num a =>
    cases b with
    | nan => exact Bool.noConfusion (show false = true from h)
    | ninf => exact Bool.noConfusion (show false = true from h)
    | pinf =>
      show a / (1 + |a|) < 2
      have h2 := (squash_num_bounds a).2
      linarith
    | num b =>
      have hab : a < b := of_decide_eq_true h
      show a / (1 + |a|) < b / (1 + |b|)
      rcases le_or_lt 0 a with ha | ha
      · have hb : 0 ≤ b := le_trans ha (le_of_lt hab)
        rw [abs_of_nonneg ha, abs_of_nonneg hb,
          div_lt_div_iff (by linarith) (by linarith)]
        nlinarith
      · rcases le_or_lt 0 b with hb | hb
        · have h1 : a / (1 + |a|) < 0 := by
            apply div_neg_of_neg_of_pos ha
            positivity
          have h2 : 0 ≤ b / (1 + |b|) := by
            apply div_nonneg hb
            positivity
          linarith
        · rw [abs_of_neg ha, abs_of_neg hb,
            div_lt_div_iff (by linarith) (by linarith)]
          nlinarith

theorem sum_map_sub (f g : ℕ → ℚ) :
    ∀ l : List ℕ,
      (l.map (fun i => f i - g i)).sum = (l.map f).sum - (l.map g).sum := by
  intro l
  induction l with
  | nil => simp
  | cons a t ih =>
    simp only [List.map_cons, List.sum_cons, ih]
    ring

theorem all_zero_of_nonpos_sum_zero :
    ∀ l : List ℚ, (∀ x ∈ l, x ≤ 0) → l.sum = 0 → ∀ x ∈ l, x = 0 := by
  intro l
  induction l with
  | nil => intro _ _ x hx; cases hx
  | cons a t ih =>
    intro hle hsum x hx
    have hts : t.sum ≤ 0 := by
      have h2 : ∀ y ∈ t, y ≤ 0 := fun y hy => hle y (List.mem_cons_of_mem _ hy)
      clear hsum hle hx ih
      induction t with
      | nil => simp
      | cons b u ih2 =>
        simp only [List.sum_cons]
        have h3 := h2 b (by simp)
        have h4 := ih2 (fun y hy => h2 y (List.mem_cons_of_mem _ hy))
        linarith
    have hha : a ≤ 0 := hle a (by simp)
    rw [List.sum_cons] at hsum
    have ha0 : a = 0 := by linarith
    have ht0 : t.sum = 0 := by linarith
    cases hx with
    | head => exact ha0
    | tail _ h2 => exact ih (fun y hy => hle y (List.mem_cons_of_mem _ hy)) ht0 x h2

/-- A nonempty NaN-free list has a least element in JS order. -/
theorem exists_min_jle :
    ∀ (l : List JsNum), l ≠ [] → (∀ z ∈ l, z ≠ nan) →
      ∃ m ∈ l, ∀ z ∈ l, jle m z = true := by
  intro l
  induction l with
  | nil => intro h _; exact absurd rfl h
  | cons a t ih =>
    intro _ hnan
    cases t with
    | nil =>
      refine ⟨a, by simp, ?_⟩
      intro z hz
      rw [List.mem_singleton] at hz
      subst hz
      exact jle_refl (hnan z (by simp))
    | cons b u =>
      obtain ⟨m, hm, hmle⟩ := ih (by intro h; cases h)
        (fun z hz => hnan z (List.mem_cons_of_mem _ hz))
      have hna : a ≠ nan := hnan a (by simp)
      have hnm : m ≠ nan := hnan m (List.mem_cons_of_mem _ hm)
      rcases jtri a m hna hnm with h2 | h2 | h2
      · refine ⟨a, by simp, ?_⟩
        intro z hz
        cases hz with
        | head => exact jle_refl hna
        | tail _ h3 =>
          exact jle_trans (jle_of_jlt h2) (hmle z h3)
      · subst h2
        refine ⟨a, by simp, ?_⟩
        intro z hz
        cases hz with
        | head => exact jle_refl hna
        | tail _ h3 => exact hmle z h3
      · refine ⟨m, List.mem_cons_of_mem _ hm, ?_⟩
        intro z hz
        cases hz with
        | head => exact jle_of_jlt h2
        | tail _ h3 => exact hmle z h3

end Region2D

namespace Region2D

open Region1D

/-- What each edge of a generated boundary looks like: horizontals have
strict X-extent in their winding direction; verticals sit at a span
boundary of one of the bands and run over exactly its Y-range. -/
def EdgeShape (rows : List Row) (e : Edge) : Prop :=
  (e.kind = EdgeKind.top → e.y1 = e.y2 ∧ jlt e.x1 e.x2 = true)
  ∧ (e.kind = EdgeKind.bottom → e.y1 = e.y2 ∧ jlt e.x2 e.x1 = true)
  ∧ (e.kind = EdgeKind.right → e.x1 = e.x2
      ∧ ∃ r ∈ rows, e.y1 = r.minY ∧ e.y2 = r.maxY
        ∧ ∃ q ∈ spanPairs r.region.arr, e.x1 = q.2)
  ∧ (e.kind = EdgeKind.left → e.x1 = e.x2
      ∧ ∃ r ∈ rows, e.y2 = r.minY ∧ e.y1 = r.maxY
        ∧ ∃ q ∈ spanPairs r.region.arr, e.x1 = q.1)

theorem spanPairs_lt :
    ∀ (l : List JsNum), Valid1D l → ∀ q ∈ spanPairs l, jlt q.1 q.2 = true
  | [], _, q, hq => absurd hq (List.not_mem_nil q)
  | [a], _, q, hq => absurd hq (List.not_mem_nil q)
  | s :: e :: rest, hv, q, hq => by
    cases hq with
    | head => exact (List.chain'_cons.mp hv.2).1
    | tail _ h2 => exact spanPairs_lt rest (valid1d_tail2 hv) q h2

theorem shape_mono {rows : List Row} {r : Row} {e : Edge}
    (h : EdgeShape rows e) : EdgeShape (r :: rows) e := by
  obtain ⟨h1, h2, h3, h4⟩ := h
  refine ⟨h1, h2, fun hk => ?_, fun hk => ?_⟩
  · obtain ⟨hx, r2, hr2, ha, hb, hc⟩ := h3 hk
    exact ⟨hx, r2, List.mem_cons_of_mem _ hr2, ha, hb, hc⟩
  · obtain ⟨hx, r2, hr2, ha, hb, hc⟩ := h4 hk
    exact ⟨hx, r2, List.mem_cons_of_mem _ hr2, ha, hb, hc⟩

theorem shape_top {rows : List Row} {spans : List JsNum} {y : JsNum}
    (hv : Valid1D spans) : ∀ e ∈ topEdges spans y, EdgeShape rows e := by
  intro e he
  unfold topEdges at he
  rw [List.mem_map] at he
  obtain ⟨q, hq, he⟩ := he
  subst he
  refine ⟨fun _ => ⟨rfl, spanPairs_lt spans hv q hq⟩,
    fun hk => EdgeKind.noConfusion hk,
    fun hk => EdgeKind.noConfusion hk,
    fun hk => EdgeKind.noConfusion hk⟩

theorem shape_bottom {rows : List Row} {spans : List JsNum} {y : JsNum}
    (hv : Valid1D spans) : ∀ e ∈ bottomEdges spans y, EdgeShape rows e := by
  intro e he
  unfold bottomEdges at he
  rw [List.mem_map] at he
  obtain ⟨q, hq, he⟩ := he
  subst he
  refine ⟨fun hk => EdgeKind.noConfusion hk,
    fun _ => ⟨rfl, spanPairs_lt spans hv q hq⟩,
    fun hk => EdgeKind.noConfusion hk,
    fun hk => EdgeKind.noConfusion hk⟩

theorem shape_rl {rows : List Row} {r : Row} (hr : r ∈ rows) :
    ∀ e ∈ rlEdges r.region.arr r.minY r.maxY, EdgeShape rows e := by
  intro e he
  unfold rlEdges at he
  rw [List.mem_flatMap] at he
  obtain ⟨q, hq, he⟩ := he
  cases he with
  | head =>
    refine ⟨fun hk => EdgeKind.noConfusion hk,
      fun hk => EdgeKind.noConfusion hk,
      fun _ => ⟨rfl, r, hr, rfl, rfl, q, hq, rfl⟩,
      fun hk => EdgeKind.noConfusion hk⟩
  | tail _ h2 =>
    cases h2 with
    | head =>
      refine ⟨fun hk => EdgeKind.noConfusion hk,
        fun hk => EdgeKind.noConfusion hk,
        fun hk => EdgeKind.noConfusion hk,
        fun _ => ⟨rfl, r, hr, rfl, rfl, q, hq, rfl⟩⟩
    | tail _ h3 => cases h3

theorem edgeLoop_shape :
    ∀ (rest : List Row) (prev : Row), ValidRows (prev :: rest) →
      ∀ e ∈ edgeLoop prev rest, EdgeShape (prev :: rest) e := by
  intro rest
  induction rest with
  | nil =>
    intro prev hv e he
    have hva : Valid1D prev.region.arr := (hv.1 prev (by simp)).1.1
    rw [edgeLoop_nil, getRawSpans_eq hva] at he
    exact shape_bottom hva e he
  | cons cur rest' ih =>
    intro prev hv e he
    have hva : Valid1D prev.region.arr := (hv.1 prev (by simp)).1.1
    have hvc : Valid1D cur.region.arr :=
      (hv.1 cur (by simp [List.mem_cons])).1.1
    have hvrows' : ValidRows (cur :: rest') :=
      ⟨fun r hr => hv.1 r (List.mem_cons_of_mem _ hr), hv.2.tail⟩
    have hrl : ∀ e2 ∈ rlEdges cur.region.getRawSpans cur.minY cur.maxY,
        EdgeShape (prev :: cur :: rest') e2 := by
      rw [getRawSpans_eq hvc]
      exact shape_rl (by simp [List.mem_cons])
    by_cases hgap : jlt prev.maxY cur.minY = true
    · rw [edgeLoop_cons_gap prev cur rest' hgap] at he
      rcases List.mem_append.mp he with h2 | h2
      · rcases List.mem_append.mp h2 with h3 | h3
        · rcases List.mem_append.mp h3 with h4 | h4
          · rw [getRawSpans_eq hva] at h4
            exact shape_bottom hva e h4
          · rw [getRawSpans_eq hvc] at h4
            exact shape_top hvc e h4
        · exact hrl e h3
      · exact shape_mono (ih cur hvrows' e h2)
    · have hsub1 : Valid1D (prev.region.subtract cur.region).arr :=
        (subtractData_valid_sem prev.region.arr cur.region.arr hva hvc).1
      have hsub2 : Valid1D (cur.region.subtract prev.region).arr :=
        (subtractData_valid_sem cur.region.arr prev.region.arr hvc hva).1
      rw [edgeLoop_cons_touch prev cur rest' hgap] at he
      rcases List.mem_append.mp he with h2 | h2
      · rcases List.mem_append.mp h2 with h3 | h3
        · rcases List.mem_append.mp h3 with h4 | h4
          · rw [getRawSpans_eq hsub1] at h4
            exact shape_bottom hsub1 e h4
          · rw [getRawSpans_eq hsub2] at h4
            exact shape_top hsub2 e h4
        · exact hrl e h3
      · exact shape_mono (ih cur hvrows' e h2)

/-- Every generated edge is well-shaped. -/
theorem generateEdges_shape (rows : List Row) (hv : ValidRows rows) :
    ∀ e ∈ generateEdges rows, EdgeShape rows e := by
  rcases rows with _ | ⟨row, _ | ⟨cur, rest⟩⟩
  · intro e he
    cases he
  · intro e he
    have hva : Valid1D row.region.arr := (hv.1 row (by simp)).1.1
    have he2 : e ∈ (spanPairs row.region.getRawSpans).flatMap fun q =>
        [(⟨q.1, row.minY, q.2, row.minY, EdgeKind.top⟩ : Edge),
         ⟨q.2, row.minY, q.2, row.maxY, EdgeKind.right⟩,
         ⟨q.2, row.maxY, q.1, row.maxY, EdgeKind.bottom⟩,
         ⟨q.1, row.maxY, q.1, row.minY, EdgeKind.left⟩] := he
    rw [List.mem_flatMap] at he2
    obtain ⟨q, hq, he3⟩ := he2
    rw [getRawSpans_eq hva] at hq
    have hlt := spanPairs_lt row.region.arr hva q hq
    simp only [List.mem_cons, List.not_mem_nil, or_false] at he3
    rcases he3 with h | h | h | h
    · subst h
      exact ⟨fun _ => ⟨rfl, hlt⟩, fun hk => EdgeKind.noConfusion hk,
        fun hk => EdgeKind.noConfusion hk, fun hk => EdgeKind.noConfusion hk⟩
    · subst h
      exact ⟨fun hk => EdgeKind.noConfusion hk,
        fun hk => EdgeKind.noConfusion hk,
        fun _ => ⟨rfl, row, by simp, rfl, rfl, q, hq, rfl⟩,
        fun hk => EdgeKind.noConfusion hk⟩
    · subst h
      exact ⟨fun hk => EdgeKind.noConfusion hk, fun _ => ⟨rfl, hlt⟩,
        fun hk => EdgeKind.noConfusion hk, fun hk => EdgeKind.noConfusion hk⟩
    · subst h
      exact ⟨fun hk => EdgeKind.noConfusion hk,
        fun hk => EdgeKind.noConfusion hk,
        fun hk => EdgeKind.noConfusion hk,
        fun _ => ⟨rfl, row, by simp, rfl, rfl, q, hq, rfl⟩⟩
  · intro e he
    have hva : Valid1D row.region.arr := (hv.1 row (by simp)).1.1
    have he2 : e ∈ ((spanPairs row.region.getRawSpans).flatMap fun q =>
        [(⟨q.1, row.minY, q.2, row.minY, EdgeKind.top⟩ : Edge),
         ⟨q.2, row.minY, q.2, row.maxY, EdgeKind.right⟩,
         ⟨q.1, row.maxY, q.1, row.minY, EdgeKind.left⟩])
        ++ edgeLoop row (cur :: rest) := he
    rcases List.mem_append.mp he2 with h2 | h2
    · rw [List.mem_flatMap] at h2
      obtain ⟨q, hq, he3⟩ := h2
      rw [getRawSpans_eq hva] at hq
      have hlt := spanPairs_lt row.region.arr hva q hq
      simp only [List.mem_cons, List.not_mem_nil, or_false] at he3
      rcases he3 with h | h | h
      · subst h
        exact ⟨fun _ => ⟨rfl, hlt⟩, fun hk => EdgeKind.noConfusion hk,
          fun hk => EdgeKind.noConfusion hk,
          fun hk => EdgeKind.noConfusion hk⟩
      · subst h
        exact ⟨fun hk => EdgeKind.noConfusion hk,
          fun hk => EdgeKind.noConfusion hk,
          fun _ => ⟨rfl, row, by simp, rfl, rfl, q, hq, rfl⟩,
          fun hk => EdgeKind.noConfusion hk⟩
      · subst h
        exact ⟨fun hk => EdgeKind.noConfusion hk,
          fun hk => EdgeKind.noConfusion hk,
          fun hk => EdgeKind.noConfusion hk,
          fun _ => ⟨rfl, row, by simp, rfl, rfl, q, hq, rfl⟩⟩
    · exact edgeLoop_shape (cur :: rest) row hv e h2

end Region2D

namespace Region2D

open Region1D

/-- Distinct bands of a valid band list have distinct bottoms. -/
theorem rows_minY_inj :
    ∀ (rows : List Row), ValidRows rows → ∀ r ∈ rows, ∀ r2 ∈ rows,
      r.minY = r2.minY → r = r2 := by
  intro rows
  induction rows with
  | nil => intro _ r hr; cases hr
  | cons a t ih =>
    intro hv r hr r2 hr2 heq
    have htail : ValidRows t :=
      ⟨fun x hx => hv.1 x (List.mem_cons_of_mem _ hx), hv.2.tail⟩
    have hbelow : ∀ x ∈ t, jlt a.minY x.minY = true := by
      intro x hx
      have h1 : jlt a.minY a.maxY = true := (hv.1 a (by simp)).2.2
      have h2 := chain_head_le_all hv.2
        (fun u hu => (hv.1 u (List.mem_cons_of_mem _ hu)).2.2) x hx
      exact jlt_of_jlt_of_jle h1 h2
    cases hr with
    | head =>
      cases hr2 with
      | head => rfl
      | tail _ h2 =>
        exfalso
        have h3 := hbelow r2 h2
        rw [← heq, jlt_irrefl] at h3
        exact Bool.noConfusion h3
    | tail _ h1 =>
      cases hr2 with
      | head =>
        exfalso
        have h3 := hbelow r h1
        rw [heq, jlt_irrefl] at h3
        exact Bool.noConfusion h3
      | tail _ h2 => exact ih htail r h1 r2 h2 heq

def uIdx (edges : List Edge) (used : List Bool) : List ℕ :=
  (List.range edges.length).filter (fun i => !(used.getD i true))

theorem mem_uIdx {edges : List Edge} {used : List Bool} {i : ℕ} :
    i ∈ uIdx edges used
      ↔ i < edges.length ∧ used.getD i true = false := by
  unfold uIdx
  rw [List.mem_filter, List.mem_range]
  constructor
  · rintro ⟨h1, h2⟩
    refine ⟨h1, ?_⟩
    cases hu : used.getD i true with
    | false => rfl
    | true =>
      rw [hu] at h2
      cases h2
  · rintro ⟨h1, h2⟩
    rw [h2]
    exact ⟨h1, rfl⟩

theorem unusedCount_length (edges : List Edge) (used : List Bool) :
    unusedCount edges used = (uIdx edges used).length :=
  List.countP_eq_length_filter _ _

theorem unusedOut_uIdx (edges : List Edge) (used : List Bool) (p : Pt) :
    unusedOut edges used p
      = (uIdx edges used).countP (fun i => (edges.getD i dE).key1 = p) := by
  unfold unusedOut uIdx
  rw [List.countP_filter]
  refine List.countP_congr (fun i hi => ?_)
  constructor
  · intro h2
    obtain ⟨h3, h4⟩ := Bool.and_eq_true_iff.mp h2
    exact Bool.and_eq_true_iff.mpr ⟨h4, h3⟩
  · intro h2
    obtain ⟨h3, h4⟩ := Bool.and_eq_true_iff.mp h2
    exact Bool.and_eq_true_iff.mpr ⟨h4, h3⟩

theorem unusedIn_uIdx (edges : List Edge) (used : List Bool) (p : Pt) :
    unusedIn edges used p
      = (uIdx edges used).countP (fun i => (edges.getD i dE).key2 = p) := by
  unfold unusedIn uIdx
  rw [List.countP_filter]
  refine List.countP_congr (fun i hi => ?_)
  constructor
  · intro h2
    obtain ⟨h3, h4⟩ := Bool.and_eq_true_iff.mp h2
    exact Bool.and_eq_true_iff.mpr ⟨h4, h3⟩
  · intro h2
    obtain ⟨h3, h4⟩ := Bool.and_eq_true_iff.mp h2
    exact Bool.and_eq_true_iff.mpr ⟨h4, h3⟩

theorem unusedOut_pos {edges : List Edge} {used : List Bool} {i : ℕ} {p : Pt}
    (hi : i < edges.length) (hun : used.getD i true = false)
    (hk : (edges.getD i dE).key1 = p) : 0 < unusedOut edges used p := by
  refine List.countP_pos_iff.mpr ⟨i, List.mem_range.mpr hi, ?_⟩
  rw [hun, decide_eq_true hk]
  rfl

theorem unusedIn_pos {edges : List Edge} {used : List Bool} {i : ℕ} {p : Pt}
    (hi : i < edges.length) (hun : used.getD i true = false)
    (hk : (edges.getD i dE).key2 = p) : 0 < unusedIn edges used p := by
  refine List.countP_pos_iff.mpr ⟨i, List.mem_range.mpr hi, ?_⟩
  rw [hun, decide_eq_true hk]
  rfl

theorem exists_unused_in {edges : List Edge} {used : List Bool} {p : Pt}
    (h : 0 < unusedIn edges used p) :
    ∃ j, j < edges.length ∧ used.getD j true = false
      ∧ (edges.getD j dE).key2 = p := by
  obtain ⟨j, hj, hpj⟩ := List.countP_pos_iff.mp h
  obtain ⟨h1, h2⟩ := Bool.and_eq_true_iff.mp hpj
  refine ⟨j, List.mem_range.mp hj, ?_, of_decide_eq_true h2⟩
  cases hju : used.getD j true with
  | false => rfl
  | true =>
    rw [hju] at h1
    cases h1

/-- At most one of start/end can happen at a value of a valid span
list. -/
theorem start_end_exclusive {arr : List JsNum} {v : JsNum}
    (hv : Valid1D arr) (hnv : v ≠ nan) :
    ¬(0 < startCount arr v ∧ 0 < endCount arr v) := by
  rintro ⟨h1, h2⟩
  obtain ⟨hs, he⟩ := startEnd_count arr v hv hnv
  rw [hs] at h1
  rw [he] at h2
  by_cases hc1 : sL arr v = false ∧ sR arr v = true
  · by_cases hc2 : sL arr v = true ∧ sR arr v = false
    · rw [hc2.1] at hc1
      exact Bool.noConfusion hc1.1
    · rw [if_neg hc2] at h2
      omega
  · rw [if_neg hc1] at h1
    omega

theorem startCount_pos {arr : List JsNum} {q : JsNum × JsNum} {v : JsNum}
    (hq : q ∈ spanPairs arr) (hv : q.1 = v) : 0 < startCount arr v :=
  List.countP_pos_iff.mpr ⟨q, hq, decide_eq_true hv⟩

theorem endCount_pos {arr : List JsNum} {q : JsNum × JsNum} {v : JsNum}
    (hq : q ∈ spanPairs arr) (hv : q.2 = v) : 0 < endCount arr v :=
  List.countP_pos_iff.mpr ⟨q, hq, decide_eq_true hv⟩

end Region2D

namespace Region2D

open Region1D

theorem getD_mem {edges : List Edge} {i : ℕ} (h : i < edges.length) :
    edges.getD i dE ∈ edges := by
  rw [List.getD_eq_getElem edges dE h]
  exact List.getElem_mem h

theorem unused_keys_perm (edges : List Edge) (used : List Bool)
    (hbal : ∀ p, unusedOut edges used p = unusedIn edges used p) :
    ((uIdx edges used).map (fun i => (edges.getD i dE).key1)).Perm
      ((uIdx edges used).map (fun i => (edges.getD i dE).key2)) := by
  refine List.perm_iff_count.mpr (fun a => ?_)
  rw [List.count_eq_countP, List.count_eq_countP, List.countP_map,
    List.countP_map]
  have h1 : List.countP
      ((fun x => x == a) ∘ fun i => (edges.getD i dE).key1)
      (uIdx edges used)
      = (uIdx edges used).countP (fun i => (edges.getD i dE).key1 = a) :=
    List.countP_congr (fun i hi => Iff.rfl)
  have h2 : List.countP
      ((fun x => x == a) ∘ fun i => (edges.getD i dE).key2)
      (uIdx edges used)
      = (uIdx edges used).countP (fun i => (edges.getD i dE).key2 = a) :=
    List.countP_congr (fun i hi => Iff.rfl)
  rw [h1, h2, ← unusedOut_uIdx, ← unusedIn_uIdx]
  exact hbal a

/-- The heart of the start-scan safety: a balanced, nonempty remainder of
a generated edge set always contains an unconsumed `top` edge. -/
theorem exists_top_unused (rows : List Row) (hv : ValidRows rows)
    (used : List Bool)
    (hbal : ∀ p, unusedOut (generateEdges rows) used p
      = unusedIn (generateEdges rows) used p)
    (hne : 0 < unusedCount (generateEdges rows) used) :
    ∃ j, j < (generateEdges rows).length ∧ used.getD j true = false
      ∧ ((generateEdges rows).getD j dE).kind = EdgeKind.top := by
  set edges := generateEdges rows with hedges
  by_contra hcon
  push_neg at hcon
  have hshape : ∀ e ∈ edges, EdgeShape rows e := generateEdges_shape rows hv
  set I := uIdx edges used with hI
  have hImem : ∀ i ∈ I, i < edges.length ∧ used.getD i true = false :=
    fun i hi => mem_uIdx.mp hi
  have hInon : I ≠ [] := by
    intro h2
    rw [unusedCount_length, ← hI, h2] at hne
    simp at hne
  have hnotop : ∀ i ∈ I, (edges.getD i dE).kind ≠ EdgeKind.top :=
    fun i hi => hcon i (hImem i hi).1 (hImem i hi).2
  have hsh : ∀ i ∈ I, EdgeShape rows (edges.getD i dE) :=
    fun i hi => hshape _ (getD_mem (hImem i hi).1)
  -- Step 1: the squashed X-displacements of the remainder sum to zero
  have hperm := unused_keys_perm edges used hbal
  have hsum : (I.map (fun i => squash (edges.getD i dE).x2
      - squash (edges.getD i dE).x1)).sum = 0 := by
    have h1 := (hperm.map (fun p : Pt => squash p.x)).sum_eq
    rw [List.map_map, List.map_map] at h1
    have hA : I.map ((fun p : Pt => squash p.x)
        ∘ fun i => (edges.getD i dE).key1)
        = I.map (fun i => squash (edges.getD i dE).x1) := rfl
    have hB : I.map ((fun p : Pt => squash p.x)
        ∘ fun i => (edges.getD i dE).key2)
        = I.map (fun i => squash (edges.getD i dE).x2) := rfl
    rw [hA, hB] at h1
    rw [sum_map_sub (fun i => squash (edges.getD i dE).x2)
      (fun i => squash (edges.getD i dE).x1) I, ← h1]
    ring
  -- Step 2: no bottoms can remain either
  have hterms : ∀ i ∈ I, squash (edges.getD i dE).x2
      - squash (edges.getD i dE).x1 ≤ 0 := by
    intro i hi
    obtain ⟨hs1, hs2, hs3, hs4⟩ := hsh i hi
    cases hk : (edges.getD i dE).kind with
    | top => exact absurd hk (hnotop i hi)
    | bottom =>
      have h2 := squash_lt (hs2 hk).2
      linarith
    | right =>
      rw [(hs3 hk).1]
      linarith
    | left =>
      rw [(hs4 hk).1]
      linarith
  have hnobot : ∀ i ∈ I, (edges.getD i dE).kind ≠ EdgeKind.bottom := by
    intro i hi hk
    have hz := all_zero_of_nonpos_sum_zero _
      (by
        intro x hx
        obtain ⟨i2, hi2, he2⟩ := List.mem_map.mp hx
        rw [← he2]
        exact hterms i2 hi2)
      hsum _ (List.mem_map_of_mem _ hi)
    obtain ⟨-, hlt⟩ := (hsh i hi).2.1 hk
    have h2 := squash_lt hlt
    linarith
  -- Step 3: only verticals remain; look at the highest remaining band top
  have hvert : ∀ i ∈ I,
      ((edges.getD i dE).kind = EdgeKind.right
        ∧ ∃ r ∈ rows, (edges.getD i dE).y1 = r.minY
          ∧ (edges.getD i dE).y2 = r.maxY
          ∧ ∃ q ∈ spanPairs r.region.arr, (edges.getD i dE).x1 = q.2)
      ∨ ((edges.getD i dE).kind = EdgeKind.left
        ∧ ∃ r ∈ rows, (edges.getD i dE).y2 = r.minY
          ∧ (edges.getD i dE).y1 = r.maxY
          ∧ ∃ q ∈ spanPairs r.region.arr, (edges.getD i dE).x1 = q.1) := by
    intro i hi
    obtain ⟨hs1, hs2, hs3, hs4⟩ := hsh i hi
    cases hk : (edges.getD i dE).kind with
    | top => exact absurd hk (hnotop i hi)
    | bottom => exact absurd hk (hnobot i hi)
    | right => exact Or.inl ⟨rfl, (hs3 hk).2⟩
    | left => exact Or.inr ⟨rfl, (hs4 hk).2⟩
  -- the bottom (minY) of the band of each remaining vertical
  have hEachMin : ∀ i ∈ I, ∃ r ∈ rows,
      (if (edges.getD i dE).kind = EdgeKind.right
        then (edges.getD i dE).y1 else (edges.getD i dE).y2) = r.minY := by
    intro i hi
    rcases hvert i hi with ⟨hk, r, hr, h1, -⟩ | ⟨hk, r, hr, h1, -⟩
    · exact ⟨r, hr, by rw [if_pos hk]; exact h1⟩
    · refine ⟨r, hr, ?_⟩
      rw [if_neg (by rw [hk]; exact fun h => EdgeKind.noConfusion h)]
      exact h1
  obtain ⟨m, hmmem, hmle⟩ := exists_min_jle
    (I.map (fun i => if (edges.getD i dE).kind = EdgeKind.right
      then (edges.getD i dE).y1 else (edges.getD i dE).y2))
    (by
      intro h2
      exact hInon (List.map_eq_nil_iff.mp h2))
    (by
      intro z hz
      obtain ⟨i, hi, he2⟩ := List.mem_map.mp hz
      obtain ⟨r, hr, hrm⟩ := hEachMin i hi
      rw [← he2, hrm]
      exact jlt_ne_nan_left (hv.1 r hr).2.2)
  obtain ⟨i0, hi0, hm0⟩ := List.mem_map.mp hmmem
  have hminI : ∀ j ∈ I, jle m (if (edges.getD j dE).kind = EdgeKind.right
      then (edges.getD j dE).y1 else (edges.getD j dE).y2) = true :=
    fun j hj => hmle _ (List.mem_map_of_mem _ hj)
  rcases hvert i0 hi0 with ⟨hk0, r0, hr0, hy1, hy2, q, hq, hx⟩
    | ⟨hk0, r0, hr0, hy2, hy1, q, hq, hx⟩
  · -- the minimal band top belongs to a right edge: follow its start point
    have hm : m = r0.minY := by
      rw [← hm0, if_pos hk0]
      exact hy1
    have hout : 0 < unusedOut edges used
        ⟨(edges.getD i0 dE).x1, (edges.getD i0 dE).y1⟩ :=
      unusedOut_pos (hImem i0 hi0).1 (hImem i0 hi0).2 rfl
    have hin := hbal _ ▸ hout
    obtain ⟨j, hjlt, hjun, hjk⟩ := exists_unused_in hin
    have hjI : j ∈ I := mem_uIdx.mpr ⟨hjlt, hjun⟩
    have hkey2 : (edges.getD j dE).x2 = (edges.getD i0 dE).x1
        ∧ (edges.getD j dE).y2 = (edges.getD i0 dE).y1 := by
      have h3 : (⟨(edges.getD j dE).x2, (edges.getD j dE).y2⟩ : Pt)
          = ⟨(edges.getD i0 dE).x1, (edges.getD i0 dE).y1⟩ := hjk
      injection h3 with h4 h5
      exact ⟨h4, h5⟩
    rcases hvert j hjI with ⟨hkj, rj, hrj, hjy1, hjy2, qj, hqj, hjx⟩
      | ⟨hkj, rj, hrj, hjy2, hjy1, qj, hqj, hjx⟩
    · -- a right edge ends at the minimal band top: its band lies above,
      -- contradicting minimality
      have h6 : rj.maxY = m := by
        rw [← hjy2, hkey2.2, hy1, ← hm]
      have h7 := hminI j hjI
      rw [if_pos hkj, hjy1] at h7
      have h8 : jlt rj.minY rj.maxY = true := (hv.1 rj hrj).2.2
      rw [h6] at h8
      have h9 := jlt_of_jle_of_jlt h7 h8
      rw [jlt_irrefl] at h9
      exact Bool.noConfusion h9
    · -- a left edge ends there: same band, so one value is both a span
      -- start and a span end
      have h6 : rj.minY = m := by
        rw [← hjy2, hkey2.2, hy1, ← hm]
      have h7 : rj = r0 := rows_minY_inj rows hv rj hrj r0 hr0 (by rw [h6, hm])
      have hva : Valid1D r0.region.arr := (hv.1 r0 hr0).1.1
      have hvnan : q.2 ≠ nan := by
        have := noNaN_of_valid hva
        exact this q.2 (spanPairs_mem _ q hq).2
      refine start_end_exclusive hva hvnan ⟨?_, ?_⟩
      · refine startCount_pos (q := qj) ?_ ?_
        · rw [← h7]
          exact hqj
        · rw [← hjx, (hsh j hjI).2.2.2 hkj |>.1, hkey2.1, hx]
      · exact endCount_pos hq rfl
  · -- the minimal band top belongs to a left edge: follow its end point
    have hm : m = r0.minY := by
      rw [← hm0, if_neg (by rw [hk0]; exact fun h => EdgeKind.noConfusion h)]
      exact hy2
    have hin : 0 < unusedIn edges used
        ⟨(edges.getD i0 dE).x2, (edges.getD i0 dE).y2⟩ :=
      unusedIn_pos (hImem i0 hi0).1 (hImem i0 hi0).2 rfl
    have hout := (hbal _).symm ▸ hin
    obtain ⟨j, hjlt, hjun, hjk⟩ := exists_unused_out hout
    have hjI : j ∈ I := mem_uIdx.mpr ⟨hjlt, hjun⟩
    have hkey1 : (edges.getD j dE).x1 = (edges.getD i0 dE).x2
        ∧ (edges.getD j dE).y1 = (edges.getD i0 dE).y2 := by
      have h3 : (⟨(edges.getD j dE).x1, (edges.getD j dE).y1⟩ : Pt)
          = ⟨(edges.getD i0 dE).x2, (edges.getD i0 dE).y2⟩ := hjk
      injection h3 with h4 h5
      exact ⟨h4, h5⟩
    rcases hvert j hjI with ⟨hkj, rj, hrj, hjy1, hjy2, qj, hqj, hjx⟩
      | ⟨hkj, rj, hrj, hjy2, hjy1, qj, hqj, hjx⟩
    · -- a right edge starts at the minimal band top: same band, span
      -- start equals span end
      have h6 : rj.minY = m := by
        rw [← hjy1, hkey1.2, hy2, ← hm]
      have h7 : rj = r0 := rows_minY_inj rows hv rj hrj r0 hr0 (by rw [h6, hm])
      have hva : Valid1D r0.region.arr := (hv.1 r0 hr0).1.1
      have hvnan : q.1 ≠ nan := by
        have := noNaN_of_valid hva
        exact this q.1 (spanPairs_mem _ q hq).1
      refine start_end_exclusive hva hvnan ⟨?_, ?_⟩
      · exact startCount_pos hq rfl
      · refine endCount_pos (q := qj) ?_ ?_
        · rw [← h7]
          exact hqj
        · rw [← hjx, hkey1.1]
          have hx0 : (edges.getD i0 dE).x2 = q.1 := by
            rw [← (hsh i0 hi0).2.2.2 hk0 |>.1]
            exact hx
          exact hx0
    · -- a left edge starts at the minimal band top: its band lies above
      have h6 : rj.maxY = m := by
        rw [← hjy1, hkey1.2, hy2, ← hm]
      have h7 := hminI j hjI
      rw [if_neg (by rw [hkj]; exact fun h => EdgeKind.noConfusion h),
        hjy2] at h7
      have h8 : jlt rj.minY rj.maxY = true := (hv.1 rj hrj).2.2
      rw [h6] at h8
      have h9 := jlt_of_jle_of_jlt h7 h8
      rw [jlt_irrefl] at h9
      exact Bool.noConfusion h9

end Region2D

namespace Region2D

open Region1D

theorem windLoop_done (edges : List Edge) (fuel : ℕ) (used : List Bool)
    (acc : List (List Pt))
    (h : ((List.range edges.length).filter
      fun i => !(used.getD i true)).isEmpty = true) :
    windLoop edges (fuel + 1) used acc = some acc.reverse := by
  show (if ((List.range edges.length).filter
      fun i => !(used.getD i true)).isEmpty = true
    then some acc.reverse
    else _) = _
  rw [if_pos h]

theorem windLoop_step (edges : List Edge) (fuel : ℕ) (used : List Bool)
    (acc : List (List Pt))
    (h : ¬(((List.range edges.length).filter
      fun i => !(used.getD i true)).isEmpty = true))
    (s : ℕ) (hs : findStartEdge edges used = some s)
    (res : List Pt × List Bool)
    (hw : walkLoop edges (edges.length + 1) (edges.getD s dE).key1 s
      (used.set s true)
      [⟨(edges.getD s dE).x1, (edges.getD s dE).y1⟩] = some res) :
    windLoop edges (fuel + 1) used acc
      = windLoop edges fuel res.2 (res.1 :: acc) := by
  show (if ((List.range edges.length).filter
      fun i => !(used.getD i true)).isEmpty = true
    then some acc.reverse
    else match findStartEdge edges used with
      | none => none
      | some s =>
        match walkLoop edges (edges.length + 1)
            (edges.getD s ⟨nan, nan, nan, nan, EdgeKind.top⟩).key1 s
            (used.set s true)
            [⟨(edges.getD s ⟨nan, nan, nan, nan, EdgeKind.top⟩).x1,
              (edges.getD s ⟨nan, nan, nan, nan, EdgeKind.top⟩).y1⟩] with
        | none => none
        | some (winding, used2) =>
          windLoop edges fuel used2 (winding :: acc)) = _
  rw [if_neg h, hs]
  have hw2 : walkLoop edges (edges.length + 1)
      (edges.getD s ⟨nan, nan, nan, nan, EdgeKind.top⟩).key1 s
      (used.set s true)
      [⟨(edges.getD s ⟨nan, nan, nan, nan, EdgeKind.top⟩).x1,
        (edges.getD s ⟨nan, nan, nan, nan, EdgeKind.top⟩).y1⟩]
      = some res := hw
  show (match walkLoop edges (edges.length + 1)
      (edges.getD s ⟨nan, nan, nan, nan, EdgeKind.top⟩).key1 s
      (used.set s true)
      [⟨(edges.getD s ⟨nan, nan, nan, nan, EdgeKind.top⟩).x1,
        (edges.getD s ⟨nan, nan, nan, nan, EdgeKind.top⟩).y1⟩] with
    | none => none
    | some (winding, used2) =>
      windLoop edges fuel used2 (winding :: acc)) = _
  rw [hw2]

theorem findStartEdge_some {edges : List Edge} {used : List Bool}
    (hex : ∃ j, j < edges.length ∧ used.getD j true = false
      ∧ (edges.getD j dE).kind = EdgeKind.top) :
    ∃ s, findStartEdge edges used = some s ∧ s < edges.length
      ∧ used.getD s true = false := by
  obtain ⟨j, h1, h2, h3⟩ := hex
  unfold findStartEdge
  cases hf : (List.range edges.length).find? (fun i =>
      !(used.getD i true)
        && (edges.getD i ⟨nan, nan, nan, nan, EdgeKind.top⟩).kind
          = EdgeKind.top) with
  | none =>
    exfalso
    have h4 := List.find?_eq_none.mp hf j (List.mem_range.mpr h1)
    apply h4
    have h3b : (edges.getD j
        ⟨nan, nan, nan, nan, EdgeKind.top⟩).kind = EdgeKind.top := h3
    rw [h2, decide_eq_true h3b]
    rfl
  | some s =>
    have hmem := List.mem_of_find?_eq_some hf
    have hprop := List.find?_some hf
    obtain ⟨h4, h5⟩ := Bool.and_eq_true_iff.mp hprop
    refine ⟨s, rfl, List.mem_range.mp hmem, ?_⟩
    cases hu : used.getD s true with
    | false => rfl
    | true =>
      rw [hu] at h4
      cases h4

/-- The outer loop always completes on a balanced edge set. -/
theorem windLoop_ok :
    ∀ (fuel : ℕ) (used : List Bool) (acc : List (List Pt))
      (rows : List Row),
      ValidRows rows →
      used.length = (generateEdges rows).length →
      unusedCount (generateEdges rows) used < fuel →
      (∀ p, unusedOut (generateEdges rows) used p
        = unusedIn (generateEdges rows) used p) →
      ∃ res, windLoop (generateEdges rows) fuel used acc = some res := by
  intro fuel
  induction fuel with
  | zero =>
    intro _ _ _ _ _ hfuel _
    omega
  | succ fuel ih =>
    intro used acc rows hv hlen hfuel hbal
    by_cases hemp : ((List.range (generateEdges rows).length).filter
        fun i => !(used.getD i true)).isEmpty = true
    · exact ⟨acc.reverse,
        windLoop_done (generateEdges rows) fuel used acc hemp⟩
    · have hne : 0 < unusedCount (generateEdges rows) used := by
        rw [unusedCount_length]
        cases hu : uIdx (generateEdges rows) used with
        | nil =>
          exfalso
          apply hemp
          have h2 : ((List.range (generateEdges rows).length).filter
              fun i => !(used.getD i true)) = [] := hu
          rw [h2]
          rfl
        | cons a t =>
          simp
      obtain ⟨s, hsf, hslt, hsun⟩ :=
        findStartEdge_some (exists_top_unused rows hv used hbal hne)
      have hinv : ∀ p : Pt,
          unusedOut (generateEdges rows) (used.set s true) p
            + (if ((generateEdges rows).getD s dE).key1 = p then 1 else 0)
          = unusedIn (generateEdges rows) (used.set s true) p
            + (if ((generateEdges rows).getD s dE).key2 = p
               then 1 else 0) := by
        intro p
        have h2 := hbal p
        rw [unusedOut_set (generateEdges rows) used s hlen hslt hsun p,
          unusedIn_set (generateEdges rows) used s hlen hslt hsun p] at h2
        omega
      have hcnt := unusedCount_set (generateEdges rows) used s hlen hslt hsun
      have hcap : unusedCount (generateEdges rows) (used.set s true)
          < (generateEdges rows).length + 1 := by
        have h2 : unusedCount (generateEdges rows) (used.set s true)
            ≤ (List.range (generateEdges rows).length).length :=
          List.countP_le_length _
        rw [List.length_range] at h2
        omega
      obtain ⟨pts, used', hwalk, hlen', hbal', hcle⟩ :=
        walkLoop_ok ((generateEdges rows).length + 1)
          ((generateEdges rows).getD s dE).key1 s (used.set s true)
          [⟨((generateEdges rows).getD s dE).x1,
            ((generateEdges rows).getD s dE).y1⟩] (generateEdges rows)
          (by rw [List.length_set]; exact hlen) hcap hinv
      obtain ⟨res, hrun⟩ := ih used' (pts :: acc) rows hv hlen'
        (by omega) hbal'
      refine ⟨res, ?_⟩
      rw [windLoop_step (generateEdges rows) fuel used acc hemp s hsf
        (pts, used') hwalk]
      exact hrun

/-- C10 groundwork: the whole path extraction never fails on a valid
band list. -/
theorem makePath_total (rows : List Row) (hv : ValidRows rows) :
    ∃ res, makePath rows = some res := by
  by_cases hemp : rows.isEmpty = true
  · refine ⟨[], ?_⟩
    unfold makePath
    rw [if_pos hemp]
  · unfold makePath
    rw [if_neg hemp]
    unfold makeWindings
    exact windLoop_ok ((generateEdges rows).length + 1)
      (List.replicate (generateEdges rows).length false) [] rows hv
      (by rw [List.length_replicate])
      (by
        have h2 : unusedCount (generateEdges rows)
            (List.replicate (generateEdges rows).length false)
            ≤ (List.range (generateEdges rows).length).length :=
          List.countP_le_length _
        rw [List.length_range] at h2
        omega)
      (by
        intro p
        rw [unusedOut_init, unusedIn_init]
        exact edges_balanced rows hv p)

end Region2D

/-- C10: for every band list satisfying the region invariants the winding
assembly is safe: the whole path extraction completes normally (so the
`"Edge generation failure."` throw and the start-scan crash are never
reached), and — the per-step guarantee — whenever any unconsumed edge
starts at the current edge's end point, `findBestPossibleEdge` returns an
edge that is not yet consumed and starts exactly there; in particular the
single-candidate shortcut, whose `possibleEdges.used` guard inspects the
array rather than the edge, still never returns a consumed edge. -/
theorem c10_winding_walk_safety :
    (∀ rows : List Region2D.Row, Region2D.ValidRows rows →
      ∃ res, Region2D.makePath rows = some res)
    ∧ (∀ (edges : List Region2D.Edge) (used : List Bool) (cur : ℕ),
        0 < Region2D.unusedOut edges used
          ((edges.getD cur Region2D.dE).key2) →
        ∃ nxt, Region2D.findBestPossibleEdge edges
            (edges.getD cur Region2D.dE)
            (Region2D.tableLookup edges
              ((edges.getD cur Region2D.dE).key2)) used = some nxt
          ∧ used.getD nxt true = false
          ∧ (edges.getD nxt Region2D.dE).key1
            = (edges.getD cur Region2D.dE).key2) := by
  constructor
  · exact Region2D.makePath_total
  · intro edges used cur hpos
    obtain ⟨j, hjlt, hjun, hjk⟩ := Region2D.exists_unused_out hpos
    obtain ⟨nxt, hf, hun, hmem⟩ := Region2D.findBest_safe edges
      (edges.getD cur Region2D.dE) used ((edges.getD cur Region2D.dE).key2)
      ⟨j, Region2D.mem_tableLookup hjlt hjk, hjun⟩
    exact ⟨nxt, hf, hun, (Region2D.tableLookup_mem hmem).2⟩

/-- Closed instance of the winding-walk safety: the unit square. -/
theorem c10_winding_walk_safety_witness :
    (Region2D.ValidRows
        [⟨Region1D.mkR1 [JsNum.num 0, JsNum.num 1],
          JsNum.num 0, JsNum.num 1⟩]
      ∧ ∃ res, Region2D.makePath
        [⟨Region1D.mkR1 [JsNum.num 0, JsNum.num 1],
          JsNum.num 0, JsNum.num 1⟩] = some res)
    ∧ (0 < Region2D.unusedOut
        (Region2D.generateEdges
          [⟨Region1D.mkR1 [JsNum.num 0, JsNum.num 1],
            JsNum.num 0, JsNum.num 1⟩])
        (List.replicate 4 false)
        (((Region2D.generateEdges
          [⟨Region1D.mkR1 [JsNum.num 0, JsNum.num 1],
            JsNum.num 0, JsNum.num 1⟩]).getD 0 Region2D.dE).key2)
      ∧ ∃ nxt, Region2D.findBestPossibleEdge
          (Region2D.generateEdges
            [⟨Region1D.mkR1 [JsNum.num 0, JsNum.num 1],
              JsNum.num 0, JsNum.num 1⟩])
          ((Region2D.generateEdges
            [⟨Region1D.mkR1 [JsNum.num 0, JsNum.num 1],
              JsNum.num 0, JsNum.num 1⟩]).getD 0 Region2D.dE)
          (Region2D.tableLookup
            (Region2D.generateEdges
              [⟨Region1D.mkR1 [JsNum.num 0, JsNum.num 1],
                JsNum.num 0, JsNum.num 1⟩])
            (((Region2D.generateEdges
              [⟨Region1D.mkR1 [JsNum.num 0, JsNum.num 1],
                JsNum.num 0, JsNum.num 1⟩]).getD 0 Region2D.dE).key2))
          (List.replicate 4 false) = some nxt
        ∧ (List.replicate 4 false).getD nxt true = false
        ∧ ((Region2D.generateEdges
            [⟨Region1D.mkR1 [JsNum.num 0, JsNum.num 1],
              JsNum.num 0, JsNum.num 1⟩]).getD nxt Region2D.dE).key1
          = ((Region2D.generateEdges
            [⟨Region1D.mkR1 [JsNum.num 0, JsNum.num 1],
              JsNum.num 0, JsNum.num 1⟩]).getD 0 Region2D.dE).key2) := by
  have hv : Region2D.ValidRows
      [⟨Region1D.mkR1 [JsNum.num 0, JsNum.num 1],
        JsNum.num 0, JsNum.num 1⟩] := by
    refine ⟨fun r hr => ?_, List.chain'_singleton _⟩
    have hr2 : r ∈ [(⟨Region1D.mkR1 [JsNum.num 0, JsNum.num 1],
        JsNum.num 0, JsNum.num 1⟩ : Region2D.Row)] := hr
    rw [List.mem_singleton] at hr2
    subst hr2
    exact ⟨⟨by decide, rfl⟩, fun h => List.noConfusion h, rfl⟩
  have hpos : 0 < Region2D.unusedOut
      (Region2D.generateEdges
        [⟨Region1D.mkR1 [JsNum.num 0, JsNum.num 1],
          JsNum.num 0, JsNum.num 1⟩])
      (List.replicate 4 false)
      (((Region2D.generateEdges
        [⟨Region1D.mkR1 [JsNum.num 0, JsNum.num 1],
          JsNum.num 0, JsNum.num 1⟩]).getD 0 Region2D.dE).key2) := by
    decide
  exact ⟨⟨hv, c10_winding_walk_safety.1 _ hv⟩,
    ⟨hpos, c10_winding_walk_safety.2 _ _ _ hpos⟩⟩
